import Mathlib

/-!
# Deformable Shape Tracking: cascade of regression trees

A shallow embedding of the core of the tracker (`shape.cpp`, `tree.cpp`,
`regressor.cpp`, `tracker.cpp`) and the properties proved about it.

Conventions of the embedding.

* Single-precision floats are idealised as rationals: rounding, overflow to
  infinity and NaN are outside the model.  Division by zero is the rational
  one (`x / 0 = 0`).
* A `Shape` (an Eigen matrix with three rows and a dynamic number of columns)
  is the list of its columns.  Coefficient-wise operations on two matrices are
  `List.zipWith`; the code requires equal sizes (Eigen asserts it), and the
  theorems that need equal sizes assume them.
* A read past the end of a vector yields a fixed default value; the theorems
  about reads state separately that the index is in range.
* `int` values that the code computes and that may leave the range of `int`
  are checked: the function then has no result (`none`).
* Library code (random engine and distributions, `exp`, `norm`, the Jacobi
  SVD, image sampling, the matrix codec of the serializer) is a parameter of
  the embedding, collected in `Extern`.
-/

set_option autoImplicit false

namespace dest
namespace core

/-! ## Data model -/

/-- A column of a shape: `(x, y, z)`. -/
abbrev Vec3 := Fin 3 → ℚ

/-- A 3×3 matrix. -/
abbrev Mat3 := Matrix (Fin 3) (Fin 3) ℚ

/-- `Shape`: 3×L, the list of the L landmark columns. -/
abbrev Shape := List Vec3

/-- `ShapeResidual`: same layout as `Shape`. -/
abbrev ShapeResidual := List Vec3

/-- `PixelCoordinates`: 3×P, the list of the P sample locations. -/
abbrev PixelCoordinates := List Vec3

/-- `PixelIntensities`: a dense vector of intensities. -/
abbrev PixelIntensities := List ℚ

/-- `Image`: rows of intensities. -/
abbrev Image := List (List ℚ)

/-- `Rect`: 2×4, corner `c` is the column `fun r => rect r c`. -/
abbrev Rect := Matrix (Fin 2) (Fin 4) ℚ

/-- `ShapeTransform` (`Eigen::AffineCompact3f`): 3×3 linear part and translation. -/
structure ShapeTransform where
  linear : Mat3
  translation : Vec3

/-- State of the random engine owned by the input container. -/
abbrev Rng := Nat

/-- Result of `jacobiSvd(ComputeFullU | ComputeFullV)`. -/
structure SVD where
  matrixU : Mat3
  singularValues : Vec3
  matrixV : Mat3

/-- `io::MatrixF` of the serializer schema. -/
structure MatrixF where
  rows : Int
  cols : Int
  data : List ℚ
deriving DecidableEq

/-- `io::MatrixI` of the serializer schema. -/
structure MatrixI where
  rows : Int
  cols : Int
  data : List Int
deriving DecidableEq

namespace io

/-- `io::TreeNode` of the serializer schema. -/
structure TreeNode where
  idx1 : Int
  idx2 : Int
  threshold : ℚ
  mean : MatrixF
deriving DecidableEq

/-- `io::Tree` of the serializer schema. -/
structure Tree where
  nodes : List TreeNode
  depth : Int
deriving DecidableEq

/-- `io::Regressor` of the serializer schema. -/
structure Regressor where
  closestLandmarks : MatrixI
  pixelCoordinates : MatrixF
  meanShapeResidual : MatrixF
  meanShape : MatrixF
  forest : List Tree
  learningRate : ℚ
deriving DecidableEq

/-- `io::Tracker` of the serializer schema, the root table of a tracker file. -/
structure Tracker where
  meanShape : MatrixF
  meanShapeRectCorners : MatrixF
  cascade : List Regressor
deriving DecidableEq

end io

/-- Modelled from the spec: the flat buffer of a tracker file as a reader sees
it (§4.7, §6).  The generated `io::VerifyTrackerBuffer` and `io::GetTracker` are
not part of the sources: a buffer either fails verification or verifies and
holds a root `Tracker` table.  Verification is structural (the schema and the
size bound); it does not relate the stored dimensions to each other. -/
inductive TrackerBuffer where
  | unverifiable
  | verified (root : io.Tracker)
deriving DecidableEq

/-- Library code the tracker calls. -/
structure Extern where
  /-- `std::uniform_int_distribution<int>(a, b)` applied to the engine. -/
  uniformInt : Int → Int → Rng → Int × Rng
  /-- `std::uniform_real_distribution<float>(a, b)` applied to the engine. -/
  uniformReal : ℚ → ℚ → Rng → ℚ × Rng
  /-- `std::exp`. -/
  exp : ℚ → ℚ
  /-- `std::sqrt`, used by `norm()`. -/
  sqrt : ℚ → ℚ
  /-- `jacobiSvd` of a 3×3 matrix. -/
  jacobiSvd : Mat3 → SVD
  /-- `readImage(img, coords, intensities)`: the sampled intensities. -/
  readImage : Image → PixelCoordinates → PixelIntensities
  /-- `io::toFbs` for float matrices. -/
  toFbs : Shape → MatrixF
  /-- `io::fromFbs` for float matrices. -/
  fromFbs : MatrixF → Shape
  /-- `io::toFbs` for the integer vector of closest landmarks. -/
  toFbsI : List Int → MatrixI
  /-- `io::fromFbs` for the integer vector of closest landmarks. -/
  fromFbsI : MatrixI → List Int
  /-- The value of a matrix coefficient that was allocated and never assigned. -/
  uninitialized : ℚ

/-! ## Matrix helpers (Eigen expressions used by the code) -/

/-- `Shape::Zero(3, n)`. -/
def Shape.zero (n : Nat) : Shape := List.replicate n 0

/-- Coefficient-wise `a + b`. -/
def Shape.add (a b : Shape) : Shape := List.zipWith (fun u v => u + v) a b

/-- Coefficient-wise `a - b`. -/
def Shape.sub (a b : Shape) : Shape := List.zipWith (fun u v => u - v) a b

/-- Scaling `c * a`. -/
def Shape.smul (c : ℚ) (a : Shape) : Shape := a.map fun v => c • v

/-- Division `a / c`. -/
def Shape.divScalar (a : Shape) (c : ℚ) : Shape := a.map fun v => fun r => v r / c

/-- Column `i` of a shape (`s.col(i)`); the zero column when `i` is out of range. -/
def Shape.col (s : Shape) (i : Int) : Vec3 :=
  if i < 0 then 0 else s.getD i.toNat 0

/-- Coefficient `v(i)` of an intensity vector; `0` when `i` is out of range. -/
def coeff (v : PixelIntensities) (i : Int) : ℚ :=
  if i < 0 then 0 else v.getD i.toNat 0

/-- `v.squaredNorm()` of a column. -/
def Vec3.squaredNorm (v : Vec3) : ℚ := v 0 * v 0 + v 1 * v 1 + v 2 * v 2

/-- `s.squaredNorm()` of a matrix. -/
def Shape.squaredNorm (s : Shape) : ℚ := (s.map Vec3.squaredNorm).sum

/-- `s.rowwise().mean()`. -/
def Shape.rowwiseMean (s : Shape) : Vec3 := fun r => (s.map fun v => v r).sum / (s.length : ℚ)

/-- `s.rowwise().minCoeff()` (zero for a matrix without columns). -/
def Shape.rowwiseMin (s : Shape) : Vec3 := fun r =>
  match s with
  | [] => 0
  | v :: vs => vs.foldl (fun m w => min m (w r)) (v r)

/-- `s.rowwise().maxCoeff()` (zero for a matrix without columns). -/
def Shape.rowwiseMax (s : Shape) : Vec3 := fun r =>
  match s with
  | [] => 0
  | v :: vs => vs.foldl (fun m w => max m (w r)) (v r)

/-- `s.colwise() - m`. -/
def Shape.colwiseSub (s : Shape) (m : Vec3) : Shape := s.map fun v => v - m

/-- Product `a * b.transpose()` of two 3×L matrices. -/
def Shape.mulTranspose (a b : Shape) : Mat3 :=
  (List.zipWith (fun u v => Matrix.vecMulVec u v) a b).sum

/-- Product `m * s` of a 3×3 matrix with a 3×L matrix. -/
def Shape.mulLeft (m : Mat3) (s : Shape) : Shape := s.map fun v => m.mulVec v

/-- Product `t * s.colwise().homogeneous()`. -/
def ShapeTransform.apply (t : ShapeTransform) (s : Shape) : Shape :=
  s.map fun v => t.linear.mulVec v + t.translation

/-! ## shape.cpp -/

/-- `estimateSimilarityTransform(from, to)`. -/
def estimateSimilarityTransform (ext : Extern) (from_ to_ : Shape) : ShapeTransform :=
  let meanFrom := Shape.rowwiseMean from_
  let meanTo := Shape.rowwiseMean to_
  let centeredFrom := Shape.colwiseSub from_ meanFrom
  let centeredTo := Shape.colwiseSub to_ meanTo
  let cov : Mat3 := (1 / (from_.length : ℚ)) • Shape.mulTranspose centeredFrom centeredTo
  let sFrom := Shape.squaredNorm centeredFrom / (from_.length : ℚ)
  let svd := ext.jacobiSvd cov
  let sv := svd.singularValues
  let d : Mat3 := Matrix.diagonal sv
  let detCov := cov.det
  let detUV := svd.matrixU.det * svd.matrixV.det
  let s : Mat3 :=
    if detCov < 0 ∨ (detCov = 0 ∧ detUV < 0) then
      if sv 2 ≤ sv 0 ∧ sv 2 ≤ sv 1 then Matrix.diagonal ![1, 1, -1]
      else if sv 1 ≤ sv 0 ∧ sv 1 ≤ sv 2 then Matrix.diagonal ![1, -1, 1]
      else Matrix.diagonal ![-1, 1, 1]
    else 1
  let rot : Mat3 := svd.matrixU.transpose * s * svd.matrixV
  let c : ℚ := if sFrom > 0 then 1 / sFrom * (d * s).trace else 1
  let t : Vec3 := meanTo - (c • rot).mulVec meanFrom
  { linear := c • rot, translation := t }

/-- `std::numeric_limits<float>::max()`. -/
def FLT_MAX : ℚ := (2 ^ 24 - 1) * 2 ^ 104

/-- Loop of `findClosestLandmarkIndex`: landmarks still to visit, index of the
next one, best index and best squared distance so far. -/
def findClosestLandmarkLoop (x : Vec3) : List Vec3 → Int → Int → ℚ → Int
  | [], _, bestLandmark, _ => bestLandmark
  | l :: ls, i, bestLandmark, bestD2 =>
    let d2 := Vec3.squaredNorm (l - x)
    if d2 < bestD2 then findClosestLandmarkLoop x ls (i + 1) i d2
    else findClosestLandmarkLoop x ls (i + 1) bestLandmark bestD2

/-- `findClosestLandmarkIndex(s, x)`. -/
def findClosestLandmarkIndex (s : Shape) (x : Vec3) : Int :=
  findClosestLandmarkLoop x s 0 (-1) FLT_MAX

/-- `shapeRelativePixelCoordinates(s, abscoords, relcoords, closestLandmarks)`:
the pair `(relcoords, closestLandmarks)`. -/
def shapeRelativePixelCoordinates (s : Shape) (abscoords : PixelCoordinates) :
    PixelCoordinates × List Int :=
  (abscoords.map fun a => a - Shape.col s (findClosestLandmarkIndex s a),
   abscoords.map fun a => findClosestLandmarkIndex s a)

/-- `createRectangle(minC, maxC)`. -/
def createRectangle (minC maxC : Fin 2 → ℚ) : Rect :=
  Matrix.of fun r c =>
    match c with
    | 0 => minC r
    | 1 => if r = 0 then maxC 0 else minC 1
    | 2 => if r = 0 then minC 0 else maxC 1
    | 3 => maxC r

/-- `unitRectangle()`. -/
def unitRectangle : Rect :=
  Matrix.of fun r c =>
    match c, r with
    | 0, 0 => -0.5
    | 0, 1 => -0.5
    | 1, 0 => 0.5
    | 1, 1 => -0.5
    | 2, 0 => -0.5
    | 2, 1 => 0.5
    | 3, 0 => 0.5
    | 3, 1 => 0.5

/-- `shapeBounds(s)`. -/
def shapeBounds (s : Shape) : Rect :=
  let minC3f := Shape.rowwiseMin s
  let maxC3f := Shape.rowwiseMax s
  createRectangle ![minC3f 0, minC3f 1] ![maxC3f 0, maxC3f 1]

/-! ## Training data (training_data.h) -/

/-- `TrainingParameters`. -/
structure TrainingParameters where
  numCascades : Int
  numTrees : Int
  maxTreeDepth : Int
  numRandomPixelCoordinates : Int
  numRandomSplitTestsPerNode : Int
  exponentialLambda : ℚ
  learningRate : ℚ
  expansionRandomPixelCoordinates : ℚ

/-- `InputData`: the corpus and the random engine it owns. -/
structure InputData where
  shapes : List Shape
  shapeToImage : List ShapeTransform
  images : List Image
  rects : List Rect
  rnd : Rng

/-- `SampleData::Sample`. -/
structure Sample where
  inputIdx : Nat
  target : Shape
  estimate : Shape
  shapeToImage : ShapeTransform

/-- `SampleData`; `input` stands for the pointer to the input container. -/
structure SampleData where
  input : InputData
  samples : List Sample
  params : TrainingParameters
  meanShape : Shape

/-- `TreeTraining::Sample`. -/
structure TreeSample where
  residual : ShapeResidual
  intensities : PixelIntensities

/-- `TreeTraining`.  The pointers `training` and `input` of the code refer to
the sample data and to its input container; here `input` is `training.input`. -/
structure TreeTraining where
  training : SampleData
  samples : List TreeSample
  pixelCoordinates : PixelCoordinates
  numLandmarks : Int

/-! ## tree.cpp -/

/-- `Tree::SplitInfo`. -/
structure SplitInfo where
  idx1 : Int
  idx2 : Int
  threshold : ℚ

/-- `Tree::TreeNode`. -/
structure TreeNode where
  split : SplitInfo
  mean : ShapeResidual

/-- A value-initialised node, as `std::vector::resize` creates it. -/
instance : Inhabited TreeNode := ⟨{ split := { idx1 := 0, idx2 := 0, threshold := 0 }, mean := [] }⟩

/-- `SampleRange`: the offsets of `first` and `second` into `t.samples`. -/
abbrev SampleRange := Nat × Nat

/-- `Tree::NodeInfo`. -/
structure NodeInfo where
  node : Nat
  depth : Int
  range : SampleRange

/-- `Tree::data`. -/
structure Tree where
  nodes : List TreeNode
  depth : Int

/-- `Tree::Tree()`. -/
instance : Inhabited Tree := ⟨{ nodes := [], depth := 0 }⟩

/-- `numElementsInRange(r)`. -/
def numElementsInRange (r : SampleRange) : Nat := r.2 - r.1

/-- The samples a range denotes. -/
def rangeSamples (samples : List TreeSample) (r : SampleRange) : List TreeSample :=
  (samples.drop r.1).take (r.2 - r.1)

/-- `meanResidualOfRange(r, numLandmarks)`. -/
def meanResidualOfRange (samples : List TreeSample) (r : SampleRange) (numLandmarks : Int) :
    ShapeResidual :=
  let mean := (rangeSamples samples r).foldl (fun m s => Shape.add m s.residual)
    (Shape.zero numLandmarks.toNat)
  let numElements := numElementsInRange r
  if 0 < numElements then Shape.divScalar mean (numElements : ℚ) else mean

/-- `Tree::PartitionPredicate::operator()`. -/
def PartitionPredicate (split : SplitInfo) (s : TreeSample) : Bool :=
  decide (coeff s.intensities split.idx1 - coeff s.intensities split.idx2 > split.threshold)

/-- `meanResidualOfRangeIf(r, numLandmarks, pred)`. -/
def meanResidualOfRangeIf (samples : List TreeSample) (r : SampleRange) (numLandmarks : Int)
    (pred : TreeSample → Bool) : ShapeResidual × Nat :=
  let chosen := (rangeSamples samples r).filter pred
  let mean := chosen.foldl (fun m s => Shape.add m s.residual) (Shape.zero numLandmarks.toNat)
  let numElements := chosen.length
  (if 0 < numElements then Shape.divScalar mean (numElements : ℚ) else mean, numElements)

/-- The quotient `a / c` of a matrix by a `float`: for `c = 0` every coefficient
of the quotient is NaN (`0 / 0`) or infinite, and `none` stands for a matrix
with such a coefficient. -/
def Shape.divFloat (a : Shape) (c : ℚ) : Option Shape :=
  if c = 0 ∧ a ≠ [] then none else some (Shape.divScalar a c)

/-- `Tree::splitEnergy`; the result `none` is NaN.  When the quotient `rRight`
has a coefficient that is NaN or infinite, its squared norm is NaN or infinite,
its product with `numRight = 0` is NaN, and so is the sum returned. -/
def Tree.splitEnergy (samples : List TreeSample) (numLandmarks : Int) (parent : NodeInfo)
    (parentMeanResidual : ShapeResidual) (split : SplitInfo) : Option ℚ :=
  let left := meanResidualOfRangeIf samples parent.range numLandmarks (PartitionPredicate split)
  let numLeft : ℚ := left.2
  let numParent : ℚ := numElementsInRange parent.range
  let numRight : ℚ := numParent - numLeft
  match Shape.divFloat
      (Shape.sub (Shape.smul numParent parentMeanResidual) (Shape.smul numLeft left.1))
      numRight with
  | none => none
  | some rRight =>
    some ((left.2 : ℚ) * Shape.squaredNorm left.1 + numRight * Shape.squaredNorm rRight)

/-- `maxAttempts` of `sampleSplitPositions`. -/
def maxAttempts : Int := 100

/-- The `do ... while` loop of `sampleSplitPositions`: draws pairs until one is
accepted or `iter` exceeds `maxAttempts`; returns `(idx1, idx2, iter, rnd)`.
The first argument bounds the number of further passes; started with
`maxAttempts` passes left and `iter = 0` the bound is never the reason to stop,
since the last pass it allows ends with `iter = maxAttempts + 1`. -/
def Tree.drawSplitPair (ext : Extern) (pixelCoordinates : PixelCoordinates) (invlambda : ℚ) :
    Nat → Int → Rng → Int × Int × Int × Rng
  | passes, iter, rnd =>
    let hi : Int := (pixelCoordinates.length : Int) - 1
    let d1 := ext.uniformInt 0 hi rnd
    let d2 := ext.uniformInt 0 hi d1.2
    let idx1 := d1.1
    let idx2 := d2.1
    let d := ext.sqrt (Vec3.squaredNorm (Shape.col pixelCoordinates idx1 - Shape.col pixelCoordinates idx2))
    let e := ext.exp (-d * invlambda)
    let dr := ext.uniformReal 0 1 d2.2
    let r := dr.1
    let iter1 := iter + 1
    match passes with
    | 0 => (idx1, idx2, iter1, dr.2)
    | more + 1 =>
      if iter1 ≤ maxAttempts ∧ (idx1 = idx2 ∨ r ≥ e) then
        Tree.drawSplitPair ext pixelCoordinates invlambda more iter1 dr.2
      else (idx1, idx2, iter1, dr.2)

/-- The `for` loop of `sampleSplitPositions` over the remaining tests. -/
def Tree.sampleSplitLoop (ext : Extern) (pixelCoordinates : PixelCoordinates) (invlambda : ℚ) :
    Nat → List SplitInfo → Rng → List SplitInfo × Rng
  | 0, splits, rnd => (splits, rnd)
  | tests + 1, splits, rnd =>
    let p := Tree.drawSplitPair ext pixelCoordinates invlambda maxAttempts.toNat 0 rnd
    if p.2.2.1 ≤ maxAttempts then
      let th := ext.uniformReal (-64) 64 p.2.2.2
      Tree.sampleSplitLoop ext pixelCoordinates invlambda tests
        (splits ++ [{ idx1 := p.1, idx2 := p.2.1, threshold := th.1 }]) th.2
    else
      Tree.sampleSplitLoop ext pixelCoordinates invlambda tests splits p.2.2.2

/-- `Tree::sampleSplitPositions`: the splits and the engine after the draws. -/
def Tree.sampleSplitPositions (ext : Extern) (t : TreeTraining) (rnd : Rng) :
    List SplitInfo × Rng :=
  let numTests := t.training.params.numRandomSplitTestsPerNode
  let invlambda : ℚ := 1 / t.training.params.exponentialLambda
  Tree.sampleSplitLoop ext t.pixelCoordinates invlambda numTests.toNat [] rnd

/-- The comparison `a < b` of two `float` values, `none` being NaN: false when
either side is NaN. -/
def floatLt : Option ℚ → Option ℚ → Bool
  | some a, some b => decide (a < b)
  | _, _ => false

/-- Loop of `std::max_element`: `best` is the index of `largest`, replaced by
the next element when `largest < x`. -/
def maxElementLoop : List (Option ℚ) → Nat → Nat → Option ℚ → Nat
  | [], _, best, _ => best
  | x :: xs, i, best, largest =>
    if floatLt largest x then maxElementLoop xs (i + 1) i x
    else maxElementLoop xs (i + 1) best largest

/-- Offset `std::distance(begin, std::max_element(begin, end))`. -/
def maxElementIndex : List (Option ℚ) → Nat
  | [] => 0
  | x :: xs => maxElementLoop xs 1 0 x

/-- `std::partition(first, second, pred)` on `t.samples`: the samples after the
call and the offset of the returned iterator.  The standard leaves the order
inside the two groups open; the model keeps the original order in each. -/
def partitionRange (samples : List TreeSample) (r : SampleRange) (pred : TreeSample → Bool) :
    List TreeSample × Nat :=
  let inside := rangeSamples samples r
  let yes := inside.filter pred
  let no := inside.filter fun s => !pred s
  (samples.take r.1 ++ (yes ++ no) ++ samples.drop (r.1 + inside.length), r.1 + yes.length)

/-- The state `Tree::fit` works on: the node array, the sample vector (which
`splitNode` partitions in place), the random engine, the work queue, and a
record of the node slots written so far (by `splitNode`, by `makeLeaf`). -/
structure FitState where
  nodes : List TreeNode
  samples : List TreeSample
  rnd : Rng
  queue : List NodeInfo
  splitWrites : List Nat
  leafWrites : List Nat

/-- `Tree::makeLeaf`. -/
def Tree.makeLeaf (t : TreeTraining) (s : FitState) (ni : NodeInfo) : FitState :=
  { s with
    nodes := s.nodes.set ni.node
      { split := { idx1 := -1, idx2 := -1, threshold := (s.nodes.getD ni.node default).split.threshold },
        mean := meanResidualOfRange s.samples ni.range t.numLandmarks }
    leafWrites := ni.node :: s.leafWrites }

/-- `Tree::splitNode`: the state after the call and, when it returns `true`,
the `left` and `right` it filled in. -/
def Tree.splitNode (ext : Extern) (t : TreeTraining) (s : FitState) (parent : NodeInfo) :
    FitState × Option (NodeInfo × NodeInfo) :=
  let emptyRange := parent.range.2 = parent.range.1
  if emptyRange then (s, none)
  else
    let sp := Tree.sampleSplitPositions ext t s.rnd
    let splits := sp.1
    let s1 : FitState := { s with rnd := sp.2 }
    match splits with
    | [] => (s1, none)
    | first :: _ =>
      let meanResidualParent := meanResidualOfRange s1.samples parent.range t.numLandmarks
      let energies := splits.map fun split =>
        Tree.splitEnergy s1.samples t.numLandmarks parent meanResidualParent split
      let bestSplit := maxElementIndex energies
      let best := splits.getD bestSplit first
      let s2 : FitState := { s1 with
        nodes := s1.nodes.set parent.node { (s1.nodes.getD parent.node default) with split := best }
        splitWrites := parent.node :: s1.splitWrites }
      let part := partitionRange s2.samples parent.range (PartitionPredicate best)
      let middle := part.2
      let s3 : FitState := { s2 with samples := part.1 }
      if middle = parent.range.1 ∨ middle = parent.range.2 then (s3, none)
      else
        (s3, some ({ node := parent.node * 2 + 1, depth := parent.depth + 1,
                     range := (parent.range.1, middle) },
                   { node := parent.node * 2 + 2, depth := parent.depth + 1,
                     range := (middle, parent.range.2) }))

/-- One pass of the `while` loop of `Tree::fit` for the popped item `nr`. -/
def Tree.fitStep (ext : Extern) (t : TreeTraining) (depth : Int) (s : FitState) (nr : NodeInfo) :
    FitState :=
  if nr.depth < depth then
    match Tree.splitNode ext t s nr with
    | (s1, some (left, right)) => { s1 with queue := s1.queue ++ [left, right] }
    | (s1, none) => Tree.makeLeaf t s1 nr
  else Tree.makeLeaf t s nr

/-- The `while (!queue.empty())` loop of `Tree::fit`, for at most the given
number of passes; `none` when the queue is not empty after them. -/
def Tree.fitLoop (ext : Extern) (t : TreeTraining) (depth : Int) : Nat → FitState → Option FitState
  | passes, s =>
    match s.queue with
    | [] => some s
    | nr :: rest =>
      match passes with
      | 0 => none
      | more + 1 => Tree.fitLoop ext t depth more (Tree.fitStep ext t depth { s with queue := rest } nr)

/-- `(int)std::pow(2.0, depth) - 1`: the conversion to `int` is defined only
for a value inside the range of `int`. -/
def Tree.numNodes (depth : Int) : Option Nat :=
  if (2 : Int) ^ depth.toNat < 2 ^ 31 then some (2 ^ depth.toNat - 1) else none

/-- `nodes.resize(n)`. -/
def resizeNodes (nodes : List TreeNode) (n : Nat) : List TreeNode :=
  nodes.take n ++ List.replicate (n - nodes.length) default

/-- The state in which `Tree::fit` enters its loop. -/
def Tree.fitInit (self : Tree) (t : TreeTraining) (numNodes : Nat) : FitState :=
  { nodes := resizeNodes self.nodes numNodes
    samples := t.samples
    rnd := t.training.input.rnd
    queue := [{ node := 0, depth := 1, range := (0, t.samples.length) }]
    splitWrites := []
    leafWrites := [] }

/-- `TreeTraining` with the sample vector and the engine as `Tree::fit` leaves them. -/
def TreeTraining.update (t : TreeTraining) (samples : List TreeSample) (rnd : Rng) : TreeTraining :=
  { t with
    samples := samples
    training := { t.training with input := { t.training.input with rnd := rnd } } }

/-- The final state of `Tree::fit`: no result when the node count leaves the
range of `int`.  The loop is given one pass per node of the array (each pass
handles one node, and no node is queued twice). -/
def Tree.fitState (ext : Extern) (self : Tree) (t : TreeTraining) : Option FitState :=
  let depth := max t.training.params.maxTreeDepth 1
  match Tree.numNodes depth with
  | none => none
  | some numNodes => Tree.fitLoop ext t depth numNodes (Tree.fitInit self t numNodes)

/-- `Tree::fit`: the fitted tree and the training data as `fit` leaves it. -/
def Tree.fit (ext : Extern) (self : Tree) (t : TreeTraining) : Option (Tree × TreeTraining) :=
  (Tree.fitState ext self t).map fun s =>
    ({ nodes := s.nodes, depth := max t.training.params.maxTreeDepth 1 },
     TreeTraining.update t s.samples s.rnd)

/-- The `for` loop of `Tree::predict`: the node reached from `n` after at most
the given number of tests. -/
def Tree.predictLoop (nodes : List TreeNode) (intensities : PixelIntensities) : Nat → Nat → Nat
  | 0, n => n
  | tests + 1, n =>
    let node := nodes.getD n default
    if node.split.idx1 < 0 then n
    else
      let left := coeff intensities node.split.idx1 - coeff intensities node.split.idx2
        > node.split.threshold
      Tree.predictLoop nodes intensities tests (if left then 2 * n + 1 else 2 * n + 2)

/-- `Tree::predict`. -/
def Tree.predict (self : Tree) (intensities : PixelIntensities) : ShapeResidual :=
  let maxTests := self.depth - 1
  (self.nodes.getD (Tree.predictLoop self.nodes intensities maxTests.toNat 0) default).mean

/-! ## regressor.cpp -/

/-- `RegressorTraining`; as in `TreeTraining`, `input` is `training.input`. -/
structure RegressorTraining where
  training : SampleData
  numLandmarks : Int
  meanShape : Shape

/-- `Regressor::data`. -/
structure Regressor where
  shapeRelativePixelCoordinates : PixelCoordinates
  closestShapeLandmark : List Int
  meanResidual : ShapeResidual
  meanShape : Shape
  trees : List Tree
  learningRate : ℚ

/-- `Regressor::Regressor()`. -/
instance : Inhabited Regressor :=
  ⟨{ shapeRelativePixelCoordinates := [], closestShapeLandmark := [], meanResidual := [],
     meanShape := [], trees := [], learningRate := 0 }⟩

/-- The `for` loop of `Regressor::sampleCoordinates` over the remaining coordinates. -/
def Regressor.sampleCoordinatesLoop (ext : Extern) (minC maxC : Vec3) :
    Nat → PixelCoordinates → Rng → PixelCoordinates × Rng
  | 0, result, rnd => (result, rnd)
  | n + 1, result, rnd =>
    let dx := ext.uniformReal 0 (maxC 0 - minC 0) rnd
    let dy := ext.uniformReal 0 (maxC 1 - minC 1) dx.2
    let dz := ext.uniformReal 0 (maxC 2 - minC 2) dy.2
    Regressor.sampleCoordinatesLoop ext minC maxC n
      (result ++ [![minC 0 + dx.1, minC 1 + dy.1, minC 2 + dz.1]]) dz.2

/-- `Regressor::sampleCoordinates`: the coordinates and the engine after the draws. -/
def Regressor.sampleCoordinates (ext : Extern) (t : RegressorTraining) :
    PixelCoordinates × Rng :=
  let e := t.training.params.expansionRandomPixelCoordinates
  let minC : Vec3 := Shape.rowwiseMin t.meanShape - fun _ => e
  let maxC : Vec3 := Shape.rowwiseMax t.meanShape + fun _ => e
  let numCoords := t.training.params.numRandomPixelCoordinates
  Regressor.sampleCoordinatesLoop ext minC maxC numCoords.toNat [] t.training.input.rnd

/-- `Regressor::readPixelIntensities`: the intensities it stores. -/
def Regressor.readPixelIntensities (ext : Extern) (self : Regressor)
    (shapeToShape shapeToImage : ShapeTransform) (s : Shape) (img : Image) : PixelIntensities :=
  let coords := Shape.mulLeft shapeToShape.linear self.shapeRelativePixelCoordinates
  let coords1 := List.zipWith (fun c k => c + Shape.col s k) coords self.closestShapeLandmark
  let coords2 := ShapeTransform.apply shapeToImage coords1
  ext.readImage img coords2

/-- The loop of `Regressor::predict` over the remaining trees. -/
def Regressor.predictLoop (learningRate : ℚ) (intensities : PixelIntensities) :
    List Tree → ShapeResidual → ShapeResidual
  | [], sr => sr
  | tree :: trees, sr =>
    Regressor.predictLoop learningRate intensities trees
      (Shape.add sr (Shape.smul learningRate (Tree.predict tree intensities)))

/-- The intensity vector `Regressor::predict` samples before it consults the trees. -/
def Regressor.predictIntensities (ext : Extern) (self : Regressor) (img : Image) (shape : Shape)
    (shapeToImage : ShapeTransform) : PixelIntensities :=
  let shapeToShape := estimateSimilarityTransform ext self.meanShape shape
  Regressor.readPixelIntensities ext self shapeToShape shapeToImage shape img

/-- `Regressor::predict`. -/
def Regressor.predict (ext : Extern) (self : Regressor) (img : Image) (shape : Shape)
    (shapeToImage : ShapeTransform) : ShapeResidual :=
  let intensities := Regressor.predictIntensities ext self img shape shapeToImage
  Regressor.predictLoop self.learningRate intensities self.trees self.meanResidual

/-- `trees.resize(n)`. -/
def resizeTrees (trees : List Tree) (n : Nat) : List Tree :=
  trees.take n ++ List.replicate (n - trees.length) default

/-- The first loop of `Regressor::fit` over the samples: residuals and intensities. -/
def Regressor.fitSamples (ext : Extern) (self : Regressor) (t : RegressorTraining) :
    List TreeSample :=
  t.training.samples.map fun sample =>
    { residual := Shape.sub sample.target sample.estimate
      intensities :=
        Regressor.readPixelIntensities ext self
          (estimateSimilarityTransform ext t.meanShape sample.estimate)
          sample.shapeToImage sample.estimate
          (t.training.input.images.getD sample.inputIdx []) }

/-- The residual update that precedes the fit of tree `k`. -/
def Regressor.updateResiduals (self : Regressor) (fitted : List Tree) (k : Nat)
    (samples : List TreeSample) : List TreeSample :=
  samples.map fun s =>
    if k = 0 then { s with residual := Shape.sub s.residual self.meanResidual }
    else
      let prediction := Tree.predict (fitted.getD (k - 1) default) s.intensities
      { s with residual := Shape.sub s.residual (Shape.smul self.learningRate prediction) }

/-- The loop of `Regressor::fit` over the trees `k, k + 1, ...`: `trees` is the
whole forest with the trees before `k` fitted; no result when a tree fit has none. -/
def Regressor.fitTrees (ext : Extern) (self : Regressor) :
    Nat → Nat → List Tree → TreeTraining → Option (List Tree × TreeTraining)
  | 0, _, trees, tt => some (trees, tt)
  | remaining + 1, k, trees, tt =>
    let tt1 := { tt with samples := Regressor.updateResiduals self trees k tt.samples }
    match Tree.fit ext (trees.getD k default) tt1 with
    | none => none
    | some (tree, tt2) => Regressor.fitTrees ext self remaining (k + 1) (trees.set k tree) tt2

/-- `Regressor::fit`: the fitted stage and the training data with the engine as
the fit leaves it.  No result when `numTrees` or `numRandomPixelCoordinates` is
negative (the allocations fail) or a tree fit has none. -/
def Regressor.fit (ext : Extern) (self : Regressor) (t : RegressorTraining) :
    Option (Regressor × RegressorTraining) :=
  let params := t.training.params
  if params.numTrees < 0 ∨ params.numRandomPixelCoordinates < 0 then none
  else
    let sc := Regressor.sampleCoordinates ext t
    let rel := dest.core.shapeRelativePixelCoordinates t.meanShape sc.1
    let data1 : Regressor := { self with
      learningRate := params.learningRate
      trees := resizeTrees self.trees params.numTrees.toNat
      meanShape := t.meanShape
      shapeRelativePixelCoordinates := rel.1
      closestShapeLandmark := rel.2 }
    let samples := Regressor.fitSamples ext data1 t
    let sum := samples.foldl (fun m s => Shape.add m s.residual) (Shape.zero t.numLandmarks.toNat)
    let data2 : Regressor := { data1 with
      meanResidual := Shape.divScalar sum (t.training.samples.length : ℚ) }
    let tt : TreeTraining :=
      { training := { t.training with input := { t.training.input with rnd := sc.2 } }
        samples := samples
        pixelCoordinates := sc.1
        numLandmarks := t.numLandmarks }
    match Regressor.fitTrees ext data2 params.numTrees.toNat 0 data2.trees tt with
    | none => none
    | some (trees, tt1) =>
      some ({ data2 with trees := trees }, { t with training := tt1.training })

/-! ## tracker.cpp -/

/-- `Tracker::data`. -/
structure Tracker where
  cascade : List Regressor
  meanShape : Shape
  meanShapeRectCorners : Shape

/-- `Tracker::Tracker()`. -/
instance : Inhabited Tracker := ⟨{ cascade := [], meanShape := [], meanShapeRectCorners := [] }⟩

/-- The loop of `Tracker::predict` over the remaining stages: the estimate and
the step results after them. -/
def Tracker.predictLoop (ext : Extern) (img : Image) (shapeToImage : ShapeTransform) :
    List Regressor → Shape → Option (List Shape) → Shape × Option (List Shape)
  | [], estimate, stepResults => (estimate, stepResults)
  | stage :: stages, estimate, stepResults =>
    let stepResults1 := stepResults.map fun l => l ++ [ShapeTransform.apply shapeToImage estimate]
    Tracker.predictLoop ext img shapeToImage stages
      (Shape.add estimate (Regressor.predict ext stage img estimate shapeToImage)) stepResults1

/-- `Tracker::predict` with its optional `stepResults`: the returned shape and
the step results after the call. -/
def Tracker.predictSteps (ext : Extern) (self : Tracker) (img : Image)
    (shapeToImage : ShapeTransform) (stepResults : Option (List Shape)) :
    Shape × Option (List Shape) :=
  let r := Tracker.predictLoop ext img shapeToImage self.cascade self.meanShape stepResults
  let final := ShapeTransform.apply shapeToImage r.1
  (final, r.2.map fun l => l ++ [final])

/-- `Tracker::predict` called without `stepResults`. -/
def Tracker.predict (ext : Extern) (self : Tracker) (img : Image) (shapeToImage : ShapeTransform) :
    Shape :=
  (Tracker.predictSteps ext self img shapeToImage none).1

/-- How `Tracker::fit` can end without a tracker. -/
inductive FitError where
  /-- `eigen_assert(!t.samples.empty())` fails. -/
  | assertion
  /-- `cascade.resize` is asked for a negative count, or a stage fit has no result. -/
  | noResult
deriving DecidableEq

/-- Sum of the estimates of the given samples, started from `Shape::Zero(3, numLandmarks)`. -/
def Tracker.sumEstimates (samples : List Sample) (numLandmarks : Nat) : Shape :=
  samples.foldl (fun m s => Shape.add m s.estimate) (Shape.zero numLandmarks)

/-- The mean shape `Tracker::fit` evaluates (`rt.meanShape`). -/
def Tracker.fitMeanShape (samples : List Sample) (numLandmarks : Nat) : Shape :=
  let numSamples : Nat := samples.length
  if numSamples < 50000 then
    Shape.divScalar (Tracker.sumEstimates samples numLandmarks) (numSamples : ℚ)
  else if numSamples < 100000 then
    let temp_1 := Shape.divScalar (Tracker.sumEstimates (samples.take 50000) numLandmarks) 50000
    let temp_2 := Shape.divScalar (Tracker.sumEstimates (samples.drop 50000) numLandmarks)
      ((numSamples : ℚ) - 50000)
    let weight : ℚ := 50000 / (numSamples : ℚ)
    Shape.add (Shape.smul weight temp_1) (Shape.smul (1 - weight) temp_2)
  else if numSamples < 150000 then
    let temp_1 := Shape.divScalar (Tracker.sumEstimates (samples.take 50000) numLandmarks) 50000
    let temp_2 := Shape.divScalar
      (Tracker.sumEstimates ((samples.drop 50000).take 50000) numLandmarks) 50000
    let temp_3 := Shape.divScalar (Tracker.sumEstimates (samples.drop 100000) numLandmarks)
      ((numSamples : ℚ) - 50000)
    let weight : ℚ := 50000 / (numSamples : ℚ)
    Shape.add (Shape.add (Shape.smul weight temp_1) (Shape.smul weight temp_2))
      (Shape.smul (1 - weight - weight) temp_3)
  else Shape.zero numLandmarks

/-- `cascade.resize(n)`. -/
def resizeCascade (cascade : List Regressor) (n : Nat) : List Regressor :=
  cascade.take n ++ List.replicate (n - cascade.length) default

/-- The estimate update of `Tracker::fit` after stage `stage` was fitted. -/
def Tracker.updateEstimates (ext : Extern) (stage : Regressor) (t : SampleData) : SampleData :=
  { t with samples := t.samples.map fun s =>
      let img := t.input.images.getD s.inputIdx []
      { s with estimate := Shape.add s.estimate
                 (Regressor.predict ext stage img s.estimate s.shapeToImage) } }

/-- The loop of `Tracker::fit` over the stages `i, i + 1, ...`. -/
def Tracker.fitCascade (ext : Extern) :
    Nat → Nat → List Regressor → RegressorTraining → Option (List Regressor × RegressorTraining)
  | 0, _, cascade, rt => some (cascade, rt)
  | remaining + 1, i, cascade, rt =>
    match Regressor.fit ext (cascade.getD i default) rt with
    | none => none
    | some (stage, rt1) =>
      Tracker.fitCascade ext remaining (i + 1) (cascade.set i stage)
        { rt1 with training := Tracker.updateEstimates ext stage rt1.training }

/-- `meanShapeRectCorners.resize(3, 4)` followed by the eight assignments of
`Tracker::fit`: rows 0 and 1 are the corners of `shape_bounds`; row 2 is not
assigned and keeps what the resized matrix holds (its old value when it already
had four columns, an unassigned coefficient otherwise). -/
def Tracker.rectCorners (ext : Extern) (old : Shape) (shape_bounds : Rect) : Shape :=
  (List.finRange 4).map fun c =>
    ![shape_bounds 0 c, shape_bounds 1 c,
      if old.length = 4 then Shape.col old (c : Nat) 2 else ext.uninitialized]

/-- `Tracker::fit`: the fitted tracker and the sample data as the fit leaves it. -/
def Tracker.fit (ext : Extern) (self : Tracker) (t : SampleData) :
    Except FitError (Tracker × SampleData) :=
  match t.samples with
  | [] => .error .assertion
  | front :: _ =>
    let numLandmarks : Nat := front.estimate.length
    let rt : RegressorTraining :=
      { training := t
        numLandmarks := numLandmarks
        meanShape := Tracker.fitMeanShape t.samples numLandmarks }
    if t.params.numCascades < 0 then .error .noResult
    else
      let cascade := resizeCascade self.cascade t.params.numCascades.toNat
      match Tracker.fitCascade ext t.params.numCascades.toNat 0 cascade rt with
      | none => .error .noResult
      | some (cascade1, rt1) =>
        .ok ({ cascade := cascade1
               meanShape := rt.meanShape
               meanShapeRectCorners :=
                 Tracker.rectCorners ext self.meanShapeRectCorners (shapeBounds rt.meanShape) },
             rt1.training)

/-! ## Serialization (`save` and `load`) -/

/-- `Tree::TreeNode::save`. -/
def TreeNode.save (ext : Extern) (self : TreeNode) : io.TreeNode :=
  { idx1 := self.split.idx1, idx2 := self.split.idx2, threshold := self.split.threshold,
    mean := ext.toFbs self.mean }

/-- `Tree::TreeNode::load`. -/
def TreeNode.load (ext : Extern) (_self : TreeNode) (fbs : io.TreeNode) : TreeNode :=
  { split := { idx1 := fbs.idx1, idx2 := fbs.idx2, threshold := fbs.threshold },
    mean := ext.fromFbs fbs.mean }

/-- `Tree::data::save`. -/
def Tree.save (ext : Extern) (self : Tree) : io.Tree :=
  { nodes := self.nodes.map (TreeNode.save ext), depth := self.depth }

/-- `Tree::data::load`: `nodes.resize` to the stored count, then every node loads its entry. -/
def Tree.load (ext : Extern) (self : Tree) (fbs : io.Tree) : Tree :=
  { depth := fbs.depth
    nodes := List.zipWith (TreeNode.load ext) (resizeNodes self.nodes fbs.nodes.length) fbs.nodes }

/-- `Regressor::data::save`. -/
def Regressor.save (ext : Extern) (self : Regressor) : io.Regressor :=
  { closestLandmarks := ext.toFbsI self.closestShapeLandmark
    pixelCoordinates := ext.toFbs self.shapeRelativePixelCoordinates
    meanShapeResidual := ext.toFbs self.meanResidual
    meanShape := ext.toFbs self.meanShape
    forest := self.trees.map (Tree.save ext)
    learningRate := self.learningRate }

/-- `Regressor::data::load`. -/
def Regressor.load (ext : Extern) (self : Regressor) (fbs : io.Regressor) : Regressor :=
  { closestShapeLandmark := ext.fromFbsI fbs.closestLandmarks
    shapeRelativePixelCoordinates := ext.fromFbs fbs.pixelCoordinates
    meanResidual := ext.fromFbs fbs.meanShapeResidual
    meanShape := ext.fromFbs fbs.meanShape
    learningRate := fbs.learningRate
    trees := List.zipWith (Tree.load ext) (resizeTrees self.trees fbs.forest.length) fbs.forest }

/-- `Tracker::data::save`. -/
def Tracker.save (ext : Extern) (self : Tracker) : io.Tracker :=
  { meanShape := ext.toFbs self.meanShape
    meanShapeRectCorners := ext.toFbs self.meanShapeRectCorners
    cascade := self.cascade.map (Regressor.save ext) }

/-- `Tracker::data::load`. -/
def Tracker.load (ext : Extern) (self : Tracker) (fbs : io.Tracker) : Tracker :=
  { meanShape := ext.fromFbs fbs.meanShape
    meanShapeRectCorners := ext.fromFbs fbs.meanShapeRectCorners
    cascade :=
      List.zipWith (Regressor.load ext) (resizeCascade self.cascade fbs.cascade.length) fbs.cascade }

/-- `Tracker::save(path)`: the buffer written, `none` when the file cannot be opened. -/
def Tracker.savePath (ext : Extern) (self : Tracker) (canOpen : Bool) : Option TrackerBuffer :=
  if canOpen then some (TrackerBuffer.verified (Tracker.save ext self)) else none

/-- `Tracker::load(path)`: the returned flag and the tracker after the call.
`file` is the content read, `none` when the file cannot be opened or read. -/
def Tracker.loadPath (ext : Extern) (self : Tracker) (file : Option TrackerBuffer) :
    Bool × Tracker :=
  match file with
  | none => (false, self)
  | some TrackerBuffer.unverifiable => (false, self)
  | some (TrackerBuffer.verified root) => (true, Tracker.load ext self root)

/-! ## Specification-side definitions -/

/-- The descent the specification describes: `Tree.Descent nodes intensities k n`
holds when node `n` is reached from node 0 by `k` tests, each made at a node
with `idx1 ≥ 0`, going to `2n+1` when the test holds and to `2n+2` otherwise. -/
inductive Tree.Descent (nodes : List TreeNode) (intensities : PixelIntensities) : Nat → Nat → Prop
  | start : Tree.Descent nodes intensities 0 0
  | left {k n : Nat} : Tree.Descent nodes intensities k n →
      0 ≤ (nodes.getD n default).split.idx1 →
      coeff intensities (nodes.getD n default).split.idx1
        - coeff intensities (nodes.getD n default).split.idx2
        > (nodes.getD n default).split.threshold →
      Tree.Descent nodes intensities (k + 1) (2 * n + 1)
  | right {k n : Nat} : Tree.Descent nodes intensities k n →
      0 ≤ (nodes.getD n default).split.idx1 →
      ¬ (coeff intensities (nodes.getD n default).split.idx1
        - coeff intensities (nodes.getD n default).split.idx2
        > (nodes.getD n default).split.threshold) →
      Tree.Descent nodes intensities (k + 1) (2 * n + 2)

/-- The sum `Σ_k tree_k.predict(intensities)` over a forest, as a 3×L matrix. -/
def sumTreePredictions (trees : List Tree) (intensities : PixelIntensities) (L : Nat) :
    ShapeResidual :=
  trees.foldl (fun acc tree => Shape.add acc (Tree.predict tree intensities)) (Shape.zero L)

/-- The estimates `e_0, e_1, ...` of the specification: the estimate after the given stages. -/
def cascadeEstimate (ext : Extern) (img : Image) (shapeToImage : ShapeTransform)
    (stages : List Regressor) (e0 : Shape) : Shape :=
  stages.foldl (fun e stage => Shape.add e (Regressor.predict ext stage img e shapeToImage)) e0

/-- The contract of `std::uniform_int_distribution<int>(a, b)`: for `a ≤ b` the
value drawn lies in `[a, b]`. -/
def UniformIntInRange (ext : Extern) : Prop :=
  ∀ (a b : Int) (rnd : Rng), a ≤ b →
    a ≤ (ext.uniformInt a b rnd).1 ∧ (ext.uniformInt a b rnd).1 ≤ b

/-- A split over `P` pixel coordinates: two distinct indices in `[0, P)`. -/
def SplitInfo.Valid (P : Nat) (split : SplitInfo) : Prop :=
  0 ≤ split.idx1 ∧ split.idx1 < P ∧ 0 ≤ split.idx2 ∧ split.idx2 < P ∧ split.idx1 ≠ split.idx2

/-- A node in the form `makeLeaf` writes: `idx1 = idx2 = −1`. -/
def TreeNode.IsLeaf (node : TreeNode) : Prop :=
  node.split.idx1 = -1 ∧ node.split.idx2 = -1

/-- The node slots `fit` has written so far, by `splitNode` or by `makeLeaf`. -/
def FitState.Written (s : FitState) (n : Nat) : Prop :=
  n ∈ s.splitWrites ∨ n ∈ s.leafWrites

/-- The node slots that are queued or written. -/
def FitState.Reached (s : FitState) (n : Nat) : Prop :=
  n ∈ s.queue.map NodeInfo.node ∨ s.Written n

/-- The invariant of the loop of `Tree::fit`, for `P` pixel coordinates and depth `D`. -/
structure FitInv (P D : Nat) (s : FitState) : Prop where
  length : s.nodes.length = 2 ^ D - 1
  level : ∀ q ∈ s.queue, 1 ≤ q.depth ∧ q.depth ≤ (D : Int) ∧ q.node + 1 < 2 ^ q.depth.toNat
  written : ∀ n, s.Written n →
    n < 2 ^ D - 1 ∧
      ((TreeNode.IsLeaf (s.nodes.getD n default) ∧ n ∈ s.leafWrites) ∨
        (SplitInfo.Valid P (s.nodes.getD n default).split ∧ n + 1 < 2 ^ (D - 1) ∧
          s.Reached (2 * n + 1) ∧ s.Reached (2 * n + 2)))
  root : s.Reached 0

/-- The number of loop passes a queued item can still cause: the size of the
full subtree below it. -/
def NodeInfo.weight (D : Nat) (q : NodeInfo) : Nat := 2 ^ (D + 1 - q.depth.toNat) - 1

/-- The passes the queue can still cause. -/
def queueWeight (D : Nat) (queue : List NodeInfo) : Nat := (queue.map (NodeInfo.weight D)).sum

/-- The node slots `Tree::predict` reads: the nodes the loop of `predictLoop`
looks at from `n` on, ending with the node whose mean is returned. -/
def Tree.predictVisited (nodes : List TreeNode) (intensities : PixelIntensities) :
    Nat → Nat → List Nat
  | 0, n => [n]
  | tests + 1, n =>
    let node := nodes.getD n default
    if node.split.idx1 < 0 then [n]
    else
      let left := coeff intensities node.split.idx1 - coeff intensities node.split.idx2
        > node.split.threshold
      n :: Tree.predictVisited nodes intensities tests (if left then 2 * n + 1 else 2 * n + 2)

/-- The arithmetic mean of the matrices `rs`, each 3×L: column `j` is the sum of
the columns `j` divided by the number of matrices. -/
def arithmeticMean (rs : List ShapeResidual) (L : Nat) : ShapeResidual :=
  (List.range L).map fun j => fun r => (rs.map fun m => (m.getD j 0) r).sum / (rs.length : ℚ)

/-! ## A concrete instance, for evaluating examples -/

/-- Row-major payload of a 3×L matrix: the x row, the y row, the z row. -/
def rowMajor (s : Shape) : List ℚ :=
  (s.map fun v => v 0) ++ (s.map fun v => v 1) ++ (s.map fun v => v 2)

/-- The 3×`cols` matrix of a row-major payload. -/
def ofRowMajor (cols : Nat) (data : List ℚ) : Shape :=
  (List.range cols).map fun j =>
    ![data.getD j 0, data.getD (cols + j) 0, data.getD (2 * cols + j) 0]

/-- An instance of the library parameters: a counter as random engine, with
`uniformInt a b` drawing `a + rnd mod (b − a + 1)`; a rational decreasing
function on the non-positive numbers in place of `exp`; the identity in place
of `sqrt`; the trivial decomposition in place of the SVD; nearest-pixel image
sampling; and the codec of the specification (rows, cols, row-major payload). -/
def Extern.sample : Extern where
  uniformInt a b rnd := (a + (rnd : Int) % (b - a + 1), rnd + 1)
  uniformReal a b rnd := (a + (b - a) * ((rnd % 4 : Nat) : ℚ) / 4, rnd + 1)
  exp x := 1 / (1 - x)
  sqrt x := x
  jacobiSvd m := { matrixU := 1, singularValues := fun i => m i i, matrixV := 1 }
  readImage img coords := coords.map fun c => (img.getD (c 1).floor.toNat []).getD (c 0).floor.toNat 0
  toFbs s := { rows := 3, cols := s.length, data := rowMajor s }
  fromFbs m := ofRowMajor m.cols.toNat m.data
  toFbsI v := { rows := v.length, cols := 1, data := v }
  fromFbsI m := m.data
  uninitialized := 0

/-- Training parameters for the examples, with the given tree depth. -/
def TrainingParameters.sample (maxTreeDepth : Int) : TrainingParameters :=
  { numCascades := 1, numTrees := 1, maxTreeDepth := maxTreeDepth,
    numRandomPixelCoordinates := 2, numRandomSplitTestsPerNode := 2,
    exponentialLambda := 1, learningRate := 1, expansionRandomPixelCoordinates := 0 }

/-- A tree training set for the examples: two samples with one landmark and two
pixel intensities each, over two pixel coordinates. -/
def TreeTraining.sample (maxTreeDepth : Int) : TreeTraining :=
  { training :=
      { input := { shapes := [], shapeToImage := [], images := [], rects := [], rnd := 0 }
        samples := []
        params := TrainingParameters.sample maxTreeDepth
        meanShape := [] }
    samples := [{ residual := [![1, 0, 0]], intensities := [0, 1] },
                { residual := [![3, 0, 0]], intensities := [1, 0] }]
    pixelCoordinates := [![0, 0, 0], ![1, 0, 0]]
    numLandmarks := 1 }

/-- The dimension invariants of the data model (§3) on a tracker: in every
stage the closest-landmark vector is as long as the pixel coordinates have
columns, the mean residual has the landmark count of the tracker's mean shape,
and every tree has `2^depth − 1` nodes. -/
def Tracker.DimensionsAgree (t : Tracker) : Prop :=
  ∀ r ∈ t.cascade,
    r.closestShapeLandmark.length = r.shapeRelativePixelCoordinates.length
      ∧ r.meanResidual.length = t.meanShape.length
      ∧ ∀ tree ∈ r.trees, tree.nodes.length = 2 ^ tree.depth.toNat - 1

/-- A serialized tracker whose dimensions disagree: one landmark in the mean
shape, one stage with two closest-landmark entries for one pixel coordinate and
a mean residual of two landmarks, and in it one tree of depth 3 with a single node. -/
def io.Tracker.inconsistent : io.Tracker :=
  { meanShape := { rows := 3, cols := 1, data := [1, 2, 3] }
    meanShapeRectCorners := { rows := 3, cols := 4, data := [0, 1, 0, 1, 0, 0, 1, 1, 0, 0, 0, 0] }
    cascade :=
      [{ closestLandmarks := { rows := 2, cols := 1, data := [0, 0] }
         pixelCoordinates := { rows := 3, cols := 1, data := [0, 0, 0] }
         meanShapeResidual := { rows := 3, cols := 2, data := [1, 1, 0, 0, 0, 0] }
         meanShape := { rows := 3, cols := 1, data := [1, 2, 3] }
         forest :=
           [{ nodes := [{ idx1 := 0, idx2 := 0, threshold := 0,
                          mean := { rows := 3, cols := 1, data := [0, 0, 0] } }]
              depth := 3 }]
         learningRate := 1 }] }

/-- A tracker for the examples: one landmark, one stage with one tree of depth 1. -/
def Tracker.sample : Tracker :=
  { meanShape := [![1, 2, 3]]
    meanShapeRectCorners := [![1, 2, 0], ![1, 2, 0], ![1, 2, 0], ![1, 2, 0]]
    cascade :=
      [{ shapeRelativePixelCoordinates := [![0, 0, 0]]
         closestShapeLandmark := [0]
         meanResidual := [![1, 0, 0]]
         meanShape := [![1, 2, 3]]
         trees := [{ nodes := [{ split := { idx1 := -1, idx2 := -1, threshold := 0 },
                                 mean := [![1, 1, 1]] }],
                     depth := 1 }]
         learningRate := 1 }] }

/-- Sample data without samples, for the examples. -/
def SampleData.empty : SampleData :=
  { input := { shapes := [], shapeToImage := [], images := [], rects := [], rnd := 0 }
    samples := []
    params := TrainingParameters.sample 2
    meanShape := [] }

/-- The state of the loop of `findClosestLandmarkIndex` after the landmarks
`pre`: nothing below `FLT_MAX` seen yet, or `best` is the lowest index of a
nearest landmark among `pre`. -/
def ClosestSoFar (x : Vec3) (pre : List Vec3) (best : Int) (bestD2 : ℚ) : Prop :=
  (best = -1 ∧ bestD2 = FLT_MAX ∧ ∀ p ∈ pre, FLT_MAX ≤ Vec3.squaredNorm (p - x))
    ∨ ∃ k : Nat, best = (k : Int) ∧ k < pre.length
        ∧ bestD2 = Vec3.squaredNorm (pre.getD k 0 - x) ∧ bestD2 < FLT_MAX
        ∧ (∀ j, j < pre.length → bestD2 ≤ Vec3.squaredNorm (pre.getD j 0 - x))
        ∧ (∀ j, j < k → bestD2 < Vec3.squaredNorm (pre.getD j 0 - x))

/-! ## training_data.cpp: shape normalization -/

/-- The 3×4 matrix `normalizeShapes` builds from a rectangle: `resize(3, 4)`
followed by the eight assignments of rows 0 and 1; row 2 is not assigned and
holds what the allocation left there. -/
def liftRect (ext : Extern) (r : Rect) : Shape :=
  (List.finRange 4).map fun c => ![r 0 c, r 1 c, ext.uninitialized]

/-- `t.inverse()` of an affine transform: the inverse of the linear part, by
cofactors and determinant, and the translation `−linear⁻¹ · t`. -/
def ShapeTransform.inverse (t : ShapeTransform) : ShapeTransform :=
  let inv : Mat3 := (t.linear.det)⁻¹ • t.linear.adjugate
  { linear := inv, translation := -(inv.mulVec t.translation) }

/-- The transform `normalizeShapes` estimates for one rectangle. -/
def InputData.normalizeTransform (ext : Extern) (rect : Rect) : ShapeTransform :=
  let input_rect_to_Shape := liftRect ext rect
  let unit_rect_to_shape := liftRect ext unitRectangle
  estimateSimilarityTransform ext input_rect_to_Shape unit_rect_to_shape

/-- `shapeToImage.resize(n)`; a new entry holds the identity. -/
def resizeTransforms (ts : List ShapeTransform) (n : Nat) : List ShapeTransform :=
  ts.take n ++ List.replicate (n - ts.length) { linear := 1, translation := 0 }

/-- The loop of `normalizeShapes` over the inputs `i, i + 1, ...`. -/
def InputData.normalizeLoop (ext : Extern) : Nat → Nat → InputData → InputData
  | 0, _, input => input
  | remaining + 1, i, input =>
    let t := InputData.normalizeTransform ext (input.rects.getD i 0)
    InputData.normalizeLoop ext remaining (i + 1)
      { input with
        shapes := input.shapes.set i (ShapeTransform.apply t (input.shapes.getD i []))
        shapeToImage := input.shapeToImage.set i (ShapeTransform.inverse t) }

/-- `InputData::normalizeShapes`. -/
def InputData.normalizeShapes (ext : Extern) (input : InputData) : InputData :=
  let numShapes := input.shapes.length
  InputData.normalizeLoop ext numShapes 0
    { input with shapeToImage := resizeTransforms input.shapeToImage numShapes }

/-- The library instance `Extern.sample` with another value in unassigned coefficients. -/
def Extern.withUninitialized (u : ℚ) : Extern := { Extern.sample with uninitialized := u }

/-- The library instance `Extern.sample` with another result of the SVD. -/
def Extern.withSvd (svd : Mat3 → SVD) : Extern := { Extern.sample with jacobiSvd := svd }

/-- An input container for the examples: one shape of two landmarks with the
rectangle of corners `(0, 0)` and `(2, 2)`. -/
def InputData.sample : InputData :=
  { shapes := [[![0, 0, 0], ![2, 2, 0]]]
    shapeToImage := []
    images := [[]]
    rects := [createRectangle ![0, 0] ![2, 2]]
    rnd := 0 }

/-- A training sample for the examples: one landmark at `(1, 0, 0)`, as target
and as estimate, with the identity as `shapeToImage`. -/
def Sample.unitX : Sample :=
  { inputIdx := 0, target := [![1, 0, 0]], estimate := [![1, 0, 0]],
    shapeToImage := { linear := 1, translation := 0 } }

/-- Sample data with `n` copies of `Sample.unitX` and no cascade stage to fit. -/
def SampleData.copies (n : Nat) : SampleData :=
  { input := { shapes := [], shapeToImage := [], images := [], rects := [], rnd := 0 }
    samples := List.replicate n Sample.unitX
    params := { TrainingParameters.sample 2 with numCascades := 0 }
    meanShape := [] }

/-! ## The similarity estimate, split at the call of the SVD -/

/-- The covariance `cov` that `estimateSimilarityTransform` hands to the SVD. -/
def similarityCovariance (from_ to_ : Shape) : Mat3 :=
  (1 / (from_.length : ℚ))
    • Shape.mulTranspose (Shape.colwiseSub from_ (Shape.rowwiseMean from_))
        (Shape.colwiseSub to_ (Shape.rowwiseMean to_))

/-- The scaled variance `sFrom` of `estimateSimilarityTransform`. -/
def similarityVariance (from_ : Shape) : ℚ :=
  Shape.squaredNorm (Shape.colwiseSub from_ (Shape.rowwiseMean from_)) / (from_.length : ℚ)

/-- The part of `estimateSimilarityTransform` after the call of the SVD, for the
decomposition `svd` it got. -/
def similarityFromSvd (from_ to_ : Shape) (svd : SVD) : ShapeTransform :=
  let meanFrom := Shape.rowwiseMean from_
  let meanTo := Shape.rowwiseMean to_
  let cov := similarityCovariance from_ to_
  let sFrom := similarityVariance from_
  let sv := svd.singularValues
  let d : Mat3 := Matrix.diagonal sv
  let detCov := cov.det
  let detUV := svd.matrixU.det * svd.matrixV.det
  let s : Mat3 :=
    if detCov < 0 ∨ (detCov = 0 ∧ detUV < 0) then
      if sv 2 ≤ sv 0 ∧ sv 2 ≤ sv 1 then Matrix.diagonal ![1, 1, -1]
      else if sv 1 ≤ sv 0 ∧ sv 1 ≤ sv 2 then Matrix.diagonal ![1, -1, 1]
      else Matrix.diagonal ![-1, 1, 1]
    else 1
  let rot : Mat3 := svd.matrixU.transpose * s * svd.matrixV
  let c : ℚ := if sFrom > 0 then 1 / sFrom * (d * s).trace else 1
  let t : Vec3 := meanTo - (c • rot).mulVec meanFrom
  { linear := c • rot, translation := t }

/-- A singular value decomposition of `m`: `U` and `V` orthogonal, singular
values not negative, `m = U · diag(σ) · Vᵀ`. -/
def SVD.Valid (m : Mat3) (svd : SVD) : Prop :=
  svd.matrixU.transpose * svd.matrixU = 1
    ∧ svd.matrixV.transpose * svd.matrixV = 1
    ∧ (∀ i, 0 ≤ svd.singularValues i)
    ∧ m = svd.matrixU * Matrix.diagonal svd.singularValues * svd.matrixV.transpose

/-- Singular values in decreasing order, as Eigen returns them. -/
def SVD.Sorted (svd : SVD) : Prop :=
  svd.singularValues 1 ≤ svd.singularValues 0 ∧ svd.singularValues 2 ≤ svd.singularValues 1

/-- Six landmarks at `±1`, `±2`, `±3` on the three axes. -/
def Shape.octahedron : Shape :=
  [![1, 0, 0], ![-1, 0, 0], ![0, 2, 0], ![0, -2, 0], ![0, 0, 3], ![0, 0, -3]]

/-- The rotation by a quarter turn about the z axis. -/
def quarterTurn : Mat3 := !![0, -1, 0; 1, 0, 0; 0, 0, 1]

/-- The sign `+1` or `-1`. -/
def signOf (b : Bool) : ℚ := if b then -1 else 1

/-- The singular value decompositions of the covariance of `Shape.octahedron`
and its image under `quarterTurn`, with the singular values `3 > 4/3 > 1/3` in
decreasing order; `a`, `b`, `c` choose the signs of the three pairs of singular
vectors. -/
def SVD.octahedron (a b c : Bool) : SVD :=
  { matrixU := !![0, 0, signOf c; 0, signOf b, 0; signOf a, 0, 0]
    singularValues := ![3, 4 / 3, 1 / 3]
    matrixV := !![0, -signOf b, 0; 0, 0, signOf c; signOf a, 0, 0] }

/-- Sample data for the examples: two samples with one landmark each over one
2×2 image, one stage with one tree of depth 2, two pixel coordinates. -/
def SampleData.pair : SampleData :=
  { input := { shapes := [], shapeToImage := [], images := [[[1, 2], [3, 4]]], rects := [],
               rnd := 0 }
    samples := [Sample.unitX,
                { inputIdx := 0, target := [![3, 0, 0]], estimate := [![1, 0, 0]],
                  shapeToImage := { linear := 1, translation := 0 } }]
    params := TrainingParameters.sample 2
    meanShape := [] }

/-- The training data of one stage over `SampleData.pair`. -/
def RegressorTraining.pair : RegressorTraining :=
  { training := SampleData.pair, numLandmarks := 1, meanShape := [![1, 0, 0]] }


/-! ## training_data.cpp: creation of the training samples -/

/-- `SampleCreationParameters`. -/
structure SampleCreationParameters where
  numShapesPerImage : Int
  linearWeightRange : ℚ × ℚ
  includeMeanShape : Bool

/-- `computeMeanShape(td)`: no result without a first sample, whose estimate
(`td.samples.front().estimate`) gives the number of landmarks. -/
def computeMeanShape (td : SampleData) : Option Shape :=
  match td.samples with
  | [] => none
  | front :: _ =>
    let numSamples := td.samples.length
    let numLandmarks := front.estimate.length
    let meanShape := td.samples.foldl (fun m s => Shape.add m s.estimate) (Shape.zero numLandmarks)
    some (Shape.divScalar meanShape (numSamples : ℚ))

/-- `samples.resize(n)`; a new entry is a default-constructed sample (its
content is not read before it is assigned). -/
def resizeSamples (samples : List Sample) (n : Nat) : List Sample :=
  samples.take n ++ List.replicate (n - samples.length)
    { inputIdx := 0, target := [], estimate := [], shapeToImage := { linear := 1, translation := 0 } }

/-- The body of the loop of `createTrainingSamples` for entry `i`: the sample it
assigns and the engine after its three draws (the weight, then the two input
indices; the model draws the index of the left operand of the sum first, the
order C++ leaves open).  The weight is drawn from `params.linearWeightRange` as
configured, not from the clamped copy `validatedParams`, which is only logged. -/
def SampleData.perturbedSample (ext : Extern) (input : InputData) (range : ℚ × ℚ)
    (numShapes : Nat) (i : Nat) (rnd : Rng) : Sample × Rng :=
  let idx := i % numShapes
  let dw := ext.uniformReal range.1 range.2 rnd
  let w := dw.1
  let d1 := ext.uniformInt 0 ((numShapes : Int) - 1) dw.2
  let d2 := ext.uniformInt 0 ((numShapes : Int) - 1) d1.2
  ({ inputIdx := idx
     target := input.shapes.getD idx []
     shapeToImage := input.shapeToImage.getD idx { linear := 1, translation := 0 }
     estimate := Shape.add (Shape.smul w (input.shapes.getD d1.1.toNat []))
       (Shape.smul (1 - w) (input.shapes.getD d2.1.toNat [])) },
   d2.2)

/-- The loop of `createTrainingSamples` over the entries `i, i + 1, ...`. -/
def SampleData.createLoop (ext : Extern) (input : InputData) (range : ℚ × ℚ) (numShapes : Nat) :
    Nat → Nat → List Sample → Rng → List Sample × Rng
  | 0, _, samples, rnd => (samples, rnd)
  | remaining + 1, i, samples, rnd =>
    let p := SampleData.perturbedSample ext input range numShapes i rnd
    SampleData.createLoop ext input range numShapes remaining (i + 1) (samples.set i p.1) p.2

/-- The samples `createTrainingSamples` appends when `includeMeanShape` is set. -/
def SampleData.meanShapeSamples (input : InputData) (meanShape : Shape) (numShapes : Nat) :
    List Sample :=
  (List.range numShapes).map fun i =>
    { inputIdx := i
      target := input.shapes.getD i []
      shapeToImage := input.shapeToImage.getD i { linear := 1, translation := 0 }
      estimate := meanShape }

/-- `SampleData::createTrainingSamples`: the sample data after the call.  No
result when the product `numShapes * numShapesPerImage`, evaluated in `int`,
leaves the range of `int`, or when `computeMeanShape` has none. -/
def SampleData.createTrainingSamples (ext : Extern) (td : SampleData)
    (params : SampleCreationParameters) : Option SampleData :=
  let numShapesPerImage := max params.numShapesPerImage 1
  let numShapes : Int := (td.input.shapes.length : Int)
  if 2 ^ 31 ≤ numShapes * numShapesPerImage then none
  else
    let numSamples := numShapes * numShapesPerImage
    let r := SampleData.createLoop ext td.input params.linearWeightRange numShapes.toNat
      numSamples.toNat 0 (resizeSamples td.samples numSamples.toNat) td.input.rnd
    let td1 : SampleData := { td with samples := r.1, input := { td.input with rnd := r.2 } }
    match computeMeanShape td1 with
    | none => none
    | some meanShape =>
      let td2 : SampleData := { td1 with meanShape := meanShape }
      if params.includeMeanShape then
        some { td2 with
          samples := td2.samples
            ++ SampleData.meanShapeSamples td2.input td2.meanShape numShapes.toNat }
      else some td2

/-- The contract of `std::uniform_real_distribution<float>(a, b)`: for `a ≤ b`
the value drawn lies between `a` and `b`. -/
def UniformRealInRange (ext : Extern) : Prop :=
  ∀ (a b : ℚ) (rnd : Rng), a ≤ b →
    a ≤ (ext.uniformReal a b rnd).1 ∧ (ext.uniformReal a b rnd).1 ≤ b

/-- An input container for the examples: two shapes of one landmark each. -/
def InputData.two : InputData :=
  { shapes := [[![0, 0, 0]], [![4, 0, 0]]]
    shapeToImage := [{ linear := 1, translation := 0 }, { linear := 1, translation := ![1, 0, 0] }]
    images := [[[1]], [[2]]]
    rects := [createRectangle ![0, 0] ![1, 1], createRectangle ![0, 0] ![2, 2]]
    rnd := 0 }

/-- Sample data over `InputData.two`, before the samples are created. -/
def SampleData.two : SampleData :=
  { input := InputData.two, samples := [], params := TrainingParameters.sample 2, meanShape := [] }


/-- Sample creation parameters for the examples: two samples per input, weights
from `[1/2, 3/4]`, mean-shape samples included. -/
def SampleCreationParameters.sample : SampleCreationParameters :=
  { numShapesPerImage := 2, linearWeightRange := (1 / 2, 3 / 4), includeMeanShape := true }


/-! ## training_data.cpp: random partition -/

/-- `std::shuffle(first, last, g)` on a vector of indices, as a library
function: the vector and the engine after the call. -/
abbrev Shuffle := List Nat → Rng → List Nat × Rng

/-- The contract of `std::shuffle`: the vector after the call is a permutation
of the vector before. -/
def ShufflePermutes (shuffle : Shuffle) : Prop :=
  ∀ (ids : List Nat) (rnd : Rng), List.Perm (shuffle ids rnd).1 ids

/-- `static_cast<int>(x)` of a float: the fractional part is discarded. -/
def truncToInt (x : ℚ) : Int := if 0 ≤ x then ⌊x⌋ else ⌈x⌉

/-- Rounding to the nearest integer, ties to the even one. -/
def roundHalfEven (q : ℚ) : Int :=
  let f := ⌊q⌋
  let d := q - f
  if d < 1 / 2 then f
  else if 1 / 2 < d then f + 1
  else if f % 2 = 0 then f else f + 1

/-- The `float` nearest to `x` (IEEE 754 binary32, round to nearest, ties to
even): a multiple of the unit in the last place `2 ^ (e − 23)`, where
`2 ^ e ≤ |x| < 2 ^ (e + 1)` and `e` is at least `−126`.  Overflow to infinity
(from `2 ^ 128` on) is left out. -/
def roundToFloat (x : ℚ) : ℚ :=
  let e : Int := max (Int.log 2 |x|) (-126)
  let ulp : ℚ := 2 ^ (e - 23)
  (roundHalfEven (x / ulp) : ℚ) * ulp

/-- The value `numValidate` of `randomPartition` for `n` inputs:
`static_cast<int>((float)n * validatePercent)`, the conversion of `n` and the
product each rounded to `float`. -/
def InputData.numValidate (n : Nat) (validatePercent : ℚ) : Int :=
  truncToInt (roundToFloat (roundToFloat (n : ℚ) * validatePercent))

/-- The four `push_back` calls of one pass of the loops of `randomPartition`,
for the entry `id` of `source`. -/
def InputData.pushEntry (source : InputData) (into : InputData) (id : Nat) : InputData :=
  { into with
    shapes := into.shapes ++ [source.shapes.getD id []]
    shapeToImage := into.shapeToImage ++
      [source.shapeToImage.getD id { linear := 1, translation := 0 }]
    images := into.images ++ [source.images.getD id []]
    rects := into.rects ++ [source.rects.getD id 0] }

/-- `InputData::randomPartition(train, validate, validatePercent)`: the pair
`(train, validate)` after the call.  `engine0` is the engine of the
default-constructed `InputData train2`, which `std::swap` hands to `train`.  No
result when `numValidate` is negative or exceeds the number of indices (the
first loop then reads `ids` past its end). -/
def InputData.randomPartition (shuffle : Shuffle) (engine0 : Rng) (train validate : InputData)
    (validatePercent : ℚ) : Option (InputData × InputData) :=
  let numValidate : Int := InputData.numValidate train.shapes.length validatePercent
  let ids := (shuffle (List.range train.shapes.length) train.rnd).1
  if numValidate < 0 ∨ (ids.length : Int) < numValidate then none
  else
    let validate1 : InputData :=
      { validate with shapes := [], shapeToImage := [], images := [], rects := [] }
    let validate2 := (ids.take numValidate.toNat).foldl (InputData.pushEntry train) validate1
    let train2 : InputData :=
      { shapes := [], shapeToImage := [], images := [], rects := [], rnd := engine0 }
    let train3 := (ids.drop numValidate.toNat).foldl (InputData.pushEntry train) train2
    some (train3, validate2)

/-- The entries of an input container: shape, transform, image and rectangle
of each input, side by side. -/
def InputData.entries (d : InputData) : List (Shape × ShapeTransform × Image × Rect) :=
  List.zip d.shapes (List.zip d.shapeToImage (List.zip d.images d.rects))

/-- Entry `id` of an input container. -/
def InputData.entry (d : InputData) (id : Nat) : Shape × ShapeTransform × Image × Rect :=
  (d.shapes.getD id [], d.shapeToImage.getD id { linear := 1, translation := 0 },
   d.images.getD id [], d.rects.getD id 0)

/-- A shuffle for the examples: the vector reversed. -/
def Shuffle.reverse : Shuffle := fun ids rnd => (ids.reverse, rnd + 1)


/-- The `float` nearest to `0.7`, the value of the literal `0.7f`. -/
def floatSevenTenths : ℚ := 11744051 / 16777216

/-- An input container of ten entries. -/
def InputData.ten : InputData :=
  { shapes := (List.range 10).map fun i => [![(i : ℚ), 0, 0]]
    shapeToImage := List.replicate 10 { linear := 1, translation := 0 }
    images := List.replicate 10 []
    rects := List.replicate 10 0
    rnd := 0 }

/-- A library instance for the examples in which the index distribution draws
its lower bound, except at the engine state 301, where it draws the lower bound
plus one; the real distribution draws its lower bound, and the exponential is
constantly 1 (so every pair of distinct indices is accepted). -/
def Extern.lateDraw : Extern :=
  { Extern.sample with
    uniformInt := fun a b rnd => (if rnd = 301 ∧ a < b then a + 1 else a, rnd + 1)
    uniformReal := fun a _ rnd => (a, rnd + 1)
    exp := fun _ => 1 }


/-! ## Specification-side definitions for the split energy -/

/-- The residuals of the samples of a range that satisfy the predicate of a split. -/
def Tree.leftResiduals (samples : List TreeSample) (r : SampleRange) (split : SplitInfo) :
    List ShapeResidual :=
  ((rangeSamples samples r).filter (PartitionPredicate split)).map fun s => s.residual

/-- The residuals of the samples of a range that fail the predicate of a split. -/
def Tree.rightResiduals (samples : List TreeSample) (r : SampleRange) (split : SplitInfo) :
    List ShapeResidual :=
  ((rangeSamples samples r).filter fun s => !PartitionPredicate split s).map fun s => s.residual

/-- The sum of the squared distances of the 3×L matrices `rs` to their arithmetic mean. -/
def sumSquaresAboutMean (rs : List ShapeResidual) (L : Nat) : ℚ :=
  (rs.map fun r => Shape.squaredNorm (Shape.sub r (arithmeticMean rs L))).sum

/-- The within-child residual sum of squares of a split of a range:
`Σ_{i∈L} ‖r_i − μ_L‖² + Σ_{i∈R} ‖r_i − μ_R‖²`. -/
def Tree.withinChildSS (samples : List TreeSample) (r : SampleRange) (split : SplitInfo)
    (L : Nat) : ℚ :=
  sumSquaresAboutMean (Tree.leftResiduals samples r split) L
    + sumSquaresAboutMean (Tree.rightResiduals samples r split) L


/-! ## Specification-side definitions for the sample ranges of `Tree::fit` -/

/-- Two ranges that do not overlap. -/
def RangeDisjoint (a b : SampleRange) : Prop := a.2 ≤ b.1 ∨ b.2 ≤ a.1

/-- Range `a` lies inside range `b`. -/
def RangeInside (a b : SampleRange) : Prop := b.1 ≤ a.1 ∧ a.2 ≤ b.2

/-- The vector `after` arises from `before` by rearranging the samples of the
range `r` among themselves. -/
def RearrangedInside (r : SampleRange) (before after : List TreeSample) : Prop :=
  ∃ pre mid mid1 post, before = pre ++ mid ++ post ∧ after = pre ++ mid1 ++ post
    ∧ pre.length = r.1 ∧ mid.length = r.2 - r.1 ∧ r.1 ≤ r.2 ∧ List.Perm mid1 mid

/-- The invariant of the loop of `Tree::fit` on the sample ranges: `ranges n` is
the range of node `n` (of the queue item that carries it, once it is queued). -/
structure RangeInv (t : TreeTraining) (ranges : Nat → SampleRange) (s : FitState) : Prop where
  queue_range : ∀ q ∈ s.queue, q.range = ranges q.node
  bounds : ∀ n, s.Reached n → (ranges n).1 ≤ (ranges n).2 ∧ (ranges n).2 ≤ s.samples.length
  nonempty : ∀ n, s.Reached n → n ≠ 0 → (ranges n).1 < (ranges n).2
  root : ranges 0 = (0, s.samples.length)
  leaf_form : ∀ n ∈ s.leafWrites, TreeNode.IsLeaf (s.nodes.getD n default)
  leaf_mean : ∀ n ∈ s.leafWrites,
    (s.nodes.getD n default).mean = meanResidualOfRange s.samples (ranges n) t.numLandmarks
  children : ∀ n, n ∈ s.splitWrites → n ∉ s.leafWrites →
    (ranges (2 * n + 1)).1 = (ranges n).1 ∧ (ranges (2 * n + 1)).2 = (ranges (2 * n + 2)).1
      ∧ (ranges (2 * n + 2)).2 = (ranges n).2
      ∧ (∀ x ∈ rangeSamples s.samples (ranges (2 * n + 1)),
          PartitionPredicate (s.nodes.getD n default).split x = true)
      ∧ (∀ x ∈ rangeSamples s.samples (ranges (2 * n + 2)),
          PartitionPredicate (s.nodes.getD n default).split x = false)
  laminar : ∀ q ∈ s.queue, ∀ n, s.Written n →
    RangeInside (ranges q.node) (ranges n) ∨ RangeDisjoint (ranges q.node) (ranges n)
  queue_disjoint : ∀ a ∈ s.queue, ∀ b ∈ s.queue, a.node ≠ b.node →
    RangeDisjoint (ranges a.node) (ranges b.node)
  sorted : s.queue.Pairwise fun a b => a.node < b.node
  span : ∀ a ∈ s.queue, ∀ b ∈ s.queue, b.node ≤ 2 * a.node
  written_lt : ∀ n, s.Written n → ∀ q ∈ s.queue, n < q.node
  perm : List.Perm s.samples t.samples
  queue_leaf : ∀ q ∈ s.queue, ∀ n ∈ s.leafWrites, RangeDisjoint (ranges q.node) (ranges n)
  leaf_disjoint : ∀ a ∈ s.leafWrites, ∀ b ∈ s.leafWrites, a ≠ b →
    RangeDisjoint (ranges a) (ranges b)

/-- The range assignment with the ranges of two newly queued nodes recorded. -/
def recordRanges (ranges : Nat → SampleRange) (left right : NodeInfo) : Nat → SampleRange :=
  fun n => if n = left.node then left.range else if n = right.node then right.range else ranges n

/-- One pass of the `while` loop of `Tree::fit`; a state with an empty queue,
where the loop has ended, stays as it is. -/
def Tree.fitPass (ext : Extern) (t : TreeTraining) (depth : Int) (s : FitState) : FitState :=
  match s.queue with
  | [] => s
  | nr :: rest => Tree.fitStep ext t depth { s with queue := rest } nr

/-- The state of the loop of `Tree::fit` after the given number of passes. -/
def Tree.fitPasses (ext : Extern) (t : TreeTraining) (depth : Int) (passes : Nat)
    (s : FitState) : FitState :=
  (Tree.fitPass ext t depth)^[passes] s


/-- The correction matrix `s` of `estimateSimilarityTransform`, for the
covariance `cov` and the decomposition `svd` of it. -/
def similarityCorrection (cov : Mat3) (svd : SVD) : Mat3 :=
  let sv := svd.singularValues
  let detCov := cov.det
  let detUV := svd.matrixU.det * svd.matrixV.det
  if detCov < 0 ∨ (detCov = 0 ∧ detUV < 0) then
    if sv 2 ≤ sv 0 ∧ sv 2 ≤ sv 1 then Matrix.diagonal ![1, 1, -1]
    else if sv 1 ≤ sv 0 ∧ sv 1 ≤ sv 2 then Matrix.diagonal ![1, -1, 1]
    else Matrix.diagonal ![-1, 1, 1]
  else 1


/-- Sample creation parameters with a weight range outside `[0, 1]`: one sample
per input, weights from `[2, 3]`, no mean-shape samples. -/
def SampleCreationParameters.wide : SampleCreationParameters :=
  { numShapesPerImage := 1, linearWeightRange := (2, 3), includeMeanShape := false }

/-- The divisor `numRight` of `Tree::splitEnergy`: `numParent - numLeft`. -/
def Tree.splitEnergyNumRight (samples : List TreeSample) (numLandmarks : Int) (parent : NodeInfo)
    (split : SplitInfo) : ℚ :=
  let left := meanResidualOfRangeIf samples parent.range numLandmarks (PartitionPredicate split)
  let numLeft : ℚ := left.2
  let numParent : ℚ := numElementsInRange parent.range
  numParent - numLeft

/-- The sample training set of depth 2 with the intensities of the second
sample changed: both samples have the intensities `(0, 1)`. -/
def TreeTraining.oneSided : TreeTraining :=
  { TreeTraining.sample 2 with
    samples := [{ residual := [![1, 0, 0]], intensities := [0, 1] },
                { residual := [![3, 0, 0]], intensities := [0, 1] }] }


/-- A library instance for the examples: as `Extern.sample`, with a real
distribution that draws 2 at the engine state 7 when 2 is in its range, and
otherwise 0 when 0 is in its range, and its lower bound when not. -/
def Extern.secondThreshold : Extern :=
  { Extern.sample with
    uniformReal := fun a b rnd =>
      (if rnd = 7 ∧ a ≤ 2 ∧ 2 ≤ b then 2 else if a ≤ 0 ∧ 0 ≤ b then 0 else a, rnd + 1) }

/-- The sample training set of depth 2 with other intensities: the first
intensity exceeds the second by 1 in the first sample and by 3 in the second. -/
def TreeTraining.bothAbove : TreeTraining :=
  { TreeTraining.sample 2 with
    samples := [{ residual := [![1, 0, 0]], intensities := [1, 0] },
                { residual := [![3, 0, 0]], intensities := [3, 0] }] }


/-! ## database_io.cpp: mirroring -/

/-- `std::swap(ids(i), ids(j))` on the index vector of a permutation matrix. -/
def swapIndices (ids : List Nat) (p : Nat × Nat) : List Nat :=
  (ids.set p.1 (ids.getD p.2 0)).set p.2 (ids.getD p.1 0)

/-- `createPermutationMatrixForMirroredRectangle()`: the index vector of the
permutation, the identity of size 4 after the two swaps. -/
def createPermutationMatrixForMirroredRectangle : List Nat :=
  [(0, 1), (2, 3)].foldl swapIndices (List.range 4)

/-- `createPermutationMatrixForMirroredIBug()`: the index vector of the
permutation, the identity of size 68 after the swaps, in the order of the code. -/
def createPermutationMatrixForMirroredIBug : List Nat :=
  [(0, 16), (1, 15), (2, 14), (3, 13), (4, 12), (5, 11), (6, 10), (7, 9), (8, 8),
   (17, 26), (18, 25), (19, 24), (20, 23), (21, 22),
   (27, 27), (28, 28), (29, 29), (30, 30),
   (31, 35), (32, 34), (33, 33),
   (39, 42), (38, 43), (37, 44), (36, 45), (40, 47), (41, 46),
   (48, 54), (49, 53), (50, 52), (51, 51),
   (59, 55), (58, 56), (57, 57),
   (60, 64), (61, 63), (62, 62),
   (67, 65), (66, 66)].foldl swapIndices (List.range 68)

/-- `img.cols` of an image stored as rows. -/
def Image.cols (img : Image) : Nat := (img.headD []).length

/-- `cv::flip(img, img, 1)`: every row is reversed. -/
def Image.flipHorizontal (img : Image) : Image := img.map List.reverse

/-- The loop `s(0, i) = static_cast<float>(img.cols - 1) - s(0, i)` over the columns. -/
def Shape.mirrorX (cols : Nat) (s : Shape) : Shape :=
  s.map fun v => ![(((cols : Int) - 1 : Int) : ℚ) - v 0, v 1, v 2]

/-- Product `s * perm` of a matrix with columns `s` and the permutation matrix
of index vector `ids` (the matrix with a one at `(ids(i), i)`): column `i` of
the product is column `ids(i)` of `s`. -/
def Shape.mulPerm (s : Shape) (ids : List Nat) : Shape := ids.map fun k => s.getD k 0

/-- The loop `r(0, i) = static_cast<float>(img.cols - 1) - r(0, i)` over the columns. -/
def Rect.mirrorX (cols : Nat) (r : Rect) : Rect :=
  Matrix.of fun row c => if row = 0 then (((cols : Int) - 1 : Int) : ℚ) - r 0 c else r row c

/-- Product `r * perm` for a rectangle and a permutation matrix of size 4. -/
def Rect.mulPerm (r : Rect) (ids : List Nat) : Rect :=
  Matrix.of fun row c => r row (Fin.ofNat (ids.getD c.val 0))

/-- `mirrorImageShapeAndRectVertically(img, s, r, permLandmarks, permRectangle)`:
the image, the shape and the rectangle after the call.  No result when the
size of a permutation differs from the number of columns it is multiplied
with (the products are not defined). -/
def mirrorImageShapeAndRectVertically (img : Image) (s : Shape) (r : Rect)
    (permLandmarks permRectangle : List Nat) : Option (Image × Shape × Rect) :=
  let img1 := Image.flipHorizontal img
  let s1 := Shape.mirrorX (Image.cols img1) s
  if s1.length ≠ permLandmarks.length then none
  else
    let s2 := Shape.mulPerm s1 permLandmarks
    let r1 := Rect.mirrorX (Image.cols img1) r
    if permRectangle.length ≠ 4 then none
    else some (img1, s2, Rect.mulPerm r1 permRectangle)

/-- A shape of 68 landmarks for the examples: landmark `i` at `(i, 0, 0)`. -/
def Shape.ramp68 : Shape := (List.range 68).map fun i => ![(i : ℚ), 0, 0]


/-- The coordinates that `Regressor::readPixelIntensities` hands to `readImage`
(`coords` after its three assignments). -/
def Regressor.readPixelCoordinates (self : Regressor)
    (shapeToShape shapeToImage : ShapeTransform) (s : Shape) : PixelCoordinates :=
  let coords := Shape.mulLeft shapeToShape.linear self.shapeRelativePixelCoordinates
  let coords1 := List.zipWith (fun c k => c + Shape.col s k) coords self.closestShapeLandmark
  ShapeTransform.apply shapeToImage coords1


/-- The sample as the fit of tree `k` of a stage is to see it, for a sample `s`
that entered the loop over the trees with the residual `target − estimate`: the
residual is `s.residual − meanResidual − η · Σ_{j<k} tree_j.predict(s.intensities)`
(the sum started from the zero matrix with the columns of the first
difference); the intensities are those of `s`. -/
def Regressor.residualBeforeTree (self : Regressor) (k : Nat) (s : TreeSample) : TreeSample :=
  let first := Shape.sub s.residual self.meanResidual
  let sum := sumTreePredictions (self.trees.take k) s.intensities first.length
  { s with residual := Shape.sub first (Shape.smul self.learningRate sum) }


/-! ## shape.cpp over an ordered field

The arithmetic of `estimateSimilarityTransform` uses the field operations and
comparisons only.  Over the rationals a singular value decomposition with
singular vectors such as `(1, −1, 0)/√2` cannot be written down, so the estimate
is given here once more for the scalars of any ordered field `K`. -/

/-- `ShapeTransform` with coefficients in `K`. -/
structure ShapeTransformOver (K : Type) where
  linear : Matrix (Fin 3) (Fin 3) K
  translation : Fin 3 → K

/-- Result of `jacobiSvd(ComputeFullU | ComputeFullV)` with coefficients in `K`. -/
structure SVDOver (K : Type) where
  matrixU : Matrix (Fin 3) (Fin 3) K
  singularValues : Fin 3 → K
  matrixV : Matrix (Fin 3) (Fin 3) K

/-- `s.rowwise().mean()`. -/
def rowwiseMeanOver {K : Type} [LinearOrderedField K] (s : List (Fin 3 → K)) : Fin 3 → K :=
  fun r => (s.map fun v => v r).sum / (s.length : K)

/-- `s.colwise() - m`. -/
def colwiseSubOver {K : Type} [LinearOrderedField K] (s : List (Fin 3 → K)) (m : Fin 3 → K) :
    List (Fin 3 → K) :=
  s.map fun v => v - m

/-- Product `a * b.transpose()` of two 3×L matrices. -/
def mulTransposeOver {K : Type} [LinearOrderedField K] (a b : List (Fin 3 → K)) :
    Matrix (Fin 3) (Fin 3) K :=
  (List.zipWith (fun u v => Matrix.vecMulVec u v) a b).sum

/-- `s.squaredNorm()`. -/
def squaredNormOver {K : Type} [LinearOrderedField K] (s : List (Fin 3 → K)) : K :=
  (s.map fun v => v 0 * v 0 + v 1 * v 1 + v 2 * v 2).sum

/-- `estimateSimilarityTransform(from, to)`, with `jacobiSvd` the library's
decomposition. -/
def estimateSimilarityTransformOver {K : Type} [LinearOrderedField K]
    (jacobiSvd : Matrix (Fin 3) (Fin 3) K → SVDOver K) (from_ to_ : List (Fin 3 → K)) :
    ShapeTransformOver K :=
  let meanFrom := rowwiseMeanOver from_
  let meanTo := rowwiseMeanOver to_
  let centeredFrom := colwiseSubOver from_ meanFrom
  let centeredTo := colwiseSubOver to_ meanTo
  let cov : Matrix (Fin 3) (Fin 3) K :=
    (1 / (from_.length : K)) • mulTransposeOver centeredFrom centeredTo
  let sFrom := squaredNormOver centeredFrom / (from_.length : K)
  let svd := jacobiSvd cov
  let sv := svd.singularValues
  let d : Matrix (Fin 3) (Fin 3) K := Matrix.diagonal sv
  let detCov := cov.det
  let detUV := svd.matrixU.det * svd.matrixV.det
  let s : Matrix (Fin 3) (Fin 3) K :=
    if detCov < 0 ∨ (detCov = 0 ∧ detUV < 0) then
      if sv 2 ≤ sv 0 ∧ sv 2 ≤ sv 1 then Matrix.diagonal ![1, 1, -1]
      else if sv 1 ≤ sv 0 ∧ sv 1 ≤ sv 2 then Matrix.diagonal ![1, -1, 1]
      else Matrix.diagonal ![-1, 1, 1]
    else 1
  let rot : Matrix (Fin 3) (Fin 3) K := svd.matrixU.transpose * s * svd.matrixV
  let c : K := if sFrom > 0 then 1 / sFrom * (d * s).trace else 1
  let t : Fin 3 → K := meanTo - (c • rot).mulVec meanFrom
  { linear := c • rot, translation := t }

/-- The library's decomposition of a rational matrix, as a decomposition over
the field of the rationals. -/
def SVD.over (svd : SVD) : SVDOver ℚ :=
  { matrixU := svd.matrixU, singularValues := svd.singularValues, matrixV := svd.matrixV }

/-- A singular value decomposition of `m`: `U` and `V` orthogonal, singular
values not negative, `m = U · diag(σ) · Vᵀ`. -/
def SVDOver.Valid {K : Type} [LinearOrderedField K] (m : Matrix (Fin 3) (Fin 3) K)
    (svd : SVDOver K) : Prop :=
  svd.matrixU.transpose * svd.matrixU = 1
    ∧ svd.matrixV.transpose * svd.matrixV = 1
    ∧ (∀ i, 0 ≤ svd.singularValues i)
    ∧ m = svd.matrixU * Matrix.diagonal svd.singularValues * svd.matrixV.transpose

/-- Singular values in decreasing order, as Eigen returns them. -/
def SVDOver.Sorted {K : Type} [LinearOrderedField K] (svd : SVDOver K) : Prop :=
  svd.singularValues 1 ≤ svd.singularValues 0 ∧ svd.singularValues 2 ≤ svd.singularValues 1

theorem Shape.add_smul_add (c : ℚ) (a b p : Shape) :
    Shape.add (Shape.add a (Shape.smul c b)) (Shape.smul c p)
      = Shape.add a (Shape.smul c (Shape.add b p)) := by
  induction a generalizing b p with
  | nil => simp [Shape.add]
  | cons x xs ih =>
    cases b with
    | nil => simp [Shape.add, Shape.smul]
    | cons y ys =>
      cases p with
      | nil => simp [Shape.add, Shape.smul]
      | cons z zs =>
        have h := ih ys zs
        simp only [Shape.add, Shape.smul, List.map_cons, List.zipWith_cons_cons] at h ⊢
        rw [h]
        congr 1
        rw [smul_add, add_assoc]

theorem Shape.add_smul_zero (c : ℚ) (a : Shape) :
    Shape.add a (Shape.smul c (Shape.zero a.length)) = a := by
  induction a with
  | nil => simp [Shape.add]
  | cons x xs ih =>
    simp only [Shape.add, Shape.smul, Shape.zero, List.length_cons, List.replicate_succ,
      List.map_cons, List.zipWith_cons_cons] at ih ⊢
    rw [ih]
    simp

theorem Shape.add_zero_smul (a b : Shape) (h : a.length ≤ b.length) :
    Shape.add a (Shape.smul 0 b) = a := by
  induction a generalizing b with
  | nil => simp [Shape.add]
  | cons x xs ih =>
    cases b with
    | nil => simp at h
    | cons y ys =>
      have h1 : xs.length ≤ ys.length := by simpa using h
      have h2 := ih ys h1
      simp only [Shape.add, Shape.smul, List.map_cons, List.zipWith_cons_cons] at h2 ⊢
      rw [h2]
      simp

theorem Shape.length_add (a b : Shape) : (Shape.add a b).length = min a.length b.length := by
  simp [Shape.add]

theorem Shape.length_zero (n : Nat) : (Shape.zero n).length = n := by
  simp [Shape.zero]

/-! ## Lemmas on prediction -/

theorem Regressor.predictLoop_eq (lr : ℚ) (intensities : PixelIntensities) (trees : List Tree)
    (sr acc : ShapeResidual) :
    Regressor.predictLoop lr intensities trees (Shape.add sr (Shape.smul lr acc))
      = Shape.add sr (Shape.smul lr
          (trees.foldl (fun a tree => Shape.add a (Tree.predict tree intensities)) acc)) := by
  induction trees generalizing acc with
  | nil => simp [Regressor.predictLoop]
  | cons tree trees ih =>
    simp only [Regressor.predictLoop, List.foldl_cons]
    rw [Shape.add_smul_add, ih]

theorem sumTreePredictions_length_aux (trees : List Tree) (intensities : PixelIntensities)
    (acc : ShapeResidual)
    (h : ∀ tree ∈ trees, acc.length ≤ (Tree.predict tree intensities).length) :
    (trees.foldl (fun a tree => Shape.add a (Tree.predict tree intensities)) acc).length
      = acc.length := by
  induction trees generalizing acc with
  | nil => simp
  | cons tree trees ih =>
    have h0 : acc.length ≤ (Tree.predict tree intensities).length :=
      h tree (List.mem_cons_self _ _)
    have hl : (Shape.add acc (Tree.predict tree intensities)).length = acc.length := by
      rw [Shape.length_add]; exact Nat.min_eq_left h0
    simp only [List.foldl_cons]
    rw [ih, hl]
    intro t ht
    rw [hl]
    exact h t (List.mem_cons_of_mem _ ht)

theorem Tracker.predictLoop_fst (ext : Extern) (img : Image) (shapeToImage : ShapeTransform)
    (stages : List Regressor) (e : Shape) (stepResults : Option (List Shape)) :
    (Tracker.predictLoop ext img shapeToImage stages e stepResults).1
      = cascadeEstimate ext img shapeToImage stages e := by
  induction stages generalizing e stepResults with
  | nil => simp [Tracker.predictLoop, cascadeEstimate]
  | cons stage stages ih =>
    simp only [Tracker.predictLoop, cascadeEstimate, List.foldl_cons]
    rw [ih]
    rfl

theorem Tree.predictLoop_leaf (nodes : List TreeNode) (intensities : PixelIntensities)
    (tests n : Nat) (h : (nodes.getD n default).split.idx1 < 0) :
    Tree.predictLoop nodes intensities (tests + 1) n = n := by
  rw [Tree.predictLoop]
  exact if_pos h

theorem Tree.predictLoop_left (nodes : List TreeNode) (intensities : PixelIntensities)
    (tests n : Nat) (h : ¬ (nodes.getD n default).split.idx1 < 0)
    (htest : coeff intensities (nodes.getD n default).split.idx1
        - coeff intensities (nodes.getD n default).split.idx2
        > (nodes.getD n default).split.threshold) :
    Tree.predictLoop nodes intensities (tests + 1) n
      = Tree.predictLoop nodes intensities tests (2 * n + 1) := by
  rw [Tree.predictLoop]
  show (if _ then _ else _) = _
  rw [if_neg h]
  show Tree.predictLoop nodes intensities tests (if _ then _ else _) = _
  rw [if_pos htest]

theorem Tree.predictLoop_right (nodes : List TreeNode) (intensities : PixelIntensities)
    (tests n : Nat) (h : ¬ (nodes.getD n default).split.idx1 < 0)
    (htest : ¬ (coeff intensities (nodes.getD n default).split.idx1
        - coeff intensities (nodes.getD n default).split.idx2
        > (nodes.getD n default).split.threshold)) :
    Tree.predictLoop nodes intensities (tests + 1) n
      = Tree.predictLoop nodes intensities tests (2 * n + 2) := by
  rw [Tree.predictLoop]
  show (if _ then _ else _) = _
  rw [if_neg h]
  show Tree.predictLoop nodes intensities tests (if _ then _ else _) = _
  rw [if_neg htest]

theorem Tree.predictLoop_descent (nodes : List TreeNode) (intensities : PixelIntensities)
    (tests k0 n0 : Nat) (h : Tree.Descent nodes intensities k0 n0) :
    ∃ k, Tree.Descent nodes intensities k (Tree.predictLoop nodes intensities tests n0)
      ∧ k ≤ k0 + tests
      ∧ ((nodes.getD (Tree.predictLoop nodes intensities tests n0) default).split.idx1 < 0
          ∨ k = k0 + tests) := by
  induction tests generalizing k0 n0 with
  | zero => exact ⟨k0, by simpa [Tree.predictLoop] using h, by simp, Or.inr (by simp)⟩
  | succ tests ih =>
    by_cases hleaf : (nodes.getD n0 default).split.idx1 < 0
    · rw [Tree.predictLoop_leaf nodes intensities tests n0 hleaf]
      exact ⟨k0, h, by omega, Or.inl hleaf⟩
    · have hge : 0 ≤ (nodes.getD n0 default).split.idx1 := by omega
      by_cases htest : coeff intensities (nodes.getD n0 default).split.idx1
          - coeff intensities (nodes.getD n0 default).split.idx2
          > (nodes.getD n0 default).split.threshold
      · obtain ⟨k, hk, hle, hstop⟩ := ih (k0 + 1) (2 * n0 + 1) (Tree.Descent.left h hge htest)
        rw [Tree.predictLoop_left nodes intensities tests n0 hleaf htest]
        refine ⟨k, hk, by omega, ?_⟩
        rcases hstop with hs | hs
        · exact Or.inl hs
        · exact Or.inr (by omega)
      · obtain ⟨k, hk, hle, hstop⟩ := ih (k0 + 1) (2 * n0 + 2) (Tree.Descent.right h hge htest)
        rw [Tree.predictLoop_right nodes intensities tests n0 hleaf htest]
        refine ⟨k, hk, by omega, ?_⟩
        rcases hstop with hs | hs
        · exact Or.inl hs
        · exact Or.inr (by omega)

/-! ## Lemmas on `Tree::fit` -/

theorem Tree.drawSplitPair_spec (ext : Extern) (hc : UniformIntInRange ext)
    (pix : PixelCoordinates) (hP : 0 < pix.length) (invlambda : ℚ) (passes : Nat) (iter : Int)
    (rnd : Rng) (hpass : iter + passes = maxAttempts) :
    (0 ≤ (Tree.drawSplitPair ext pix invlambda passes iter rnd).1
      ∧ (Tree.drawSplitPair ext pix invlambda passes iter rnd).1 < pix.length
      ∧ 0 ≤ (Tree.drawSplitPair ext pix invlambda passes iter rnd).2.1
      ∧ (Tree.drawSplitPair ext pix invlambda passes iter rnd).2.1 < pix.length)
    ∧ ((Tree.drawSplitPair ext pix invlambda passes iter rnd).2.2.1 ≤ maxAttempts →
        (Tree.drawSplitPair ext pix invlambda passes iter rnd).1
          ≠ (Tree.drawSplitPair ext pix invlambda passes iter rnd).2.1) := by
  have hhi : (0 : Int) ≤ (pix.length : Int) - 1 := by omega
  induction passes generalizing iter rnd with
  | zero =>
    have h1 := hc 0 ((pix.length : Int) - 1) rnd hhi
    have h2 := hc 0 ((pix.length : Int) - 1) (ext.uniformInt 0 ((pix.length : Int) - 1) rnd).2 hhi
    rw [Tree.drawSplitPair]
    dsimp only
    refine ⟨⟨h1.1, by omega, h2.1, by omega⟩, ?_⟩
    intro hle
    simp only [maxAttempts] at hpass hle
    simp only [Nat.cast_zero, add_zero] at hpass
    omega
  | succ more ih =>
    have h1 := hc 0 ((pix.length : Int) - 1) rnd hhi
    have h2 := hc 0 ((pix.length : Int) - 1) (ext.uniformInt 0 ((pix.length : Int) - 1) rnd).2 hhi
    rw [Tree.drawSplitPair]
    split
    · rename_i hcont
      apply ih
      push_cast at hpass
      omega
    · rename_i hstop
      dsimp only
      refine ⟨⟨h1.1, by omega, h2.1, by omega⟩, ?_⟩
      intro hle heq
      exact hstop ⟨hle, Or.inl heq⟩

theorem Tree.sampleSplitLoop_valid (ext : Extern) (hc : UniformIntInRange ext)
    (pix : PixelCoordinates) (hP : 0 < pix.length) (invlambda : ℚ) (tests : Nat)
    (splits : List SplitInfo) (rnd : Rng)
    (h : ∀ sp ∈ splits, SplitInfo.Valid pix.length sp) :
    ∀ sp ∈ (Tree.sampleSplitLoop ext pix invlambda tests splits rnd).1,
      SplitInfo.Valid pix.length sp := by
  induction tests generalizing splits rnd with
  | zero => simpa [Tree.sampleSplitLoop] using h
  | succ tests ih =>
    rw [Tree.sampleSplitLoop]
    dsimp only
    have hp := Tree.drawSplitPair_spec ext hc pix hP invlambda maxAttempts.toNat 0 rnd
      (by simp [maxAttempts])
    split
    · rename_i hle
      apply ih
      intro sp hsp
      rcases List.mem_append.mp hsp with h1 | h1
      · exact h sp h1
      · have : sp = _ := List.mem_singleton.mp h1
        subst this
        exact ⟨hp.1.1, hp.1.2.1, hp.1.2.2.1, hp.1.2.2.2, hp.2 hle⟩
    · exact ih _ _ h

theorem Tree.sampleSplitPositions_valid (ext : Extern) (hc : UniformIntInRange ext)
    (t : TreeTraining) (hP : 0 < t.pixelCoordinates.length) (rnd : Rng) :
    ∀ sp ∈ (Tree.sampleSplitPositions ext t rnd).1,
      SplitInfo.Valid t.pixelCoordinates.length sp := by
  apply Tree.sampleSplitLoop_valid ext hc _ hP
  simp

theorem getD_mem_cons {α : Type} (x : α) (xs : List α) (i : Nat) :
    (x :: xs).getD i x ∈ x :: xs := by
  by_cases h : i < (x :: xs).length
  · rw [List.getD_eq_getElem _ _ h]
    exact List.getElem_mem h
  · rw [List.getD_eq_default _ _ (by omega)]
    exact List.mem_cons_self _ _

theorem Tree.splitNode_none (ext : Extern) (t : TreeTraining) (s s1 : FitState)
    (parent : NodeInfo) (h : Tree.splitNode ext t s parent = (s1, none)) :
    s1.queue = s.queue ∧ s1.leafWrites = s.leafWrites ∧ s1.nodes.length = s.nodes.length
      ∧ (∀ m, m ≠ parent.node → s1.nodes.getD m default = s.nodes.getD m default)
      ∧ (∀ m, m ∈ s1.splitWrites → m = parent.node ∨ m ∈ s.splitWrites)
      ∧ (∀ m, m ∈ s.splitWrites → m ∈ s1.splitWrites) := by
  unfold Tree.splitNode at h
  dsimp only at h
  split at h
  · cases h
    exact ⟨rfl, rfl, rfl, fun _ _ => rfl, fun _ hm => Or.inr hm, fun _ hm => hm⟩
  · split at h
    · cases h
      exact ⟨rfl, rfl, rfl, fun _ _ => rfl, fun _ hm => Or.inr hm, fun _ hm => hm⟩
    · split at h
      · cases h
        refine ⟨rfl, rfl, by simp, ?_, ?_, ?_⟩
        · intro m hm
          simp only [List.getD_eq_getElem?_getD]
          rw [List.getElem?_set_ne (Ne.symm hm)]
        · intro m hm
          simpa using hm
        · intro m hm
          exact List.mem_cons_of_mem _ hm
      · cases h

theorem Tree.splitNode_some (ext : Extern) (t : TreeTraining) (s s1 : FitState)
    (parent left right : NodeInfo)
    (h : Tree.splitNode ext t s parent = (s1, some (left, right))) :
    s1.queue = s.queue ∧ s1.leafWrites = s.leafWrites
      ∧ s1.splitWrites = parent.node :: s.splitWrites
      ∧ (∃ best ∈ (Tree.sampleSplitPositions ext t s.rnd).1,
          s1.nodes = s.nodes.set parent.node
            { (s.nodes.getD parent.node default) with split := best })
      ∧ left.node = parent.node * 2 + 1 ∧ right.node = parent.node * 2 + 2
      ∧ left.depth = parent.depth + 1 ∧ right.depth = parent.depth + 1 := by
  unfold Tree.splitNode at h
  dsimp only at h
  split at h
  · cases h
  · split at h
    · cases h
    · rename_i first rest hsplits
      split at h
      · cases h
      · cases h
        refine ⟨rfl, rfl, rfl, ⟨_, ?_, rfl⟩, rfl, rfl, rfl, rfl⟩
        rw [hsplits]
        exact getD_mem_cons _ _ _

theorem getD_set_self (nodes : List TreeNode) (n : Nat) (x : TreeNode) (h : n < nodes.length) :
    (nodes.set n x).getD n default = x := by
  simp only [List.getD_eq_getElem?_getD]
  rw [List.getElem?_set_self (by simpa using h)]
  rfl

theorem getD_set_other (nodes : List TreeNode) (n m : Nat) (x : TreeNode) (h : m ≠ n) :
    (nodes.set n x).getD m default = nodes.getD m default := by
  simp only [List.getD_eq_getElem?_getD]
  rw [List.getElem?_set_ne (Ne.symm h)]

theorem level_bound (D : Nat) (q : NodeInfo)
    (h : 1 ≤ q.depth ∧ q.depth ≤ (D : Int) ∧ q.node + 1 < 2 ^ q.depth.toNat) :
    q.node < 2 ^ D - 1 := by
  have h1 : q.depth.toNat ≤ D := by omega
  have h2 : 2 ^ q.depth.toNat ≤ 2 ^ D := Nat.pow_le_pow_right (by norm_num) h1
  omega

/-- Writing a leaf at the popped node keeps the invariant. -/
theorem FitInv.makeLeaf (P D : Nat) (t : TreeTraining) (s a : FitState) (nr : NodeInfo)
    (rest : List NodeInfo) (hinv : FitInv P D s) (hq : s.queue = nr :: rest)
    (hqa : a.queue = rest) (hla : a.leafWrites = s.leafWrites)
    (hlen : a.nodes.length = s.nodes.length)
    (hnodes : ∀ m, m ≠ nr.node → a.nodes.getD m default = s.nodes.getD m default)
    (hsub : ∀ m, m ∈ a.splitWrites → m = nr.node ∨ m ∈ s.splitWrites)
    (hsup : ∀ m, m ∈ s.splitWrites → m ∈ a.splitWrites) :
    FitInv P D (Tree.makeLeaf t a nr) := by
  have hnr : nr ∈ s.queue := by rw [hq]; exact List.mem_cons_self _ _
  have hlev := hinv.level nr hnr
  have hbound : nr.node < 2 ^ D - 1 := level_bound D nr hlev
  have hmono : ∀ c, s.Reached c → (Tree.makeLeaf t a nr).Reached c := by
    intro c hc
    rcases hc with hc | hc | hc
    · rw [hq] at hc
      simp only [List.map_cons, List.mem_cons] at hc
      rcases hc with hc | hc
      · right; right
        simp [Tree.makeLeaf, hc]
      · left
        simpa [Tree.makeLeaf, hqa] using hc
    · right; left
      simpa [Tree.makeLeaf] using hsup c hc
    · right; right
      simp [Tree.makeLeaf, hla, hc]
  constructor
  · simp [Tree.makeLeaf, hlen, hinv.length]
  · intro q hqm
    apply hinv.level
    rw [hq]
    apply List.mem_cons_of_mem
    simpa [Tree.makeLeaf, hqa] using hqm
  · intro m hm
    by_cases hmn : m = nr.node
    · subst hmn
      refine ⟨hbound, Or.inl ⟨?_, ?_⟩⟩
      · have hlt : nr.node < a.nodes.length := by rw [hlen, hinv.length]; exact hbound
        simp only [Tree.makeLeaf]
        rw [getD_set_self _ _ _ hlt]
        exact ⟨rfl, rfl⟩
      · simp [Tree.makeLeaf]
    · have hw : s.Written m := by
        rcases hm with hm | hm
        · left
          rcases hsub m (by simpa [Tree.makeLeaf] using hm) with h1 | h1
          · exact absurd h1 hmn
          · exact h1
        · right
          have : m ∈ nr.node :: a.leafWrites := by simpa [Tree.makeLeaf] using hm
          rcases List.mem_cons.mp this with h1 | h1
          · exact absurd h1 hmn
          · rw [hla] at h1; exact h1
      obtain ⟨hb, hform⟩ := hinv.written m hw
      have hsame : (Tree.makeLeaf t a nr).nodes.getD m default = s.nodes.getD m default := by
        simp only [Tree.makeLeaf]
        rw [getD_set_other _ _ _ _ hmn, hnodes m hmn]
      refine ⟨hb, ?_⟩
      rw [hsame]
      rcases hform with ⟨hl, hml⟩ | ⟨hv, hd, hc1, hc2⟩
      · left
        refine ⟨hl, ?_⟩
        simp [Tree.makeLeaf, hla, hml]
      · right
        exact ⟨hv, hd, hmono _ hc1, hmono _ hc2⟩
  · exact hmono 0 hinv.root

/-- A successful split of the popped node keeps the invariant. -/
theorem FitInv.split (P D : Nat) (s s1 : FitState) (nr left right : NodeInfo)
    (rest : List NodeInfo) (best : SplitInfo) (hinv : FitInv P D s) (hq : s.queue = nr :: rest)
    (hdepth : nr.depth < (D : Int)) (hbest : SplitInfo.Valid P best)
    (hq1 : s1.queue = rest) (hl1 : s1.leafWrites = s.leafWrites)
    (hs1 : s1.splitWrites = nr.node :: s.splitWrites)
    (hn1 : s1.nodes = s.nodes.set nr.node { (s.nodes.getD nr.node default) with split := best })
    (hln : left.node = nr.node * 2 + 1) (hrn : right.node = nr.node * 2 + 2)
    (hld : left.depth = nr.depth + 1) (hrd : right.depth = nr.depth + 1) :
    FitInv P D { s1 with queue := s1.queue ++ [left, right] } := by
  have hnr : nr ∈ s.queue := by rw [hq]; exact List.mem_cons_self _ _
  have hlev := hinv.level nr hnr
  have hbound : nr.node < 2 ^ D - 1 := level_bound D nr hlev
  have htn : (nr.depth + 1).toNat = nr.depth.toNat + 1 := by omega
  have hpow : 2 ^ (nr.depth.toNat + 1) = 2 * 2 ^ nr.depth.toNat := by ring
  have hmono : ∀ c, s.Reached c → FitState.Reached { s1 with queue := s1.queue ++ [left, right] } c := by
    intro c hc
    rcases hc with hc | hc | hc
    · rw [hq] at hc
      simp only [List.map_cons, List.mem_cons] at hc
      rcases hc with hc | hc
      · right; left
        simp [hs1, hc]
      · left
        simp only [hq1, List.map_append, List.mem_append]
        exact Or.inl hc
    · right; left
      simp [hs1, hc]
    · right; right
      simpa [hl1] using hc
  constructor
  · simp [hn1, hinv.length]
  · intro q hqm
    simp only [hq1, List.mem_append, List.mem_cons, List.mem_singleton, List.not_mem_nil,
      or_false] at hqm
    rcases hqm with hqm | hqm | hqm
    · apply hinv.level
      rw [hq]
      exact List.mem_cons_of_mem _ hqm
    · subst hqm
      rw [hld, hln, htn, hpow]
      refine ⟨by omega, by omega, by omega⟩
    · subst hqm
      rw [hrd, hrn, htn, hpow]
      refine ⟨by omega, by omega, by omega⟩
  · intro m hm
    by_cases hmn : m = nr.node
    · subst hmn
      refine ⟨hbound, Or.inr ⟨?_, ?_, ?_, ?_⟩⟩
      · have hlt : nr.node < s.nodes.length := by rw [hinv.length]; exact hbound
        simp only [hn1]
        rw [getD_set_self _ _ _ hlt]
        exact hbest
      · have h1 : nr.depth.toNat ≤ D - 1 := by omega
        have h2 : 2 ^ nr.depth.toNat ≤ 2 ^ (D - 1) := Nat.pow_le_pow_right (by norm_num) h1
        omega
      · left
        simp only [hq1, List.map_append, List.mem_append, List.map_cons, List.mem_cons]
        right; left
        rw [hln]; ring
      · left
        simp only [hq1, List.map_append, List.mem_append, List.map_cons, List.mem_cons]
        right; right; left
        rw [hrn]; ring
    · have hw : s.Written m := by
        rcases hm with hm | hm
        · left
          have : m ∈ nr.node :: s.splitWrites := by simpa [hs1] using hm
          rcases List.mem_cons.mp this with h1 | h1
          · exact absurd h1 hmn
          · exact h1
        · right
          simpa [hl1] using hm
      obtain ⟨hb, hform⟩ := hinv.written m hw
      have hsame : s1.nodes.getD m default = s.nodes.getD m default := by
        rw [hn1, getD_set_other _ _ _ _ hmn]
      refine ⟨hb, ?_⟩
      show (TreeNode.IsLeaf (s1.nodes.getD m default) ∧ m ∈ s1.leafWrites) ∨ _
      rw [hsame]
      rcases hform with ⟨hl, hml⟩ | ⟨hv, hd, hc1, hc2⟩
      · left
        exact ⟨hl, by rw [hl1]; exact hml⟩
      · right
        exact ⟨hv, hd, hmono _ hc1, hmono _ hc2⟩
  · exact hmono 0 hinv.root

/-- One pass of the loop keeps the invariant. -/
theorem FitInv.fitStep (ext : Extern) (hc : UniformIntInRange ext) (t : TreeTraining)
    (hP : 0 < t.pixelCoordinates.length) (D : Nat) (s : FitState) (nr : NodeInfo)
    (rest : List NodeInfo) (hinv : FitInv t.pixelCoordinates.length D s)
    (hq : s.queue = nr :: rest) :
    FitInv t.pixelCoordinates.length D
      (Tree.fitStep ext t (D : Int) { s with queue := rest } nr) := by
  unfold Tree.fitStep
  split
  · rename_i hdepth
    rcases hsn : Tree.splitNode ext t { s with queue := rest } nr with ⟨s1, _ | ⟨left, right⟩⟩
    · obtain ⟨h1, h2, h3, h4, h5, h6⟩ := Tree.splitNode_none ext t _ s1 nr hsn
      exact FitInv.makeLeaf _ D t s s1 nr rest hinv hq h1 h2 h3 h4 h5 h6
    · obtain ⟨h1, h2, h3, ⟨best, hbest, h4⟩, h5, h6, h7, h8⟩ :=
        Tree.splitNode_some ext t _ s1 nr left right hsn
      exact FitInv.split _ D s s1 nr left right rest best hinv hq hdepth
        (Tree.sampleSplitPositions_valid ext hc t hP _ best hbest) h1 h2 h3 h4 h5 h6 h7 h8
  · exact FitInv.makeLeaf _ D t s { s with queue := rest } nr rest hinv hq rfl rfl rfl
      (fun _ _ => rfl) (fun _ hm => Or.inr hm) (fun _ hm => hm)

/-- When the loop ends, the invariant holds and the queue is empty. -/
theorem Tree.fitLoop_inv (ext : Extern) (hc : UniformIntInRange ext) (t : TreeTraining)
    (hP : 0 < t.pixelCoordinates.length) (D : Nat) (passes : Nat) (s s1 : FitState)
    (hinv : FitInv t.pixelCoordinates.length D s)
    (h : Tree.fitLoop ext t (D : Int) passes s = some s1) :
    FitInv t.pixelCoordinates.length D s1 ∧ s1.queue = [] := by
  induction passes generalizing s with
  | zero =>
    unfold Tree.fitLoop at h
    split at h
    · rename_i hq
      cases h
      exact ⟨hinv, hq⟩
    · simp at h
  | succ more ih =>
    unfold Tree.fitLoop at h
    split at h
    · rename_i hq
      cases h
      exact ⟨hinv, hq⟩
    · rename_i nr rest hq
      exact ih _ (FitInv.fitStep ext hc t hP D s nr rest hinv hq) h

theorem Tree.fitStep_queue (ext : Extern) (t : TreeTraining) (depth : Int) (s : FitState)
    (nr : NodeInfo) :
    (Tree.fitStep ext t depth s nr).queue = s.queue
      ∨ (nr.depth < depth ∧ ∃ left right : NodeInfo,
          (Tree.fitStep ext t depth s nr).queue = s.queue ++ [left, right]
            ∧ left.depth = nr.depth + 1 ∧ right.depth = nr.depth + 1) := by
  unfold Tree.fitStep
  split
  · rename_i hdepth
    rcases hsn : Tree.splitNode ext t s nr with ⟨s1, _ | ⟨left, right⟩⟩
    · left
      simp [Tree.makeLeaf, (Tree.splitNode_none ext t s s1 nr hsn).1]
    · right
      obtain ⟨h1, -, -, -, -, -, h7, h8⟩ := Tree.splitNode_some ext t s s1 nr left right hsn
      exact ⟨hdepth, left, right, by simp [h1], h7, h8⟩
  · left
    simp [Tree.makeLeaf]

theorem NodeInfo.weight_pos (D : Nat) (q : NodeInfo) (h : q.depth ≤ (D : Int)) :
    1 ≤ NodeInfo.weight D q := by
  unfold NodeInfo.weight
  have h1 : 1 ≤ D + 1 - q.depth.toNat := by omega
  have h2 : 2 ^ 1 ≤ 2 ^ (D + 1 - q.depth.toNat) := Nat.pow_le_pow_right (by norm_num) h1
  omega

theorem NodeInfo.weight_children (D : Nat) (q left right : NodeInfo) (h1 : 1 ≤ q.depth)
    (h : q.depth < (D : Int)) (hl : left.depth = q.depth + 1) (hr : right.depth = q.depth + 1) :
    NodeInfo.weight D left + NodeInfo.weight D right + 1 = NodeInfo.weight D q := by
  unfold NodeInfo.weight
  rw [hl, hr]
  have e1 : D + 1 - (q.depth + 1).toNat = D - q.depth.toNat := by omega
  have e2 : D + 1 - q.depth.toNat = (D - q.depth.toNat) + 1 := by omega
  rw [e1, e2, pow_succ]
  have h2 : 1 ≤ 2 ^ (D - q.depth.toNat) := Nat.one_le_two_pow
  omega

/-- The loop ends within as many passes as the weight of its queue. -/
theorem Tree.fitLoop_isSome (ext : Extern) (t : TreeTraining) (D : Nat) (passes : Nat)
    (s : FitState) (hlev : ∀ q ∈ s.queue, 1 ≤ q.depth ∧ q.depth ≤ (D : Int))
    (hw : queueWeight D s.queue ≤ passes) :
    ∃ s1, Tree.fitLoop ext t (D : Int) passes s = some s1 := by
  induction passes generalizing s with
  | zero =>
    unfold Tree.fitLoop
    split
    · exact ⟨s, rfl⟩
    · rename_i nr rest hq
      exfalso
      have hpos := NodeInfo.weight_pos D nr (hlev nr (by rw [hq]; exact List.mem_cons_self _ _)).2
      rw [hq] at hw
      simp only [queueWeight, List.map_cons, List.sum_cons] at hw
      omega
  | succ more ih =>
    unfold Tree.fitLoop
    split
    · exact ⟨s, rfl⟩
    · rename_i nr rest hq
      have hnr := hlev nr (by rw [hq]; exact List.mem_cons_self _ _)
      have hrest : ∀ q ∈ rest, 1 ≤ q.depth ∧ q.depth ≤ (D : Int) := fun q hqm =>
        hlev q (by rw [hq]; exact List.mem_cons_of_mem _ hqm)
      rw [hq] at hw
      simp only [queueWeight, List.map_cons, List.sum_cons] at hw
      have hpos := NodeInfo.weight_pos D nr hnr.2
      apply ih
      · intro q hqm
        rcases Tree.fitStep_queue ext t (D : Int) { s with queue := rest } nr with hsame | hpush
        · rw [hsame] at hqm
          exact hrest q hqm
        · obtain ⟨hd, left, right, hqueue, hl, hr⟩ := hpush
          rw [hqueue] at hqm
          simp only [List.mem_append, List.mem_cons, List.mem_singleton, List.not_mem_nil,
            or_false] at hqm
          rcases hqm with hqm | hqm | hqm
          · exact hrest q hqm
          · subst hqm; omega
          · subst hqm; omega
      · rcases Tree.fitStep_queue ext t (D : Int) { s with queue := rest } nr with hsame | hpush
        · rw [hsame]
          simp only [queueWeight]
          omega
        · obtain ⟨hd, left, right, hqueue, hl, hr⟩ := hpush
          rw [hqueue]
          have hch := NodeInfo.weight_children D nr left right hnr.1 hd hl hr
          simp only [queueWeight, List.map_append, List.sum_append, List.map_cons, List.sum_cons,
            List.map_nil, List.sum_nil]
          omega

theorem resizeNodes_length (nodes : List TreeNode) (n : Nat) :
    (resizeNodes nodes n).length = n := by
  simp only [resizeNodes, List.length_append, List.length_take, List.length_replicate]
  omega

theorem Tree.numNodes_eq (depth : Int) (h1 : 1 ≤ depth) (h30 : depth ≤ 30) :
    Tree.numNodes depth = some (2 ^ depth.toNat - 1) := by
  unfold Tree.numNodes
  have h : depth.toNat ≤ 30 := by omega
  have h2 : (2 : Int) ^ depth.toNat ≤ 2 ^ 30 := pow_le_pow_right₀ (by norm_num) h
  rw [if_pos (by norm_num at h2 ⊢; omega)]

theorem Tree.numNodes_some (depth : Int) (n : Nat) (h : Tree.numNodes depth = some n) :
    n = 2 ^ depth.toNat - 1 := by
  unfold Tree.numNodes at h
  split at h
  · cases h; rfl
  · cases h

/-- The invariant holds when `fit` enters its loop. -/
theorem FitInv.init (P D : Nat) (hD : 1 ≤ D) (self : Tree) (t : TreeTraining) :
    FitInv P D (Tree.fitInit self t (2 ^ D - 1)) := by
  constructor
  · simp [Tree.fitInit, resizeNodes_length]
  · intro q hq
    simp only [Tree.fitInit, List.mem_singleton] at hq
    subst hq
    refine ⟨by simp, by simp; omega, by simp⟩
  · intro n hn
    rcases hn with hn | hn <;> simp [Tree.fitInit] at hn
  · left
    simp [Tree.fitInit]

/-- For a depth up to 30 `fit` has a result: the cast is defined and the loop
ends within the passes it is given. -/
theorem Tree.fitState_isSome (ext : Extern) (self : Tree) (t : TreeTraining)
    (h30 : t.training.params.maxTreeDepth ≤ 30) :
    ∃ s, Tree.fitState ext self t = some s := by
  have h1 : 1 ≤ max t.training.params.maxTreeDepth 1 := le_max_right _ _
  have h2 : max t.training.params.maxTreeDepth 1 ≤ 30 := max_le h30 (by norm_num)
  unfold Tree.fitState
  dsimp only
  rw [Tree.numNodes_eq _ h1 h2]
  dsimp only
  have hcast : ((max t.training.params.maxTreeDepth 1).toNat : Int)
      = max t.training.params.maxTreeDepth 1 := Int.toNat_of_nonneg (by omega)
  have := Tree.fitLoop_isSome ext t (max t.training.params.maxTreeDepth 1).toNat
    (2 ^ (max t.training.params.maxTreeDepth 1).toNat - 1)
    (Tree.fitInit self t (2 ^ (max t.training.params.maxTreeDepth 1).toNat - 1))
    (by
      intro q hq
      simp only [Tree.fitInit, List.mem_singleton] at hq
      subst hq
      refine ⟨by simp, ?_⟩
      simp only [hcast]
      exact h1)
    (by
      simp only [queueWeight, Tree.fitInit, NodeInfo.weight, List.map_cons, List.map_nil,
        List.sum_cons, List.sum_nil]
      have : (1 : Int).toNat = 1 := rfl
      simp [this])
  rw [hcast] at this
  exact this

/-- The final state of `fit` satisfies the invariant, with an empty queue. -/
theorem Tree.fitState_inv (ext : Extern) (hc : UniformIntInRange ext) (self : Tree)
    (t : TreeTraining) (hP : 0 < t.pixelCoordinates.length) (s : FitState)
    (h : Tree.fitState ext self t = some s) :
    FitInv t.pixelCoordinates.length (max t.training.params.maxTreeDepth 1).toNat s
      ∧ s.queue = [] := by
  have h1 : 1 ≤ max t.training.params.maxTreeDepth 1 := le_max_right _ _
  have hcast : ((max t.training.params.maxTreeDepth 1).toNat : Int)
      = max t.training.params.maxTreeDepth 1 := Int.toNat_of_nonneg (by omega)
  unfold Tree.fitState at h
  dsimp only at h
  split at h
  · cases h
  · rename_i numNodes hn
    have hnum := Tree.numNodes_some _ _ hn
    subst hnum
    rw [← hcast] at h
    refine Tree.fitLoop_inv ext hc t hP _ _ _ s ?_ (by rw [hcast] at h ⊢; exact h)
    exact FitInv.init _ _ (by omega) self t

theorem Tree.fitStep_length (ext : Extern) (t : TreeTraining) (depth : Int) (s : FitState)
    (nr : NodeInfo) : (Tree.fitStep ext t depth s nr).nodes.length = s.nodes.length := by
  unfold Tree.fitStep
  split
  · rcases hsn : Tree.splitNode ext t s nr with ⟨s1, _ | ⟨left, right⟩⟩
    · simp [Tree.makeLeaf, (Tree.splitNode_none ext t s s1 nr hsn).2.2.1]
    · obtain ⟨-, -, -, ⟨best, -, h4⟩, -⟩ := Tree.splitNode_some ext t s s1 nr left right hsn
      simp [h4]
  · simp [Tree.makeLeaf]

theorem Tree.fitLoop_length (ext : Extern) (t : TreeTraining) (depth : Int) (passes : Nat)
    (s s1 : FitState) (h : Tree.fitLoop ext t depth passes s = some s1) :
    s1.nodes.length = s.nodes.length := by
  induction passes generalizing s with
  | zero =>
    unfold Tree.fitLoop at h
    split at h
    · cases h; rfl
    · simp at h
  | succ more ih =>
    unfold Tree.fitLoop at h
    split at h
    · cases h; rfl
    · rw [ih _ h, Tree.fitStep_length]

theorem Tree.fitState_length (ext : Extern) (self : Tree) (t : TreeTraining) (s : FitState)
    (h : Tree.fitState ext self t = some s) :
    s.nodes.length = 2 ^ (max t.training.params.maxTreeDepth 1).toNat - 1 := by
  unfold Tree.fitState at h
  dsimp only at h
  split at h
  · cases h
  · rename_i numNodes hn
    have hnum := Tree.numNodes_some _ _ hn
    rw [Tree.fitLoop_length ext t _ _ _ s h]
    simp [Tree.fitInit, resizeNodes_length, hnum]

theorem Tree.fit_some (ext : Extern) (self : Tree) (t : TreeTraining) (tree : Tree)
    (t1 : TreeTraining) (h : Tree.fit ext self t = some (tree, t1)) :
    ∃ s, Tree.fitState ext self t = some s
      ∧ tree = { nodes := s.nodes, depth := max t.training.params.maxTreeDepth 1 }
      ∧ t1 = TreeTraining.update t s.samples s.rnd := by
  unfold Tree.fit at h
  rcases hs : Tree.fitState ext self t with _ | s
  · rw [hs] at h; cases h
  · rw [hs] at h
    simp only [Option.map_some', Option.some.injEq, Prod.mk.injEq] at h
    exact ⟨s, rfl, h.1.symm, h.2.symm⟩

theorem Extern.sample_uniformInt : UniformIntInRange Extern.sample := by
  intro a b rnd hab
  simp only [Extern.sample]
  have h1 : 0 ≤ (rnd : Int) % (b - a + 1) := Int.emod_nonneg _ (by omega)
  have h2 : (rnd : Int) % (b - a + 1) < b - a + 1 := Int.emod_lt_of_pos _ (by omega)
  constructor <;> omega

/-- In the final state of `fit`, the descent of `predict` from a written node
stays on written nodes and ends in a node written as a leaf. -/
theorem Tree.predictVisited_written (P D : Nat) (s : FitState) (hinv : FitInv P D s)
    (hq : s.queue = []) (intensities : PixelIntensities) (tests k n : Nat)
    (hk : k + tests + 1 = D) (hn : s.Written n) (hlow : 2 ^ k ≤ n + 1) :
    (∀ m ∈ Tree.predictVisited s.nodes intensities tests n, s.Written m)
      ∧ Tree.predictLoop s.nodes intensities tests n ∈ s.leafWrites
      ∧ TreeNode.IsLeaf (s.nodes.getD (Tree.predictLoop s.nodes intensities tests n) default)
      ∧ Tree.predictLoop s.nodes intensities tests n
          ∈ Tree.predictVisited s.nodes intensities tests n := by
  have hreach : ∀ c, s.Reached c → s.Written c := by
    intro c hc
    rcases hc with hc | hc
    · rw [hq] at hc; simp at hc
    · exact hc
  induction tests generalizing k n with
  | zero =>
    obtain ⟨-, hform⟩ := hinv.written n hn
    have hkD : k = D - 1 := by omega
    rcases hform with ⟨hl, hml⟩ | ⟨-, hd, -, -⟩
    · simp only [Tree.predictVisited, Tree.predictLoop]
      exact ⟨fun m hm => by rw [List.mem_singleton.mp hm]; exact hn, hml, hl,
        List.mem_singleton.mpr rfl⟩
    · rw [hkD] at hlow; omega
  | succ tests ih =>
    obtain ⟨-, hform⟩ := hinv.written n hn
    by_cases hleaf : (s.nodes.getD n default).split.idx1 < 0
    · rw [Tree.predictLoop_leaf _ _ _ _ hleaf]
      have hv : Tree.predictVisited s.nodes intensities (tests + 1) n = [n] := by
        rw [Tree.predictVisited]
        exact if_pos hleaf
      rw [hv]
      rcases hform with ⟨hl, hml⟩ | ⟨hvalid, -, -, -⟩
      · exact ⟨fun m hm => by rw [List.mem_singleton.mp hm]; exact hn, hml, hl,
          List.mem_singleton.mpr rfl⟩
      · exact absurd hleaf (by have := hvalid.1; omega)
    · rcases hform with ⟨hl, -⟩ | ⟨-, -, hc1, hc2⟩
      · exact absurd (by rw [hl.1]; norm_num) hleaf
      · have hpow : 2 ^ (k + 1) = 2 * 2 ^ k := by ring
        by_cases htest : coeff intensities (s.nodes.getD n default).split.idx1
            - coeff intensities (s.nodes.getD n default).split.idx2
            > (s.nodes.getD n default).split.threshold
        · rw [Tree.predictLoop_left _ _ _ _ hleaf htest]
          have hv : Tree.predictVisited s.nodes intensities (tests + 1) n
              = n :: Tree.predictVisited s.nodes intensities tests (2 * n + 1) := by
            rw [Tree.predictVisited]
            show (if _ then _ else _) = _
            rw [if_neg hleaf]
            show n :: Tree.predictVisited s.nodes intensities tests (if _ then _ else _) = _
            rw [if_pos htest]
          rw [hv]
          obtain ⟨h1, h2, h3, h4⟩ := ih (k + 1) (2 * n + 1) (by omega) (hreach _ hc1)
            (by rw [hpow]; omega)
          refine ⟨?_, h2, h3, List.mem_cons_of_mem _ h4⟩
          intro m hm
          rcases List.mem_cons.mp hm with hm | hm
          · rw [hm]; exact hn
          · exact h1 m hm
        · rw [Tree.predictLoop_right _ _ _ _ hleaf htest]
          have hv : Tree.predictVisited s.nodes intensities (tests + 1) n
              = n :: Tree.predictVisited s.nodes intensities tests (2 * n + 2) := by
            rw [Tree.predictVisited]
            show (if _ then _ else _) = _
            rw [if_neg hleaf]
            show n :: Tree.predictVisited s.nodes intensities tests (if _ then _ else _) = _
            rw [if_neg htest]
          rw [hv]
          obtain ⟨h1, h2, h3, h4⟩ := ih (k + 1) (2 * n + 2) (by omega) (hreach _ hc2)
            (by rw [hpow]; omega)
          refine ⟨?_, h2, h3, List.mem_cons_of_mem _ h4⟩
          intro m hm
          rcases List.mem_cons.mp hm with hm | hm
          · rw [hm]; exact hn
          · exact h1 m hm

/-! ## Lemmas on the mean of residuals -/

theorem Shape.add_range_map (L : Nat) (f : Nat → Vec3) (r : Shape) (h : r.length = L) :
    Shape.add ((List.range L).map f) r = (List.range L).map fun j => f j + r.getD j 0 := by
  apply List.ext_getElem
  · simp [Shape.add, h]
  · intro i h1 h2
    have hi : i < r.length := by
      simp [Shape.add] at h1
      omega
    simp [Shape.add, List.getElem?_eq_getElem hi]

theorem Shape.foldl_add_range_map (L : Nat) (rs : List Shape) (f : Nat → Vec3)
    (h : ∀ r ∈ rs, r.length = L) :
    rs.foldl Shape.add ((List.range L).map f)
      = (List.range L).map fun j => f j + (rs.map fun m => m.getD j 0).sum := by
  induction rs generalizing f with
  | nil => simp
  | cons r rs ih =>
    have hr : r.length = L := h r (List.mem_cons_self _ _)
    simp only [List.foldl_cons]
    rw [Shape.add_range_map L f r hr, ih _ (fun x hx => h x (List.mem_cons_of_mem _ hx))]
    apply List.map_congr_left
    intro j _
    simp only [List.map_cons, List.sum_cons]
    rw [add_assoc]

theorem Shape.zero_eq_range_map (L : Nat) : Shape.zero L = (List.range L).map fun _ => 0 := by
  apply List.ext_getElem
  · simp [Shape.zero]
  · intro i h1 h2
    simp [Shape.zero]

theorem sum_map_apply {α : Type} (l : List α) (g : α → Vec3) (r : Fin 3) :
    (l.map g).sum r = (l.map fun m => g m r).sum := by
  induction l with
  | nil => simp
  | cons x xs ih => simp [ih]

/-- The mean `meanResidualOfRange` computes over the whole sample vector is the
arithmetic mean of the residuals. -/
theorem meanResidualOfRange_all (samples : List TreeSample) (numLandmarks : Int)
    (hne : samples ≠ [])
    (hL : ∀ s ∈ samples, (s.residual.length : Int) = numLandmarks) :
    meanResidualOfRange samples (0, samples.length) numLandmarks
      = arithmeticMean (samples.map fun s => s.residual) numLandmarks.toNat := by
  have hpos : 0 < samples.length := List.length_pos.mpr hne
  have hfold : samples.foldl (fun m s => Shape.add m s.residual) (Shape.zero numLandmarks.toNat)
      = (samples.map fun s => s.residual).foldl Shape.add (Shape.zero numLandmarks.toNat) := by
    rw [List.foldl_map]
  have hlen : ∀ r ∈ samples.map (fun s => s.residual), r.length = numLandmarks.toNat := by
    intro r hr
    obtain ⟨x, hx, rfl⟩ := List.mem_map.mp hr
    have := hL x hx
    omega
  simp only [meanResidualOfRange, rangeSamples, numElementsInRange, List.drop_zero, Nat.sub_zero,
    List.take_length]
  rw [if_pos hpos, hfold, Shape.zero_eq_range_map, Shape.foldl_add_range_map _ _ _ hlen]
  simp only [Shape.divScalar, arithmeticMean, List.map_map, List.length_map]
  apply List.map_congr_left
  intro j _
  funext r
  simp only [Function.comp_apply, Pi.add_apply, Pi.zero_apply, zero_add]
  rw [sum_map_apply]
  rfl

theorem set_zero_of_length_one (l : List TreeNode) (x : TreeNode) (h : l.length = 1) :
    l.set 0 x = [x] := by
  match l, h with
  | [y], _ => rfl

/-- The final state of `fit` for a configured depth of at most 1: one pass, which
writes the root as a leaf over the whole sample vector. -/
theorem Tree.fitState_depth_one (ext : Extern) (self : Tree) (t : TreeTraining)
    (hD : t.training.params.maxTreeDepth ≤ 1) :
    ∃ s, Tree.fitState ext self t = some s
      ∧ s.nodes.length = 1
      ∧ (s.nodes.getD 0 default).split.idx1 = -1
      ∧ (s.nodes.getD 0 default).split.idx2 = -1
      ∧ (s.nodes.getD 0 default).mean
          = meanResidualOfRange t.samples (0, t.samples.length) t.numLandmarks := by
  have hmax : max t.training.params.maxTreeDepth 1 = 1 := max_eq_right hD
  have hnum : Tree.numNodes 1 = some 1 := by decide
  have key : Tree.fitState ext self t
      = some (Tree.makeLeaf t { Tree.fitInit self t 1 with queue := [] }
          { node := 0, depth := 1, range := (0, t.samples.length) }) := by
    unfold Tree.fitState
    dsimp only
    rw [hmax, hnum]
    dsimp only
    rw [Tree.fitLoop]
    simp only [Tree.fitInit]
    rw [Tree.fitLoop]
    simp only [Tree.fitStep, lt_self_iff_false, if_false, Tree.makeLeaf]
  refine ⟨_, key, ?_⟩
  simp only [Tree.makeLeaf, Tree.fitInit]
  rw [set_zero_of_length_one _ _ (resizeNodes_length _ _)]
  exact ⟨rfl, rfl, rfl, rfl⟩

/-! ## Lemmas on serialization -/

theorem zipWith_load_save {α β γ : Type} (f : α → β → γ) (g : γ → β) (xs : List α)
    (ys : List γ) (hlen : xs.length = ys.length) (h : ∀ x y, f x (g y) = y) :
    List.zipWith f xs (ys.map g) = ys := by
  induction ys generalizing xs with
  | nil => simp
  | cons y ys ih =>
    cases xs with
    | nil => simp at hlen
    | cons x xs =>
      simp only [List.map_cons, List.zipWith_cons_cons, h]
      rw [ih xs (by simpa using hlen)]

theorem resizeTrees_length (trees : List Tree) (n : Nat) : (resizeTrees trees n).length = n := by
  simp only [resizeTrees, List.length_append, List.length_take, List.length_replicate]
  omega

theorem resizeCascade_length (cascade : List Regressor) (n : Nat) :
    (resizeCascade cascade n).length = n := by
  simp only [resizeCascade, List.length_append, List.length_take, List.length_replicate]
  omega

theorem TreeNode.load_save_node (ext : Extern) (hF : ∀ m, ext.fromFbs (ext.toFbs m) = m)
    (self node : TreeNode) : TreeNode.load ext self (TreeNode.save ext node) = node := by
  simp [TreeNode.load, TreeNode.save, hF]

theorem Tree.load_save_tree (ext : Extern) (hF : ∀ m, ext.fromFbs (ext.toFbs m) = m)
    (self tree : Tree) : Tree.load ext self (Tree.save ext tree) = tree := by
  simp only [Tree.load, Tree.save]
  rw [zipWith_load_save _ _ _ _ (by simp [resizeNodes_length]) (TreeNode.load_save_node ext hF)]

theorem Regressor.load_save_stage (ext : Extern) (hF : ∀ m, ext.fromFbs (ext.toFbs m) = m)
    (hI : ∀ v, ext.fromFbsI (ext.toFbsI v) = v) (self stage : Regressor) :
    Regressor.load ext self (Regressor.save ext stage) = stage := by
  simp only [Regressor.load, Regressor.save, hF, hI]
  rw [zipWith_load_save _ _ _ _ (by simp [resizeTrees_length]) (Tree.load_save_tree ext hF)]

theorem Tracker.load_of_save (ext : Extern) (hF : ∀ m, ext.fromFbs (ext.toFbs m) = m)
    (hI : ∀ v, ext.fromFbsI (ext.toFbsI v) = v) (self t : Tracker) :
    Tracker.load ext self (Tracker.save ext t) = t := by
  simp only [Tracker.load, Tracker.save, hF]
  rw [zipWith_load_save _ _ _ _ (by simp [resizeCascade_length]) (Regressor.load_save_stage ext hF hI)]

theorem ofRowMajor_rowMajor (s : Shape) : ofRowMajor s.length (rowMajor s) = s := by
  apply List.ext_getElem
  · simp [ofRowMajor]
  · intro i h1 h2
    have e0 : (rowMajor s).getD i 0 = s[i] 0 := by
      unfold rowMajor
      rw [List.append_assoc, List.getD_append _ _ _ _ (by simpa using h2)]
      simp [List.getD_eq_getElem?_getD, List.getElem?_eq_getElem h2]
    have e1 : (rowMajor s).getD (s.length + i) 0 = s[i] 1 := by
      unfold rowMajor
      rw [List.append_assoc, List.getD_append_right _ _ _ _ (by simp)]
      rw [List.getD_append _ _ _ _ (by simpa using h2)]
      simp [List.getD_eq_getElem?_getD, List.getElem?_eq_getElem h2]
    have e2 : (rowMajor s).getD (2 * s.length + i) 0 = s[i] 2 := by
      unfold rowMajor
      rw [List.getD_append_right _ _ _ _ (by simp; omega)]
      have : 2 * s.length + i
          - (List.map (fun v => v 0) s ++ List.map (fun v => v 1) s).length = i := by
        simp; omega
      rw [this]
      simp [List.getD_eq_getElem?_getD, List.getElem?_eq_getElem h2]
    simp only [ofRowMajor, List.getElem_map, List.getElem_range, e0, e1, e2]
    funext r
    fin_cases r <;> rfl

theorem Extern.sample_codec : ∀ m, Extern.sample.fromFbs (Extern.sample.toFbs m) = m := by
  intro m
  simp only [Extern.sample, Int.toNat_ofNat]
  exact ofRowMajor_rowMajor m

theorem Extern.sample_codecI : ∀ v, Extern.sample.fromFbsI (Extern.sample.toFbsI v) = v := by
  intro v
  rfl

/-! ## Lemmas on the closest-landmark lookup -/

theorem getD_append_left_vec (pre : List Vec3) (l : Vec3) (j : Nat) (h : j < pre.length) :
    (pre ++ [l]).getD j 0 = pre.getD j 0 := by
  rw [List.getD_append _ _ _ _ h]

theorem getD_append_length_vec (pre : List Vec3) (l : Vec3) :
    (pre ++ [l]).getD pre.length 0 = l := by
  rw [List.getD_append_right _ _ _ _ (le_refl _)]
  simp

theorem ClosestSoFar.le_max (x : Vec3) (pre : List Vec3) (best : Int) (bestD2 : ℚ)
    (h : ClosestSoFar x pre best bestD2) : bestD2 ≤ FLT_MAX := by
  rcases h with ⟨-, h, -⟩ | ⟨k, -, -, -, h, -⟩
  · exact le_of_eq h
  · exact le_of_lt h

theorem ClosestSoFar.lower (x : Vec3) (pre : List Vec3) (best : Int) (bestD2 : ℚ)
    (h : ClosestSoFar x pre best bestD2) (j : Nat) (hj : j < pre.length) :
    bestD2 ≤ Vec3.squaredNorm (pre.getD j 0 - x) := by
  rcases h with ⟨-, h1, h2⟩ | ⟨k, -, -, -, -, h, -⟩
  · rw [h1]
    apply h2
    rw [List.getD_eq_getElem _ _ hj]
    exact List.getElem_mem hj
  · exact h j hj

/-- One pass of the loop keeps `ClosestSoFar`. -/
theorem ClosestSoFar.step (x : Vec3) (pre : List Vec3) (l : Vec3) (best : Int) (bestD2 : ℚ)
    (h : ClosestSoFar x pre best bestD2) :
    ClosestSoFar x (pre ++ [l])
      (if Vec3.squaredNorm (l - x) < bestD2 then (pre.length : Int) else best)
      (if Vec3.squaredNorm (l - x) < bestD2 then Vec3.squaredNorm (l - x) else bestD2) := by
  have hmax := ClosestSoFar.le_max x pre best bestD2 h
  have hlow := ClosestSoFar.lower x pre best bestD2 h
  by_cases hlt : Vec3.squaredNorm (l - x) < bestD2
  · rw [if_pos hlt, if_pos hlt]
    right
    refine ⟨pre.length, rfl, by simp, ?_, lt_of_lt_of_le hlt hmax, ?_, ?_⟩
    · rw [getD_append_length_vec]
    · intro j hj
      by_cases hjp : j < pre.length
      · rw [getD_append_left_vec _ _ _ hjp]
        exact le_of_lt (lt_of_lt_of_le hlt (hlow j hjp))
      · have : j = pre.length := by simp at hj; omega
        rw [this, getD_append_length_vec]
    · intro j hj
      rw [getD_append_left_vec _ _ _ hj]
      exact lt_of_lt_of_le hlt (hlow j hj)
  · rw [if_neg hlt, if_neg hlt]
    have hge : bestD2 ≤ Vec3.squaredNorm (l - x) := not_lt.mp hlt
    rcases h with ⟨h0, h1, h2⟩ | ⟨k, h0, hk, h1, h3, h4, h5⟩
    · left
      refine ⟨h0, h1, ?_⟩
      intro p hp
      rcases List.mem_append.mp hp with hp | hp
      · exact h2 p hp
      · rw [List.mem_singleton.mp hp, ← h1]
        exact hge
    · right
      refine ⟨k, h0, by simp; omega, ?_, h3, ?_, ?_⟩
      · rw [getD_append_left_vec _ _ _ hk]
        exact h1
      · intro j hj
        by_cases hjp : j < pre.length
        · rw [getD_append_left_vec _ _ _ hjp]
          exact h4 j hjp
        · have : j = pre.length := by simp at hj; omega
          rw [this, getD_append_length_vec]
          exact hge
      · intro j hj
        rw [getD_append_left_vec _ _ _ (by omega)]
        exact h5 j hj

/-- The loop ends in a state that is `ClosestSoFar` for the whole shape. -/
theorem findClosestLandmarkLoop_spec (x : Vec3) (ls pre : List Vec3) (best : Int) (bestD2 : ℚ)
    (h : ClosestSoFar x pre best bestD2) :
    ∃ d, ClosestSoFar x (pre ++ ls)
      (findClosestLandmarkLoop x ls (pre.length : Int) best bestD2) d := by
  induction ls generalizing pre best bestD2 with
  | nil => exact ⟨bestD2, by simpa [findClosestLandmarkLoop] using h⟩
  | cons l ls ih =>
    have hstep := ClosestSoFar.step x pre l best bestD2 h
    have hlen : ((pre ++ [l]).length : Int) = (pre.length : Int) + 1 := by simp
    rw [findClosestLandmarkLoop]
    by_cases hlt : Vec3.squaredNorm (l - x) < bestD2
    · rw [if_pos hlt, if_pos hlt] at hstep
      obtain ⟨d, hd⟩ := ih (pre ++ [l]) _ _ hstep
      rw [hlen, List.append_assoc] at hd
      exact ⟨d, by simpa [hlt] using hd⟩
    · rw [if_neg hlt, if_neg hlt] at hstep
      obtain ⟨d, hd⟩ := ih (pre ++ [l]) _ _ hstep
      rw [hlen, List.append_assoc] at hd
      exact ⟨d, by simpa [hlt] using hd⟩

/-! ## Lemmas on shape normalization -/

theorem ShapeTransform.inverse_linear_mul (t : ShapeTransform) (h : t.linear.det ≠ 0) :
    (ShapeTransform.inverse t).linear * t.linear = 1 := by
  simp only [ShapeTransform.inverse]
  rw [Matrix.smul_mul, Matrix.adjugate_mul, smul_smul, inv_mul_cancel₀ h, one_smul]

theorem ShapeTransform.inverse_apply (t : ShapeTransform) (h : t.linear.det ≠ 0) (s : Shape) :
    ShapeTransform.apply (ShapeTransform.inverse t) (ShapeTransform.apply t s) = s := by
  have hmul := ShapeTransform.inverse_linear_mul t h
  simp only [ShapeTransform.apply, List.map_map]
  conv_rhs => rw [← List.map_id s]
  apply List.map_congr_left
  intro v _
  simp only [Function.comp_apply, id]
  have htr : (ShapeTransform.inverse t).translation
      = -((ShapeTransform.inverse t).linear.mulVec t.translation) := rfl
  rw [htr, Matrix.mulVec_add, Matrix.mulVec_mulVec, hmul, Matrix.one_mulVec]
  abel

theorem resizeTransforms_length (ts : List ShapeTransform) (n : Nat) :
    (resizeTransforms ts n).length = n := by
  simp only [resizeTransforms, List.length_append, List.length_take, List.length_replicate]
  omega

/-- What the loop of `normalizeShapes` leaves: the rectangles are untouched,
the lengths are kept, and exactly the entries `i ≤ j < i + k` are replaced. -/
theorem InputData.normalizeLoop_spec (ext : Extern) (k i : Nat) (input : InputData) :
    (InputData.normalizeLoop ext k i input).rects = input.rects
      ∧ (InputData.normalizeLoop ext k i input).shapes.length = input.shapes.length
      ∧ (InputData.normalizeLoop ext k i input).shapeToImage.length = input.shapeToImage.length
      ∧ (∀ j, (InputData.normalizeLoop ext k i input).shapes[j]?
          = if i ≤ j ∧ j < i + k ∧ j < input.shapes.length then
              some (ShapeTransform.apply
                (InputData.normalizeTransform ext (input.rects.getD j 0))
                (input.shapes.getD j []))
            else input.shapes[j]?)
      ∧ (∀ j, (InputData.normalizeLoop ext k i input).shapeToImage[j]?
          = if i ≤ j ∧ j < i + k ∧ j < input.shapeToImage.length then
              some (ShapeTransform.inverse
                (InputData.normalizeTransform ext (input.rects.getD j 0)))
            else input.shapeToImage[j]?) := by
  induction k generalizing i input with
  | zero =>
    refine ⟨rfl, rfl, rfl, ?_, ?_⟩
    · intro j
      rw [if_neg (by omega)]
      rfl
    · intro j
      rw [if_neg (by omega)]
      rfl
  | succ k ih =>
    rw [InputData.normalizeLoop]
    obtain ⟨h1, h2, h3, h4, h5⟩ := ih (i + 1)
      { input with
        shapes := input.shapes.set i
          (ShapeTransform.apply (InputData.normalizeTransform ext (input.rects.getD i 0))
            (input.shapes.getD i []))
        shapeToImage := input.shapeToImage.set i
          (ShapeTransform.inverse (InputData.normalizeTransform ext (input.rects.getD i 0))) }
    dsimp only at h1 h2 h3 h4 h5
    refine ⟨h1, by simpa using h2, by simpa using h3, ?_, ?_⟩
    · intro j
      rw [h4 j]
      simp only [List.length_set]
      by_cases hji : j = i
      · subst hji
        rw [if_neg (by omega), List.getElem?_set]
        by_cases hlt : j < input.shapes.length
        · simp [hlt]
        · simp [hlt]
          omega
      · have hget : (input.shapes.set i
            (ShapeTransform.apply (InputData.normalizeTransform ext (input.rects.getD i 0))
              (input.shapes.getD i []))).getD j [] = input.shapes.getD j [] := by
          simp only [List.getD_eq_getElem?_getD]
          rw [List.getElem?_set_ne (Ne.symm hji)]
        rw [hget, List.getElem?_set_ne (Ne.symm hji)]
        by_cases hc : i + 1 ≤ j ∧ j < i + 1 + k ∧ j < input.shapes.length
        · rw [if_pos hc, if_pos (by omega)]
        · rw [if_neg hc, if_neg (by omega)]
    · intro j
      rw [h5 j]
      simp only [List.length_set]
      by_cases hji : j = i
      · subst hji
        rw [if_neg (by omega), List.getElem?_set]
        by_cases hlt : j < input.shapeToImage.length
        · simp [hlt]
        · simp [hlt]
          omega
      · rw [List.getElem?_set_ne (Ne.symm hji)]
        by_cases hc : i + 1 ≤ j ∧ j < i + 1 + k ∧ j < input.shapeToImage.length
        · rw [if_pos hc, if_pos (by omega)]
        · rw [if_neg hc, if_neg (by omega)]

/-! ## Lemmas on the mean shape of `Tracker::fit` -/

theorem foldl_add_unitX (n : Nat) (a : ℚ) :
    (List.replicate n Sample.unitX).foldl (fun m s => Shape.add m s.estimate) [![a, 0, 0]]
      = [![a + n, 0, 0]] := by
  induction n generalizing a with
  | zero => simp
  | succ n ih =>
    rw [List.replicate_succ, List.foldl_cons]
    have h : Shape.add [![a, 0, 0]] Sample.unitX.estimate = [![a + 1, 0, 0]] := by
      simp [Shape.add, Sample.unitX]
    rw [h, ih]
    have e : a + 1 + (n : ℚ) = a + ((n + 1 : Nat) : ℚ) := by
      push_cast
      ring
    rw [e]

theorem Tracker.sumEstimates_unitX (n : Nat) :
    Tracker.sumEstimates (List.replicate n Sample.unitX) 1 = [![(n : ℚ), 0, 0]] := by
  have h : Shape.zero 1 = [![0, 0, 0]] := by
    simp only [Shape.zero, List.replicate_succ, List.replicate_zero]
    congr 1
    funext r
    fin_cases r <;> rfl
  simp only [Tracker.sumEstimates]
  rw [h, foldl_add_unitX]
  simp

theorem Shape.divScalar_x (a c : ℚ) : Shape.divScalar [![a, 0, 0]] c = [![a / c, 0, 0]] := by
  simp only [Shape.divScalar, List.map_cons, List.map_nil]
  congr 1
  funext r
  fin_cases r <;> simp

theorem Shape.smul_x (a c : ℚ) : Shape.smul c [![a, 0, 0]] = [![c * a, 0, 0]] := by
  simp [Shape.smul]

theorem Shape.add_x (a b : ℚ) : Shape.add [![a, 0, 0]] [![b, 0, 0]] = [![a + b, 0, 0]] := by
  simp [Shape.add]

/-- The mean shape `Tracker::fit` evaluates for 100001 copies of the sample with
the one landmark `(1, 0, 0)`. -/
theorem Tracker.fitMeanShape_unitX :
    Tracker.fitMeanShape (List.replicate 100001 Sample.unitX) 1
      = [![5000100001 / 5000150001, 0, 0]] := by
  have h1 : ¬ (100001 < 50000) := by norm_num
  have h2 : ¬ (100001 < 100000) := by norm_num
  have h3 : 100001 < 150000 := by norm_num
  simp only [Tracker.fitMeanShape, List.length_replicate, if_neg h1, if_neg h2, if_pos h3,
    List.take_replicate, List.drop_replicate, Tracker.sumEstimates_unitX, Shape.divScalar_x,
    Shape.smul_x, Shape.add_x]
  congr 1
  norm_num

/-- Without cascade stages `Tracker::fit` succeeds on every non-empty sample set. -/
theorem Tracker.fit_no_cascade (ext : Extern) (self : Tracker) (t : SampleData) (front : Sample)
    (rest : List Sample) (hs : t.samples = front :: rest) (hn : t.params.numCascades = 0) :
    ∃ tr t1, Tracker.fit ext self t = Except.ok (tr, t1) := by
  unfold Tracker.fit
  rw [hs]
  simp only [hn, lt_self_iff_false, if_false, Int.toNat_zero, Tracker.fitCascade]
  exact ⟨_, _, rfl⟩

/-- The mean shape `Tracker::fit` records is the one it evaluated. -/
theorem Tracker.fit_meanShape (ext : Extern) (self tr : Tracker) (t t1 : SampleData)
    (h : Tracker.fit ext self t = Except.ok (tr, t1)) :
    tr.meanShape = Tracker.fitMeanShape t.samples ((t.samples.head?.map fun s =>
      s.estimate.length).getD 0) := by
  unfold Tracker.fit at h
  split at h
  · cases h
  · rename_i front rest hs
    dsimp only at h
    split at h
    · cases h
    · split at h
      · cases h
      · cases h
        simp [hs]

/-! ## Lemmas on the similarity estimate -/

theorem estimateSimilarityTransform_eq (ext : Extern) (from_ to_ : Shape) :
    estimateSimilarityTransform ext from_ to_
      = similarityFromSvd from_ to_ (ext.jacobiSvd (similarityCovariance from_ to_)) := rfl

theorem octahedron_covariance :
    similarityCovariance Shape.octahedron (Shape.mulLeft quarterTurn Shape.octahedron)
      = !![0, 1 / 3, 0; -4 / 3, 0, 0; 0, 0, 3] := by
  set_option maxRecDepth 100000 in with_unfolding_all decide

theorem octahedron_variance : similarityVariance Shape.octahedron = 14 / 3 := by
  set_option maxRecDepth 100000 in with_unfolding_all decide

theorem octahedron_mean : Shape.rowwiseMean Shape.octahedron = 0 := by
  set_option maxRecDepth 100000 in with_unfolding_all decide

theorem octahedron_mean_image :
    Shape.rowwiseMean (Shape.mulLeft quarterTurn Shape.octahedron) = 0 := by
  set_option maxRecDepth 100000 in with_unfolding_all decide

/-- For the octahedron and its image under the quarter turn the estimate is
`Uᵀ · V` without scaling and translation, whatever the signs. -/
theorem octahedron_estimate (a b c : Bool) :
    estimateSimilarityTransform (Extern.withSvd fun _ => SVD.octahedron a b c) Shape.octahedron
        (Shape.mulLeft quarterTurn Shape.octahedron)
      = { linear := (SVD.octahedron a b c).matrixU.transpose * (SVD.octahedron a b c).matrixV
          translation := 0 } := by
  rw [estimateSimilarityTransform_eq]
  show similarityFromSvd Shape.octahedron (Shape.mulLeft quarterTurn Shape.octahedron)
    (SVD.octahedron a b c) = _
  have hdet : (!![0, 1 / 3, 0; -4 / 3, 0, 0; 0, 0, 3] : Mat3).det = 4 / 3 := by
    with_unfolding_all decide
  have hcond : ¬ ((!![0, 1 / 3, 0; -4 / 3, 0, 0; 0, 0, 3] : Mat3).det < 0
      ∨ ((!![0, 1 / 3, 0; -4 / 3, 0, 0; 0, 0, 3] : Mat3).det = 0
        ∧ (SVD.octahedron a b c).matrixU.det * (SVD.octahedron a b c).matrixV.det < 0)) := by
    rw [hdet]
    norm_num
  have htr : (Matrix.diagonal (SVD.octahedron a b c).singularValues * (1 : Mat3)).trace
      = 14 / 3 := by
    show (Matrix.diagonal ![(3 : ℚ), 4 / 3, 1 / 3] * (1 : Mat3)).trace = 14 / 3
    with_unfolding_all decide
  unfold similarityFromSvd
  dsimp only
  rw [octahedron_covariance, octahedron_variance, octahedron_mean, octahedron_mean_image,
    if_neg hcond, htr]
  norm_num

theorem octahedron_valid (a b c : Bool) :
    SVD.Valid (similarityCovariance Shape.octahedron (Shape.mulLeft quarterTurn Shape.octahedron))
      (SVD.octahedron a b c) := by
  rw [octahedron_covariance]
  cases a <;> cases b <;> cases c <;> refine ⟨?_, ?_, ?_, ?_⟩ <;> with_unfolding_all decide

theorem octahedron_moved (a b c : Bool) :
    ShapeTransform.apply
        { linear := (SVD.octahedron a b c).matrixU.transpose * (SVD.octahedron a b c).matrixV
          translation := 0 } Shape.octahedron
      ≠ Shape.mulLeft quarterTurn Shape.octahedron := by
  cases a <;> cases b <;> cases c <;> with_unfolding_all decide

/-! ## Lemmas on the landmark count of fitted trees, stages and trackers -/

theorem Shape.length_sub (a b : Shape) : (Shape.sub a b).length = min a.length b.length := by
  simp [Shape.sub]

theorem Shape.length_smul (c : ℚ) (a : Shape) : (Shape.smul c a).length = a.length := by
  simp [Shape.smul]

theorem Shape.length_divScalar (a : Shape) (c : ℚ) : (Shape.divScalar a c).length = a.length := by
  simp [Shape.divScalar]

theorem Shape.foldl_add_length {α : Type} (f : α → Shape) (L : Nat) (l : List α) (init : Shape)
    (hinit : init.length = L) (h : ∀ x ∈ l, (f x).length = L) :
    (l.foldl (fun m x => Shape.add m (f x)) init).length = L := by
  induction l generalizing init with
  | nil => exact hinit
  | cons x xs ih =>
    simp only [List.foldl_cons]
    apply ih
    · rw [Shape.length_add, hinit, h x (List.mem_cons_self _ _), min_self]
    · intro y hy
      exact h y (List.mem_cons_of_mem _ hy)

theorem rangeSamples_mem (samples : List TreeSample) (r : SampleRange) (x : TreeSample)
    (h : x ∈ rangeSamples samples r) : x ∈ samples :=
  List.mem_of_mem_drop (List.mem_of_mem_take h)

theorem meanResidualOfRange_length (samples : List TreeSample) (r : SampleRange)
    (numLandmarks : Int) (L : Nat) (hL : numLandmarks.toNat = L)
    (h : ∀ x ∈ samples, x.residual.length = L) :
    (meanResidualOfRange samples r numLandmarks).length = L := by
  have hf := Shape.foldl_add_length (fun s : TreeSample => s.residual) L (rangeSamples samples r)
    (Shape.zero numLandmarks.toNat) (by rw [Shape.length_zero, hL])
    (fun x hx => h x (rangeSamples_mem _ _ _ hx))
  unfold meanResidualOfRange
  dsimp only
  split
  · rw [Shape.length_divScalar]
    exact hf
  · exact hf

theorem partitionRange_mem (samples : List TreeSample) (r : SampleRange)
    (pred : TreeSample → Bool) (x : TreeSample) (h : x ∈ (partitionRange samples r pred).1) :
    x ∈ samples := by
  unfold partitionRange at h
  simp only [List.mem_append, List.mem_filter] at h
  rcases h with (h | (h | h)) | h
  · exact List.mem_of_mem_take h
  · exact rangeSamples_mem _ _ _ h.1
  · exact rangeSamples_mem _ _ _ h.1
  · exact List.mem_of_mem_drop h

theorem Tree.splitNode_samples (ext : Extern) (t : TreeTraining) (s : FitState)
    (parent : NodeInfo) (x : TreeSample) (h : x ∈ (Tree.splitNode ext t s parent).1.samples) :
    x ∈ s.samples := by
  unfold Tree.splitNode at h
  dsimp only at h
  split at h
  · exact h
  · split at h
    · exact h
    · split at h
      · exact partitionRange_mem _ _ _ _ h
      · exact partitionRange_mem _ _ _ _ h

theorem getD_set_mean (nodes : List TreeNode) (n m : Nat) (split : SplitInfo) :
    ((nodes.set n { (nodes.getD n default) with split := split }).getD m default).mean
      = (nodes.getD m default).mean := by
  by_cases hm : m = n
  · subst hm
    by_cases hlt : m < nodes.length
    · rw [getD_set_self _ _ _ hlt]
    · have h1 : (nodes.set m { (nodes.getD m default) with split := split }).getD m default
          = default := by
        apply List.getD_eq_default
        simpa using hlt
      have h2 : nodes.getD m default = default := List.getD_eq_default _ _ (by omega)
      rw [h1, h2]
  · rw [getD_set_other _ _ _ _ hm]

theorem Tree.splitNode_mean (ext : Extern) (t : TreeTraining) (s : FitState)
    (parent : NodeInfo) (m : Nat) :
    ((Tree.splitNode ext t s parent).1.nodes.getD m default).mean
      = (s.nodes.getD m default).mean := by
  unfold Tree.splitNode
  dsimp only
  split
  · rfl
  · split
    · rfl
    · split
      · exact getD_set_mean _ _ _ _
      · exact getD_set_mean _ _ _ _

theorem Tree.splitNode_leafWrites (ext : Extern) (t : TreeTraining) (s : FitState)
    (parent : NodeInfo) : (Tree.splitNode ext t s parent).1.leafWrites = s.leafWrites := by
  unfold Tree.splitNode
  dsimp only
  split
  · rfl
  · split
    · rfl
    · split <;> rfl

theorem Tree.splitNode_nodes_length (ext : Extern) (t : TreeTraining) (s : FitState)
    (parent : NodeInfo) : (Tree.splitNode ext t s parent).1.nodes.length = s.nodes.length := by
  unfold Tree.splitNode
  dsimp only
  split
  · rfl
  · split
    · rfl
    · split <;> simp

/-- The state after `makeLeaf`: the samples as before, and the leaves written so
far hold means of `L` landmarks. -/
theorem Tree.makeLeaf_leafLen (t : TreeTraining) (L : Nat) (hL : t.numLandmarks.toNat = L)
    (s : FitState) (nr : NodeInfo)
    (hs : ∀ x ∈ s.samples, x.residual.length = L)
    (hl : ∀ n ∈ s.leafWrites, n < s.nodes.length → (s.nodes.getD n default).mean.length = L) :
    (∀ x ∈ (Tree.makeLeaf t s nr).samples, x.residual.length = L)
      ∧ ∀ n ∈ (Tree.makeLeaf t s nr).leafWrites, n < (Tree.makeLeaf t s nr).nodes.length →
          ((Tree.makeLeaf t s nr).nodes.getD n default).mean.length = L := by
  refine ⟨hs, ?_⟩
  intro n hn hlt
  simp only [Tree.makeLeaf, List.length_set] at hn hlt ⊢
  by_cases hnode : n = nr.node
  · subst hnode
    rw [getD_set_self _ _ _ hlt]
    exact meanResidualOfRange_length _ _ _ L hL hs
  · rw [getD_set_other _ _ _ _ hnode]
    rcases List.mem_cons.mp hn with h | h
    · exact absurd h hnode
    · exact hl n h hlt

theorem Tree.fitStep_leafLen (ext : Extern) (t : TreeTraining) (depth : Int) (L : Nat)
    (hL : t.numLandmarks.toNat = L) (s : FitState) (nr : NodeInfo)
    (hs : ∀ x ∈ s.samples, x.residual.length = L)
    (hl : ∀ n ∈ s.leafWrites, n < s.nodes.length → (s.nodes.getD n default).mean.length = L) :
    (∀ x ∈ (Tree.fitStep ext t depth s nr).samples, x.residual.length = L)
      ∧ ∀ n ∈ (Tree.fitStep ext t depth s nr).leafWrites,
          n < (Tree.fitStep ext t depth s nr).nodes.length →
            ((Tree.fitStep ext t depth s nr).nodes.getD n default).mean.length = L := by
  have hs1 : ∀ x ∈ (Tree.splitNode ext t s nr).1.samples, x.residual.length = L :=
    fun x hx => hs x (Tree.splitNode_samples ext t s nr x hx)
  have hl1 : ∀ n ∈ (Tree.splitNode ext t s nr).1.leafWrites,
      n < (Tree.splitNode ext t s nr).1.nodes.length →
        ((Tree.splitNode ext t s nr).1.nodes.getD n default).mean.length = L := by
    intro n hn hlt
    rw [Tree.splitNode_leafWrites] at hn
    rw [Tree.splitNode_nodes_length] at hlt
    rw [Tree.splitNode_mean]
    exact hl n hn hlt
  unfold Tree.fitStep
  split
  · rcases hsn : Tree.splitNode ext t s nr with ⟨s1, _ | ⟨left, right⟩⟩
    · rw [hsn] at hs1 hl1
      exact Tree.makeLeaf_leafLen t L hL s1 nr hs1 hl1
    · rw [hsn] at hs1 hl1
      exact ⟨hs1, hl1⟩
  · exact Tree.makeLeaf_leafLen t L hL s nr hs hl

theorem Tree.fitLoop_leafLen (ext : Extern) (t : TreeTraining) (depth : Int) (L : Nat)
    (hL : t.numLandmarks.toNat = L) (passes : Nat) (s s1 : FitState)
    (h : Tree.fitLoop ext t depth passes s = some s1)
    (hs : ∀ x ∈ s.samples, x.residual.length = L)
    (hl : ∀ n ∈ s.leafWrites, n < s.nodes.length → (s.nodes.getD n default).mean.length = L) :
    (∀ x ∈ s1.samples, x.residual.length = L)
      ∧ ∀ n ∈ s1.leafWrites, n < s1.nodes.length →
          (s1.nodes.getD n default).mean.length = L := by
  induction passes generalizing s with
  | zero =>
    unfold Tree.fitLoop at h
    split at h
    · cases h
      exact ⟨hs, hl⟩
    · simp at h
  | succ more ih =>
    unfold Tree.fitLoop at h
    split at h
    · cases h
      exact ⟨hs, hl⟩
    · rename_i nr rest hq
      obtain ⟨hs2, hl2⟩ := Tree.fitStep_leafLen ext t depth L hL { s with queue := rest } nr hs hl
      exact ih _ h hs2 hl2

/-- A fitted tree predicts a residual of `L` landmarks, and `fit` leaves the
residuals of the samples at `L` landmarks. -/
theorem Tree.fit_leafLen (ext : Extern) (hc : UniformIntInRange ext) (self : Tree)
    (t : TreeTraining) (hP : 0 < t.pixelCoordinates.length) (L : Nat)
    (hL : t.numLandmarks.toNat = L) (hs : ∀ x ∈ t.samples, x.residual.length = L)
    (tree : Tree) (t1 : TreeTraining) (hfit : Tree.fit ext self t = some (tree, t1)) :
    (∀ intensities, (Tree.predict tree intensities).length = L)
      ∧ (∀ x ∈ t1.samples, x.residual.length = L)
      ∧ t1.training.samples = t.training.samples ∧ t1.training.params = t.training.params
      ∧ t1.numLandmarks = t.numLandmarks ∧ t1.pixelCoordinates = t.pixelCoordinates := by
  obtain ⟨s, hst, htree, ht1⟩ := Tree.fit_some ext self t tree t1 hfit
  obtain ⟨hinv, hq⟩ := Tree.fitState_inv ext hc self t hP s hst
  have h1 : 1 ≤ max t.training.params.maxTreeDepth 1 := le_max_right _ _
  have hlen : (∀ x ∈ s.samples, x.residual.length = L)
      ∧ ∀ n ∈ s.leafWrites, n < s.nodes.length → (s.nodes.getD n default).mean.length = L := by
    unfold Tree.fitState at hst
    dsimp only at hst
    split at hst
    · cases hst
    · rename_i numNodes hn
      refine Tree.fitLoop_leafLen ext t _ L hL _ _ s hst ?_ ?_
      · exact hs
      · intro n hn
        simp [Tree.fitInit] at hn
  have hroot : s.Written 0 := by
    rcases hinv.root with h | h
    · rw [hq] at h; simp at h
    · exact h
  subst htree ht1
  refine ⟨?_, hlen.1, rfl, rfl, rfl, rfl⟩
  intro intensities
  obtain ⟨-, hleaf, -, -⟩ := Tree.predictVisited_written _ _ s hinv hq intensities
    (max t.training.params.maxTreeDepth 1 - 1).toNat 0 0 (by omega) hroot (by simp)
  have hb := (hinv.written _ (Or.inr hleaf)).1
  rw [← hinv.length] at hb
  exact hlen.2 _ hleaf hb


theorem getD_set_self_tree (trees : List Tree) (n : Nat) (x : Tree) (h : n < trees.length) :
    (trees.set n x).getD n default = x := by
  simp only [List.getD_eq_getElem?_getD]
  rw [List.getElem?_set_self (by simpa using h)]
  rfl

theorem getD_set_other_tree (trees : List Tree) (n m : Nat) (x : Tree) (h : m ≠ n) :
    (trees.set n x).getD m default = trees.getD m default := by
  simp only [List.getD_eq_getElem?_getD]
  rw [List.getElem?_set_ne (Ne.symm h)]

theorem Regressor.predictLoop_length (lr : ℚ) (intensities : PixelIntensities) (L : Nat)
    (trees : List Tree) (sr : ShapeResidual) (hsr : sr.length = L)
    (h : ∀ tree ∈ trees, (Tree.predict tree intensities).length = L) :
    (Regressor.predictLoop lr intensities trees sr).length = L := by
  induction trees generalizing sr with
  | nil => exact hsr
  | cons tree trees ih =>
    rw [Regressor.predictLoop]
    apply ih
    · rw [Shape.length_add, Shape.length_smul, hsr, h tree (List.mem_cons_self _ _), min_self]
    · intro x hx
      exact h x (List.mem_cons_of_mem _ hx)

theorem Regressor.updateResiduals_length (self : Regressor) (fitted : List Tree) (k : Nat)
    (samples : List TreeSample) (L : Nat) (hmean : self.meanResidual.length = L)
    (hprev : k ≠ 0 → ∀ intensities,
      (Tree.predict (fitted.getD (k - 1) default) intensities).length = L)
    (hs : ∀ x ∈ samples, x.residual.length = L) :
    ∀ x ∈ Regressor.updateResiduals self fitted k samples, x.residual.length = L := by
  intro x hx
  unfold Regressor.updateResiduals at hx
  obtain ⟨y, hy, rfl⟩ := List.mem_map.mp hx
  split
  · dsimp only
    rw [Shape.length_sub, hs y hy, hmean, min_self]
  · rename_i hk
    dsimp only
    rw [Shape.length_sub, Shape.length_smul, hs y hy, hprev hk, min_self]

/-- The loop of `Regressor::fit` over the trees keeps the forest at its size,
leaves every tree predicting `L` landmarks, and changes neither the samples of
the sample data nor the parameters. -/
theorem Regressor.fitTrees_length (ext : Extern) (hc : UniformIntInRange ext) (self : Regressor)
    (L : Nat) (hmean : self.meanResidual.length = L) (remaining k : Nat) (trees : List Tree)
    (tt : TreeTraining) (out : List Tree) (tt1 : TreeTraining)
    (h : Regressor.fitTrees ext self remaining k trees tt = some (out, tt1))
    (hk : k + remaining = trees.length) (hP : 0 < tt.pixelCoordinates.length)
    (hL : tt.numLandmarks.toNat = L) (hs : ∀ x ∈ tt.samples, x.residual.length = L)
    (hprev : ∀ j, j < k → ∀ intensities,
      (Tree.predict (trees.getD j default) intensities).length = L) :
    out.length = trees.length
      ∧ (∀ j, j < out.length → ∀ intensities,
          (Tree.predict (out.getD j default) intensities).length = L)
      ∧ tt1.training.samples = tt.training.samples
      ∧ tt1.training.params = tt.training.params := by
  induction remaining generalizing k trees tt with
  | zero =>
    rw [Regressor.fitTrees] at h
    cases h
    refine ⟨rfl, ?_, rfl, rfl⟩
    intro j hj
    exact hprev j (by omega)
  | succ remaining ih =>
    rw [Regressor.fitTrees] at h
    split at h
    · cases h
    · rename_i tree tt2 hfit
      have hup := Regressor.updateResiduals_length self trees k tt.samples L hmean
        (fun hk0 => hprev (k - 1) (by omega)) hs
      obtain ⟨hpred, hs2, hsam, hpar, hnum, hpix⟩ := Tree.fit_leafLen ext hc (trees.getD k default)
        { tt with samples := Regressor.updateResiduals self trees k tt.samples } hP L hL hup
        tree tt2 hfit
      have hres := ih (k + 1) (trees.set k tree) tt2 h (by simp; omega) (by rw [hpix]; exact hP)
        (by rw [hnum]; exact hL) hs2
        (by
          intro j hj intensities
          by_cases hjk : j = k
          · subst hjk
            rw [getD_set_self_tree _ _ _ (by omega)]
            exact hpred intensities
          · rw [getD_set_other_tree _ _ _ _ hjk]
            exact hprev j (by omega) intensities)
      obtain ⟨h1, h2, h3, h4⟩ := hres
      refine ⟨by simpa using h1, h2, ?_, ?_⟩
      · rw [h3, hsam]
      · rw [h4, hpar]

theorem Regressor.fitTrees_isSome (ext : Extern) (self : Regressor) (remaining k : Nat)
    (trees : List Tree) (tt : TreeTraining) (h30 : tt.training.params.maxTreeDepth ≤ 30) :
    ∃ out, Regressor.fitTrees ext self remaining k trees tt = some out := by
  induction remaining generalizing k trees tt with
  | zero => exact ⟨_, rfl⟩
  | succ remaining ih =>
    rw [Regressor.fitTrees]
    obtain ⟨s, hs⟩ := Tree.fitState_isSome ext (trees.getD k default)
      { tt with samples := Regressor.updateResiduals self trees k tt.samples } h30
    have hfit : Tree.fit ext (trees.getD k default)
        { tt with samples := Regressor.updateResiduals self trees k tt.samples }
        = some ({ nodes := s.nodes, depth := max tt.training.params.maxTreeDepth 1 },
            TreeTraining.update
              { tt with samples := Regressor.updateResiduals self trees k tt.samples }
              s.samples s.rnd) := by
      unfold Tree.fit
      rw [hs]
      rfl
    rw [hfit]
    exact ih _ _ _ h30

theorem Regressor.sampleCoordinatesLoop_length (ext : Extern) (minC maxC : Vec3) (n : Nat)
    (result : PixelCoordinates) (rnd : Rng) :
    (Regressor.sampleCoordinatesLoop ext minC maxC n result rnd).1.length
      = result.length + n := by
  induction n generalizing result rnd with
  | zero => rfl
  | succ n ih =>
    rw [Regressor.sampleCoordinatesLoop]
    rw [ih]
    simp
    omega

theorem Regressor.sampleCoordinates_length (ext : Extern) (t : RegressorTraining) :
    (Regressor.sampleCoordinates ext t).1.length
      = t.training.params.numRandomPixelCoordinates.toNat := by
  unfold Regressor.sampleCoordinates
  dsimp only
  rw [Regressor.sampleCoordinatesLoop_length]
  simp

theorem Regressor.fitSamples_length (ext : Extern) (self : Regressor) (t : RegressorTraining)
    (L : Nat) (hs : ∀ s ∈ t.training.samples, s.estimate.length = L ∧ s.target.length = L) :
    ∀ x ∈ Regressor.fitSamples ext self t, x.residual.length = L := by
  intro x hx
  unfold Regressor.fitSamples at hx
  obtain ⟨y, hy, rfl⟩ := List.mem_map.mp hx
  dsimp only
  rw [Shape.length_sub, (hs y hy).1, (hs y hy).2, min_self]

/-- What `Regressor::fit` stores before it fits the trees. -/
theorem Regressor.fit_relative (ext : Extern) (self : Regressor) (t : RegressorTraining)
    (r : Regressor) (t1 : RegressorTraining) (h : Regressor.fit ext self t = some (r, t1)) :
    r.shapeRelativePixelCoordinates
        = (dest.core.shapeRelativePixelCoordinates t.meanShape (Regressor.sampleCoordinates ext t).1).1
      ∧ r.closestShapeLandmark
        = (dest.core.shapeRelativePixelCoordinates t.meanShape (Regressor.sampleCoordinates ext t).1).2
      ∧ 0 ≤ t.training.params.numRandomPixelCoordinates
      ∧ 0 ≤ t.training.params.numTrees := by
  unfold Regressor.fit at h
  dsimp only at h
  split at h
  · cases h
  · rename_i hneg
    push_neg at hneg
    split at h
    · cases h
    · cases h
      exact ⟨rfl, rfl, hneg.2, hneg.1⟩

/-- A fitted stage holds a mean residual of `L` landmarks and predicts `L`
landmarks; the fit changes neither the samples nor the parameters. -/
theorem Regressor.fit_length (ext : Extern) (hc : UniformIntInRange ext) (self : Regressor)
    (t : RegressorTraining) (L : Nat) (hL : t.numLandmarks.toNat = L)
    (hP : 1 ≤ t.training.params.numRandomPixelCoordinates)
    (hs : ∀ s ∈ t.training.samples, s.estimate.length = L ∧ s.target.length = L)
    (r : Regressor) (t1 : RegressorTraining) (h : Regressor.fit ext self t = some (r, t1)) :
    r.meanResidual.length = L
      ∧ (∀ img shape shapeToImage, (Regressor.predict ext r img shape shapeToImage).length = L)
      ∧ t1.training.samples = t.training.samples ∧ t1.training.params = t.training.params
      ∧ t1.numLandmarks = t.numLandmarks ∧ t1.meanShape = t.meanShape := by
  have hcoords := Regressor.sampleCoordinates_length ext t
  unfold Regressor.fit at h
  dsimp only at h
  split at h
  · cases h
  · split at h
    · cases h
    · rename_i trees tt1 hft
      cases h
      have hmean : (Shape.divScalar
          ((Regressor.fitSamples ext
              { self with
                learningRate := t.training.params.learningRate
                trees := resizeTrees self.trees t.training.params.numTrees.toNat
                meanShape := t.meanShape
                shapeRelativePixelCoordinates :=
                  (dest.core.shapeRelativePixelCoordinates t.meanShape
                    (Regressor.sampleCoordinates ext t).1).1
                closestShapeLandmark :=
                  (dest.core.shapeRelativePixelCoordinates t.meanShape
                    (Regressor.sampleCoordinates ext t).1).2 } t).foldl
            (fun m s => Shape.add m s.residual) (Shape.zero t.numLandmarks.toNat))
          (t.training.samples.length : ℚ)).length = L := by
        rw [Shape.length_divScalar]
        exact Shape.foldl_add_length (fun s : TreeSample => s.residual) L _ _
          (by rw [Shape.length_zero, hL]) (Regressor.fitSamples_length ext _ t L hs)
      obtain ⟨h1, h2, h3, h4⟩ := Regressor.fitTrees_length ext hc _ L hmean _ _ _ _ _ _ hft
        (by simp [resizeTrees_length]) (by dsimp only; rw [hcoords]; omega) hL
        (Regressor.fitSamples_length ext _ t L hs) (fun j hj => absurd hj (Nat.not_lt_zero j))
      refine ⟨hmean, ?_, h3, h4, rfl, rfl⟩
      intro img shape shapeToImage
      unfold Regressor.predict
      dsimp only
      apply Regressor.predictLoop_length _ _ L _ _ hmean
      intro tree htree
      obtain ⟨j, hj, rfl⟩ := List.getElem_of_mem htree
      have := h2 j hj
      rw [List.getD_eq_getElem _ _ hj] at this
      exact this _

theorem Regressor.fitTrees_ne_none (ext : Extern) (self : Regressor) (remaining k : Nat)
    (trees : List Tree) (tt : TreeTraining) (h30 : tt.training.params.maxTreeDepth ≤ 30) :
    Regressor.fitTrees ext self remaining k trees tt ≠ none := by
  obtain ⟨out, h⟩ := Regressor.fitTrees_isSome ext self remaining k trees tt h30
  rw [h]
  exact Option.some_ne_none _

theorem Regressor.fit_isSome (ext : Extern) (self : Regressor) (t : RegressorTraining)
    (h30 : t.training.params.maxTreeDepth ≤ 30) (hT : 0 ≤ t.training.params.numTrees)
    (hP : 0 ≤ t.training.params.numRandomPixelCoordinates) :
    ∃ r t1, Regressor.fit ext self t = some (r, t1) := by
  unfold Regressor.fit
  dsimp only
  rw [if_neg (by omega)]
  split
  · rename_i hnone
    exact absurd hnone (Regressor.fitTrees_ne_none ext _ _ _ _ _ h30)
  · exact ⟨_, _, rfl⟩

theorem getD_set_self_stage (cascade : List Regressor) (n : Nat) (x : Regressor)
    (h : n < cascade.length) : (cascade.set n x).getD n default = x := by
  simp only [List.getD_eq_getElem?_getD]
  rw [List.getElem?_set_self (by simpa using h)]
  rfl

theorem getD_set_other_stage (cascade : List Regressor) (n m : Nat) (x : Regressor) (h : m ≠ n) :
    (cascade.set n x).getD m default = cascade.getD m default := by
  simp only [List.getD_eq_getElem?_getD]
  rw [List.getElem?_set_ne (Ne.symm h)]

theorem Tracker.updateEstimates_length (ext : Extern) (stage : Regressor) (t : SampleData)
    (L : Nat)
    (hpred : ∀ img shape shapeToImage,
      (Regressor.predict ext stage img shape shapeToImage).length = L)
    (hs : ∀ s ∈ t.samples, s.estimate.length = L ∧ s.target.length = L) :
    ∀ s ∈ (Tracker.updateEstimates ext stage t).samples,
      s.estimate.length = L ∧ s.target.length = L := by
  intro s hmem
  unfold Tracker.updateEstimates at hmem
  obtain ⟨y, hy, rfl⟩ := List.mem_map.mp hmem
  dsimp only
  refine ⟨?_, (hs y hy).2⟩
  rw [Shape.length_add, (hs y hy).1, hpred, min_self]

/-- The loop of `Tracker::fit` over the stages has a result, keeps the cascade
at its size and leaves every stage with a mean residual and predictions of `L`
landmarks. -/
theorem Tracker.fitCascade_spec (ext : Extern) (hc : UniformIntInRange ext) (L : Nat)
    (remaining i : Nat) (cascade : List Regressor) (rt : RegressorTraining)
    (hi : i + remaining = cascade.length) (hL : rt.numLandmarks.toNat = L)
    (h30 : rt.training.params.maxTreeDepth ≤ 30) (hT : 0 ≤ rt.training.params.numTrees)
    (hP : 1 ≤ rt.training.params.numRandomPixelCoordinates)
    (hs : ∀ s ∈ rt.training.samples, s.estimate.length = L ∧ s.target.length = L)
    (hprev : ∀ j, j < i → (cascade.getD j default).meanResidual.length = L
      ∧ ∀ img shape shapeToImage,
          (Regressor.predict ext (cascade.getD j default) img shape shapeToImage).length = L) :
    ∃ out rt1, Tracker.fitCascade ext remaining i cascade rt = some (out, rt1)
      ∧ out.length = cascade.length
      ∧ ∀ j, j < out.length → (out.getD j default).meanResidual.length = L
          ∧ ∀ img shape shapeToImage,
              (Regressor.predict ext (out.getD j default) img shape shapeToImage).length = L := by
  induction remaining generalizing i cascade rt with
  | zero =>
    refine ⟨cascade, rt, rfl, rfl, ?_⟩
    intro j hj
    exact hprev j (by omega)
  | succ remaining ih =>
    obtain ⟨stage, rt1, hfit⟩ := Regressor.fit_isSome ext (cascade.getD i default) rt h30 hT
      (by omega)
    obtain ⟨hmean, hpred, hsam, hpar, hnum, -⟩ := Regressor.fit_length ext hc
      (cascade.getD i default) rt L hL hP hs stage rt1 hfit
    have hs1 : ∀ s ∈ rt1.training.samples, s.estimate.length = L ∧ s.target.length = L := by
      rw [hsam]
      exact hs
    obtain ⟨out, rt2, hout, hlen, hall⟩ := ih (i + 1) (cascade.set i stage)
      { rt1 with training := Tracker.updateEstimates ext stage rt1.training }
      (by simp; omega) (by rw [← hL, ← hnum])
      (by show rt1.training.params.maxTreeDepth ≤ 30; rw [hpar]; exact h30)
      (by show 0 ≤ rt1.training.params.numTrees; rw [hpar]; exact hT)
      (by show 1 ≤ rt1.training.params.numRandomPixelCoordinates; rw [hpar]; exact hP)
      (Tracker.updateEstimates_length ext stage rt1.training L hpred hs1)
      (by
        intro j hj
        by_cases hji : j = i
        · subst hji
          rw [getD_set_self_stage _ _ _ (by omega)]
          exact ⟨hmean, hpred⟩
        · rw [getD_set_other_stage _ _ _ _ hji]
          exact hprev j (by omega))
    refine ⟨out, rt2, ?_, by simpa using hlen, hall⟩
    rw [Tracker.fitCascade, hfit]
    exact hout

/-- The landmark found by `findClosestLandmarkIndex` when some landmark is
closer than the sentinel: a valid index of a nearest landmark. -/
theorem findClosestLandmarkIndex_spec (s : Shape) (x : Vec3)
    (h : ∃ l ∈ s, Vec3.squaredNorm (l - x) < FLT_MAX) :
    ∃ k : Nat, findClosestLandmarkIndex s x = (k : Int) ∧ k < s.length
      ∧ ∀ j, j < s.length →
          Vec3.squaredNorm (s.getD k 0 - x) ≤ Vec3.squaredNorm (s.getD j 0 - x) := by
  have h0 : ClosestSoFar x [] (-1) FLT_MAX := Or.inl ⟨rfl, rfl, by simp⟩
  obtain ⟨d, hd⟩ := findClosestLandmarkLoop_spec x s [] (-1) FLT_MAX h0
  simp only [List.nil_append, List.length_nil, Nat.cast_zero] at hd
  rcases hd with ⟨-, -, hall⟩ | ⟨k, hk, hlt, hd, -, hmin, -⟩
  · obtain ⟨l, hl, hll⟩ := h
    exact absurd hll (not_lt.mpr (hall l hl))
  · refine ⟨k, hk, hlt, ?_⟩
    intro j hj
    rw [← hd]
    exact hmin j hj


/-! ## Lemmas on the bounds of a shape -/

theorem foldl_min_spec (r : Fin 3) (vs : List Vec3) (a : ℚ) :
    vs.foldl (fun m w => min m (w r)) a ≤ a
      ∧ (∀ w ∈ vs, vs.foldl (fun m w => min m (w r)) a ≤ w r)
      ∧ (vs.foldl (fun m w => min m (w r)) a = a
          ∨ ∃ w ∈ vs, vs.foldl (fun m w => min m (w r)) a = w r) := by
  induction vs generalizing a with
  | nil => simp
  | cons v vs ih =>
    simp only [List.foldl_cons]
    obtain ⟨h1, h2, h3⟩ := ih (min a (v r))
    refine ⟨le_trans h1 (min_le_left _ _), ?_, ?_⟩
    · intro w hw
      rcases List.mem_cons.mp hw with rfl | hw
      · exact le_trans h1 (min_le_right _ _)
      · exact h2 w hw
    · rcases h3 with h | ⟨w, hw, h⟩
      · rcases min_choice a (v r) with hm | hm
        · left
          rw [h, hm]
        · right
          exact ⟨v, List.mem_cons_self _ _, by rw [h, hm]⟩
      · right
        exact ⟨w, List.mem_cons_of_mem _ hw, h⟩

theorem foldl_max_spec (r : Fin 3) (vs : List Vec3) (a : ℚ) :
    a ≤ vs.foldl (fun m w => max m (w r)) a
      ∧ (∀ w ∈ vs, w r ≤ vs.foldl (fun m w => max m (w r)) a)
      ∧ (vs.foldl (fun m w => max m (w r)) a = a
          ∨ ∃ w ∈ vs, vs.foldl (fun m w => max m (w r)) a = w r) := by
  induction vs generalizing a with
  | nil => simp
  | cons v vs ih =>
    simp only [List.foldl_cons]
    obtain ⟨h1, h2, h3⟩ := ih (max a (v r))
    refine ⟨le_trans (le_max_left _ _) h1, ?_, ?_⟩
    · intro w hw
      rcases List.mem_cons.mp hw with rfl | hw
      · exact le_trans (le_max_right _ _) h1
      · exact h2 w hw
    · rcases h3 with h | ⟨w, hw, h⟩
      · rcases max_choice a (v r) with hm | hm
        · left
          rw [h, hm]
        · right
          exact ⟨v, List.mem_cons_self _ _, by rw [h, hm]⟩
      · right
        exact ⟨w, List.mem_cons_of_mem _ hw, h⟩

/-- `rowwise().minCoeff()` is the least coefficient of the row, and some column has it. -/
theorem Shape.rowwiseMin_spec (s : Shape) (hs : s ≠ []) (r : Fin 3) :
    (∀ p ∈ s, Shape.rowwiseMin s r ≤ p r) ∧ ∃ p ∈ s, p r = Shape.rowwiseMin s r := by
  cases s with
  | nil => exact absurd rfl hs
  | cons v vs =>
    obtain ⟨h1, h2, h3⟩ := foldl_min_spec r vs (v r)
    refine ⟨?_, ?_⟩
    · intro p hp
      rcases List.mem_cons.mp hp with rfl | hp
      · exact h1
      · exact h2 p hp
    · rcases h3 with h | ⟨w, hw, h⟩
      · exact ⟨v, List.mem_cons_self _ _, h.symm⟩
      · exact ⟨w, List.mem_cons_of_mem _ hw, h.symm⟩

/-- `rowwise().maxCoeff()` is the greatest coefficient of the row, and some column has it. -/
theorem Shape.rowwiseMax_spec (s : Shape) (hs : s ≠ []) (r : Fin 3) :
    (∀ p ∈ s, p r ≤ Shape.rowwiseMax s r) ∧ ∃ p ∈ s, p r = Shape.rowwiseMax s r := by
  cases s with
  | nil => exact absurd rfl hs
  | cons v vs =>
    obtain ⟨h1, h2, h3⟩ := foldl_max_spec r vs (v r)
    refine ⟨?_, ?_⟩
    · intro p hp
      rcases List.mem_cons.mp hp with rfl | hp
      · exact h1
      · exact h2 p hp
    · rcases h3 with h | ⟨w, hw, h⟩
      · exact ⟨v, List.mem_cons_self _ _, h.symm⟩
      · exact ⟨w, List.mem_cons_of_mem _ hw, h.symm⟩


/-! ## Lemmas on the creation of the training samples -/

theorem resizeSamples_length (samples : List Sample) (n : Nat) :
    (resizeSamples samples n).length = n := by
  simp only [resizeSamples, List.length_append, List.length_take, List.length_replicate]
  omega

/-- What the loop of `createTrainingSamples` leaves: the length is kept, the
entries outside `i ≤ j < i + k` are untouched, and entry `j` inside is the
sample the loop body builds for `j`, from the engine as pass `j` finds it. -/
theorem SampleData.createLoop_spec (ext : Extern) (input : InputData) (range : ℚ × ℚ)
    (m k i : Nat) (samples : List Sample) (rnd : Rng) :
    (SampleData.createLoop ext input range m k i samples rnd).1.length = samples.length
      ∧ (∀ j, ¬ (i ≤ j ∧ j < i + k) →
          (SampleData.createLoop ext input range m k i samples rnd).1[j]? = samples[j]?)
      ∧ ∀ j, i ≤ j → j < i + k → j < samples.length →
          ∃ rnd1, (SampleData.createLoop ext input range m k i samples rnd).1[j]?
            = some (SampleData.perturbedSample ext input range m j rnd1).1 := by
  induction k generalizing i samples rnd with
  | zero =>
    refine ⟨rfl, fun _ _ => rfl, ?_⟩
    intro j h1 h2
    omega
  | succ k ih =>
    rw [SampleData.createLoop]
    obtain ⟨h1, h2, h3⟩ := ih (i + 1)
      (samples.set i (SampleData.perturbedSample ext input range m i rnd).1)
      (SampleData.perturbedSample ext input range m i rnd).2
    refine ⟨by simpa using h1, ?_, ?_⟩
    · intro j hj
      rw [h2 j (by omega), List.getElem?_set_ne (by omega)]
    · intro j hij hjk hlt
      by_cases hji : j = i
      · subst hji
        refine ⟨rnd, ?_⟩
        rw [h2 j (by omega), List.getElem?_set_self hlt]
      · exact h3 j (by omega) (by omega) (by simpa using hlt)

theorem computeMeanShape_isSome (td : SampleData) (h : 0 < td.samples.length) :
    ∃ mean, computeMeanShape td = some mean := by
  unfold computeMeanShape
  cases hs : td.samples with
  | nil => rw [hs] at h; simp at h
  | cons front rest => exact ⟨_, rfl⟩

/-- The result of `createTrainingSamples` for at least one input shape and a
sample count inside the range of `int`: the perturbed samples the loop leaves,
then the mean-shape samples when they are asked for. -/
theorem SampleData.createTrainingSamples_spec (ext : Extern) (td : SampleData)
    (params : SampleCreationParameters) (hm : td.input.shapes ≠ [])
    (hr : (td.input.shapes.length : Int) * max params.numShapesPerImage 1 < 2 ^ 31) :
    ∃ (rs : List Sample) (rnd : Rng) (mean : Shape),
      SampleData.createTrainingSamples ext td params
          = some { input := { td.input with rnd := rnd }
                   samples := rs ++ (if params.includeMeanShape then
                     SampleData.meanShapeSamples td.input mean td.input.shapes.length else [])
                   params := td.params
                   meanShape := mean }
        ∧ rs.length = td.input.shapes.length * (max params.numShapesPerImage 1).toNat
        ∧ (∀ j, j < rs.length → ∃ rnd1, rs[j]?
            = some (SampleData.perturbedSample ext td.input params.linearWeightRange
                td.input.shapes.length j rnd1).1)
        ∧ computeMeanShape { td with samples := rs, input := { td.input with rnd := rnd } }
            = some mean := by
  have hpos : 0 < td.input.shapes.length := List.length_pos.mpr hm
  have hN : 1 ≤ max params.numShapesPerImage 1 := le_max_right _ _
  have hcount : ((td.input.shapes.length : Int) * max params.numShapesPerImage 1).toNat
      = td.input.shapes.length * (max params.numShapesPerImage 1).toNat := by
    have h1 : ((max params.numShapesPerImage 1).toNat : Int) = max params.numShapesPerImage 1 :=
      Int.toNat_of_nonneg (by omega)
    have h2 : (td.input.shapes.length : Int) * max params.numShapesPerImage 1
        = ((td.input.shapes.length * (max params.numShapesPerImage 1).toNat : Nat) : Int) := by
      rw [Nat.cast_mul, h1]
    rw [h2, Int.toNat_natCast]
  obtain ⟨h1, -, h3⟩ := SampleData.createLoop_spec ext td.input params.linearWeightRange
    td.input.shapes.length
    (td.input.shapes.length * (max params.numShapesPerImage 1).toNat) 0
    (resizeSamples td.samples (td.input.shapes.length * (max params.numShapesPerImage 1).toNat))
    td.input.rnd
  rw [resizeSamples_length] at h1
  have hlen : 0 < td.input.shapes.length * (max params.numShapesPerImage 1).toNat :=
    Nat.mul_pos hpos (by omega)
  obtain ⟨mean, hmean⟩ := computeMeanShape_isSome
    { td with
      samples := (SampleData.createLoop ext td.input params.linearWeightRange
        td.input.shapes.length
        (td.input.shapes.length * (max params.numShapesPerImage 1).toNat) 0
        (resizeSamples td.samples
          (td.input.shapes.length * (max params.numShapesPerImage 1).toNat))
        td.input.rnd).1
      input := { td.input with
        rnd := (SampleData.createLoop ext td.input params.linearWeightRange
          td.input.shapes.length
          (td.input.shapes.length * (max params.numShapesPerImage 1).toNat) 0
          (resizeSamples td.samples
            (td.input.shapes.length * (max params.numShapesPerImage 1).toNat))
          td.input.rnd).2 } }
    (by rw [h1]; exact hlen)
  refine ⟨_, _, mean, ?_, h1, ?_, hmean⟩
  · unfold SampleData.createTrainingSamples
    dsimp only
    rw [if_neg (by omega), hcount, Int.toNat_natCast, hmean]
    dsimp only
    cases params.includeMeanShape with
    | true => simp [SampleData.meanShapeSamples]
    | false => simp
  · intro j hj
    rw [h1] at hj
    exact h3 j (Nat.zero_le _) (by omega) (by rw [resizeSamples_length]; exact hj)

theorem countP_mod_range (m N j : Nat) (hj : j < m) :
    (List.range (m * N)).countP (fun i => i % m = j) = N := by
  induction N with
  | zero => simp
  | succ N ih =>
    have h : m * (N + 1) = m * N + m := by ring
    rw [h, List.range_add, List.countP_append, ih, List.countP_map]
    congr 1
    have hfun : ((fun i => decide (i % m = j)) ∘ fun x => m * N + x)
        = fun i => decide (i % m = j) := by
      funext i
      simp [Nat.mul_add_mod]
    rw [hfun]
    have hcongr : ∀ i ∈ List.range m, decide (i % m = j) = true ↔ (i == j) = true := by
      intro i hi
      rw [Nat.mod_eq_of_lt (List.mem_range.mp hi)]
      simp
    rw [List.countP_congr hcongr]
    exact List.count_eq_one_of_mem (List.nodup_range m) (List.mem_range.mpr hj)


theorem Extern.sample_uniformReal : UniformRealInRange Extern.sample := by
  intro a b rnd hab
  simp only [Extern.sample]
  have h0 : (0 : ℚ) ≤ ((rnd % 4 : Nat) : ℚ) := Nat.cast_nonneg _
  have h4 : ((rnd % 4 : Nat) : ℚ) ≤ 4 := by
    have : rnd % 4 < 4 := Nat.mod_lt _ (by norm_num)
    exact_mod_cast this.le
  have hba : 0 ≤ b - a := sub_nonneg.mpr hab
  constructor
  · have : 0 ≤ (b - a) * ((rnd % 4 : Nat) : ℚ) / 4 := by positivity
    linarith
  · have : (b - a) * ((rnd % 4 : Nat) : ℚ) / 4 ≤ b - a := by
      rw [div_le_iff₀ (by norm_num)]
      nlinarith
    linarith

theorem SampleData.perturbedSamples_inputIdx (ext : Extern) (input : InputData) (range : ℚ × ℚ)
    (m : Nat) (rs : List Sample)
    (h : ∀ j, j < rs.length → ∃ rnd1, rs[j]?
      = some (SampleData.perturbedSample ext input range m j rnd1).1) :
    rs.map (fun s => s.inputIdx) = (List.range rs.length).map fun i => i % m := by
  apply List.ext_getElem
  · simp
  · intro i h1 h2
    have hi : i < rs.length := by simpa using h1
    obtain ⟨rnd1, hr⟩ := h i hi
    rw [List.getElem?_eq_getElem hi] at hr
    simp only [List.getElem_map, List.getElem_range]
    rw [Option.some.inj hr]
    rfl


/-! ## Lemmas on the random partition -/

theorem InputData.foldl_pushEntry (source : InputData) (ids : List Nat) (into : InputData) :
    (ids.foldl (InputData.pushEntry source) into).shapes
        = into.shapes ++ (ids.map fun id => source.shapes.getD id [])
      ∧ (ids.foldl (InputData.pushEntry source) into).shapeToImage
        = into.shapeToImage
            ++ (ids.map fun id => source.shapeToImage.getD id { linear := 1, translation := 0 })
      ∧ (ids.foldl (InputData.pushEntry source) into).images
        = into.images ++ (ids.map fun id => source.images.getD id [])
      ∧ (ids.foldl (InputData.pushEntry source) into).rects
        = into.rects ++ (ids.map fun id => source.rects.getD id 0)
      ∧ (ids.foldl (InputData.pushEntry source) into).rnd = into.rnd := by
  induction ids generalizing into with
  | nil => simp
  | cons id ids ih =>
    simp only [List.foldl_cons, List.map_cons]
    obtain ⟨h1, h2, h3, h4, h5⟩ := ih (InputData.pushEntry source into id)
    rw [h1, h2, h3, h4, h5]
    simp [InputData.pushEntry]

theorem InputData.entries_of_maps (source : InputData) (ids : List Nat) (d : InputData)
    (h1 : d.shapes = ids.map fun id => source.shapes.getD id [])
    (h2 : d.shapeToImage
      = ids.map fun id => source.shapeToImage.getD id { linear := 1, translation := 0 })
    (h3 : d.images = ids.map fun id => source.images.getD id [])
    (h4 : d.rects = ids.map fun id => source.rects.getD id 0) :
    InputData.entries d = ids.map (InputData.entry source) := by
  unfold InputData.entries
  rw [h1, h2, h3, h4]
  clear h1 h2 h3 h4
  induction ids with
  | nil => rfl
  | cons id ids ih =>
    simp only [List.map_cons, List.zip_cons_cons, ih]
    rfl

theorem InputData.entries_eq_range (d : InputData) (h2 : d.shapeToImage.length = d.shapes.length)
    (h3 : d.images.length = d.shapes.length) (h4 : d.rects.length = d.shapes.length) :
    InputData.entries d = (List.range d.shapes.length).map (InputData.entry d) := by
  apply InputData.entries_of_maps d
  · apply List.ext_getElem
    · simp
    · intro i h1 _
      simp [List.getElem?_eq_getElem h1]
  · apply List.ext_getElem
    · simp [h2]
    · intro i h1 _
      simp [List.getElem?_eq_getElem h1]
  · apply List.ext_getElem
    · simp [h3]
    · intro i h1 _
      simp [List.getElem?_eq_getElem h1]
  · apply List.ext_getElem
    · simp [h4]
    · intro i h1 _
      simp [List.getElem?_eq_getElem h1]

theorem Shuffle.reverse_permutes : ShufflePermutes Shuffle.reverse := by
  intro ids rnd
  exact List.reverse_perm ids

theorem roundHalfEven_bounds (q : ℚ) : ⌊q⌋ ≤ roundHalfEven q ∧ roundHalfEven q ≤ ⌈q⌉ := by
  unfold roundHalfEven
  dsimp only
  have hf := Int.floor_le q
  have hlt := Int.lt_floor_add_one q
  have hc : q - ⌊q⌋ ≥ 1 / 2 → ⌊q⌋ + 1 ≤ ⌈q⌉ := by
    intro h
    have : (⌊q⌋ : ℚ) < q := by linarith
    have h2 : ⌊q⌋ < ⌈q⌉ := by
      have := Int.le_ceil q
      exact_mod_cast lt_of_lt_of_le ‹(⌊q⌋ : ℚ) < q› this
    omega
  split_ifs with h1 h2 h3
  · exact ⟨le_refl _, Int.floor_le_ceil q⟩
  · exact ⟨by omega, hc (by linarith)⟩
  · exact ⟨le_refl _, Int.floor_le_ceil q⟩
  · exact ⟨by omega, hc (by linarith)⟩

/-- Below `2 ^ 24` the unit in the last place is `1 / 2 ^ k`. -/
theorem roundToFloat_ulp (x : ℚ) (h0 : 0 ≤ x) (hx : x < 2 ^ 24) :
    ∃ k : Nat, roundToFloat x = (roundHalfEven (x * 2 ^ k) : ℚ) / 2 ^ k := by
  have he : max (Int.log 2 |x|) (-126) ≤ 23 := by
    apply max_le _ (by norm_num)
    rw [abs_of_nonneg h0]
    rcases eq_or_lt_of_le h0 with h | h
    · rw [← h]
      simp
    · have := (Int.lt_zpow_iff_log_lt (b := 2) (by norm_num) h (x := 24)).mp (by exact_mod_cast hx)
      omega
  obtain ⟨k, hk⟩ := Int.eq_ofNat_of_zero_le (show 0 ≤ 23 - max (Int.log 2 |x|) (-126) by omega)
  refine ⟨k, ?_⟩
  have hulp : ((2 : ℚ) ^ (max (Int.log 2 |x|) (-126) - 23)) = 1 / 2 ^ k := by
    have : max (Int.log 2 |x|) (-126) - 23 = -(k : Int) := by omega
    rw [this, zpow_neg, zpow_natCast, one_div]
  unfold roundToFloat
  dsimp only
  rw [hulp]
  field_simp

/-- Rounding to `float` does not cross a whole number below `2 ^ 24`. -/
theorem roundToFloat_le_nat (x : ℚ) (n : Nat) (h0 : 0 ≤ x) (hn : n < 2 ^ 24) (hx : x ≤ n) :
    roundToFloat x ≤ n := by
  have hlt : x < 2 ^ 24 := lt_of_le_of_lt hx (by exact_mod_cast hn)
  obtain ⟨k, hk⟩ := roundToFloat_ulp x h0 hlt
  rw [hk, div_le_iff₀ (by positivity)]
  have h1 := (roundHalfEven_bounds (x * 2 ^ k)).2
  have h2 : ⌈x * 2 ^ k⌉ ≤ ((n * 2 ^ k : Nat) : Int) := by
    apply Int.ceil_le.mpr
    push_cast
    exact mul_le_mul_of_nonneg_right hx (by positivity)
  have h3 : ((roundHalfEven (x * 2 ^ k) : Int) : ℚ) ≤ (((n * 2 ^ k : Nat) : Int) : ℚ) := by
    exact_mod_cast le_trans h1 h2
  simpa using h3

theorem nat_le_roundToFloat (x : ℚ) (n : Nat) (hx : x < 2 ^ 24) (hn : (n : ℚ) ≤ x) :
    (n : ℚ) ≤ roundToFloat x := by
  have h0 : 0 ≤ x := le_trans (Nat.cast_nonneg n) hn
  obtain ⟨k, hk⟩ := roundToFloat_ulp x h0 hx
  rw [hk, le_div_iff₀ (by positivity)]
  have h1 := (roundHalfEven_bounds (x * 2 ^ k)).1
  have h2 : ((n * 2 ^ k : Nat) : Int) ≤ ⌊x * 2 ^ k⌋ := by
    apply Int.le_floor.mpr
    push_cast
    exact mul_le_mul_of_nonneg_right hn (by positivity)
  have h3 : (((n * 2 ^ k : Nat) : Int) : ℚ) ≤ ((roundHalfEven (x * 2 ^ k) : Int) : ℚ) := by
    exact_mod_cast le_trans h2 h1
  simpa using h3

/-- A whole number below `2 ^ 24` is a `float`. -/
theorem roundToFloat_natCast (n : Nat) (hn : n < 2 ^ 24) : roundToFloat (n : ℚ) = n :=
  le_antisymm (roundToFloat_le_nat _ n (Nat.cast_nonneg n) hn (le_refl _))
    (nat_le_roundToFloat _ n (by exact_mod_cast hn) (le_refl _))

/-- `numValidate` for fewer than `2 ^ 24` inputs and `0 ≤ p ≤ 1`: the floor of
the rounded product, between `⌊n · p⌋` and `⌈n · p⌉` and at most `n`. -/
theorem InputData.numValidate_bounds (n : Nat) (p : ℚ) (hn : n < 2 ^ 24) (h0 : 0 ≤ p)
    (h1 : p ≤ 1) :
    InputData.numValidate n p = ⌊roundToFloat ((n : ℚ) * p)⌋
      ∧ ⌊(n : ℚ) * p⌋ ≤ InputData.numValidate n p
      ∧ InputData.numValidate n p ≤ ⌈(n : ℚ) * p⌉
      ∧ 0 ≤ InputData.numValidate n p
      ∧ InputData.numValidate n p ≤ (n : Int) := by
  have hnn : (0 : ℚ) ≤ (n : ℚ) := Nat.cast_nonneg n
  have hnp : 0 ≤ (n : ℚ) * p := mul_nonneg hnn h0
  have hle : (n : ℚ) * p ≤ (n : ℚ) := by
    have : (n : ℚ) * p ≤ (n : ℚ) * 1 := mul_le_mul_of_nonneg_left h1 hnn
    simpa using this
  have hlt : (n : ℚ) * p < 2 ^ 24 := lt_of_le_of_lt hle (by exact_mod_cast hn)
  have hfl : 0 ≤ ⌊(n : ℚ) * p⌋ := Int.floor_nonneg.mpr hnp
  have hcl : ⌈(n : ℚ) * p⌉ ≤ (n : Int) := Int.ceil_le.mpr (by exact_mod_cast hle)
  have hlow : ((⌊(n : ℚ) * p⌋.toNat : Nat) : ℚ) ≤ roundToFloat ((n : ℚ) * p) := by
    apply nat_le_roundToFloat _ _ hlt
    have : ((⌊(n : ℚ) * p⌋.toNat : Nat) : Int) = ⌊(n : ℚ) * p⌋ := Int.toNat_of_nonneg hfl
    have h2 : ((⌊(n : ℚ) * p⌋.toNat : Nat) : ℚ) = ((⌊(n : ℚ) * p⌋ : Int) : ℚ) := by
      exact_mod_cast this
    rw [h2]
    exact Int.floor_le _
  have hcn : 0 ≤ ⌈(n : ℚ) * p⌉ := Int.ceil_nonneg hnp
  have hhigh : roundToFloat ((n : ℚ) * p) ≤ ((⌈(n : ℚ) * p⌉.toNat : Nat) : ℚ) := by
    apply roundToFloat_le_nat _ _ hnp
    · have : ((⌈(n : ℚ) * p⌉.toNat : Nat) : Int) ≤ (n : Int) := by
        rw [Int.toNat_of_nonneg hcn]; exact hcl
      omega
    · have : ((⌈(n : ℚ) * p⌉.toNat : Nat) : Int) = ⌈(n : ℚ) * p⌉ := Int.toNat_of_nonneg hcn
      have h2 : ((⌈(n : ℚ) * p⌉.toNat : Nat) : ℚ) = ((⌈(n : ℚ) * p⌉ : Int) : ℚ) := by
        exact_mod_cast this
      rw [h2]
      exact Int.le_ceil _
  have hr0 : 0 ≤ roundToFloat ((n : ℚ) * p) := le_trans (Nat.cast_nonneg _) hlow
  have heq : InputData.numValidate n p = ⌊roundToFloat ((n : ℚ) * p)⌋ := by
    unfold InputData.numValidate
    rw [roundToFloat_natCast n hn]
    simp [truncToInt, hr0]
  have hA : ⌊(n : ℚ) * p⌋ ≤ ⌊roundToFloat ((n : ℚ) * p)⌋ := by
    apply Int.le_floor.mpr
    have : ((⌊(n : ℚ) * p⌋.toNat : Nat) : Int) = ⌊(n : ℚ) * p⌋ := Int.toNat_of_nonneg hfl
    have h2 : ((⌊(n : ℚ) * p⌋.toNat : Nat) : ℚ) = ((⌊(n : ℚ) * p⌋ : Int) : ℚ) := by
      exact_mod_cast this
    rw [← h2]
    exact hlow
  have hB : ⌊roundToFloat ((n : ℚ) * p)⌋ ≤ ⌈(n : ℚ) * p⌉ := by
    have : ((⌈(n : ℚ) * p⌉.toNat : Nat) : Int) = ⌈(n : ℚ) * p⌉ := Int.toNat_of_nonneg hcn
    have h2 : ((⌈(n : ℚ) * p⌉.toNat : Nat) : ℚ) = ((⌈(n : ℚ) * p⌉ : Int) : ℚ) := by
      exact_mod_cast this
    rw [h2] at hhigh
    have := Int.floor_mono hhigh
    rwa [Int.floor_intCast] at this
  rw [heq]
  exact ⟨rfl, hA, hB, le_trans hfl hA, le_trans hB hcl⟩

/-- The result of `randomPartition` when `numValidate` is `k`, with
`0 ≤ k ≤ n`. -/
theorem InputData.randomPartition_entries (shuffle : Shuffle) (hperm : ShufflePermutes shuffle)
    (engine0 : Rng) (train validate : InputData) (p : ℚ)
    (h2 : train.shapeToImage.length = train.shapes.length)
    (h3 : train.images.length = train.shapes.length)
    (h4 : train.rects.length = train.shapes.length)
    (hk0 : 0 ≤ InputData.numValidate train.shapes.length p)
    (hkn : InputData.numValidate train.shapes.length p ≤ (train.shapes.length : Int)) :
    ∃ tr va ids, InputData.randomPartition shuffle engine0 train validate p = some (tr, va)
      ∧ List.Perm ids (List.range train.shapes.length)
      ∧ InputData.entries va
          = (ids.take (InputData.numValidate train.shapes.length p).toNat).map
              (InputData.entry train)
      ∧ InputData.entries tr
          = (ids.drop (InputData.numValidate train.shapes.length p).toNat).map
              (InputData.entry train)
      ∧ (va.shapes.length = (InputData.numValidate train.shapes.length p).toNat
          ∧ va.shapeToImage.length = (InputData.numValidate train.shapes.length p).toNat
          ∧ va.images.length = (InputData.numValidate train.shapes.length p).toNat
          ∧ va.rects.length = (InputData.numValidate train.shapes.length p).toNat)
      ∧ (tr.shapes.length
            = train.shapes.length - (InputData.numValidate train.shapes.length p).toNat
          ∧ tr.shapeToImage.length
            = train.shapes.length - (InputData.numValidate train.shapes.length p).toNat
          ∧ tr.images.length
            = train.shapes.length - (InputData.numValidate train.shapes.length p).toNat
          ∧ tr.rects.length
            = train.shapes.length - (InputData.numValidate train.shapes.length p).toNat)
      ∧ List.Disjoint (ids.take (InputData.numValidate train.shapes.length p).toNat)
          (ids.drop (InputData.numValidate train.shapes.length p).toNat)
      ∧ List.Perm (InputData.entries va ++ InputData.entries tr) (InputData.entries train) := by
  have hids := hperm (List.range train.shapes.length) train.rnd
  have hlen : (shuffle (List.range train.shapes.length) train.rnd).1.length
      = train.shapes.length := by
    rw [hids.length_eq, List.length_range]
  have hk : (InputData.numValidate train.shapes.length p).toNat ≤ train.shapes.length := by omega
  obtain ⟨v1, v2, v3, v4, -⟩ := InputData.foldl_pushEntry train
    ((shuffle (List.range train.shapes.length) train.rnd).1.take
      (InputData.numValidate train.shapes.length p).toNat)
    { validate with shapes := [], shapeToImage := [], images := [], rects := [] }
  obtain ⟨t1, t2, t3, t4, -⟩ := InputData.foldl_pushEntry train
    ((shuffle (List.range train.shapes.length) train.rnd).1.drop
      (InputData.numValidate train.shapes.length p).toNat)
    { shapes := [], shapeToImage := [], images := [], rects := [], rnd := engine0 }
  simp only [List.nil_append] at v1 v2 v3 v4 t1 t2 t3 t4
  have hva := InputData.entries_of_maps train _ _ v1 v2 v3 v4
  have htr := InputData.entries_of_maps train _ _ t1 t2 t3 t4
  refine ⟨_, _, (shuffle (List.range train.shapes.length) train.rnd).1, ?_, hids, hva, htr,
    ⟨?_, ?_, ?_, ?_⟩, ⟨?_, ?_, ?_, ?_⟩, ?_, ?_⟩
  · unfold InputData.randomPartition
    dsimp only
    rw [if_neg (by rw [hlen]; omega)]
  · rw [v1, List.length_map, List.length_take, hlen]; omega
  · rw [v2, List.length_map, List.length_take, hlen]; omega
  · rw [v3, List.length_map, List.length_take, hlen]; omega
  · rw [v4, List.length_map, List.length_take, hlen]; omega
  · rw [t1, List.length_map, List.length_drop, hlen]
  · rw [t2, List.length_map, List.length_drop, hlen]
  · rw [t3, List.length_map, List.length_drop, hlen]
  · rw [t4, List.length_map, List.length_drop, hlen]
  · have hnodup : (shuffle (List.range train.shapes.length) train.rnd).1.Nodup :=
      hids.nodup_iff.mpr (List.nodup_range _)
    rw [← List.take_append_drop (InputData.numValidate train.shapes.length p).toNat
      (shuffle (List.range train.shapes.length) train.rnd).1] at hnodup
    exact (List.nodup_append.mp hnodup).2.2
  · rw [hva, htr, ← List.map_append, List.take_append_drop,
      InputData.entries_eq_range train h2 h3 h4]
    exact hids.map _

theorem floatSevenTenths_log : Int.log 2 |(10 : ℚ) * floatSevenTenths| = 2 := by
  have hpos : (0 : ℚ) < 10 * floatSevenTenths := by norm_num [floatSevenTenths]
  rw [abs_of_pos hpos]
  have h1 : (2 : Int) ≤ Int.log 2 ((10 : ℚ) * floatSevenTenths) :=
    (Int.zpow_le_iff_le_log (b := 2) (by norm_num) hpos).mp (by norm_num [floatSevenTenths])
  have h2 : Int.log 2 ((10 : ℚ) * floatSevenTenths) < 3 :=
    (Int.lt_zpow_iff_log_lt (b := 2) (by norm_num) hpos).mp (by norm_num [floatSevenTenths])
  omega

theorem floatSevenTenths_product : roundToFloat ((10 : ℚ) * floatSevenTenths) = 7 := by
  unfold roundToFloat
  dsimp only
  rw [floatSevenTenths_log]
  norm_num [roundHalfEven, floatSevenTenths]

theorem floatSevenTenths_numValidate : InputData.numValidate 10 floatSevenTenths = 7 := by
  unfold InputData.numValidate
  rw [show ((10 : Nat) : ℚ) = 10 by norm_num] 
  have h := roundToFloat_natCast 10 (by norm_num)
  rw [show ((10 : Nat) : ℚ) = 10 by norm_num] at h
  rw [h, floatSevenTenths_product]
  norm_num [truncToInt]


theorem floatSevenTenths_nearest : roundToFloat (7 / 10) = floatSevenTenths := by
  have hpos : (0 : ℚ) < 7 / 10 := by norm_num
  have hlog : Int.log 2 |(7 / 10 : ℚ)| = -1 := by
    rw [abs_of_pos hpos]
    have h1 : (-1 : Int) ≤ Int.log 2 (7 / 10 : ℚ) :=
      (Int.zpow_le_iff_le_log (b := 2) (by norm_num) hpos).mp (by norm_num)
    have h2 : Int.log 2 (7 / 10 : ℚ) < 0 :=
      (Int.lt_zpow_iff_log_lt (b := 2) (by norm_num) hpos).mp (by norm_num)
    omega
  unfold roundToFloat
  dsimp only
  rw [hlog]
  norm_num [roundHalfEven, floatSevenTenths]


/-! ## Lemmas on the mean residual of a stage -/

/-- The sum of 3×L matrices divided by their number is their arithmetic mean. -/
theorem Shape.mean_eq_arithmeticMean (rs : List Shape) (L : Nat) (h : ∀ r ∈ rs, r.length = L) :
    Shape.divScalar (rs.foldl Shape.add (Shape.zero L)) (rs.length : ℚ) = arithmeticMean rs L := by
  rw [Shape.zero_eq_range_map, Shape.foldl_add_range_map _ _ _ h]
  simp only [Shape.divScalar, arithmeticMean, List.map_map]
  apply List.map_congr_left
  intro j _
  funext r
  simp only [Function.comp_apply, Pi.add_apply, Pi.zero_apply, zero_add]
  rw [sum_map_apply]

theorem Shape.getD_sub (a b : Shape) (j : Nat) (ha : j < a.length) (hb : j < b.length) :
    (Shape.sub a b).getD j 0 = a.getD j 0 - b.getD j 0 := by
  have hj : j < (Shape.sub a b).length := by
    rw [Shape.length_sub]
    omega
  rw [List.getD_eq_getElem _ _ hj, List.getD_eq_getElem _ _ ha, List.getD_eq_getElem _ _ hb]
  simp [Shape.sub]

theorem arithmeticMean_getD (rs : List Shape) (L j : Nat) (hj : j < L) :
    (arithmeticMean rs L).getD j 0
      = fun r => (rs.map fun m => (m.getD j 0) r).sum / (rs.length : ℚ) := by
  have hlt : j < (arithmeticMean rs L).length := by simpa [arithmeticMean] using hj
  rw [List.getD_eq_getElem _ _ hlt]
  simp [arithmeticMean]

theorem arithmeticMean_length (rs : List Shape) (L : Nat) : (arithmeticMean rs L).length = L := by
  simp [arithmeticMean]

theorem Regressor.fitSamples_residuals (ext : Extern) (self : Regressor)
    (t : RegressorTraining) :
    (Regressor.fitSamples ext self t).map (fun s => s.residual)
      = t.training.samples.map fun s => Shape.sub s.target s.estimate := by
  unfold Regressor.fitSamples
  rw [List.map_map]
  rfl

theorem floatLt_iff (a b : Option ℚ) :
    floatLt a b = true ↔ ∃ x y, a = some x ∧ b = some y ∧ x < y := by
  cases a <;> cases b <;> simp [floatLt]

/-- The loop of `std::max_element` on `float` values: started at a NaN it stays
at index 0; started at a number it ends at the first largest of the numbers. -/
theorem maxElementLoop_spec (xs pre : List (Option ℚ)) (best : Nat) (largest : Option ℚ)
    (hb : best < pre.length) (hl : pre[best]? = some largest)
    (hnan : largest = none → best = 0)
    (hnum : ∀ m, largest = some m →
      (∀ (j : Nat) (e : ℚ), pre[j]? = some (some e) → e ≤ m)
        ∧ ∀ j, j < best → ∀ e, pre[j]? = some (some e) → e < m) :
    maxElementLoop xs pre.length best largest < (pre ++ xs).length
      ∧ (largest = none → maxElementLoop xs pre.length best largest = 0)
      ∧ (∀ m, largest = some m →
          ∃ mk, (pre ++ xs)[maxElementLoop xs pre.length best largest]? = some (some mk)
            ∧ (∀ (j : Nat) (e : ℚ), (pre ++ xs)[j]? = some (some e) → e ≤ mk)
            ∧ ∀ j, j < maxElementLoop xs pre.length best largest →
                ∀ e, (pre ++ xs)[j]? = some (some e) → e < mk) := by
  induction xs generalizing pre best largest with
  | nil =>
    simp only [maxElementLoop, List.append_nil]
    refine ⟨hb, hnan, ?_⟩
    intro m hm
    exact ⟨m, by rw [hl, hm], (hnum m hm).1, (hnum m hm).2⟩
  | cons x xs ih =>
    have hlen : (pre ++ [x]).length = pre.length + 1 := by simp
    have happ : pre ++ x :: xs = (pre ++ [x]) ++ xs := by simp
    have hget : ∀ j, j < pre.length → (pre ++ [x])[j]? = pre[j]? := by
      intro j hj
      exact List.getElem?_append_left hj
    have hlast : (pre ++ [x])[pre.length]? = some x := by
      simp
    have hcases : ∀ j e, (pre ++ [x])[j]? = some (some e) →
        (j < pre.length ∧ pre[j]? = some (some e)) ∨ (j = pre.length ∧ x = some e) := by
      intro j e hj
      rcases Nat.lt_trichotomy j pre.length with h | h | h
      · left
        exact ⟨h, by rw [← hget j h]; exact hj⟩
      · right
        subst h
        rw [hlast] at hj
        exact ⟨rfl, Option.some.inj hj⟩
      · exfalso
        have : (pre ++ [x])[j]? = none := List.getElem?_eq_none (by rw [hlen]; omega)
        rw [this] at hj
        exact Option.noConfusion hj
    rw [maxElementLoop, happ]
    by_cases hlt : floatLt largest x = true
    · rw [if_pos hlt, ← hlen]
      obtain ⟨m, y, hm, hy, hmy⟩ := (floatLt_iff _ _).mp hlt
      obtain ⟨hmax, -⟩ := hnum m hm
      have h := ih (pre ++ [x]) pre.length x (by rw [hlen]; omega) hlast
        (by intro hx; rw [hx] at hy; exact Option.noConfusion hy)
        (by
          intro y1 hy1
          have hyy : y1 = y := by
            rw [hy] at hy1
            exact (Option.some.inj hy1).symm
          subst hyy
          constructor
          · intro j e hj
            rcases hcases j e hj with ⟨-, h1⟩ | ⟨-, h1⟩
            · exact le_of_lt (lt_of_le_of_lt (hmax j e h1) hmy)
            · rw [hy] at h1
              exact le_of_eq (Option.some.inj h1).symm
          · intro j hj e hje
            rw [hget j hj] at hje
            exact lt_of_le_of_lt (hmax j e hje) hmy)
      refine ⟨h.1, ?_, ?_⟩
      · intro hn
        rw [hn] at hm
        exact Option.noConfusion hm
      · intro m1 _
        exact h.2.2 y hy
    · rw [if_neg hlt, ← hlen]
      have h := ih (pre ++ [x]) best largest (by rw [hlen]; omega)
        (by rw [hget best hb]; exact hl) hnan
        (by
          intro m hm
          obtain ⟨hmax, hfirst⟩ := hnum m hm
          constructor
          · intro j e hj
            rcases hcases j e hj with ⟨-, h1⟩ | ⟨-, h1⟩
            · exact hmax j e h1
            · by_contra hcon
              apply hlt
              exact (floatLt_iff _ _).mpr ⟨m, e, hm, h1, not_le.mp hcon⟩
          · intro j hj e hje
            rw [hget j (by omega)] at hje
            exact hfirst j hj e hje)
      exact h

/-- `std::max_element` on a vector of `float` values that is not empty: index 0
when the first element is NaN; otherwise the index of a number that no number
of the vector exceeds, with every number before it strictly smaller. -/
theorem maxElementIndex_spec (xs : List (Option ℚ)) (hne : xs ≠ []) :
    maxElementIndex xs < xs.length
      ∧ (xs[0]? = some none → maxElementIndex xs = 0)
      ∧ (∀ e0, xs[0]? = some (some e0) →
          ∃ m, xs[maxElementIndex xs]? = some (some m)
            ∧ (∀ (j : Nat) (e : ℚ), xs[j]? = some (some e) → e ≤ m)
            ∧ ∀ j, j < maxElementIndex xs → ∀ e, xs[j]? = some (some e) → e < m) := by
  cases xs with
  | nil => exact absurd rfl hne
  | cons x xs =>
    have h := maxElementLoop_spec xs [x] 0 x (by simp) (by simp) (fun _ => rfl)
      (by
        intro m hm
        constructor
        · intro j e hj
          cases j with
          | zero =>
            simp only [List.getElem?_cons_zero] at hj
            rw [hm] at hj
            exact le_of_eq (Option.some.inj (Option.some.inj hj)).symm
          | succ j => simp at hj
        · intro j hj
          omega)
    simp only [List.singleton_append, List.length_singleton] at h
    refine ⟨h.1, ?_, ?_⟩
    · intro h0
      simp only [List.getElem?_cons_zero] at h0
      exact h.2.1 (Option.some.inj h0)
    · intro e0 h0
      simp only [List.getElem?_cons_zero] at h0
      exact h.2.2 e0 (Option.some.inj h0)

/-- The node array after `splitNode` got candidate splits for a range that is
not empty: the parent's split is the candidate at the index that
`std::max_element` returns for the energies. -/
theorem Tree.splitNode_nodes (ext : Extern) (t : TreeTraining) (s : FitState)
    (parent : NodeInfo) (hne : parent.range.2 ≠ parent.range.1) (first : SplitInfo)
    (rest : List SplitInfo) (hsplits : (Tree.sampleSplitPositions ext t s.rnd).1 = first :: rest) :
    (Tree.splitNode ext t s parent).1.nodes
      = s.nodes.set parent.node
          { (s.nodes.getD parent.node default) with
            split := (first :: rest).getD
              (maxElementIndex ((first :: rest).map fun split =>
                Tree.splitEnergy s.samples t.numLandmarks parent
                  (meanResidualOfRange s.samples parent.range t.numLandmarks) split))
              first } := by
  unfold Tree.splitNode
  dsimp only
  rw [if_neg hne, hsplits]
  dsimp only
  split <;> rfl


/-- The choice of `splitNode` among its candidate splits, for a range that is
not empty: the split written into the parent node is the candidate at the index
`k` that `std::max_element` returns for the energies.  When the energy of the
first candidate is NaN, `k = 0`.  When it is a number, so is the energy of
candidate `k`, no candidate has an energy that is a number above it, and every
candidate before `k` whose energy is a number has a strictly smaller one. -/
theorem Tree.splitNode_choice (ext : Extern) (t : TreeTraining) (s : FitState)
    (parent : NodeInfo) (hne : parent.range.2 ≠ parent.range.1) (first : SplitInfo)
    (rest : List SplitInfo) (hsplits : (Tree.sampleSplitPositions ext t s.rnd).1 = first :: rest) :
    ∃ k, k = maxElementIndex ((first :: rest).map fun split =>
          Tree.splitEnergy s.samples t.numLandmarks parent
            (meanResidualOfRange s.samples parent.range t.numLandmarks) split)
      ∧ k < (first :: rest).length
      ∧ (Tree.splitNode ext t s parent).1.nodes
          = s.nodes.set parent.node
              { (s.nodes.getD parent.node default) with split := (first :: rest).getD k first }
      ∧ (Tree.splitEnergy s.samples t.numLandmarks parent
            (meanResidualOfRange s.samples parent.range t.numLandmarks) first = none → k = 0)
      ∧ (∀ e0, Tree.splitEnergy s.samples t.numLandmarks parent
            (meanResidualOfRange s.samples parent.range t.numLandmarks) first = some e0 →
          ∃ m, Tree.splitEnergy s.samples t.numLandmarks parent
                (meanResidualOfRange s.samples parent.range t.numLandmarks)
                ((first :: rest).getD k first) = some m
            ∧ (∀ j, j < (first :: rest).length → ∀ e,
                Tree.splitEnergy s.samples t.numLandmarks parent
                    (meanResidualOfRange s.samples parent.range t.numLandmarks)
                    ((first :: rest).getD j first) = some e → e ≤ m)
            ∧ ∀ j, j < k → ∀ e,
                Tree.splitEnergy s.samples t.numLandmarks parent
                    (meanResidualOfRange s.samples parent.range t.numLandmarks)
                    ((first :: rest).getD j first) = some e → e < m) := by
  have hmap : ∀ j, j < (first :: rest).length →
      ((first :: rest).map fun split =>
          Tree.splitEnergy s.samples t.numLandmarks parent
            (meanResidualOfRange s.samples parent.range t.numLandmarks) split)[j]?
        = some (Tree.splitEnergy s.samples t.numLandmarks parent
            (meanResidualOfRange s.samples parent.range t.numLandmarks)
            ((first :: rest).getD j first)) := by
    intro j hj
    rw [List.getElem?_map, List.getD_eq_getElem _ _ hj, List.getElem?_eq_getElem hj]
    rfl
  obtain ⟨h1, h2, h3⟩ := maxElementIndex_spec
    ((first :: rest).map fun split =>
      Tree.splitEnergy s.samples t.numLandmarks parent
        (meanResidualOfRange s.samples parent.range t.numLandmarks) split)
    (by simp)
  rw [List.length_map] at h1
  have h0 := hmap 0 (by simp)
  refine ⟨_, rfl, h1, Tree.splitNode_nodes ext t s parent hne first rest hsplits, ?_, ?_⟩
  · intro hnan
    apply h2
    rw [h0]
    exact congrArg some hnan
  · intro e0 he0
    obtain ⟨m, hm, hmax, hfirst⟩ := h3 e0 (by rw [h0]; exact congrArg some he0)
    rw [hmap _ h1] at hm
    refine ⟨m, Option.some.inj hm, ?_, ?_⟩
    · intro j hj e he
      exact hmax j e (by rw [hmap j hj, he])
    · intro j hj e he
      exact hfirst j hj e (by rw [hmap j (by omega), he])

theorem Extern.secondThreshold_uniformInt : UniformIntInRange Extern.secondThreshold :=
  Extern.sample_uniformInt

theorem Extern.secondThreshold_uniformReal : UniformRealInRange Extern.secondThreshold := by
  intro a b rnd hab
  simp only [Extern.secondThreshold]
  split_ifs with h1 h2
  · exact ⟨h1.2.1, h1.2.2⟩
  · exact h2
  · exact ⟨le_refl _, hab⟩


/-! ## Lemmas on the split energy -/

theorem sum_map_sum_comm {α β : Type} (l1 : List α) (l2 : List β) (f : α → β → ℚ) :
    (l1.map fun a => (l2.map fun b => f a b).sum).sum
      = (l2.map fun b => (l1.map fun a => f a b).sum).sum := by
  induction l1 with
  | nil => simp
  | cons a l1 ih =>
    simp only [List.map_cons, List.sum_cons, ih]
    rw [← List.sum_map_add]

theorem sum_map_sub_mul {α : Type} (l : List α) (f g : α → ℚ) (c : ℚ) :
    (l.map fun j => f j - c * g j).sum = (l.map f).sum - c * (l.map g).sum := by
  induction l with
  | nil => simp
  | cons x l ih =>
    simp only [List.map_cons, List.sum_cons, ih]
    ring

theorem Shape.eq_range_map (s : Shape) (L : Nat) (h : s.length = L) :
    s = (List.range L).map fun j => s.getD j 0 := by
  apply List.ext_getElem
  · simp [h]
  · intro i h1 h2
    simp [List.getElem?_eq_getElem h1]

theorem Shape.squaredNorm_eq_range (s : Shape) (L : Nat) (h : s.length = L) :
    Shape.squaredNorm s = ((List.range L).map fun j => Vec3.squaredNorm (s.getD j 0)).sum := by
  unfold Shape.squaredNorm
  conv_lhs => rw [Shape.eq_range_map s L h]
  rw [List.map_map]
  rfl

theorem sum_sq_sub_const (xs : List ℚ) (c : ℚ) :
    (xs.map fun x => (x - c) * (x - c)).sum
      = (xs.map fun x => x * x).sum - 2 * c * xs.sum + (xs.length : ℚ) * (c * c) := by
  induction xs with
  | nil => simp
  | cons x xs ih =>
    simp only [List.map_cons, List.sum_cons, List.length_cons, Nat.cast_succ, ih]
    ring

theorem sum_sq_sub_mean (xs : List ℚ) (hne : xs ≠ []) :
    (xs.map fun x => (x - xs.sum / (xs.length : ℚ)) * (x - xs.sum / (xs.length : ℚ))).sum
      = (xs.map fun x => x * x).sum
        - (xs.length : ℚ) * (xs.sum / (xs.length : ℚ) * (xs.sum / (xs.length : ℚ))) := by
  have hn : (xs.length : ℚ) ≠ 0 := by
    have := List.length_pos.mpr hne
    exact_mod_cast this.ne'
  rw [sum_sq_sub_const]
  field_simp
  ring

/-- The squared distances of the columns `j` of the matrices `rs` to column `j`
of their arithmetic mean. -/
theorem sum_squaredNorm_column (rs : List Shape) (L j : Nat) (hne : rs ≠ []) (hj : j < L) :
    (rs.map fun r => Vec3.squaredNorm (r.getD j 0 - (arithmeticMean rs L).getD j 0)).sum
      = (rs.map fun r => Vec3.squaredNorm (r.getD j 0)).sum
        - (rs.length : ℚ) * Vec3.squaredNorm ((arithmeticMean rs L).getD j 0) := by
  rw [arithmeticMean_getD rs L j hj]
  have h0 := sum_sq_sub_mean (rs.map fun m => (m.getD j 0) 0) (by simpa using hne)
  have h1 := sum_sq_sub_mean (rs.map fun m => (m.getD j 0) 1) (by simpa using hne)
  have h2 := sum_sq_sub_mean (rs.map fun m => (m.getD j 0) 2) (by simpa using hne)
  simp only [List.map_map, List.length_map, Function.comp_def] at h0 h1 h2
  simp only [Vec3.squaredNorm, Pi.sub_apply, List.sum_map_add]
  rw [h0, h1, h2]
  ring

/-- `Σ_i ‖r_i − μ‖² = Σ_i ‖r_i‖² − n · ‖μ‖²` for the arithmetic mean `μ` of `n ≥ 1`
matrices. -/
theorem sumSquaresAboutMean_eq (rs : List Shape) (L : Nat) (hne : rs ≠ [])
    (hlen : ∀ r ∈ rs, r.length = L) :
    sumSquaresAboutMean rs L
      = (rs.map Shape.squaredNorm).sum
        - (rs.length : ℚ) * Shape.squaredNorm (arithmeticMean rs L) := by
  unfold sumSquaresAboutMean
  have h1 : (rs.map fun r => Shape.squaredNorm (Shape.sub r (arithmeticMean rs L)))
      = rs.map fun r => ((List.range L).map fun j =>
          Vec3.squaredNorm (r.getD j 0 - (arithmeticMean rs L).getD j 0)).sum := by
    apply List.map_congr_left
    intro r hr
    rw [Shape.squaredNorm_eq_range _ L
      (by rw [Shape.length_sub, hlen r hr, arithmeticMean_length, min_self])]
    congr 1
    apply List.map_congr_left
    intro j hj
    have hjL : j < L := List.mem_range.mp hj
    rw [Shape.getD_sub _ _ _ (by rw [hlen r hr]; exact hjL)
      (by rw [arithmeticMean_length]; exact hjL)]
  have h2 : (rs.map Shape.squaredNorm)
      = rs.map fun r => ((List.range L).map fun j => Vec3.squaredNorm (r.getD j 0)).sum := by
    apply List.map_congr_left
    intro r hr
    exact Shape.squaredNorm_eq_range r L (hlen r hr)
  rw [h1, h2, sum_map_sum_comm, sum_map_sum_comm rs,
    Shape.squaredNorm_eq_range _ L (arithmeticMean_length rs L)]
  have h3 : ((List.range L).map fun j => (rs.map fun r =>
        Vec3.squaredNorm (r.getD j 0 - (arithmeticMean rs L).getD j 0)).sum)
      = (List.range L).map fun j => (rs.map fun r => Vec3.squaredNorm (r.getD j 0)).sum
          - (rs.length : ℚ) * Vec3.squaredNorm ((arithmeticMean rs L).getD j 0) := by
    apply List.map_congr_left
    intro j hj
    exact sum_squaredNorm_column rs L j hne (List.mem_range.mp hj)
  rw [h3]
  exact sum_map_sub_mul _ _ _ _

theorem sum_filter_add_sum_filter_not {α : Type} (l : List α) (p : α → Bool) (f : α → ℚ) :
    ((l.filter p).map f).sum + ((l.filter fun x => !p x).map f).sum = (l.map f).sum := by
  induction l with
  | nil => simp
  | cons x l ih =>
    cases hp : p x
    · simp only [List.filter_cons, hp, Bool.false_eq_true, if_false, Bool.not_false, if_true,
        List.map_cons, List.sum_cons, ← ih]
      ring
    · simp only [List.filter_cons, hp, if_true, Bool.not_true, Bool.false_eq_true, if_false,
        List.map_cons, List.sum_cons, ← ih]
      ring

theorem length_filter_add_length_filter_not {α : Type} (l : List α) (p : α → Bool) :
    (l.filter p).length + (l.filter fun x => !p x).length = l.length := by
  induction l with
  | nil => simp
  | cons x l ih =>
    cases hp : p x
    · simp only [List.filter_cons, hp, Bool.false_eq_true, if_false, Bool.not_false, if_true,
        List.length_cons, ← ih]
      omega
    · simp only [List.filter_cons, hp, if_true, Bool.not_true, Bool.false_eq_true, if_false,
        List.length_cons, ← ih]
      omega


theorem rangeSamples_length (samples : List TreeSample) (r : SampleRange)
    (h : r.2 ≤ samples.length) : (rangeSamples samples r).length = r.2 - r.1 := by
  simp only [rangeSamples, List.length_take, List.length_drop]
  omega

/-- The mean `meanResidualOfRange` computes over a range that is not empty is
the arithmetic mean of the residuals of the range. -/
theorem meanResidualOfRange_eq (samples : List TreeSample) (r : SampleRange) (numLandmarks : Int)
    (L : Nat) (hL : numLandmarks.toNat = L) (hlen : ∀ x ∈ samples, x.residual.length = L)
    (h1 : r.1 < r.2) (h2 : r.2 ≤ samples.length) :
    meanResidualOfRange samples r numLandmarks
      = arithmeticMean ((rangeSamples samples r).map fun s => s.residual) L := by
  have hl : ∀ x ∈ (rangeSamples samples r).map (fun s => s.residual), x.length = L := by
    intro x hx
    obtain ⟨s, hs, rfl⟩ := List.mem_map.mp hx
    exact hlen s (rangeSamples_mem _ _ _ hs)
  unfold meanResidualOfRange
  dsimp only
  rw [if_pos (by simp only [numElementsInRange]; omega),
    ← List.foldl_map (fun s : TreeSample => s.residual) Shape.add, hL,
    ← Shape.mean_eq_arithmeticMean _ L hl, List.length_map, rangeSamples_length _ _ h2]
  rfl

/-- The mean `meanResidualOfRange` computes over an empty range is zero. -/
theorem meanResidualOfRange_empty (samples : List TreeSample) (r : SampleRange)
    (numLandmarks : Int) (h : r.2 ≤ r.1) :
    meanResidualOfRange samples r numLandmarks = Shape.zero numLandmarks.toNat := by
  have h0 : r.2 - r.1 = 0 := by omega
  simp [meanResidualOfRange, rangeSamples, numElementsInRange, h0]

/-- The mean and the count `meanResidualOfRangeIf` computes when some sample of
the range satisfies the predicate. -/
theorem meanResidualOfRangeIf_eq (samples : List TreeSample) (r : SampleRange)
    (numLandmarks : Int) (pred : TreeSample → Bool) (L : Nat) (hL : numLandmarks.toNat = L)
    (hlen : ∀ x ∈ samples, x.residual.length = L)
    (hne : 0 < ((rangeSamples samples r).filter pred).length) :
    meanResidualOfRangeIf samples r numLandmarks pred
      = (arithmeticMean (((rangeSamples samples r).filter pred).map fun s => s.residual) L,
         ((rangeSamples samples r).filter pred).length) := by
  have hl : ∀ x ∈ ((rangeSamples samples r).filter pred).map (fun s => s.residual),
      x.length = L := by
    intro x hx
    obtain ⟨s, hs, rfl⟩ := List.mem_map.mp hx
    exact hlen s (rangeSamples_mem _ _ _ (List.mem_of_mem_filter hs))
  unfold meanResidualOfRangeIf
  dsimp only
  rw [if_pos hne, ← List.foldl_map (fun s : TreeSample => s.residual) Shape.add, hL,
    ← Shape.mean_eq_arithmeticMean _ L hl, List.length_map]

theorem Shape.sub_range_map (L : Nat) (f g : Nat → Vec3) :
    Shape.sub ((List.range L).map f) ((List.range L).map g)
      = (List.range L).map fun j => f j - g j := by
  apply List.ext_getElem
  · simp [Shape.sub]
  · intro i h1 h2
    simp [Shape.sub]

/-- The right mean `splitEnergy` derives from the parent mean and the left
mean is the arithmetic mean of the residuals that fail the predicate. -/
theorem Tree.splitEnergy_right_mean (P : List TreeSample) (pred : TreeSample → Bool) (L : Nat)
    (hleft : 0 < (P.filter pred).length) (hright : 0 < (P.filter fun s => !pred s).length) :
    Shape.divScalar
        (Shape.sub
          (Shape.smul (P.length : ℚ) (arithmeticMean (P.map fun s => s.residual) L))
          (Shape.smul ((P.filter pred).length : ℚ)
            (arithmeticMean ((P.filter pred).map fun s => s.residual) L)))
        ((P.length : ℚ) - ((P.filter pred).length : ℚ))
      = arithmeticMean ((P.filter fun s => !pred s).map fun s => s.residual) L := by
  have hsum := length_filter_add_length_filter_not P pred
  have hnL : ((P.filter pred).length : ℚ) ≠ 0 := by exact_mod_cast hleft.ne'
  have hnR : ((P.filter fun s => !pred s).length : ℚ) ≠ 0 := by exact_mod_cast hright.ne'
  have hnP : (P.length : ℚ) ≠ 0 := by
    have : 0 < P.length := by omega
    exact_mod_cast this.ne'
  have hcast : (P.length : ℚ) - ((P.filter pred).length : ℚ)
      = ((P.filter fun s => !pred s).length : ℚ) := by
    rw [← hsum]
    push_cast
    ring
  simp only [arithmeticMean, Shape.smul, Shape.divScalar, List.map_map, List.length_map,
    Shape.sub_range_map]
  apply List.map_congr_left
  intro j _
  funext c
  have hs := sum_filter_add_sum_filter_not P pred fun s => (s.residual.getD j 0) c
  simp only [Function.comp_apply, Pi.sub_apply, Pi.smul_apply, smul_eq_mul, Function.comp_def]
  rw [hcast, mul_div_cancel₀ _ hnP, mul_div_cancel₀ _ hnL, ← hs, add_sub_cancel_left]

/-- The value of `splitEnergy` for the parent mean `splitNode` passes, when both
sides of the split are not empty, and its relation to the sums of squares. -/
theorem Shape.divFloat_of_ne (a : Shape) (c : ℚ) (h : c ≠ 0) :
    Shape.divFloat a c = some (Shape.divScalar a c) := by
  unfold Shape.divFloat
  rw [if_neg (fun hc => h hc.1)]

/-- The energy is a number when `numRight` is not zero. -/
theorem Tree.splitEnergy_of_ne (samples : List TreeSample) (numLandmarks : Int)
    (parent : NodeInfo) (mean : ShapeResidual) (split : SplitInfo)
    (h : (numElementsInRange parent.range : ℚ)
      - ((meanResidualOfRangeIf samples parent.range numLandmarks
          (PartitionPredicate split)).2 : ℚ) ≠ 0) :
    Tree.splitEnergy samples numLandmarks parent mean split
      = some (((meanResidualOfRangeIf samples parent.range numLandmarks
              (PartitionPredicate split)).2 : ℚ)
            * Shape.squaredNorm (meanResidualOfRangeIf samples parent.range numLandmarks
                (PartitionPredicate split)).1
          + ((numElementsInRange parent.range : ℚ)
              - ((meanResidualOfRangeIf samples parent.range numLandmarks
                  (PartitionPredicate split)).2 : ℚ))
            * Shape.squaredNorm
                (Shape.divScalar
                  (Shape.sub (Shape.smul (numElementsInRange parent.range : ℚ) mean)
                    (Shape.smul
                      ((meanResidualOfRangeIf samples parent.range numLandmarks
                        (PartitionPredicate split)).2 : ℚ)
                      (meanResidualOfRangeIf samples parent.range numLandmarks
                        (PartitionPredicate split)).1))
                  ((numElementsInRange parent.range : ℚ)
                    - ((meanResidualOfRangeIf samples parent.range numLandmarks
                        (PartitionPredicate split)).2 : ℚ)))) := by
  unfold Tree.splitEnergy
  dsimp only
  rw [Shape.divFloat_of_ne _ _ h]

/-- The energy is NaN when `numRight` is zero and the matrices have a column. -/
theorem Tree.splitEnergy_of_eq (samples : List TreeSample) (numLandmarks : Int)
    (parent : NodeInfo) (mean : ShapeResidual) (split : SplitInfo)
    (h : (numElementsInRange parent.range : ℚ)
      - ((meanResidualOfRangeIf samples parent.range numLandmarks
          (PartitionPredicate split)).2 : ℚ) = 0)
    (hcol : Shape.sub (Shape.smul (numElementsInRange parent.range : ℚ) mean)
        (Shape.smul
          ((meanResidualOfRangeIf samples parent.range numLandmarks
            (PartitionPredicate split)).2 : ℚ)
          (meanResidualOfRangeIf samples parent.range numLandmarks
            (PartitionPredicate split)).1) ≠ []) :
    Tree.splitEnergy samples numLandmarks parent mean split = none := by
  unfold Tree.splitEnergy Shape.divFloat
  dsimp only
  rw [if_pos ⟨h, hcol⟩]

theorem Tree.splitEnergy_eq (samples : List TreeSample) (numLandmarks : Int) (parent : NodeInfo)
    (split : SplitInfo) (L : Nat) (hL : numLandmarks.toNat = L)
    (hlen : ∀ x ∈ samples, x.residual.length = L) (hb : parent.range.2 ≤ samples.length)
    (hleft : 0 < (Tree.leftResiduals samples parent.range split).length)
    (hright : 0 < (Tree.rightResiduals samples parent.range split).length) :
    Tree.splitEnergy samples numLandmarks parent
        (meanResidualOfRange samples parent.range numLandmarks) split
      = some (((Tree.leftResiduals samples parent.range split).length : ℚ)
          * Shape.squaredNorm (arithmeticMean (Tree.leftResiduals samples parent.range split) L)
        + ((Tree.rightResiduals samples parent.range split).length : ℚ)
          * Shape.squaredNorm
              (arithmeticMean (Tree.rightResiduals samples parent.range split) L))
      ∧ ((Tree.leftResiduals samples parent.range split).length : ℚ)
          * Shape.squaredNorm (arithmeticMean (Tree.leftResiduals samples parent.range split) L)
        + ((Tree.rightResiduals samples parent.range split).length : ℚ)
          * Shape.squaredNorm
              (arithmeticMean (Tree.rightResiduals samples parent.range split) L)
          + Tree.withinChildSS samples parent.range split L
        = (((rangeSamples samples parent.range).map fun s => s.residual).map
            Shape.squaredNorm).sum := by
  simp only [Tree.leftResiduals, Tree.rightResiduals, List.length_map] at hleft hright
  have hsum := length_filter_add_length_filter_not (rangeSamples samples parent.range)
    (PartitionPredicate split)
  have hPlen := rangeSamples_length samples parent.range hb
  have hne : parent.range.1 < parent.range.2 := by omega
  have hnum : ((numElementsInRange parent.range : Nat) : ℚ)
      = ((rangeSamples samples parent.range).length : ℚ) := by
    rw [hPlen]
    rfl
  have hcast : ((rangeSamples samples parent.range).length : ℚ)
        - (((rangeSamples samples parent.range).filter (PartitionPredicate split)).length : ℚ)
      = (((rangeSamples samples parent.range).filter
          fun s => !PartitionPredicate split s).length : ℚ) := by
    rw [← hsum]
    push_cast
    ring
  have hnr : (numElementsInRange parent.range : ℚ)
      - ((meanResidualOfRangeIf samples parent.range numLandmarks
          (PartitionPredicate split)).2 : ℚ) ≠ 0 := by
    show (numElementsInRange parent.range : ℚ)
      - (((rangeSamples samples parent.range).filter (PartitionPredicate split)).length : ℚ) ≠ 0
    rw [hnum, hcast]
    exact_mod_cast Nat.pos_iff_ne_zero.mp hright
  have henergy : Tree.splitEnergy samples numLandmarks parent
        (meanResidualOfRange samples parent.range numLandmarks) split
      = some (((Tree.leftResiduals samples parent.range split).length : ℚ)
          * Shape.squaredNorm (arithmeticMean (Tree.leftResiduals samples parent.range split) L)
        + ((Tree.rightResiduals samples parent.range split).length : ℚ)
          * Shape.squaredNorm
              (arithmeticMean (Tree.rightResiduals samples parent.range split) L)) := by
    rw [Tree.splitEnergy_of_ne _ _ _ _ _ hnr]
    congr 1
    rw [meanResidualOfRangeIf_eq samples parent.range numLandmarks _ L hL hlen hleft,
      meanResidualOfRange_eq samples parent.range numLandmarks L hL hlen hne hb]
    dsimp only
    rw [hnum, Tree.splitEnergy_right_mean _ _ L hleft hright, hcast]
    simp only [Tree.leftResiduals, Tree.rightResiduals, List.length_map]
  refine ⟨henergy, ?_⟩
  have hlenL : ∀ r ∈ Tree.leftResiduals samples parent.range split, r.length = L := by
    intro x hx
    obtain ⟨s, hs, rfl⟩ := List.mem_map.mp hx
    exact hlen s (rangeSamples_mem _ _ _ (List.mem_of_mem_filter hs))
  have hlenR : ∀ r ∈ Tree.rightResiduals samples parent.range split, r.length = L := by
    intro x hx
    obtain ⟨s, hs, rfl⟩ := List.mem_map.mp hx
    exact hlen s (rangeSamples_mem _ _ _ (List.mem_of_mem_filter hs))
  have hneL : Tree.leftResiduals samples parent.range split ≠ [] := by
    intro h
    simp only [Tree.leftResiduals, List.map_eq_nil_iff] at h
    rw [h] at hleft
    simp at hleft
  have hneR : Tree.rightResiduals samples parent.range split ≠ [] := by
    intro h
    simp only [Tree.rightResiduals, List.map_eq_nil_iff] at h
    rw [h] at hright
    simp at hright
  have hsq := sum_filter_add_sum_filter_not (rangeSamples samples parent.range)
    (PartitionPredicate split) fun s => Shape.squaredNorm s.residual
  unfold Tree.withinChildSS
  rw [sumSquaresAboutMean_eq _ L hneL hlenL, sumSquaresAboutMean_eq _ L hneR hlenR]
  simp only [Tree.leftResiduals, Tree.rightResiduals, List.map_map, List.length_map,
    Function.comp_def] at hsq ⊢
  rw [← hsq]
  ring


/-- For residuals of `L ≥ 1` landmarks and a range inside the sample vector that
is not empty, the energy of a candidate split is NaN exactly when every sample
of the range satisfies its predicate (`numRight = 0`). -/
theorem Tree.splitEnergy_eq_none_iff (samples : List TreeSample) (numLandmarks : Int)
    (parent : NodeInfo) (split : SplitInfo) (L : Nat) (hL : numLandmarks.toNat = L)
    (hpos : 0 < L) (hlen : ∀ x ∈ samples, x.residual.length = L)
    (hb : parent.range.2 ≤ samples.length) (hne : parent.range.1 < parent.range.2) :
    Tree.splitEnergy samples numLandmarks parent
        (meanResidualOfRange samples parent.range numLandmarks) split = none
      ↔ Tree.rightResiduals samples parent.range split = [] := by
  have hsum := length_filter_add_length_filter_not (rangeSamples samples parent.range)
    (PartitionPredicate split)
  have hPlen := rangeSamples_length samples parent.range hb
  have hnum : ((numElementsInRange parent.range : Nat) : ℚ)
      = ((rangeSamples samples parent.range).length : ℚ) := by
    rw [hPlen]
    rfl
  have hcast : ((rangeSamples samples parent.range).length : ℚ)
        - (((rangeSamples samples parent.range).filter (PartitionPredicate split)).length : ℚ)
      = (((rangeSamples samples parent.range).filter
          fun s => !PartitionPredicate split s).length : ℚ) := by
    rw [← hsum]
    push_cast
    ring
  have hnr : (numElementsInRange parent.range : ℚ)
      - ((meanResidualOfRangeIf samples parent.range numLandmarks
          (PartitionPredicate split)).2 : ℚ)
      = (((rangeSamples samples parent.range).filter
          fun s => !PartitionPredicate split s).length : ℚ) := by
    show (numElementsInRange parent.range : ℚ)
      - (((rangeSamples samples parent.range).filter (PartitionPredicate split)).length : ℚ) = _
    rw [hnum, hcast]
  constructor
  · intro h
    by_contra hcon
    have hr : ((rangeSamples samples parent.range).filter
        fun s => !PartitionPredicate split s).length ≠ 0 := by
      intro h0
      apply hcon
      simp only [Tree.rightResiduals, List.map_eq_nil_iff]
      exact List.length_eq_zero.mp h0
    rw [Tree.splitEnergy_of_ne _ _ _ _ _ (by rw [hnr]; exact_mod_cast hr)] at h
    exact Option.noConfusion h
  · intro h
    have hr : ((rangeSamples samples parent.range).filter
        fun s => !PartitionPredicate split s).length = 0 := by
      simp only [Tree.rightResiduals, List.map_eq_nil_iff] at h
      rw [h]
      rfl
    have hleft : 0 < ((rangeSamples samples parent.range).filter
        (PartitionPredicate split)).length := by omega
    apply Tree.splitEnergy_of_eq
    · rw [hnr, hr]
      rfl
    · intro hnil
      have hlen0 := congrArg List.length hnil
      rw [Shape.length_sub, Shape.length_smul, Shape.length_smul,
        meanResidualOfRange_length samples parent.range numLandmarks L hL hlen,
        meanResidualOfRangeIf_eq samples parent.range numLandmarks _ L hL hlen hleft,
        arithmeticMean_length, min_self] at hlen0
      simp only [List.length_nil] at hlen0
      omega


/-! ## Lemmas on the sample ranges of `Tree::fit` -/

theorem Shape.add_right_comm (z a b : Shape) :
    Shape.add (Shape.add z a) b = Shape.add (Shape.add z b) a := by
  unfold Shape.add
  induction z generalizing a b with
  | nil => simp
  | cons z0 zs ih =>
    cases a with
    | nil => cases b <;> simp
    | cons a0 as =>
      cases b with
      | nil => simp
      | cons b0 bs =>
        simp only [List.zipWith_cons_cons, ih]
        congr 1
        abel

/-- The mean over a range depends on the samples of the range only as a multiset. -/
theorem meanResidualOfRange_perm (x y : List TreeSample) (r : SampleRange) (numLandmarks : Int)
    (h : List.Perm (rangeSamples x r) (rangeSamples y r)) :
    meanResidualOfRange x r numLandmarks = meanResidualOfRange y r numLandmarks := by
  have hf : (rangeSamples x r).foldl (fun m s => Shape.add m s.residual)
        (Shape.zero numLandmarks.toNat)
      = (rangeSamples y r).foldl (fun m s => Shape.add m s.residual)
        (Shape.zero numLandmarks.toNat) :=
    h.foldl_eq' (fun a _ b _ z => Shape.add_right_comm z a.residual b.residual) _
  unfold meanResidualOfRange
  dsimp only
  rw [hf]

theorem rangeSamples_append3 (pre mid post : List TreeSample) (c d : Nat)
    (hc : c ≤ pre.length) (hd : pre.length + mid.length ≤ d) :
    rangeSamples (pre ++ mid ++ post) (c, d)
      = pre.drop c ++ mid ++ post.take (d - (pre.length + mid.length)) := by
  unfold rangeSamples
  dsimp only
  rw [List.append_assoc, List.drop_append_of_le_length hc, List.take_append_eq_append_take,
    List.take_of_length_le (by rw [List.length_drop]; omega),
    List.take_append_eq_append_take, List.take_of_length_le (by rw [List.length_drop]; omega),
    List.append_assoc]
  congr 3
  rw [List.length_drop]
  omega

theorem rangeSamples_append_before (pre rest : List TreeSample) (c d : Nat)
    (hcd : c ≤ d) (hd : d ≤ pre.length) :
    rangeSamples (pre ++ rest) (c, d) = rangeSamples pre (c, d) := by
  unfold rangeSamples
  dsimp only
  rw [List.drop_append_of_le_length (by omega),
    List.take_append_of_le_length (by rw [List.length_drop]; omega)]

theorem rangeSamples_append_after (front post : List TreeSample) (c d : Nat)
    (hc : front.length ≤ c) :
    rangeSamples (front ++ post) (c, d) = rangeSamples post (c - front.length, d - front.length) := by
  unfold rangeSamples
  dsimp only
  have h : c = front.length + (c - front.length) := by omega
  conv_lhs => rw [h, List.drop_append]
  congr 1
  omega

theorem RearrangedInside.refl (r : SampleRange) (l : List TreeSample) (h1 : r.1 ≤ r.2)
    (h2 : r.2 ≤ l.length) : RearrangedInside r l l := by
  refine ⟨l.take r.1, (l.drop r.1).take (r.2 - r.1), (l.drop r.1).take (r.2 - r.1),
    (l.drop r.1).drop (r.2 - r.1), ?_, ?_, ?_, ?_, h1, List.Perm.refl _⟩
  · rw [List.append_assoc, List.take_append_drop, List.take_append_drop]
  · rw [List.append_assoc, List.take_append_drop, List.take_append_drop]
  · rw [List.length_take]; omega
  · rw [List.length_take, List.length_drop]; omega

theorem RearrangedInside.length (r : SampleRange) (x y : List TreeSample)
    (h : RearrangedInside r x y) : y.length = x.length := by
  obtain ⟨pre, mid, mid1, post, rfl, rfl, -, -, -, hp⟩ := h
  simp [hp.length_eq]

theorem RearrangedInside.perm (r : SampleRange) (x y : List TreeSample)
    (h : RearrangedInside r x y) : List.Perm y x := by
  obtain ⟨pre, mid, mid1, post, rfl, rfl, -, -, -, hp⟩ := h
  exact (List.Perm.append_left pre hp).append_right post

/-- A range that contains the rearranged one, or does not meet it, holds the
same samples after as before. -/
theorem RearrangedInside.rangeSamples_perm (r : SampleRange) (x y : List TreeSample)
    (h : RearrangedInside r x y) (q : SampleRange) (hq : q.1 ≤ q.2)
    (hrel : RangeInside r q ∨ RangeDisjoint r q) :
    List.Perm (rangeSamples y q) (rangeSamples x q) := by
  obtain ⟨pre, mid, mid1, post, rfl, rfl, hpre, hmid, hr, hp⟩ := h
  have hmid1 : mid1.length = r.2 - r.1 := by rw [hp.length_eq, hmid]
  obtain ⟨c, d⟩ := q
  simp only at hq
  rcases hrel with ⟨h1, h2⟩ | h1 | h1
  · simp only at h1 h2
    rw [rangeSamples_append3 _ _ _ _ _ (by omega) (by omega),
      rangeSamples_append3 _ _ _ _ _ (by omega) (by omega), hmid, hmid1]
    exact ((List.Perm.append_left _ hp).append_right _)
  · simp only at h1
    rw [List.append_assoc, List.append_assoc,
      rangeSamples_append_after pre _ _ _ (by omega),
      rangeSamples_append_after pre _ _ _ (by omega),
      rangeSamples_append_after mid1 _ _ _ (by omega),
      rangeSamples_append_after mid _ _ _ (by omega), hmid, hmid1]
  · simp only at h1
    rw [List.append_assoc, List.append_assoc, rangeSamples_append_before _ _ _ _ hq (by omega),
      rangeSamples_append_before _ _ _ _ hq (by omega)]

/-- `std::partition` rearranges the samples of its range among themselves; the
samples before the returned position satisfy the predicate, those from it on
do not. -/
theorem partitionRange_spec (samples : List TreeSample) (r : SampleRange)
    (pred : TreeSample → Bool) (h1 : r.1 ≤ r.2) (h2 : r.2 ≤ samples.length) :
    RearrangedInside r samples (partitionRange samples r pred).1
      ∧ r.1 ≤ (partitionRange samples r pred).2 ∧ (partitionRange samples r pred).2 ≤ r.2
      ∧ rangeSamples (partitionRange samples r pred).1 (r.1, (partitionRange samples r pred).2)
          = (rangeSamples samples r).filter pred
      ∧ rangeSamples (partitionRange samples r pred).1 ((partitionRange samples r pred).2, r.2)
          = (rangeSamples samples r).filter fun s => !pred s := by
  have hlen := rangeSamples_length samples r h2
  have hsum := length_filter_add_length_filter_not (rangeSamples samples r) pred
  have hpart : (partitionRange samples r pred).1
      = samples.take r.1
        ++ ((rangeSamples samples r).filter pred
          ++ (rangeSamples samples r).filter fun s => !pred s)
        ++ samples.drop r.2 := by
    unfold partitionRange
    dsimp only
    rw [hlen]
    congr 2
    omega
  have hmid : (partitionRange samples r pred).2
      = r.1 + ((rangeSamples samples r).filter pred).length := rfl
  have htake : (samples.take r.1).length = r.1 := by rw [List.length_take]; omega
  refine ⟨?_, by omega, by omega, ?_, ?_⟩
  · refine ⟨samples.take r.1, rangeSamples samples r, _, samples.drop r.2, ?_, hpart, htake,
      hlen, h1, ?_⟩
    · unfold rangeSamples
      have : samples.drop r.2 = (samples.drop r.1).drop (r.2 - r.1) := by
        rw [List.drop_drop]
        congr 1
        omega
      rw [this, List.append_assoc, List.take_append_drop, List.take_append_drop]
    · exact (List.filter_append_perm pred _)
  · rw [hpart, hmid, List.append_assoc, rangeSamples_append_after _ _ _ _ (by omega), htake,
      List.append_assoc,
      rangeSamples_append_before _ _ _ _ (by omega) (by omega)]
    simp [rangeSamples]
  · rw [hpart, hmid, List.append_assoc, rangeSamples_append_after _ _ _ _ (by omega), htake,
      List.append_assoc,
      rangeSamples_append_after _ _ _ _ (by omega),
      rangeSamples_append_before _ _ _ _ (by omega) (by omega)]
    simp only [rangeSamples, Nat.add_sub_cancel_left, Nat.sub_self, List.drop_zero]
    apply List.take_of_length_le
    simp only [rangeSamples] at hsum hlen
    omega


/-- What `splitNode` does to the samples, the nodes and the ranges, in each of
its two outcomes. -/
theorem Tree.splitNode_cases (ext : Extern) (t : TreeTraining) (s : FitState) (parent : NodeInfo)
    (hb1 : parent.range.1 ≤ parent.range.2) (hb2 : parent.range.2 ≤ s.samples.length) :
    (∃ s1, Tree.splitNode ext t s parent = (s1, none)
        ∧ RearrangedInside parent.range s.samples s1.samples)
      ∨ (∃ s1 best, best ∈ (Tree.sampleSplitPositions ext t s.rnd).1
            ∧ Tree.splitNode ext t s parent
              = (s1, some ({ node := parent.node * 2 + 1, depth := parent.depth + 1,
                             range := (parent.range.1,
                               (partitionRange s.samples parent.range (PartitionPredicate best)).2) },
                           { node := parent.node * 2 + 2, depth := parent.depth + 1,
                             range := ((partitionRange s.samples parent.range
                               (PartitionPredicate best)).2, parent.range.2) }))
            ∧ s1.samples = (partitionRange s.samples parent.range (PartitionPredicate best)).1
            ∧ s1.nodes = s.nodes.set parent.node
                { (s.nodes.getD parent.node default) with split := best }
            ∧ parent.range.1 < (partitionRange s.samples parent.range (PartitionPredicate best)).2
            ∧ (partitionRange s.samples parent.range (PartitionPredicate best)).2
                < parent.range.2) := by
  unfold Tree.splitNode
  dsimp only
  split
  · exact Or.inl ⟨_, rfl, RearrangedInside.refl _ _ hb1 hb2⟩
  · split
    · exact Or.inl ⟨_, rfl, RearrangedInside.refl _ _ hb1 hb2⟩
    · rename_i first rest hsplits
      split
      · exact Or.inl ⟨_, rfl, (partitionRange_spec _ _ _ hb1 hb2).1⟩
      · rename_i hmid
        obtain ⟨-, h1, h2, -, -⟩ := partitionRange_spec s.samples parent.range
          (PartitionPredicate ((Tree.sampleSplitPositions ext t s.rnd).1.getD
            (maxElementIndex ((Tree.sampleSplitPositions ext t s.rnd).1.map fun split =>
              Tree.splitEnergy s.samples t.numLandmarks parent
                (meanResidualOfRange s.samples parent.range t.numLandmarks) split)) first))
          hb1 hb2
        refine Or.inr ⟨_, _, ?_, rfl, rfl, rfl, ?_, ?_⟩
        · rw [hsplits]
          exact getD_mem_cons _ _ _
        · rcases Nat.lt_or_ge parent.range.1 _ with h | h
          · exact h
          · exact absurd (Or.inl (le_antisymm h h1)) hmid
        · rcases Nat.lt_or_ge _ parent.range.2 with h | h
          · exact h
          · exact absurd (Or.inr (le_antisymm h2 h)) hmid
/-- Rearranging the samples of the popped range leaves the samples of every
reached node's range the same, as a multiset. -/
theorem RangeInv.stable (t : TreeTraining) (ranges : Nat → SampleRange) (s : FitState)
    (nr : NodeInfo) (rest : List NodeInfo) (hinv : RangeInv t ranges s)
    (hq : s.queue = nr :: rest) (after : List TreeSample)
    (hre : RearrangedInside nr.range s.samples after) (m : Nat) (hm : s.Reached m) :
    List.Perm (rangeSamples after (ranges m)) (rangeSamples s.samples (ranges m)) := by
  have hnr : nr ∈ s.queue := by rw [hq]; exact List.mem_cons_self _ _
  have hr := hinv.queue_range nr hnr
  rw [hr] at hre
  apply RearrangedInside.rangeSamples_perm _ _ _ hre _ (hinv.bounds m hm).1
  rcases hm with hm | hm
  · obtain ⟨q, hqm, rfl⟩ := List.mem_map.mp hm
    by_cases hn : nr.node = q.node
    · rw [hn]; exact Or.inl ⟨le_refl _, le_refl _⟩
    · exact Or.inr (hinv.queue_disjoint nr hnr q hqm hn)
  · exact hinv.laminar nr hnr m hm

/-- Writing a leaf at the popped node keeps the invariant on the ranges. -/
theorem RangeInv.makeLeaf_ranges (P D : Nat) (t : TreeTraining) (ranges : Nat → SampleRange)
    (s a : FitState) (nr : NodeInfo) (rest : List NodeInfo)
    (hfit : FitInv P D s) (hinv : RangeInv t ranges s) (hq : s.queue = nr :: rest)
    (hqa : a.queue = rest) (hla : a.leafWrites = s.leafWrites)
    (hlen : a.nodes.length = s.nodes.length)
    (hnodes : ∀ m, m ≠ nr.node → a.nodes.getD m default = s.nodes.getD m default)
    (hsub : ∀ m, m ∈ a.splitWrites → m = nr.node ∨ m ∈ s.splitWrites)
    (hsam : RearrangedInside nr.range s.samples a.samples) :
    RangeInv t ranges (Tree.makeLeaf t a nr) := by
  have hnr : nr ∈ s.queue := by rw [hq]; exact List.mem_cons_self _ _
  have hbound : nr.node < 2 ^ D - 1 := level_bound D nr (hfit.level nr hnr)
  have hrest : ∀ q ∈ rest, q ∈ s.queue := fun q h => by rw [hq]; exact List.mem_cons_of_mem _ h
  have hsorted := hinv.sorted
  rw [hq, List.pairwise_cons] at hsorted
  have hqueue : (Tree.makeLeaf t a nr).queue = rest := hqa
  have hsamples : (Tree.makeLeaf t a nr).samples = a.samples := rfl
  have hwr : ∀ n, (Tree.makeLeaf t a nr).Written n → n = nr.node ∨ s.Written n := by
    intro n hn
    rcases hn with hn | hn
    · rcases hsub n (by simpa [Tree.makeLeaf] using hn) with h1 | h1
      · exact Or.inl h1
      · exact Or.inr (Or.inl h1)
    · have : n ∈ nr.node :: a.leafWrites := by simpa [Tree.makeLeaf] using hn
      rcases List.mem_cons.mp this with h1 | h1
      · exact Or.inl h1
      · rw [hla] at h1; exact Or.inr (Or.inr h1)
  have hreach : ∀ n, (Tree.makeLeaf t a nr).Reached n → s.Reached n := by
    intro n hn
    rcases hn with hn | hn
    · left
      rw [hqueue] at hn
      rw [hq, List.map_cons]
      exact List.mem_cons_of_mem _ hn
    · rcases hwr n hn with h1 | h1
      · left; rw [h1]; exact List.mem_map_of_mem _ hnr
      · right; exact h1
  have hlenS : (Tree.makeLeaf t a nr).samples.length = s.samples.length := by
    rw [hsamples]; exact RearrangedInside.length _ _ _ hsam
  have hstable := RangeInv.stable t ranges s nr rest hinv hq a.samples hsam
  have hlt : nr.node < a.nodes.length := by rw [hlen, hfit.length]; exact hbound
  constructor
  · intro q hqm
    rw [hqueue] at hqm
    exact hinv.queue_range q (hrest q hqm)
  · intro n hn
    rw [hlenS]
    exact hinv.bounds n (hreach n hn)
  · intro n hn h0
    exact hinv.nonempty n (hreach n hn) h0
  · rw [hlenS]; exact hinv.root
  · intro n hn
    by_cases hnn : n = nr.node
    · subst hnn
      simp only [Tree.makeLeaf]
      rw [getD_set_self _ _ _ hlt]
      exact ⟨rfl, rfl⟩
    · have hn1 : n ∈ s.leafWrites := by
        have : n ∈ nr.node :: a.leafWrites := by simpa [Tree.makeLeaf] using hn
        rcases List.mem_cons.mp this with h1 | h1
        · exact absurd h1 hnn
        · rw [hla] at h1; exact h1
      simp only [Tree.makeLeaf]
      rw [getD_set_other _ _ _ _ hnn, hnodes n hnn]
      exact hinv.leaf_form n hn1
  · intro n hn
    by_cases hnn : n = nr.node
    · subst hnn
      simp only [Tree.makeLeaf]
      rw [getD_set_self _ _ _ hlt, hinv.queue_range nr hnr]
    · have hn1 : n ∈ s.leafWrites := by
        have : n ∈ nr.node :: a.leafWrites := by simpa [Tree.makeLeaf] using hn
        rcases List.mem_cons.mp this with h1 | h1
        · exact absurd h1 hnn
        · rw [hla] at h1; exact h1
      simp only [Tree.makeLeaf]
      rw [getD_set_other _ _ _ _ hnn, hnodes n hnn, hinv.leaf_mean n hn1]
      exact (meanResidualOfRange_perm _ _ _ _ (hstable n (Or.inr (Or.inr hn1)))).symm
  · intro n hn hnl
    have hnn : n ≠ nr.node := by
      intro h
      apply hnl
      simp [Tree.makeLeaf, h]
    have hn1 : n ∈ s.splitWrites := by
      rcases hsub n (by simpa [Tree.makeLeaf] using hn) with h1 | h1
      · exact absurd h1 hnn
      · exact h1
    have hn2 : n ∉ s.leafWrites := by
      intro h
      apply hnl
      simp [Tree.makeLeaf, hla, h]
    obtain ⟨c1, c2, c3, c4, c5⟩ := hinv.children n hn1 hn2
    obtain ⟨-, hform⟩ := hfit.written n (Or.inl hn1)
    rcases hform with ⟨-, hml⟩ | ⟨-, -, hr1, hr2⟩
    · exact absurd hml hn2
    · have hsame : (Tree.makeLeaf t a nr).nodes.getD n default = s.nodes.getD n default := by
        simp only [Tree.makeLeaf]
        rw [getD_set_other _ _ _ _ hnn, hnodes n hnn]
      rw [hsame, hsamples]
      refine ⟨c1, c2, c3, ?_, ?_⟩
      · intro x hx
        exact c4 x ((hstable _ hr1).mem_iff.mp hx)
      · intro x hx
        exact c5 x ((hstable _ hr2).mem_iff.mp hx)
  · intro q hqm n hn
    rw [hqueue] at hqm
    rcases hwr n hn with h1 | h1
    · rw [h1]
      exact Or.inr (hinv.queue_disjoint q (hrest q hqm) nr hnr (Nat.ne_of_gt (hsorted.1 q hqm)))
    · exact hinv.laminar q (hrest q hqm) n h1
  · intro x hx y hy hxy
    rw [hqueue] at hx hy
    exact hinv.queue_disjoint x (hrest x hx) y (hrest y hy) hxy
  · rw [hqueue]; exact hsorted.2
  · intro x hx y hy
    rw [hqueue] at hx hy
    exact hinv.span x (hrest x hx) y (hrest y hy)
  · intro n hn q hqm
    rw [hqueue] at hqm
    rcases hwr n hn with h1 | h1
    · rw [h1]; exact hsorted.1 q hqm
    · exact hinv.written_lt n h1 q (hrest q hqm)
  · rw [hsamples]
    exact (RearrangedInside.perm _ _ _ hsam).trans hinv.perm
  · intro q hqm n hn
    rw [hqueue] at hqm
    have hn1 : n ∈ nr.node :: a.leafWrites := hn
    rcases List.mem_cons.mp hn1 with h1 | h1
    · rw [h1]
      exact hinv.queue_disjoint q (hrest q hqm) nr hnr (Nat.ne_of_gt (hsorted.1 q hqm))
    · rw [hla] at h1
      exact hinv.queue_leaf q (hrest q hqm) n h1
  · intro x hx y hy hxy
    have hx1 : x ∈ nr.node :: a.leafWrites := hx
    have hy1 : y ∈ nr.node :: a.leafWrites := hy
    rw [hla] at hx1 hy1
    rcases List.mem_cons.mp hx1 with h1 | h1 <;> rcases List.mem_cons.mp hy1 with h2 | h2
    · exact absurd (h1.trans h2.symm) hxy
    · rw [h1]
      exact hinv.queue_leaf nr hnr y h2
    · rw [h2]
      exact Or.symm (hinv.queue_leaf nr hnr x h1)
    · exact hinv.leaf_disjoint x h1 y h2 hxy
/-- Queueing the two children of the popped node, after the partition of its
range, keeps the invariant on the ranges. -/
theorem RangeInv.split_ranges (P D : Nat) (t : TreeTraining) (ranges : Nat → SampleRange)
    (s s1 : FitState) (nr left right : NodeInfo) (rest : List NodeInfo) (best : SplitInfo)
    (hfit : FitInv P D s) (hinv : RangeInv t ranges s) (hq : s.queue = nr :: rest)
    (hq1 : s1.queue = rest) (hl1 : s1.leafWrites = s.leafWrites)
    (hs1 : s1.splitWrites = nr.node :: s.splitWrites)
    (hn1 : s1.nodes = s.nodes.set nr.node { (s.nodes.getD nr.node default) with split := best })
    (hsam : s1.samples = (partitionRange s.samples nr.range (PartitionPredicate best)).1)
    (hln : left.node = nr.node * 2 + 1) (hrn : right.node = nr.node * 2 + 2)
    (hlr : left.range
      = (nr.range.1, (partitionRange s.samples nr.range (PartitionPredicate best)).2))
    (hrr : right.range
      = ((partitionRange s.samples nr.range (PartitionPredicate best)).2, nr.range.2))
    (hm1 : nr.range.1 < (partitionRange s.samples nr.range (PartitionPredicate best)).2)
    (hm2 : (partitionRange s.samples nr.range (PartitionPredicate best)).2 < nr.range.2) :
    RangeInv t (recordRanges ranges left right)
      { s1 with queue := s1.queue ++ [left, right] } := by
  have hnr : nr ∈ s.queue := by rw [hq]; exact List.mem_cons_self _ _
  have hbound : nr.node < 2 ^ D - 1 := level_bound D nr (hfit.level nr hnr)
  have hlt : nr.node < s.nodes.length := by rw [hfit.length]; exact hbound
  have hrest : ∀ q ∈ rest, q ∈ s.queue := fun q h => by rw [hq]; exact List.mem_cons_of_mem _ h
  have hsorted := hinv.sorted
  rw [hq, List.pairwise_cons] at hsorted
  have hreachNr : s.Reached nr.node := Or.inl (List.mem_map_of_mem _ hnr)
  have hr : ranges nr.node = nr.range := (hinv.queue_range nr hnr).symm
  have hbnr := hinv.bounds nr.node hreachNr
  rw [hr] at hbnr
  obtain ⟨hre, -, -, hleft, hright⟩ :=
    partitionRange_spec s.samples nr.range (PartitionPredicate best) hbnr.1 hbnr.2
  rw [← hsam] at hre hleft hright
  have hfresh : ∀ m, s.Reached m → m ≠ left.node ∧ m ≠ right.node := by
    intro m hm
    rcases hm with hm | hm
    · obtain ⟨q, hqm, rfl⟩ := List.mem_map.mp hm
      have := hinv.span nr hnr q hqm
      omega
    · have := hinv.written_lt m hm nr hnr
      omega
  have hrec : ∀ m, s.Reached m → recordRanges ranges left right m = ranges m := by
    intro m hm
    unfold recordRanges
    rw [if_neg (hfresh m hm).1, if_neg (hfresh m hm).2]
  have hrecL : recordRanges ranges left right left.node = left.range := by
    unfold recordRanges
    rw [if_pos rfl]
  have hrecR : recordRanges ranges left right right.node = right.range := by
    unfold recordRanges
    rw [if_neg (by omega), if_pos rfl]
  have hmemq : ∀ q ∈ s1.queue ++ [left, right], q ∈ rest ∨ q = left ∨ q = right := by
    intro q hqm
    rw [hq1] at hqm
    simpa using hqm
  have hwr : ∀ n, n ∈ s1.splitWrites ∨ n ∈ s1.leafWrites → n = nr.node ∨ s.Written n := by
    intro n hn
    rcases hn with hn | hn
    · rw [hs1] at hn
      rcases List.mem_cons.mp hn with h1 | h1
      · exact Or.inl h1
      · exact Or.inr (Or.inl h1)
    · rw [hl1] at hn
      exact Or.inr (Or.inr hn)
  have hwreach : ∀ n, n ∈ s1.splitWrites ∨ n ∈ s1.leafWrites → s.Reached n := by
    intro n hn
    rcases hwr n hn with h1 | h1
    · rw [h1]; exact hreachNr
    · exact Or.inr h1
  have hlenS : s1.samples.length = s.samples.length := RearrangedInside.length _ _ _ hre
  have hstable := RangeInv.stable t ranges s nr rest hinv hq s1.samples hre
  have hrestR : ∀ q ∈ rest, recordRanges ranges left right q.node = ranges q.node :=
    fun q h => hrec q.node (Or.inl (List.mem_map_of_mem _ (hrest q h)))
  have hrestD : ∀ q ∈ rest, RangeDisjoint (ranges q.node) nr.range := by
    intro q h
    rw [← hr]
    exact hinv.queue_disjoint q (hrest q h) nr hnr (Nat.ne_of_gt (hsorted.1 q h))
  constructor
  · intro q hqm
    rcases hmemq q hqm with h | h | h
    · rw [hrestR q h]
      exact hinv.queue_range q (hrest q h)
    · rw [h]; exact hrecL.symm
    · rw [h]; exact hrecR.symm
  · intro n hn
    show _ ∧ _ ≤ s1.samples.length
    rw [hlenS]
    have hcase : s.Reached n ∨ n = left.node ∨ n = right.node := by
      rcases hn with hn | hn
      · obtain ⟨q, hqm, rfl⟩ := List.mem_map.mp hn
        rcases hmemq q hqm with h | h | h
        · exact Or.inl (Or.inl (List.mem_map_of_mem _ (hrest q h)))
        · exact Or.inr (Or.inl (by rw [h]))
        · exact Or.inr (Or.inr (by rw [h]))
      · exact Or.inl (hwreach n hn)
    rcases hcase with h | h | h
    · rw [hrec n h]; exact hinv.bounds n h
    · rw [h, hrecL, hlr]
      simp only
      omega
    · rw [h, hrecR, hrr]
      simp only
      omega
  · intro n hn h0
    have hcase : s.Reached n ∨ n = left.node ∨ n = right.node := by
      rcases hn with hn | hn
      · obtain ⟨q, hqm, rfl⟩ := List.mem_map.mp hn
        rcases hmemq q hqm with h | h | h
        · exact Or.inl (Or.inl (List.mem_map_of_mem _ (hrest q h)))
        · exact Or.inr (Or.inl (by rw [h]))
        · exact Or.inr (Or.inr (by rw [h]))
      · exact Or.inl (hwreach n hn)
    rcases hcase with h | h | h
    · rw [hrec n h]; exact hinv.nonempty n h h0
    · rw [h, hrecL, hlr]
      exact hm1
    · rw [h, hrecR, hrr]
      exact hm2
  · show _ = (0, s1.samples.length)
    rw [hlenS, hrec 0 hfit.root]
    exact hinv.root
  · intro n hn
    have hn0 : n ∈ s.leafWrites := by rw [← hl1]; exact hn
    have hne : n ≠ nr.node := Nat.ne_of_lt (hinv.written_lt n (Or.inr hn0) nr hnr)
    show TreeNode.IsLeaf (s1.nodes.getD n default)
    rw [hn1, getD_set_other _ _ _ _ hne]
    exact hinv.leaf_form n hn0
  · intro n hn
    have hn0 : n ∈ s.leafWrites := by rw [← hl1]; exact hn
    have hw : s.Written n := Or.inr hn0
    have hne : n ≠ nr.node := Nat.ne_of_lt (hinv.written_lt n hw nr hnr)
    show (s1.nodes.getD n default).mean
      = meanResidualOfRange s1.samples (recordRanges ranges left right n) t.numLandmarks
    rw [hn1, getD_set_other _ _ _ _ hne, hrec n (Or.inr hw), hinv.leaf_mean n hn0]
    exact (meanResidualOfRange_perm _ _ _ _ (hstable n (Or.inr hw))).symm
  · intro n hn hnl
    have hn0 : n ∈ s1.splitWrites := hn
    have hnl0 : n ∉ s.leafWrites := by rw [← hl1]; exact hnl
    show _ ∧ _ ∧ _
      ∧ (∀ x ∈ rangeSamples s1.samples (recordRanges ranges left right (2 * n + 1)),
          PartitionPredicate (s1.nodes.getD n default).split x = true)
      ∧ (∀ x ∈ rangeSamples s1.samples (recordRanges ranges left right (2 * n + 2)),
          PartitionPredicate (s1.nodes.getD n default).split x = false)
    by_cases hnn : n = nr.node
    · subst hnn
      have e1 : 2 * nr.node + 1 = left.node := by omega
      have e2 : 2 * nr.node + 2 = right.node := by omega
      rw [e1, e2, hrecL, hrecR, hrec nr.node hreachNr, hr, hn1, getD_set_self _ _ _ hlt,
        hlr, hrr]
      refine ⟨rfl, rfl, rfl, ?_, ?_⟩
      · intro x hx
        rw [hleft] at hx
        exact (List.mem_filter.mp hx).2
      · intro x hx
        rw [hright] at hx
        simpa using (List.mem_filter.mp hx).2
    · have hn2 : n ∈ s.splitWrites := by
        rw [hs1] at hn0
        rcases List.mem_cons.mp hn0 with h1 | h1
        · exact absurd h1 hnn
        · exact h1
      obtain ⟨c1, c2, c3, c4, c5⟩ := hinv.children n hn2 hnl0
      obtain ⟨-, hform⟩ := hfit.written n (Or.inl hn2)
      rcases hform with ⟨-, hml⟩ | ⟨-, -, hr1, hr2⟩
      · exact absurd hml hnl0
      · rw [hrec _ hr1, hrec _ hr2, hrec n (Or.inr (Or.inl hn2)), hn1,
          getD_set_other _ _ _ _ hnn]
        refine ⟨c1, c2, c3, ?_, ?_⟩
        · intro x hx
          exact c4 x ((hstable _ hr1).mem_iff.mp hx)
        · intro x hx
          exact c5 x ((hstable _ hr2).mem_iff.mp hx)
  · intro q hqm n hn
    have hnreach : s.Reached n := hwreach n hn
    rw [hrec n hnreach]
    have hrel : RangeInside nr.range (ranges n) ∨ RangeDisjoint nr.range (ranges n) := by
      rcases hwr n hn with h1 | h1
      · rw [h1, hr]; exact Or.inl ⟨le_refl _, le_refl _⟩
      · rw [← hr]; exact hinv.laminar nr hnr n h1
    rcases hmemq q hqm with h | h | h
    · rw [hrestR q h]
      rcases hwr n hn with h1 | h1
      · rw [h1, hr]; exact Or.inr (hrestD q h)
      · exact hinv.laminar q (hrest q h) n h1
    · rw [h, hrecL, hlr]
      simp only [RangeInside, RangeDisjoint] at hrel ⊢
      omega
    · rw [h, hrecR, hrr]
      simp only [RangeInside, RangeDisjoint] at hrel ⊢
      omega
  · intro x hx y hy hxy
    rcases hmemq x hx with h | h | h <;> rcases hmemq y hy with h0 | h0 | h0
    · rw [hrestR x h, hrestR y h0]
      exact hinv.queue_disjoint x (hrest x h) y (hrest y h0) hxy
    · have := hrestD x h
      rw [hrestR x h, h0, hrecL, hlr]
      simp only [RangeDisjoint] at this ⊢
      omega
    · have := hrestD x h
      rw [hrestR x h, h0, hrecR, hrr]
      simp only [RangeDisjoint] at this ⊢
      omega
    · have := hrestD y h0
      rw [hrestR y h0, h, hrecL, hlr]
      simp only [RangeDisjoint] at this ⊢
      omega
    · rw [h, h0] at hxy; exact absurd rfl hxy
    · rw [h, h0, hrecL, hrecR, hlr, hrr]
      exact Or.inl (le_refl _)
    · have := hrestD y h0
      rw [hrestR y h0, h, hrecR, hrr]
      simp only [RangeDisjoint] at this ⊢
      omega
    · rw [h, h0, hrecL, hrecR, hlr, hrr]
      exact Or.inr (le_refl _)
    · rw [h, h0] at hxy; exact absurd rfl hxy
  · show (s1.queue ++ [left, right]).Pairwise _
    rw [hq1, List.pairwise_append]
    refine ⟨hsorted.2, ?_, ?_⟩
    · simp only [List.pairwise_cons, List.mem_singleton, forall_eq, List.not_mem_nil,
        false_implies, implies_true, List.Pairwise.nil, and_true]
      omega
    · intro x hx y hy
      have := hinv.span nr hnr x (hrest x hx)
      simp only [List.mem_cons, List.mem_singleton, List.not_mem_nil, or_false] at hy
      rcases hy with h | h <;> rw [h] <;> omega
  · intro x hx y hy
    have hfact : ∀ q ∈ rest, nr.node < q.node ∧ q.node ≤ 2 * nr.node :=
      fun q h => ⟨hsorted.1 q h, hinv.span nr hnr q (hrest q h)⟩
    rcases hmemq x hx with h | h | h <;> rcases hmemq y hy with h0 | h0 | h0
    · exact hinv.span x (hrest x h) y (hrest y h0)
    · have := hfact x h; rw [h0]; omega
    · have := hfact x h; rw [h0]; omega
    · have := hfact y h0; rw [h]; omega
    · rw [h, h0]; omega
    · rw [h, h0]; omega
    · have := hfact y h0; rw [h]; omega
    · rw [h, h0]; omega
    · rw [h, h0]; omega
  · intro n hn q hqm
    have hle : n ≤ nr.node := by
      rcases hwr n hn with h1 | h1
      · rw [h1]
      · exact Nat.le_of_lt (hinv.written_lt n h1 nr hnr)
    rcases hmemq q hqm with h | h | h
    · have := hsorted.1 q h; omega
    · rw [h]; omega
    · rw [h]; omega
  · show List.Perm s1.samples t.samples
    exact (RearrangedInside.perm _ _ _ hre).trans hinv.perm
  · intro q hqm n hn
    have hn0 : n ∈ s.leafWrites := by rw [← hl1]; exact hn
    rw [hrec n (Or.inr (Or.inr hn0))]
    have hnrn := hinv.queue_leaf nr hnr n hn0
    rw [hr] at hnrn
    rcases hmemq q hqm with h | h | h
    · rw [hrestR q h]
      exact hinv.queue_leaf q (hrest q h) n hn0
    · rw [h, hrecL, hlr]
      simp only [RangeDisjoint] at hnrn ⊢
      omega
    · rw [h, hrecR, hrr]
      simp only [RangeDisjoint] at hnrn ⊢
      omega
  · intro x hx y hy hxy
    have hx0 : x ∈ s.leafWrites := by rw [← hl1]; exact hx
    have hy0 : y ∈ s.leafWrites := by rw [← hl1]; exact hy
    rw [hrec x (Or.inr (Or.inr hx0)), hrec y (Or.inr (Or.inr hy0))]
    exact hinv.leaf_disjoint x hx0 y hy0 hxy
/-- One pass of the loop keeps the invariant on the ranges, for a range
assignment that may record two more nodes. -/
theorem RangeInv.fitStep_ranges (ext : Extern) (t : TreeTraining) (P D : Nat)
    (ranges : Nat → SampleRange) (s : FitState) (nr : NodeInfo) (rest : List NodeInfo)
    (hfit : FitInv P D s) (hinv : RangeInv t ranges s) (hq : s.queue = nr :: rest) :
    ∃ ranges1,
      RangeInv t ranges1 (Tree.fitStep ext t (D : Int) { s with queue := rest } nr) := by
  have hnr : nr ∈ s.queue := by rw [hq]; exact List.mem_cons_self _ _
  have hb := hinv.bounds nr.node (Or.inl (List.mem_map_of_mem _ hnr))
  rw [← hinv.queue_range nr hnr] at hb
  unfold Tree.fitStep
  split
  · rcases Tree.splitNode_cases ext t { s with queue := rest } nr hb.1 hb.2 with
      ⟨s1, hsn, hre⟩ | ⟨s1, best, -, hsn, hsam, hnodes, hm1, hm2⟩
    · obtain ⟨h1, h2, h3, h4, h5, -⟩ := Tree.splitNode_none ext t _ s1 nr hsn
      rw [hsn]
      exact ⟨ranges, RangeInv.makeLeaf_ranges P D t ranges s s1 nr rest hfit hinv hq h1 h2 h3 h4 h5 hre⟩
    · obtain ⟨h1, h2, h3, -⟩ := Tree.splitNode_some ext t _ s1 nr _ _ hsn
      rw [hsn]
      exact ⟨_, RangeInv.split_ranges P D t ranges s s1 nr _ _ rest best hfit hinv hq h1 h2 h3 hnodes
        hsam rfl rfl rfl rfl hm1 hm2⟩
  · exact ⟨ranges, RangeInv.makeLeaf_ranges P D t ranges s { s with queue := rest } nr rest hfit hinv hq
      rfl rfl rfl (fun _ _ => rfl) (fun _ hm => Or.inr hm) (RearrangedInside.refl _ _ hb.1 hb.2)⟩

/-- The invariant on the ranges holds when the loop starts. -/
theorem RangeInv.init_ranges (self : Tree) (t : TreeTraining) (numNodes : Nat) :
    RangeInv t (fun _ => (0, t.samples.length)) (Tree.fitInit self t numNodes) := by
  have hw : ∀ n, ¬ (Tree.fitInit self t numNodes).Written n := by
    intro n hn
    rcases hn with hn | hn <;> simp [Tree.fitInit] at hn
  constructor
  · intro q hq
    simp only [Tree.fitInit, List.mem_singleton] at hq
    rw [hq]
  · intro n _
    exact ⟨Nat.zero_le _, le_refl _⟩
  · intro n hn h0
    rcases hn with hn | hn
    · simp [Tree.fitInit] at hn
      exact absurd hn h0
    · exact absurd hn (hw n)
  · rfl
  · intro n hn
    simp [Tree.fitInit] at hn
  · intro n hn
    simp [Tree.fitInit] at hn
  · intro n hn
    simp [Tree.fitInit] at hn
  · intro q _ n hn
    exact absurd hn (hw n)
  · intro a ha b hb hab
    simp only [Tree.fitInit, List.mem_singleton] at ha hb
    rw [ha, hb] at hab
    exact absurd rfl hab
  · simp [Tree.fitInit]
  · intro a ha b hb
    simp only [Tree.fitInit, List.mem_singleton] at ha hb
    rw [ha, hb]
    exact Nat.zero_le _
  · intro n hn
    exact absurd hn (hw n)
  · exact List.Perm.refl _
  · intro q _ n hn
    simp [Tree.fitInit] at hn
  · intro a ha
    simp [Tree.fitInit] at ha

theorem Tree.fitPasses_succ (ext : Extern) (t : TreeTraining) (depth : Int) (passes : Nat)
    (s : FitState) :
    Tree.fitPasses ext t depth (passes + 1) s
      = Tree.fitPass ext t depth (Tree.fitPasses ext t depth passes s) :=
  Function.iterate_succ_apply' _ _ _

/-- Both invariants hold after every number of passes. -/
theorem Tree.fitPasses_inv (ext : Extern) (hc : UniformIntInRange ext) (t : TreeTraining)
    (hP : 0 < t.pixelCoordinates.length) (D : Nat) (passes : Nat) (s : FitState)
    (ranges : Nat → SampleRange) (hfit : FitInv t.pixelCoordinates.length D s)
    (hinv : RangeInv t ranges s) :
    FitInv t.pixelCoordinates.length D (Tree.fitPasses ext t (D : Int) passes s)
      ∧ ∃ ranges1, RangeInv t ranges1 (Tree.fitPasses ext t (D : Int) passes s) := by
  induction passes with
  | zero => exact ⟨hfit, ranges, hinv⟩
  | succ k ih =>
    obtain ⟨h1, r1, h2⟩ := ih
    rw [Tree.fitPasses_succ]
    unfold Tree.fitPass
    split
    · exact ⟨h1, r1, h2⟩
    · rename_i nr rest hq
      exact ⟨FitInv.fitStep ext hc t hP D _ nr rest h1 hq,
        RangeInv.fitStep_ranges ext t _ D r1 _ nr rest h1 h2 hq⟩

/-- The state the loop ends in is the state after as many passes as it was
given. -/
theorem Tree.fitLoop_eq_fitPasses (ext : Extern) (t : TreeTraining) (depth : Int)
    (passes : Nat) (s s1 : FitState) (h : Tree.fitLoop ext t depth passes s = some s1) :
    Tree.fitPasses ext t depth passes s = s1 := by
  induction passes generalizing s with
  | zero =>
    unfold Tree.fitLoop at h
    split at h
    · cases h; rfl
    · simp at h
  | succ more ih =>
    unfold Tree.fitLoop at h
    split at h
    · rename_i hq
      have hfix : Tree.fitPass ext t depth s = s := by
        unfold Tree.fitPass
        rw [hq]
      cases h
      exact Function.iterate_fixed hfix _
    · rename_i nr rest hq
      have hstep : Tree.fitPass ext t depth s
          = Tree.fitStep ext t depth { s with queue := rest } nr := by
        unfold Tree.fitPass
        rw [hq]
      unfold Tree.fitPasses
      rw [Function.iterate_succ_apply, hstep]
      exact ih _ h

/-- The states of the loop of `fit`, from its start, satisfy both invariants. -/
theorem Tree.fitPasses_init (ext : Extern) (hc : UniformIntInRange ext) (self : Tree)
    (t : TreeTraining) (hP : 0 < t.pixelCoordinates.length) (numNodes : Nat)
    (hn : Tree.numNodes (max t.training.params.maxTreeDepth 1) = some numNodes) (passes : Nat) :
    FitInv t.pixelCoordinates.length (max t.training.params.maxTreeDepth 1).toNat
        (Tree.fitPasses ext t (max t.training.params.maxTreeDepth 1) passes
          (Tree.fitInit self t numNodes))
      ∧ ∃ ranges, RangeInv t ranges
          (Tree.fitPasses ext t (max t.training.params.maxTreeDepth 1) passes
            (Tree.fitInit self t numNodes)) := by
  have h1 : 1 ≤ max t.training.params.maxTreeDepth 1 := le_max_right _ _
  have hcast : ((max t.training.params.maxTreeDepth 1).toNat : Int)
      = max t.training.params.maxTreeDepth 1 := Int.toNat_of_nonneg (by omega)
  have hnum := Tree.numNodes_some _ _ hn
  have h := Tree.fitPasses_inv ext hc t hP (max t.training.params.maxTreeDepth 1).toNat passes
    (Tree.fitInit self t numNodes) _
    (by rw [hnum]; exact FitInv.init _ _ (by omega) self t) (RangeInv.init_ranges self t numNodes)
  rw [hcast] at h
  exact h

/-- The state `fit` ends in is the state after `numNodes` passes of its loop. -/
theorem Tree.fitState_eq_fitPasses (ext : Extern) (self : Tree) (t : TreeTraining)
    (s : FitState) (h : Tree.fitState ext self t = some s) :
    ∃ numNodes, Tree.numNodes (max t.training.params.maxTreeDepth 1) = some numNodes
      ∧ s = Tree.fitPasses ext t (max t.training.params.maxTreeDepth 1) numNodes
          (Tree.fitInit self t numNodes) := by
  unfold Tree.fitState at h
  dsimp only at h
  split at h
  · cases h
  · rename_i numNodes hn
    exact ⟨numNodes, hn, (Tree.fitLoop_eq_fitPasses ext t _ _ _ s h).symm⟩

/-- When `fit` ends, the invariant on the ranges holds for some assignment of
ranges to the nodes. -/
theorem Tree.fitState_ranges (ext : Extern) (hc : UniformIntInRange ext) (self : Tree)
    (t : TreeTraining) (hP : 0 < t.pixelCoordinates.length) (s : FitState)
    (h : Tree.fitState ext self t = some s) :
    ∃ ranges, RangeInv t ranges s := by
  obtain ⟨numNodes, hn, rfl⟩ := Tree.fitState_eq_fitPasses ext self t s h
  exact (Tree.fitPasses_init ext hc self t hP numNodes hn numNodes).2

/-- One pass of the loop on a state that satisfies the invariants: the popped
node either becomes an internal node with its two children queued, or a leaf
with nothing queued; a popped node other than the root has a non-empty range. -/
theorem Tree.fitStep_cases (ext : Extern) (hc : UniformIntInRange ext) (t : TreeTraining)
    (hP : 0 < t.pixelCoordinates.length) (D : Nat) (ranges : Nat → SampleRange) (s : FitState)
    (nr : NodeInfo) (rest : List NodeInfo) (hfit : FitInv t.pixelCoordinates.length D s)
    (hinv : RangeInv t ranges s) (hq : s.queue = nr :: rest) :
    (nr.node ≠ 0 → nr.range.1 < nr.range.2)
      ∧ ((∃ best m, nr.depth < (D : Int) ∧ nr.range.1 < m ∧ m < nr.range.2
            ∧ (Tree.fitStep ext t (D : Int) { s with queue := rest } nr).queue
                = rest ++ [{ node := 2 * nr.node + 1, depth := nr.depth + 1,
                             range := (nr.range.1, m) },
                           { node := 2 * nr.node + 2, depth := nr.depth + 1,
                             range := (m, nr.range.2) }]
            ∧ ((Tree.fitStep ext t (D : Int) { s with queue := rest } nr).nodes.getD
                nr.node default).split = best
            ∧ SplitInfo.Valid t.pixelCoordinates.length best
            ∧ RearrangedInside nr.range s.samples
                (Tree.fitStep ext t (D : Int) { s with queue := rest } nr).samples
            ∧ (∀ x ∈ rangeSamples (Tree.fitStep ext t (D : Int) { s with queue := rest } nr).samples
                  (nr.range.1, m), PartitionPredicate best x = true)
            ∧ (∀ x ∈ rangeSamples (Tree.fitStep ext t (D : Int) { s with queue := rest } nr).samples
                  (m, nr.range.2), PartitionPredicate best x = false))
        ∨ ((Tree.fitStep ext t (D : Int) { s with queue := rest } nr).queue = rest
            ∧ TreeNode.IsLeaf
                ((Tree.fitStep ext t (D : Int) { s with queue := rest } nr).nodes.getD
                  nr.node default)
            ∧ RearrangedInside nr.range s.samples
                (Tree.fitStep ext t (D : Int) { s with queue := rest } nr).samples)) := by
  have hnr : nr ∈ s.queue := by rw [hq]; exact List.mem_cons_self _ _
  have hreach : s.Reached nr.node := Or.inl (List.mem_map_of_mem _ hnr)
  have hb := hinv.bounds nr.node hreach
  have hne := hinv.nonempty nr.node hreach
  rw [← hinv.queue_range nr hnr] at hb hne
  have hlt : nr.node < s.nodes.length := by
    rw [hfit.length]; exact level_bound D nr (hfit.level nr hnr)
  refine ⟨hne, ?_⟩
  unfold Tree.fitStep
  split
  · rename_i hdepth
    rcases Tree.splitNode_cases ext t { s with queue := rest } nr hb.1 hb.2 with
      ⟨s1, hsn, hre⟩ | ⟨s1, best, hbest, hsn, hsam, hnodes, hm1, hm2⟩
    · obtain ⟨h1, -, h3, -⟩ := Tree.splitNode_none ext t _ s1 nr hsn
      rw [hsn]
      refine Or.inr ⟨h1, ?_, hre⟩
      simp only [Tree.makeLeaf]
      rw [getD_set_self _ _ _ (by rw [h3]; exact hlt)]
      exact ⟨rfl, rfl⟩
    · obtain ⟨h1, -⟩ := Tree.splitNode_some ext t _ s1 nr _ _ hsn
      obtain ⟨hre, -, -, hleft, hright⟩ :=
        partitionRange_spec s.samples nr.range (PartitionPredicate best) hb.1 hb.2
      rw [hsn]
      refine Or.inl ⟨best, _, hdepth, hm1, hm2, ?_, ?_,
        Tree.sampleSplitPositions_valid ext hc t hP _ best hbest, ?_, ?_, ?_⟩
      · show s1.queue ++ _ = _
        rw [h1, Nat.mul_comm nr.node 2]
      · show (s1.nodes.getD nr.node default).split = best
        rw [hnodes, getD_set_self _ _ _ hlt]
      · show RearrangedInside nr.range s.samples s1.samples
        rw [hsam]; exact hre
      · intro x hx
        have hx1 : x ∈ rangeSamples s1.samples (nr.range.1,
            (partitionRange s.samples nr.range (PartitionPredicate best)).2) := hx
        rw [hsam, hleft] at hx1
        exact (List.mem_filter.mp hx1).2
      · intro x hx
        have hx1 : x ∈ rangeSamples s1.samples
            ((partitionRange s.samples nr.range (PartitionPredicate best)).2, nr.range.2) := hx
        rw [hsam, hright] at hx1
        simpa using (List.mem_filter.mp hx1).2
  · refine Or.inr ⟨rfl, ?_, RearrangedInside.refl _ _ hb.1 hb.2⟩
    simp only [Tree.makeLeaf]
    rw [getD_set_self _ _ _ hlt]
    exact ⟨rfl, rfl⟩

/-- The number of nodes is defined only up to depth 30. -/
theorem Tree.numNodes_le (depth : Int) (n : Nat) (h : Tree.numNodes depth = some n) :
    depth ≤ 30 := by
  unfold Tree.numNodes at h
  split at h
  · rename_i hlt
    by_contra hgt
    have h31 : 31 ≤ depth.toNat := by omega
    have hpow : (2 : Int) ^ 31 ≤ 2 ^ depth.toNat := pow_le_pow_right₀ (by norm_num) h31
    omega
  · cases h

/-- The matrix `s` of `estimateSimilarityTransform` is `similarityCorrection` of
the covariance and of the decomposition the SVD returned. -/
theorem estimateSimilarityTransform_eq_correction (ext : Extern) (from_ to_ : Shape) :
    estimateSimilarityTransform ext from_ to_
      = { linear :=
            (if similarityVariance from_ > 0 then
                1 / similarityVariance from_
                  * (Matrix.diagonal (ext.jacobiSvd (similarityCovariance from_ to_)).singularValues
                      * similarityCorrection (similarityCovariance from_ to_)
                          (ext.jacobiSvd (similarityCovariance from_ to_))).trace
              else 1)
              • ((ext.jacobiSvd (similarityCovariance from_ to_)).matrixU.transpose
                  * similarityCorrection (similarityCovariance from_ to_)
                      (ext.jacobiSvd (similarityCovariance from_ to_))
                  * (ext.jacobiSvd (similarityCovariance from_ to_)).matrixV)
          translation :=
            Shape.rowwiseMean to_
              - ((if similarityVariance from_ > 0 then
                  1 / similarityVariance from_
                    * (Matrix.diagonal
                        (ext.jacobiSvd (similarityCovariance from_ to_)).singularValues
                        * similarityCorrection (similarityCovariance from_ to_)
                            (ext.jacobiSvd (similarityCovariance from_ to_))).trace
                else 1)
                • ((ext.jacobiSvd (similarityCovariance from_ to_)).matrixU.transpose
                    * similarityCorrection (similarityCovariance from_ to_)
                        (ext.jacobiSvd (similarityCovariance from_ to_))
                    * (ext.jacobiSvd (similarityCovariance from_ to_)).matrixV)).mulVec
                  (Shape.rowwiseMean from_) } :=
  rfl

theorem similarityCorrection_cases (cov : Mat3) (svd : SVD) :
    (¬ (cov.det < 0 ∨ (cov.det = 0 ∧ svd.matrixU.det * svd.matrixV.det < 0)) →
        similarityCorrection cov svd = 1)
      ∧ ((cov.det < 0 ∨ (cov.det = 0 ∧ svd.matrixU.det * svd.matrixV.det < 0)) →
          ∃ i : Fin 3, (∀ j, svd.singularValues i ≤ svd.singularValues j)
            ∧ similarityCorrection cov svd
                = Matrix.diagonal fun j => if j = i then -1 else 1) := by
  constructor
  · intro h
    unfold similarityCorrection
    dsimp only
    rw [if_neg h]
  · intro h
    unfold similarityCorrection
    dsimp only
    rw [if_pos h]
    split
    · rename_i h2
      refine ⟨2, ?_, ?_⟩
      · intro j
        fin_cases j
        · exact h2.1
        · exact h2.2
        · exact le_refl _
      · funext j
        fin_cases j <;> rfl
    · rename_i h2
      split
      · rename_i h1
        refine ⟨1, ?_, ?_⟩
        · intro j
          fin_cases j
          · exact h1.1
          · exact le_refl _
          · exact h1.2
        · funext j
          fin_cases j <;> rfl
      · rename_i h1
        refine ⟨0, ?_, ?_⟩
        · have a0 : svd.singularValues 0 ≤ svd.singularValues 1 := by
            by_contra hc
            push_neg at hc
            rcases le_total (svd.singularValues 2) (svd.singularValues 0) with h3 | h3
            · rcases le_total (svd.singularValues 2) (svd.singularValues 1) with h4 | h4
              · exact h2 ⟨h3, h4⟩
              · exact h1 ⟨le_of_lt hc, h4⟩
            · exact h1 ⟨le_of_lt hc, le_trans (le_of_lt hc) h3⟩
          have a1 : svd.singularValues 0 ≤ svd.singularValues 2 := by
            by_contra hc
            push_neg at hc
            rcases le_total (svd.singularValues 2) (svd.singularValues 1) with h4 | h4
            · exact h2 ⟨le_of_lt hc, h4⟩
            · exact h1 ⟨le_trans h4 (le_of_lt hc), h4⟩
          intro j
          fin_cases j
          · exact le_refl _
          · exact a0
          · exact a1
        · funext j
          fin_cases j <;> rfl

/-! ## Lemmas on mirroring -/

theorem createPermutationMatrixForMirroredRectangle_eq :
    createPermutationMatrixForMirroredRectangle = [1, 0, 3, 2] := by
  decide

theorem createPermutationMatrixForMirroredIBug_involution :
    createPermutationMatrixForMirroredIBug.length = 68
      ∧ (∀ k ∈ createPermutationMatrixForMirroredIBug, k < 68)
      ∧ createPermutationMatrixForMirroredIBug.map
          (fun k => createPermutationMatrixForMirroredIBug.getD k 0) = List.range 68 := by
  decide

theorem Image.flipHorizontal_twice (img : Image) :
    Image.flipHorizontal (Image.flipHorizontal img) = img := by
  simp [Image.flipHorizontal]

theorem Image.cols_flipHorizontal (img : Image) :
    Image.cols (Image.flipHorizontal img) = Image.cols img := by
  cases img <;> simp [Image.flipHorizontal, Image.cols]

theorem Shape.length_mirrorX (cols : Nat) (s : Shape) : (Shape.mirrorX cols s).length = s.length := by
  simp [Shape.mirrorX]

theorem Shape.mirrorX_twice (cols : Nat) (s : Shape) :
    Shape.mirrorX cols (Shape.mirrorX cols s) = s := by
  unfold Shape.mirrorX
  rw [List.map_map]
  conv_rhs => rw [← List.map_id s]
  apply List.map_congr_left
  intro v _
  funext r
  fin_cases r <;> simp

theorem Shape.mirrorX_mulPerm (cols : Nat) (s : Shape) (ids : List Nat)
    (h : ∀ k ∈ ids, k < s.length) :
    Shape.mirrorX cols (Shape.mulPerm s ids) = Shape.mulPerm (Shape.mirrorX cols s) ids := by
  unfold Shape.mirrorX Shape.mulPerm
  rw [List.map_map]
  apply List.map_congr_left
  intro k hk
  have hlt := h k hk
  simp only [Function.comp, List.getD_eq_getElem?_getD, List.getElem?_map,
    List.getElem?_eq_getElem hlt, Option.map_some', Option.getD_some]

/-- Multiplying twice with a permutation that is an involution gives the
matrix back. -/
theorem Shape.mulPerm_twice (s : Shape) (ids : List Nat) (hlen : ids.length = s.length)
    (hb : ∀ k ∈ ids, k < ids.length)
    (hinv : ids.map (fun k => ids.getD k 0) = List.range ids.length) :
    Shape.mulPerm (Shape.mulPerm s ids) ids = s := by
  unfold Shape.mulPerm
  apply List.ext_getElem
  · simp [hlen]
  · intro i h1 h2
    have hi : i < ids.length := by simpa using h1
    have hk : (ids.map (fun k => ids.getD k 0))[i]? = (List.range ids.length)[i]? := by
      rw [hinv]
    rw [List.getElem?_map, List.getElem?_eq_getElem hi, List.getElem?_range hi] at hk
    simp only [Option.map_some', Option.some.injEq] at hk
    have hlt : ids[i] < ids.length := hb _ (List.getElem_mem hi)
    simp only [List.getElem_map]
    rw [List.getD_eq_getElem?_getD, List.getElem?_map, List.getElem?_eq_getElem hlt]
    simp only [Option.map_some', Option.getD_some]
    rw [List.getD_eq_getElem _ _ hlt] at hk
    rw [List.getD_eq_getElem?_getD, List.getElem?_eq_getElem (by rw [hk, ← hlen]; exact hi)]
    simp [hk]

theorem Rect.rect_mirrorX_twice (cols : Nat) (r : Rect) :
    Rect.mirrorX cols (Rect.mirrorX cols r) = r := by
  funext row c
  fin_cases row <;> simp [Rect.mirrorX]

theorem Rect.rect_mirrorX_mulPerm (cols : Nat) (r : Rect) (ids : List Nat) :
    Rect.mirrorX cols (Rect.mulPerm r ids) = Rect.mulPerm (Rect.mirrorX cols r) ids := by
  funext row c
  fin_cases row <;> simp [Rect.mirrorX, Rect.mulPerm]

theorem Rect.rect_mulPerm_twice (r : Rect) :
    Rect.mulPerm (Rect.mulPerm r createPermutationMatrixForMirroredRectangle)
        createPermutationMatrixForMirroredRectangle = r := by
  rw [createPermutationMatrixForMirroredRectangle_eq]
  funext row c
  fin_cases c <;> rfl

/-- The mirrored rectangle of corners `minC`, `maxC` is the rectangle of the
mirrored corners, in the same order of the columns. -/
theorem Rect.mirror_createRectangle (cols : Nat) (minC maxC : Fin 2 → ℚ) :
    Rect.mulPerm (Rect.mirrorX cols (createRectangle minC maxC))
        createPermutationMatrixForMirroredRectangle
      = createRectangle ![(((cols : Int) - 1 : Int) : ℚ) - maxC 0, minC 1]
          ![(((cols : Int) - 1 : Int) : ℚ) - minC 0, maxC 1] := by
  rw [createPermutationMatrixForMirroredRectangle_eq]
  funext row c
  fin_cases row <;> fin_cases c <;> rfl

/-! ## Lemmas on the coordinates of the intensity lookup -/

theorem Regressor.fit_meanShape_eq (ext : Extern) (self : Regressor) (t : RegressorTraining)
    (r : Regressor) (t1 : RegressorTraining) (h : Regressor.fit ext self t = some (r, t1)) :
    r.meanShape = t.meanShape ∧ r.learningRate = t.training.params.learningRate := by
  unfold Regressor.fit at h
  dsimp only at h
  split at h
  · cases h
  · split at h
    · cases h
    · cases h
      exact ⟨rfl, rfl⟩

/-- The coordinates of the lookup, for relative coordinates and landmark indices
that `shapeRelativePixelCoordinates` computed from `A` on the shape `S`. -/
theorem readPixelCoordinates_relative (self : Regressor) (S : Shape) (A : PixelCoordinates)
    (hrel : self.shapeRelativePixelCoordinates = (shapeRelativePixelCoordinates S A).1)
    (hclo : self.closestShapeLandmark = (shapeRelativePixelCoordinates S A).2)
    (shapeToShape shapeToImage : ShapeTransform) (shape : Shape) :
    Regressor.readPixelCoordinates self shapeToShape shapeToImage shape
      = A.map fun a =>
          shapeToImage.linear.mulVec
              (shapeToShape.linear.mulVec (a - Shape.col S (findClosestLandmarkIndex S a))
                + Shape.col shape (findClosestLandmarkIndex S a))
            + shapeToImage.translation := by
  unfold Regressor.readPixelCoordinates
  dsimp only
  rw [hrel, hclo]
  unfold shapeRelativePixelCoordinates ShapeTransform.apply Shape.mulLeft
  dsimp only
  rw [List.map_map, List.zipWith_map, List.zipWith_same, List.map_map]
  rfl

/-! ## Lemmas on the sample vector as a multiset -/

theorem partitionRange_perm (samples : List TreeSample) (r : SampleRange)
    (pred : TreeSample → Bool) : List.Perm (partitionRange samples r pred).1 samples := by
  have hsplit : samples
      = samples.take r.1 ++ rangeSamples samples r
          ++ samples.drop (r.1 + (rangeSamples samples r).length) := by
    unfold rangeSamples
    rw [← List.drop_drop, List.append_assoc]
    have h1 : List.take (r.2 - r.1) (List.drop r.1 samples)
        ++ List.drop (List.take (r.2 - r.1) (List.drop r.1 samples)).length
            (List.drop r.1 samples) = List.drop r.1 samples := by
      rw [List.length_take]
      rcases Nat.le_total (r.2 - r.1) (List.drop r.1 samples).length with h | h
      · rw [Nat.min_eq_left h, List.take_append_drop]
      · rw [Nat.min_eq_right h, List.take_of_length_le h, List.drop_length, List.append_nil]
    rw [h1, List.take_append_drop]
  unfold partitionRange
  dsimp only
  conv_rhs => rw [hsplit]
  exact ((List.filter_append_perm pred (rangeSamples samples r)).append_left _).append_right _

theorem Tree.splitNode_perm (ext : Extern) (t : TreeTraining) (s : FitState)
    (parent : NodeInfo) : List.Perm (Tree.splitNode ext t s parent).1.samples s.samples := by
  unfold Tree.splitNode
  dsimp only
  split
  · exact List.Perm.refl _
  · split
    · exact List.Perm.refl _
    · split
      · exact partitionRange_perm _ _ _
      · exact partitionRange_perm _ _ _

theorem Tree.fitStep_perm (ext : Extern) (t : TreeTraining) (depth : Int) (s : FitState)
    (nr : NodeInfo) : List.Perm (Tree.fitStep ext t depth s nr).samples s.samples := by
  have h := Tree.splitNode_perm ext t s nr
  unfold Tree.fitStep
  split
  · rcases hsn : Tree.splitNode ext t s nr with ⟨s1, _ | ⟨left, right⟩⟩
    · rw [hsn] at h
      exact h
    · rw [hsn] at h
      exact h
  · exact List.Perm.refl _

theorem Tree.fitLoop_perm (ext : Extern) (t : TreeTraining) (depth : Int) (passes : Nat)
    (s s1 : FitState) (h : Tree.fitLoop ext t depth passes s = some s1) :
    List.Perm s1.samples s.samples := by
  induction passes generalizing s with
  | zero =>
    unfold Tree.fitLoop at h
    split at h
    · cases h
      exact List.Perm.refl _
    · simp at h
  | succ more ih =>
    unfold Tree.fitLoop at h
    split at h
    · cases h
      exact List.Perm.refl _
    · rename_i nr rest hq
      exact (ih _ h).trans (Tree.fitStep_perm ext t depth { s with queue := rest } nr)

/-- The sample vector after `fit` is a permutation of the one before. -/
theorem Tree.fit_perm (ext : Extern) (self : Tree) (t : TreeTraining) (tree : Tree)
    (t1 : TreeTraining) (hfit : Tree.fit ext self t = some (tree, t1)) :
    List.Perm t1.samples t.samples := by
  obtain ⟨s, hst, -, ht1⟩ := Tree.fit_some ext self t tree t1 hfit
  subst ht1
  unfold Tree.fitState at hst
  dsimp only at hst
  split at hst
  · cases hst
  · exact Tree.fitLoop_perm ext t _ _ _ s hst

/-- The residual update before a tree fit changes no intensity vector. -/
theorem Regressor.updateResiduals_intensities (self : Regressor) (fitted : List Tree) (k : Nat)
    (samples : List TreeSample) :
    ∃ u : TreeSample → TreeSample, (∀ s, (u s).intensities = s.intensities)
      ∧ Regressor.updateResiduals self fitted k samples = samples.map u := by
  by_cases hk : k = 0
  · refine ⟨fun s => { s with residual := Shape.sub s.residual self.meanResidual },
      fun _ => rfl, ?_⟩
    unfold Regressor.updateResiduals
    simp only [hk, if_true]
  · refine ⟨fun s =>
      let prediction := Tree.predict (fitted.getD (k - 1) default) s.intensities
      { s with residual := Shape.sub s.residual (Shape.smul self.learningRate prediction) },
      fun _ => rfl, ?_⟩
    unfold Regressor.updateResiduals
    simp only [hk, if_false]

/-- Over the loop of the trees of a stage, the sample vector is permuted and
the residuals are updated; every sample keeps its intensities. -/
theorem Regressor.fitTrees_intensities (ext : Extern) (self : Regressor) (remaining k : Nat)
    (trees : List Tree) (tt : TreeTraining) (out : List Tree) (tt1 : TreeTraining)
    (h : Regressor.fitTrees ext self remaining k trees tt = some (out, tt1)) :
    ∃ g : TreeSample → TreeSample, (∀ s, (g s).intensities = s.intensities)
      ∧ List.Perm tt1.samples (tt.samples.map g) := by
  induction remaining generalizing k trees tt with
  | zero =>
    unfold Regressor.fitTrees at h
    cases h
    exact ⟨id, fun _ => rfl, by simp⟩
  | succ n ih =>
    unfold Regressor.fitTrees at h
    dsimp only at h
    split at h
    · cases h
    · rename_i tree tt2 hfit
      obtain ⟨g, hg, hperm⟩ := ih _ _ _ h
      obtain ⟨u, hu, hupd⟩ := Regressor.updateResiduals_intensities self trees k tt.samples
      have hp := Tree.fit_perm ext _ _ tree tt2 hfit
      refine ⟨g ∘ u, fun s => by rw [Function.comp, hg, hu], ?_⟩
      have hp2 : List.Perm tt2.samples (tt.samples.map u) := by
        rw [← hupd]
        exact hp
      rw [← List.map_map]
      exact hperm.trans (hp2.map g)

/-! ## Lemmas on the residuals over the trees of a stage -/

theorem Shape.sub_smul_zero (c : ℚ) (a : Shape) :
    Shape.sub a (Shape.smul c (Shape.zero a.length)) = a := by
  induction a with
  | nil => simp [Shape.sub]
  | cons x xs ih =>
    simp only [Shape.sub, Shape.smul, Shape.zero, List.length_cons, List.replicate_succ,
      List.map_cons, List.zipWith_cons_cons] at ih ⊢
    rw [ih]
    simp

theorem Shape.sub_smul_add (c : ℚ) (a b p : Shape) :
    Shape.sub (Shape.sub a (Shape.smul c b)) (Shape.smul c p)
      = Shape.sub a (Shape.smul c (Shape.add b p)) := by
  induction a generalizing b p with
  | nil => simp [Shape.sub]
  | cons x xs ih =>
    cases b with
    | nil => simp [Shape.sub, Shape.add, Shape.smul]
    | cons y ys =>
      cases p with
      | nil => simp [Shape.sub, Shape.add, Shape.smul]
      | cons z zs =>
        have h := ih ys zs
        simp only [Shape.sub, Shape.add, Shape.smul, List.map_cons,
          List.zipWith_cons_cons] at h ⊢
        rw [h]
        congr 1
        funext r
        simp only [Pi.sub_apply, Pi.smul_apply, Pi.add_apply, smul_eq_mul]
        ring

theorem sumTreePredictions_take_succ (trees : List Tree) (k : Nat) (hk : k < trees.length)
    (intensities : PixelIntensities) (L : Nat) :
    sumTreePredictions (trees.take (k + 1)) intensities L
      = Shape.add (sumTreePredictions (trees.take k) intensities L)
          (Tree.predict (trees.getD k default) intensities) := by
  unfold sumTreePredictions
  rw [List.take_succ, List.foldl_append, List.getElem?_eq_getElem hk,
    List.getD_eq_getElem _ _ hk]
  rfl

theorem Regressor.residualBeforeTree_zero (self : Regressor) (s : TreeSample) :
    Regressor.residualBeforeTree self 0 s
      = { s with residual := Shape.sub s.residual self.meanResidual } := by
  unfold Regressor.residualBeforeTree
  dsimp only
  rw [List.take_zero]
  unfold sumTreePredictions
  rw [List.foldl_nil, Shape.sub_smul_zero]

theorem Regressor.residualBeforeTree_succ (self : Regressor) (k : Nat)
    (hk : k < self.trees.length) (s : TreeSample) :
    Regressor.residualBeforeTree self (k + 1) s
      = { (Regressor.residualBeforeTree self k s) with
          residual := Shape.sub (Regressor.residualBeforeTree self k s).residual
            (Shape.smul self.learningRate
              (Tree.predict (self.trees.getD k default)
                (Regressor.residualBeforeTree self k s).intensities)) } := by
  unfold Regressor.residualBeforeTree
  dsimp only
  rw [sumTreePredictions_take_succ _ _ hk, Shape.sub_smul_add]

/-- The loop over the trees writes only the trees from `k` on. -/
theorem Regressor.fitTrees_keeps (ext : Extern) (self : Regressor) (remaining k : Nat)
    (trees : List Tree) (tt : TreeTraining) (out : List Tree) (tt1 : TreeTraining)
    (h : Regressor.fitTrees ext self remaining k trees tt = some (out, tt1)) :
    out.length = trees.length ∧ ∀ j, j < k → out.getD j default = trees.getD j default := by
  induction remaining generalizing k trees tt with
  | zero =>
    unfold Regressor.fitTrees at h
    cases h
    exact ⟨rfl, fun _ _ => rfl⟩
  | succ n ih =>
    unfold Regressor.fitTrees at h
    dsimp only at h
    split at h
    · cases h
    · rename_i tree tt2 hfit
      obtain ⟨h1, h2⟩ := ih _ _ _ h
      refine ⟨by rw [h1, List.length_set], ?_⟩
      intro j hj
      rw [h2 j (by omega), getD_set_other_tree _ _ _ _ (by omega)]

/-- The samples each tree of a stage is fitted on, in terms of the samples
`base` that entered the loop and the forest `ref.trees` the loop ends with. -/
theorem Regressor.fitTrees_residuals (ext : Extern) (self ref : Regressor)
    (hm : ref.meanResidual = self.meanResidual) (hl : ref.learningRate = self.learningRate)
    (base : List TreeSample) (remaining k : Nat) (trees : List Tree) (tt : TreeTraining)
    (out : List Tree) (tt1 : TreeTraining)
    (h : Regressor.fitTrees ext self remaining k trees tt = some (out, tt1))
    (hout : ref.trees = out) (hk : k + remaining ≤ trees.length)
    (hentry : (k = 0 ∧ tt.samples = base)
      ∨ ∃ k0, k = k0 + 1
          ∧ List.Perm tt.samples (base.map (Regressor.residualBeforeTree ref k0))) :
    ∀ j, k ≤ j → j < k + remaining → ∃ (prev : Tree) (ttj tt2 : TreeTraining),
      Tree.fit ext prev ttj = some (ref.trees.getD j default, tt2)
        ∧ List.Perm ttj.samples (base.map (Regressor.residualBeforeTree ref j)) := by
  subst hout
  induction remaining generalizing k trees tt with
  | zero =>
    intro j h1 h2
    omega
  | succ n ih =>
    unfold Regressor.fitTrees at h
    dsimp only at h
    split at h
    · cases h
    · rename_i tree tt2 hfit
      obtain ⟨hlen, hkeep⟩ := Regressor.fitTrees_keeps ext self n (k + 1) _ tt2 _ tt1 h
      rw [List.length_set] at hlen
      have htree : ref.trees.getD k default = tree := by
        rw [hkeep k (by omega), getD_set_self_tree _ _ _ (by omega)]
      have hperm : List.Perm (Regressor.updateResiduals self trees k tt.samples)
          (base.map (Regressor.residualBeforeTree ref k)) := by
        rcases hentry with ⟨hk0, hbase⟩ | ⟨k0, hk0, hp⟩
        · subst hk0
          rw [hbase]
          unfold Regressor.updateResiduals
          simp only [if_true]
          have hfun : (fun s : TreeSample =>
              ({ s with residual := Shape.sub s.residual self.meanResidual } : TreeSample))
              = Regressor.residualBeforeTree ref 0 := by
            funext s
            rw [Regressor.residualBeforeTree_zero, hm]
          rw [hfun]
        · subst hk0
          have hprev : trees.getD k0 default = ref.trees.getD k0 default := by
            rw [hkeep k0 (by omega), getD_set_other_tree _ _ _ _ (by omega)]
          unfold Regressor.updateResiduals
          simp only [Nat.add_one_ne_zero, if_false, Nat.add_sub_cancel]
          have hmap := hp.map fun s : TreeSample =>
            (⟨Shape.sub s.residual
                (Shape.smul self.learningRate
                  (Tree.predict (trees.getD k0 default) s.intensities)),
              s.intensities⟩ : TreeSample)
          rw [List.map_map] at hmap
          refine hmap.trans ?_
          have hfun : ((fun s : TreeSample =>
              (⟨Shape.sub s.residual
                  (Shape.smul self.learningRate
                    (Tree.predict (trees.getD k0 default) s.intensities)),
                s.intensities⟩ : TreeSample))
                ∘ Regressor.residualBeforeTree ref k0)
              = Regressor.residualBeforeTree ref (k0 + 1) := by
            funext s
            rw [Regressor.residualBeforeTree_succ ref k0 (by omega), Function.comp, hprev, hl]
          rw [hfun]
      intro j h1 h2
      rcases Nat.eq_or_lt_of_le h1 with hj | hj
      · subst hj
        exact ⟨_, _, tt2, htree ▸ hfit, hperm⟩
      · refine ih (k + 1) (trees.set k tree) tt2 (by rw [List.length_set]; omega) ?_ h j
          (by omega) (by omega)
        right
        refine ⟨k, rfl, ?_⟩
        exact (Tree.fit_perm ext _ _ tree tt2 hfit).trans hperm

/-! ## Lemmas on the estimates that `Tracker::fit` updates -/

theorem Regressor.fitTrees_training (ext : Extern) (self : Regressor) (remaining k : Nat)
    (trees : List Tree) (tt : TreeTraining) (out : List Tree) (tt1 : TreeTraining)
    (h : Regressor.fitTrees ext self remaining k trees tt = some (out, tt1)) :
    tt1.training.samples = tt.training.samples
      ∧ tt1.training.input.images = tt.training.input.images := by
  induction remaining generalizing k trees tt with
  | zero =>
    unfold Regressor.fitTrees at h
    cases h
    exact ⟨rfl, rfl⟩
  | succ n ih =>
    unfold Regressor.fitTrees at h
    dsimp only at h
    split at h
    · cases h
    · rename_i tree tt2 hfit
      obtain ⟨h1, h2⟩ := ih _ _ _ h
      obtain ⟨s, -, -, ht2⟩ := Tree.fit_some ext _ _ tree tt2 hfit
      rw [h1, h2, ht2]
      exact ⟨rfl, rfl⟩

/-- A stage fit leaves the samples and the images of the training data as they are. -/
theorem Regressor.fit_training (ext : Extern) (self : Regressor) (t : RegressorTraining)
    (r : Regressor) (t1 : RegressorTraining) (h : Regressor.fit ext self t = some (r, t1)) :
    t1.training.samples = t.training.samples
      ∧ t1.training.input.images = t.training.input.images
      ∧ t1.meanShape = t.meanShape := by
  unfold Regressor.fit at h
  dsimp only at h
  split at h
  · cases h
  · split at h
    · cases h
    · rename_i trees tt1 hft
      obtain ⟨h1, h2⟩ := Regressor.fitTrees_training ext _ _ _ _ _ trees tt1 hft
      cases h
      exact ⟨h1, h2, rfl⟩

/-- The loop of `Tracker::fit` over the stages adds to every estimate what the
prediction loop adds for the stages fitted, in the same order. -/
theorem Tracker.fitCascade_estimates (ext : Extern) (remaining i : Nat)
    (cascade : List Regressor) (rt : RegressorTraining) (out : List Regressor)
    (rt1 : RegressorTraining)
    (h : Tracker.fitCascade ext remaining i cascade rt = some (out, rt1))
    (hi : i + remaining ≤ cascade.length) :
    out.length = cascade.length
      ∧ (∀ j, j < i → out.getD j default = cascade.getD j default)
      ∧ rt1.training.input.images = rt.training.input.images
      ∧ rt1.meanShape = rt.meanShape
      ∧ rt1.training.samples
          = rt.training.samples.map fun s =>
              { s with
                estimate :=
                  cascadeEstimate ext (rt.training.input.images.getD s.inputIdx [])
                    s.shapeToImage ((out.drop i).take remaining) s.estimate } := by
  induction remaining generalizing i cascade rt with
  | zero =>
    unfold Tracker.fitCascade at h
    cases h
    refine ⟨rfl, fun _ _ => rfl, rfl, rfl, ?_⟩
    simp [cascadeEstimate]
  | succ n ih =>
    unfold Tracker.fitCascade at h
    split at h
    · cases h
    · rename_i stage rtA hfit
      obtain ⟨hsA, hiA, hmA⟩ := Regressor.fit_training ext _ rt stage rtA hfit
      obtain ⟨h1, h2, h3, h4, h5⟩ := ih (i + 1) _ _ h (by rw [List.length_set]; omega)
      rw [List.length_set] at h1
      have hstage : out.getD i default = stage := by
        rw [h2 i (by omega), getD_set_self_stage _ _ _ (by omega)]
      have hdrop : (out.drop i).take (n + 1) = stage :: (out.drop (i + 1)).take n := by
        have hlt : i < out.length := by omega
        rw [List.drop_eq_getElem_cons hlt, List.take_succ_cons, ← hstage,
          List.getD_eq_getElem _ _ hlt]
      refine ⟨h1, ?_, ?_, ?_, ?_⟩
      · intro j hj
        rw [h2 j (by omega), getD_set_other_stage _ _ _ _ (by omega)]
      · rw [h3]
        exact hiA
      · rw [h4]
        exact hmA
      · rw [h5, hdrop]
        simp only [Tracker.updateEstimates, List.map_map, hsA, hiA]
        apply List.map_congr_left
        intro s _
        simp only [Function.comp, cascadeEstimate, List.foldl_cons]

/-- The estimates after `Tracker::fit`, in terms of the fitted cascade. -/
theorem Tracker.fit_samples (ext : Extern) (self tr : Tracker) (t t1 : SampleData)
    (h : Tracker.fit ext self t = Except.ok (tr, t1)) :
    t1.samples
      = t.samples.map fun s =>
          { s with
            estimate :=
              cascadeEstimate ext (t.input.images.getD s.inputIdx []) s.shapeToImage
                tr.cascade s.estimate } := by
  unfold Tracker.fit at h
  split at h
  · cases h
  · rename_i front rest hs
    dsimp only at h
    split at h
    · cases h
    · split at h
      · cases h
      · rename_i cascade1 rt1 hfc
        obtain ⟨h1, -, -, -, h5⟩ := Tracker.fitCascade_estimates ext _ 0 _ _ cascade1 rt1 hfc
          (by rw [resizeCascade_length]; omega)
        cases h
        rw [resizeCascade_length] at h1
        rw [h5, List.drop_zero, ← h1, List.take_length]
/-- `Tracker::fit` has a result on a non-empty sample set when the counts of
the parameters are not negative, the depth is at most 30 and there is a pixel
coordinate to draw. -/
theorem Tracker.fit_isOk (ext : Extern) (hc : UniformIntInRange ext) (self : Tracker)
    (t : SampleData) (L : Nat) (hne : t.samples ≠ [])
    (hs : ∀ s ∈ t.samples, s.estimate.length = L ∧ s.target.length = L)
    (hC : 0 ≤ t.params.numCascades) (hT : 0 ≤ t.params.numTrees)
    (hP : 1 ≤ t.params.numRandomPixelCoordinates) (h30 : t.params.maxTreeDepth ≤ 30) :
    ∃ tr t1, Tracker.fit ext self t = Except.ok (tr, t1) := by
  obtain ⟨front, rest, hsam⟩ := List.exists_cons_of_ne_nil hne
  have hfront : front.estimate.length = L := (hs front (by rw [hsam]; simp)).1
  obtain ⟨out, rt1, hout, -, -⟩ := Tracker.fitCascade_spec ext hc L
    t.params.numCascades.toNat 0 (resizeCascade self.cascade t.params.numCascades.toNat)
    { training := t
      numLandmarks := (front.estimate.length : Nat)
      meanShape := Tracker.fitMeanShape t.samples front.estimate.length }
    (by simp [resizeCascade_length]) (by simpa using hfront) h30 hT hP hs
    (fun j hj => absurd hj (Nat.not_lt_zero j))
  refine ⟨{ cascade := out
            meanShape := Tracker.fitMeanShape t.samples front.estimate.length
            meanShapeRectCorners := Tracker.rectCorners ext self.meanShapeRectCorners
              (shapeBounds (Tracker.fitMeanShape t.samples front.estimate.length)) },
    rt1.training, ?_⟩
  unfold Tracker.fit
  rw [hsam] at hout ⊢
  dsimp only
  rw [if_neg (not_lt.mpr hC), hout]

/-! ## Lemmas on the leaf a training sample is routed to -/

theorem rangeSamples_getElem_mem (samples : List TreeSample) (c d p : Nat) (x : TreeSample)
    (hc : c ≤ p) (hd : p < d) (hx : samples[p]? = some x) :
    x ∈ rangeSamples samples (c, d) := by
  unfold rangeSamples
  rw [List.mem_iff_getElem?]
  refine ⟨p - c, ?_⟩
  rw [List.getElem?_take_of_lt (by simp only; omega), List.getElem?_drop]
  have : c + (p - c) = p := by omega
  simp only [this, hx]

/-- A predicate that holds exactly at the positions of a range selects the
samples of the range. -/
theorem filter_eq_rangeSamples (samples : List TreeSample) (c d : Nat)
    (pred : TreeSample → Bool)
    (hin : ∀ p x, samples[p]? = some x → (pred x = true ↔ c ≤ p ∧ p < d)) :
    samples.filter pred = rangeSamples samples (c, d) := by
  rcases Nat.lt_or_ge d c with hcd | hcd
  · have hnone : ∀ x ∈ samples, ¬ pred x = true := by
      intro x hx
      obtain ⟨p, hp⟩ := List.mem_iff_getElem?.mp hx
      rw [hin p x hp]
      omega
    have h0 : d - c = 0 := by omega
    rw [List.filter_eq_nil_iff.mpr hnone]
    simp [rangeSamples, h0]
  · have hsplit : samples = samples.take c ++ rangeSamples samples (c, d) ++ samples.drop d := by
      unfold rangeSamples
      simp only
      have h1 : samples.drop d = (samples.drop c).drop (d - c) := by
        rw [List.drop_drop]
        congr 1
        omega
      rw [h1, List.append_assoc, List.take_append_drop, List.take_append_drop]
    have hpre : (samples.take c).filter pred = [] := by
      rw [List.filter_eq_nil_iff]
      intro x hx
      obtain ⟨p, hp⟩ := List.mem_iff_getElem?.mp hx
      have hlt : p < c := by
        by_contra hge
        rw [List.getElem?_take_eq_none (by omega)] at hp
        cases hp
      rw [List.getElem?_take_of_lt hlt] at hp
      rw [hin p x hp]
      omega
    have hpost : (samples.drop d).filter pred = [] := by
      rw [List.filter_eq_nil_iff]
      intro x hx
      obtain ⟨p, hp⟩ := List.mem_iff_getElem?.mp hx
      rw [List.getElem?_drop] at hp
      rw [hin _ x hp]
      omega
    have hmid : (rangeSamples samples (c, d)).filter pred = rangeSamples samples (c, d) := by
      rw [List.filter_eq_self]
      intro x hx
      obtain ⟨p, hp⟩ := List.mem_iff_getElem?.mp hx
      unfold rangeSamples at hp
      simp only at hp
      have hlt : p < d - c := by
        by_contra hge
        rw [List.getElem?_take_eq_none (by omega)] at hp
        cases hp
      rw [List.getElem?_take_of_lt hlt, List.getElem?_drop] at hp
      rw [hin _ x hp]
      omega
    conv_lhs => rw [hsplit]
    rw [List.filter_append, List.filter_append, hpre, hpost, hmid, List.nil_append,
      List.append_nil]

theorem arithmeticMean_perm (xs ys : List ShapeResidual) (L : Nat) (h : List.Perm xs ys) :
    arithmeticMean xs L = arithmeticMean ys L := by
  unfold arithmeticMean
  apply List.map_congr_left
  intro j _
  funext r
  rw [h.length_eq, (h.map fun m => (m.getD j 0) r).sum_eq]

/-- In the state `fit` ends in, the descent of `predict` on the intensities of
the sample at position `p`, started at a written node whose range holds `p`,
ends at a leaf whose range holds `p`. -/
theorem Tree.predictLoop_range (P D : Nat) (t : TreeTraining) (ranges : Nat → SampleRange)
    (s : FitState) (hfit : FitInv P D s) (hr : RangeInv t ranges s) (hq : s.queue = [])
    (p : Nat) (x : TreeSample) (hx : s.samples[p]? = some x) (tests n : Nat)
    (hn : s.Written n) (h1 : (ranges n).1 ≤ p) (h2 : p < (ranges n).2)
    (hlevel : 2 ^ (D - 1) ≤ (n + 1) * 2 ^ tests) :
    Tree.predictLoop s.nodes x.intensities tests n ∈ s.leafWrites
      ∧ (ranges (Tree.predictLoop s.nodes x.intensities tests n)).1 ≤ p
      ∧ p < (ranges (Tree.predictLoop s.nodes x.intensities tests n)).2 := by
  have hwritten : ∀ m, s.Reached m → s.Written m := by
    intro m hm
    rcases hm with hm | hm
    · rw [hq] at hm
      simp at hm
    · exact hm
  induction tests generalizing n with
  | zero =>
    rw [Tree.predictLoop]
    refine ⟨?_, h1, h2⟩
    rcases (hfit.written n hn).2 with ⟨-, hml⟩ | ⟨-, hlt, -⟩
    · exact hml
    · simp only [pow_zero, mul_one] at hlevel
      omega
  | succ f ih =>
    by_cases hleaf : n ∈ s.leafWrites
    · have hform := hr.leaf_form n hleaf
      rw [Tree.predictLoop_leaf _ _ _ _ (by rw [hform.1]; decide)]
      exact ⟨hleaf, h1, h2⟩
    · have hsplit : n ∈ s.splitWrites := by
        rcases hn with h | h
        · exact h
        · exact absurd h hleaf
      obtain ⟨c1, c2, c3, c4, c5⟩ := hr.children n hsplit hleaf
      rcases (hfit.written n hn).2 with ⟨-, hml⟩ | ⟨hvalid, -, hr1, hr2⟩
      · exact absurd hml hleaf
      · have hidx : ¬ (s.nodes.getD n default).split.idx1 < 0 := not_lt.mpr hvalid.1
        have hpow : (n + 1) * 2 ^ (f + 1) = (2 * n + 1 + 1) * 2 ^ f := by
          rw [pow_succ]
          ring
        rcases Nat.lt_or_ge p (ranges (2 * n + 1)).2 with hp | hp
        · have hmem : x ∈ rangeSamples s.samples (ranges (2 * n + 1)) :=
            rangeSamples_getElem_mem s.samples _ _ p x (by rw [c1]; exact h1) hp hx
          have htest := c4 x hmem
          unfold PartitionPredicate at htest
          rw [Tree.predictLoop_left _ _ _ _ hidx (of_decide_eq_true htest)]
          exact ih (2 * n + 1) (hwritten _ hr1) (by rw [c1]; exact h1) hp
            (by rw [← hpow]; exact hlevel)
        · have hmem : x ∈ rangeSamples s.samples (ranges (2 * n + 2)) :=
            rangeSamples_getElem_mem s.samples _ _ p x (by rw [← c2]; exact hp)
              (by rw [c3]; exact h2) hx
          have htest := c5 x hmem
          unfold PartitionPredicate at htest
          rw [Tree.predictLoop_right _ _ _ _ hidx (of_decide_eq_false htest)]
          refine ih (2 * n + 2) (hwritten _ hr2) (by rw [← c2]; exact hp)
            (by rw [c3]; exact h2) ?_
          have : (2 * n + 1 + 1) * 2 ^ f ≤ (2 * n + 2 + 1) * 2 ^ f :=
            Nat.mul_le_mul_right _ (by omega)
          omega

/-! ## Lemmas on the similarity estimate over an ordered field -/

/-- The estimate over the field of the rationals is
`estimateSimilarityTransform`. -/
theorem estimateSimilarityTransformOver_rat (ext : Extern) (from_ to_ : Shape) :
    estimateSimilarityTransformOver (fun m => SVD.over (ext.jacobiSvd m)) from_ to_
      = { linear := (estimateSimilarityTransform ext from_ to_).linear
          translation := (estimateSimilarityTransform ext from_ to_).translation } :=
  rfl

/-- C1: `Tracker::predict` returns `shapeToImage · homogeneous(e_C)`, where
`e_0` is the stored mean shape and each stage adds its prediction to the
estimate, in order; this holds whether or not step results are collected, and a
tracker with an empty cascade returns `shapeToImage · homogeneous(meanShape)`. -/
theorem Tracker.predict_eq_cascade (ext : Extern) (self : Tracker) (img : Image)
    (shapeToImage : ShapeTransform) :
    Tracker.predict ext self img shapeToImage
        = ShapeTransform.apply shapeToImage
            (cascadeEstimate ext img shapeToImage self.cascade self.meanShape)
      ∧ (∀ stepResults, (Tracker.predictSteps ext self img shapeToImage stepResults).1
          = ShapeTransform.apply shapeToImage
              (cascadeEstimate ext img shapeToImage self.cascade self.meanShape))
      ∧ (self.cascade = [] →
          Tracker.predict ext self img shapeToImage
            = ShapeTransform.apply shapeToImage self.meanShape) := by
  have key : ∀ stepResults, (Tracker.predictSteps ext self img shapeToImage stepResults).1
      = ShapeTransform.apply shapeToImage
          (cascadeEstimate ext img shapeToImage self.cascade self.meanShape) := by
    intro stepResults
    simp only [Tracker.predictSteps]
    rw [Tracker.predictLoop_fst]
  refine ⟨key none, key, ?_⟩
  intro hempty
  have h := key none
  rw [hempty] at h
  simpa [Tracker.predict, cascadeEstimate] using h

/-- C2: `Regressor::predict` returns `meanResidual + η · Σ_k tree_k.predict(intensities)`
with one intensity vector, sampled once for the call and shared by all trees;
with `η = 0` it returns the stored mean residual, for every input and any
number of trees (whose predictions have the column count of the mean residual). -/
theorem Regressor.predict_eq_sum (ext : Extern) (self : Regressor) (img : Image) (shape : Shape)
    (shapeToImage : ShapeTransform) :
    Regressor.predict ext self img shape shapeToImage
        = Shape.add self.meanResidual
            (Shape.smul self.learningRate
              (sumTreePredictions self.trees
                (Regressor.predictIntensities ext self img shape shapeToImage)
                self.meanResidual.length))
      ∧ (self.learningRate = 0 →
          (∀ tree ∈ self.trees, self.meanResidual.length
              ≤ (Tree.predict tree
                  (Regressor.predictIntensities ext self img shape shapeToImage)).length) →
          Regressor.predict ext self img shape shapeToImage = self.meanResidual) := by
  have key : Regressor.predict ext self img shape shapeToImage
        = Shape.add self.meanResidual
            (Shape.smul self.learningRate
              (sumTreePredictions self.trees
                (Regressor.predictIntensities ext self img shape shapeToImage)
                self.meanResidual.length)) := by
    simp only [Regressor.predict, sumTreePredictions]
    rw [← Regressor.predictLoop_eq, Shape.add_smul_zero]
  refine ⟨key, ?_⟩
  intro hlr hlen
  rw [key, hlr]
  apply Shape.add_zero_smul
  simp only [sumTreePredictions]
  rw [sumTreePredictions_length_aux]
  · simp [Shape.length_zero]
  · intro tree ht
    rw [Shape.length_zero]
    exact hlen tree ht

/-- C3: `Tree::predict` starts at node 0, makes at most `depth − 1` tests, at
each tested node (one with `idx1 ≥ 0`) moves to `2n+1` when
`intensities[idx1] − intensities[idx2] > threshold` and to `2n+2` otherwise,
stops at the first node with `idx1 < 0`, and returns the mean of the node at
which it stopped. -/
theorem Tree.predict_descent (self : Tree) (intensities : PixelIntensities) :
    ∃ k n, Tree.Descent self.nodes intensities k n
      ∧ k ≤ (self.depth - 1).toNat
      ∧ ((self.nodes.getD n default).split.idx1 < 0 ∨ k = (self.depth - 1).toNat)
      ∧ Tree.predict self intensities = (self.nodes.getD n default).mean := by
  obtain ⟨k, hk, hle, hstop⟩ :=
    Tree.predictLoop_descent self.nodes intensities (self.depth - 1).toNat 0 0 Tree.Descent.start
  refine ⟨k, _, hk, by simpa using hle, ?_, rfl⟩
  rcases hstop with hs | hs
  · exact Or.inl hs
  · exact Or.inr (by simpa using hs)

/-- C4 (as amended): for a configured depth of at most 30, `Tree::fit` has a
result, the stored depth is `D = max(maxTreeDepth, 1)` and the node array has
exactly `2^D − 1` entries; a configured depth below 1 gives one node. -/
theorem Tree.fit_node_count (ext : Extern) (self : Tree) (t : TreeTraining)
    (h30 : t.training.params.maxTreeDepth ≤ 30) :
    ∃ tree t1, Tree.fit ext self t = some (tree, t1)
      ∧ tree.depth = max t.training.params.maxTreeDepth 1
      ∧ tree.nodes.length = 2 ^ tree.depth.toNat - 1
      ∧ (t.training.params.maxTreeDepth < 1 → tree.nodes.length = 1) := by
  obtain ⟨s, hs⟩ := Tree.fitState_isSome ext self t h30
  have hlen := Tree.fitState_length ext self t s hs
  refine ⟨{ nodes := s.nodes, depth := max t.training.params.maxTreeDepth 1 },
    TreeTraining.update t s.samples s.rnd, by simp [Tree.fit, hs], rfl, hlen, ?_⟩
  intro hlt
  have hmax : max t.training.params.maxTreeDepth 1 = 1 := max_eq_right (by omega)
  rw [hmax] at hlen
  simpa using hlen

/-- C4, an instance: the sample training set with depth 2 gives three nodes. -/
theorem Tree.fit_node_count_witness :
    (TreeTraining.sample 2).training.params.maxTreeDepth ≤ 30
      ∧ ∃ tree t1, Tree.fit Extern.sample default (TreeTraining.sample 2) = some (tree, t1)
        ∧ tree.depth = max (TreeTraining.sample 2).training.params.maxTreeDepth 1
        ∧ tree.nodes.length = 2 ^ tree.depth.toNat - 1
        ∧ ((TreeTraining.sample 2).training.params.maxTreeDepth < 1 → tree.nodes.length = 1) :=
  ⟨by decide, Tree.fit_node_count Extern.sample default (TreeTraining.sample 2) (by decide)⟩

/-- C4, where the claim fails: with `maxTreeDepth = 31` the node count
`(int)std::pow(2.0, 31)` is outside the range of `int`, and `fit` has no
result, so no node array with `2^31 − 1` entries. -/
theorem Tree.fit_depth_31 :
    (1 : Int) ≤ (TreeTraining.sample 31).training.params.maxTreeDepth
      ∧ Tree.numNodes 31 = none
      ∧ Tree.fit Extern.sample default (TreeTraining.sample 31) = none := by
  refine ⟨by decide, by decide, ?_⟩
  simp [Tree.fit, Tree.fitState, Tree.numNodes, TreeTraining.sample, TrainingParameters.sample]

/-- C5: on a fitted tree, for every intensity vector, `Tree::predict` reads only
node slots that `fit` wrote and that lie inside the array `[0, 2^D − 1)`; every
slot it reads is a leaf or holds a split with two indices in `[0, P)`; and the
node whose mean it returns is one that `fit` wrote as a leaf (`idx1 = idx2 = −1`). -/
theorem Tree.predict_reads_written (ext : Extern) (hc : UniformIntInRange ext) (self : Tree)
    (t : TreeTraining) (hP : 0 < t.pixelCoordinates.length) (tree : Tree) (t1 : TreeTraining)
    (hfit : Tree.fit ext self t = some (tree, t1)) (intensities : PixelIntensities) :
    ∃ s, Tree.fitState ext self t = some s ∧ tree.nodes = s.nodes
      ∧ tree.nodes.length = 2 ^ tree.depth.toNat - 1
      ∧ (∀ n ∈ Tree.predictVisited tree.nodes intensities (tree.depth - 1).toNat 0,
          n < tree.nodes.length ∧ s.Written n
            ∧ (TreeNode.IsLeaf (tree.nodes.getD n default)
                ∨ SplitInfo.Valid t.pixelCoordinates.length (tree.nodes.getD n default).split))
      ∧ ∃ n, n ∈ Tree.predictVisited tree.nodes intensities (tree.depth - 1).toNat 0
          ∧ n ∈ s.leafWrites
          ∧ TreeNode.IsLeaf (tree.nodes.getD n default)
          ∧ Tree.predict tree intensities = (tree.nodes.getD n default).mean := by
  obtain ⟨s, hs, htree, -⟩ := Tree.fit_some ext self t tree t1 hfit
  obtain ⟨hinv, hq⟩ := Tree.fitState_inv ext hc self t hP s hs
  have h1 : 1 ≤ max t.training.params.maxTreeDepth 1 := le_max_right _ _
  have hroot : s.Written 0 := by
    rcases hinv.root with h | h
    · rw [hq] at h; simp at h
    · exact h
  subst htree
  obtain ⟨hv, hl, hleaf, hmem⟩ := Tree.predictVisited_written _ _ s hinv hq intensities
    (max t.training.params.maxTreeDepth 1 - 1).toNat 0 0 (by omega) hroot (by simp)
  refine ⟨s, hs, rfl, hinv.length, ?_, ⟨_, hmem, hl, hleaf, rfl⟩⟩
  intro n hn
  obtain ⟨hb, hform⟩ := hinv.written n (hv n hn)
  refine ⟨?_, hv n hn, ?_⟩
  · show n < s.nodes.length
    rw [hinv.length]; exact hb
  · rcases hform with ⟨h, -⟩ | ⟨h, -⟩
    · exact Or.inl h
    · exact Or.inr h

/-- C5, an instance: the sample training set with depth 2 and the intensities `[0, 1]`. -/
theorem Tree.predict_reads_written_witness :
    ∃ tree t1, Tree.fit Extern.sample default (TreeTraining.sample 2) = some (tree, t1)
      ∧ ∃ s, Tree.fitState Extern.sample default (TreeTraining.sample 2) = some s
        ∧ tree.nodes = s.nodes
        ∧ tree.nodes.length = 2 ^ tree.depth.toNat - 1
        ∧ (∀ n ∈ Tree.predictVisited tree.nodes [0, 1] (tree.depth - 1).toNat 0,
            n < tree.nodes.length ∧ s.Written n
              ∧ (TreeNode.IsLeaf (tree.nodes.getD n default)
                  ∨ SplitInfo.Valid (TreeTraining.sample 2).pixelCoordinates.length
                      (tree.nodes.getD n default).split))
        ∧ ∃ n, n ∈ Tree.predictVisited tree.nodes [0, 1] (tree.depth - 1).toNat 0
            ∧ n ∈ s.leafWrites
            ∧ TreeNode.IsLeaf (tree.nodes.getD n default)
            ∧ Tree.predict tree [0, 1] = (tree.nodes.getD n default).mean := by
  obtain ⟨s, hs⟩ := Tree.fitState_isSome Extern.sample default (TreeTraining.sample 2)
    (by decide)
  have hfit : Tree.fit Extern.sample default (TreeTraining.sample 2)
      = some ({ nodes := s.nodes,
                depth := max (TreeTraining.sample 2).training.params.maxTreeDepth 1 },
              TreeTraining.update (TreeTraining.sample 2) s.samples s.rnd) := by
    simp [Tree.fit, hs]
  exact ⟨_, _, hfit, Tree.predict_reads_written Extern.sample Extern.sample_uniformInt default
    (TreeTraining.sample 2) (by decide) _ _ hfit [0, 1]⟩

/-- C6: after `fit` over `P ≥ 1` pixel coordinates, every node that `fit`
reached either has `idx1 = idx2 = −1` or has `0 ≤ idx1 < P`, `0 ≤ idx2 < P` and
`idx1 ≠ idx2`. -/
theorem Tree.fit_nodes_form (ext : Extern) (hc : UniformIntInRange ext) (self : Tree)
    (t : TreeTraining) (hP : 0 < t.pixelCoordinates.length) (tree : Tree) (t1 : TreeTraining)
    (hfit : Tree.fit ext self t = some (tree, t1)) :
    ∃ s, Tree.fitState ext self t = some s ∧ tree.nodes = s.nodes
      ∧ ∀ n, s.Written n →
          n < tree.nodes.length
            ∧ (TreeNode.IsLeaf (tree.nodes.getD n default)
                ∨ SplitInfo.Valid t.pixelCoordinates.length (tree.nodes.getD n default).split) := by
  obtain ⟨s, hs, htree, -⟩ := Tree.fit_some ext self t tree t1 hfit
  obtain ⟨hinv, -⟩ := Tree.fitState_inv ext hc self t hP s hs
  subst htree
  refine ⟨s, hs, rfl, ?_⟩
  intro n hn
  obtain ⟨hb, hform⟩ := hinv.written n hn
  refine ⟨?_, ?_⟩
  · show n < s.nodes.length
    rw [hinv.length]; exact hb
  · rcases hform with ⟨h, -⟩ | ⟨h, -⟩
    · exact Or.inl h
    · exact Or.inr h

/-- C6, an instance: the sample training set with depth 3. -/
theorem Tree.fit_nodes_form_witness :
    ∃ tree t1, Tree.fit Extern.sample default (TreeTraining.sample 3) = some (tree, t1)
      ∧ ∃ s, Tree.fitState Extern.sample default (TreeTraining.sample 3) = some s
        ∧ tree.nodes = s.nodes
        ∧ ∀ n, s.Written n →
            n < tree.nodes.length
              ∧ (TreeNode.IsLeaf (tree.nodes.getD n default)
                  ∨ SplitInfo.Valid (TreeTraining.sample 3).pixelCoordinates.length
                      (tree.nodes.getD n default).split) := by
  obtain ⟨s, hs⟩ := Tree.fitState_isSome Extern.sample default (TreeTraining.sample 3)
    (by decide)
  have hfit : Tree.fit Extern.sample default (TreeTraining.sample 3)
      = some ({ nodes := s.nodes,
                depth := max (TreeTraining.sample 3).training.params.maxTreeDepth 1 },
              TreeTraining.update (TreeTraining.sample 3) s.samples s.rnd) := by
    simp [Tree.fit, hs]
  exact ⟨_, _, hfit, Tree.fit_nodes_form Extern.sample Extern.sample_uniformInt default
    (TreeTraining.sample 3) (by decide) _ _ hfit⟩

/-- C7: for a non-empty training set (residuals with `numLandmarks` columns), a
tree fitted with depth 1 has exactly one node, that node is a leaf, and
`Tree::predict` returns the arithmetic mean of the training residuals for
every intensity vector. -/
theorem Tree.fit_depth_one (ext : Extern) (self : Tree) (t : TreeTraining)
    (intensities : PixelIntensities) (hD : t.training.params.maxTreeDepth ≤ 1)
    (hne : t.samples ≠ [])
    (hL : ∀ s ∈ t.samples, (s.residual.length : Int) = t.numLandmarks) :
    ∃ tree t1, Tree.fit ext self t = some (tree, t1)
      ∧ tree.depth = 1
      ∧ tree.nodes.length = 1
      ∧ TreeNode.IsLeaf (tree.nodes.getD 0 default)
      ∧ Tree.predict tree intensities
          = arithmeticMean (t.samples.map fun s => s.residual) t.numLandmarks.toNat := by
  obtain ⟨s, hs, hlen, h1, h2, hmean⟩ := Tree.fitState_depth_one ext self t hD
  have hmax : max t.training.params.maxTreeDepth 1 = 1 := max_eq_right hD
  refine ⟨{ nodes := s.nodes, depth := max t.training.params.maxTreeDepth 1 },
    TreeTraining.update t s.samples s.rnd, by simp [Tree.fit, hs], hmax, hlen, ⟨h1, h2⟩, ?_⟩
  simp only [Tree.predict, hmax, sub_self, Int.toNat_zero, Tree.predictLoop]
  rw [hmean]
  exact meanResidualOfRange_all t.samples t.numLandmarks hne hL

/-- C7, an instance: the sample training set with depth 1 and the intensities `[5, 7]`. -/
theorem Tree.fit_depth_one_witness :
    ∃ tree t1, Tree.fit Extern.sample default (TreeTraining.sample 1) = some (tree, t1)
      ∧ tree.depth = 1
      ∧ tree.nodes.length = 1
      ∧ TreeNode.IsLeaf (tree.nodes.getD 0 default)
      ∧ Tree.predict tree [5, 7]
          = arithmeticMean ((TreeTraining.sample 1).samples.map fun s => s.residual)
              (TreeTraining.sample 1).numLandmarks.toNat :=
  Tree.fit_depth_one Extern.sample default (TreeTraining.sample 1) [5, 7] (by decide)
    (by simp [TreeTraining.sample]) (by simp [TreeTraining.sample])

/-- C8: when the matrix codec is an exact round trip, loading what `save`
produced yields the same tracker (mean shape, rectangle corners and the whole
cascade, with every stage's vectors, matrices, learning rate and trees), whatever
the loading tracker held before; and so `predict` of the reloaded tracker equals
`predict` of the saved one on every input.  The same holds through the file. -/
theorem Tracker.load_save (ext : Extern) (hF : ∀ m, ext.fromFbs (ext.toFbs m) = m)
    (hI : ∀ v, ext.fromFbsI (ext.toFbsI v) = v) (self t : Tracker) :
    Tracker.load ext self (Tracker.save ext t) = t
      ∧ (∀ img shapeToImage,
          Tracker.predict ext (Tracker.load ext self (Tracker.save ext t)) img shapeToImage
            = Tracker.predict ext t img shapeToImage)
      ∧ Tracker.loadPath ext self (Tracker.savePath ext t true) = (true, t) := by
  have h := Tracker.load_of_save ext hF hI self t
  refine ⟨h, ?_, ?_⟩
  · intro img shapeToImage
    rw [h]
  · simp only [Tracker.savePath, if_true, Tracker.loadPath]
    rw [h]

/-- C8, an instance: the sample tracker with the row-major codec, loaded into an
empty tracker. -/
theorem Tracker.load_save_witness :
    Tracker.load Extern.sample default (Tracker.save Extern.sample Tracker.sample)
        = Tracker.sample
      ∧ (∀ img shapeToImage,
          Tracker.predict Extern.sample
              (Tracker.load Extern.sample default (Tracker.save Extern.sample Tracker.sample))
              img shapeToImage
            = Tracker.predict Extern.sample Tracker.sample img shapeToImage)
      ∧ Tracker.loadPath Extern.sample default (Tracker.savePath Extern.sample Tracker.sample true)
          = (true, Tracker.sample) :=
  Tracker.load_save Extern.sample Extern.sample_codec Extern.sample_codecI default Tracker.sample

/-- C9 (as amended): `Tracker::load(path)` fails exactly when the file cannot be
read or its buffer fails verification, and then leaves the tracker as it was;
for every verified buffer it returns `true` and populates the tracker from the
stored fields as decoded, without any check of their dimensions. -/
theorem Tracker.loadPath_spec (ext : Extern) (self : Tracker) (file : Option TrackerBuffer) :
    ((Tracker.loadPath ext self file).1 = true ↔ ∃ root, file = some (TrackerBuffer.verified root))
      ∧ ((Tracker.loadPath ext self file).1 = false → (Tracker.loadPath ext self file).2 = self)
      ∧ (∀ root, file = some (TrackerBuffer.verified root) →
          Tracker.loadPath ext self file = (true, Tracker.load ext self root)) := by
  rcases file with _ | _ | root
  · simp [Tracker.loadPath]
  · simp [Tracker.loadPath]
  · simp [Tracker.loadPath]

/-- C9, where the claim fails: a verified buffer whose stage has two
closest-landmark entries for one pixel coordinate, a mean residual of two
landmarks against a mean shape of one, and a tree of depth 3 with one node is
loaded with success, and the populated tracker violates the dimension
invariants. -/
theorem Tracker.loadPath_inconsistent :
    (Tracker.loadPath Extern.sample default
        (some (TrackerBuffer.verified io.Tracker.inconsistent))).1 = true
      ∧ ((Tracker.loadPath Extern.sample default
            (some (TrackerBuffer.verified io.Tracker.inconsistent))).2.cascade.map fun r =>
          (r.closestShapeLandmark.length, r.shapeRelativePixelCoordinates.length,
            r.meanResidual.length, r.trees.map fun tree => (tree.depth, tree.nodes.length)))
          = [(2, 1, 2, [(3, 1)])]
      ∧ (Tracker.loadPath Extern.sample default
            (some (TrackerBuffer.verified io.Tracker.inconsistent))).2.meanShape.length = 1
      ∧ ¬ Tracker.DimensionsAgree
          (Tracker.loadPath Extern.sample default
            (some (TrackerBuffer.verified io.Tracker.inconsistent))).2 := by
  refine ⟨rfl, by decide, by decide, ?_⟩
  intro h
  have h1 := h _ (List.mem_cons_self _ _)
  have h2 : (2 : Nat) = 1 := h1.1
  omega

/-- C10: `Tracker::fit` called with zero samples fails its assertion: the
outcome is the assertion error, whatever the tracker, the parameters and the
input, and never a success. -/
theorem Tracker.fit_empty (ext : Extern) (self : Tracker) (t : SampleData)
    (h : t.samples = []) :
    Tracker.fit ext self t = Except.error FitError.assertion
      ∧ ∀ r, Tracker.fit ext self t ≠ Except.ok r := by
  have h1 : Tracker.fit ext self t = Except.error FitError.assertion := by
    unfold Tracker.fit
    rw [h]
  refine ⟨h1, ?_⟩
  intro r hr
  rw [h1] at hr
  cases hr

/-- C10, an instance: the sample data without samples. -/
theorem Tracker.fit_empty_witness :
    SampleData.empty.samples = []
      ∧ Tracker.fit Extern.sample default SampleData.empty = Except.error FitError.assertion
      ∧ ∀ r, Tracker.fit Extern.sample default SampleData.empty ≠ Except.ok r :=
  ⟨rfl, Tracker.fit_empty Extern.sample default SampleData.empty rfl⟩

/-- C20: `createRectangle(minC, maxC)` has the columns `(minC.x, minC.y)`,
`(maxC.x, minC.y)`, `(minC.x, maxC.y)`, `(maxC.x, maxC.y)`, in this order; and
`unitRectangle()` is `createRectangle((−0.5, −0.5), (0.5, 0.5))`, with the
columns `(−0.5, −0.5)`, `(0.5, −0.5)`, `(−0.5, 0.5)`, `(0.5, 0.5)`. -/
theorem createRectangle_columns (minC maxC : Fin 2 → ℚ) :
    ((fun r => createRectangle minC maxC r 0) = ![minC 0, minC 1]
      ∧ (fun r => createRectangle minC maxC r 1) = ![maxC 0, minC 1]
      ∧ (fun r => createRectangle minC maxC r 2) = ![minC 0, maxC 1]
      ∧ (fun r => createRectangle minC maxC r 3) = ![maxC 0, maxC 1])
    ∧ unitRectangle = createRectangle ![-1 / 2, -1 / 2] ![1 / 2, 1 / 2]
    ∧ ((fun r => unitRectangle r 0) = ![-1 / 2, -1 / 2]
      ∧ (fun r => unitRectangle r 1) = ![1 / 2, -1 / 2]
      ∧ (fun r => unitRectangle r 2) = ![-1 / 2, 1 / 2]
      ∧ (fun r => unitRectangle r 3) = ![1 / 2, 1 / 2]) := by
  refine ⟨⟨?_, ?_, ?_, ?_⟩, ?_, ⟨?_, ?_, ?_, ?_⟩⟩
  · funext r; fin_cases r <;> simp [createRectangle]
  · funext r; fin_cases r <;> simp [createRectangle]
  · funext r; fin_cases r <;> simp [createRectangle]
  · funext r; fin_cases r <;> simp [createRectangle]
  · funext r c
    fin_cases r <;> fin_cases c <;> simp [unitRectangle, createRectangle] <;> norm_num
  · funext r; fin_cases r <;> simp [unitRectangle] <;> norm_num
  · funext r; fin_cases r <;> simp [unitRectangle] <;> norm_num
  · funext r; fin_cases r <;> simp [unitRectangle] <;> norm_num
  · funext r; fin_cases r <;> simp [unitRectangle] <;> norm_num

/-- C18 (as amended): when some landmark of `s` has a squared distance to `x`
below `FLT_MAX`, `findClosestLandmarkIndex(s, x)` returns an index `k` with
`0 ≤ k < L` whose landmark is nearest to `x` among all landmarks, and `k` is the
lowest such index. -/
theorem findClosestLandmarkIndex_nearest (s : Shape) (x : Vec3)
    (h : ∃ l ∈ s, Vec3.squaredNorm (l - x) < FLT_MAX) :
    ∃ k : Nat, findClosestLandmarkIndex s x = (k : Int) ∧ k < s.length
      ∧ (∀ j, j < s.length →
          Vec3.squaredNorm (s.getD k 0 - x) ≤ Vec3.squaredNorm (s.getD j 0 - x))
      ∧ (∀ j, j < k →
          Vec3.squaredNorm (s.getD k 0 - x) < Vec3.squaredNorm (s.getD j 0 - x)) := by
  have h0 : ClosestSoFar x [] (-1) FLT_MAX := Or.inl ⟨rfl, rfl, by simp⟩
  obtain ⟨d, hd⟩ := findClosestLandmarkLoop_spec x s [] (-1) FLT_MAX h0
  simp only [List.nil_append, List.length_nil, Nat.cast_zero] at hd
  rcases hd with ⟨-, -, hall⟩ | ⟨k, hk, hlt, hd, -, hmin, hlow⟩
  · obtain ⟨l, hl, hll⟩ := h
    exact absurd hll (not_lt.mpr (hall l hl))
  · refine ⟨k, hk, hlt, ?_, ?_⟩
    · intro j hj
      rw [← hd]; exact hmin j hj
    · intro j hj
      rw [← hd]; exact hlow j hj

/-- C18, an instance: two landmarks at the same distance from the query point;
the lower index is returned. -/
theorem findClosestLandmarkIndex_nearest_witness :
    (∃ l ∈ ([![1, 0, 0], ![-1, 0, 0]] : Shape), Vec3.squaredNorm (l - 0) < FLT_MAX)
      ∧ ∃ k : Nat, findClosestLandmarkIndex [![1, 0, 0], ![-1, 0, 0]] 0 = (k : Int)
        ∧ k < ([![1, 0, 0], ![-1, 0, 0]] : Shape).length
        ∧ (∀ j, j < ([![1, 0, 0], ![-1, 0, 0]] : Shape).length →
            Vec3.squaredNorm (([![1, 0, 0], ![-1, 0, 0]] : Shape).getD k 0 - 0)
              ≤ Vec3.squaredNorm (([![1, 0, 0], ![-1, 0, 0]] : Shape).getD j 0 - 0))
        ∧ (∀ j, j < k →
            Vec3.squaredNorm (([![1, 0, 0], ![-1, 0, 0]] : Shape).getD k 0 - 0)
              < Vec3.squaredNorm (([![1, 0, 0], ![-1, 0, 0]] : Shape).getD j 0 - 0)) :=
  have h : ∃ l ∈ ([![1, 0, 0], ![-1, 0, 0]] : Shape), Vec3.squaredNorm (l - 0) < FLT_MAX :=
    ⟨![1, 0, 0], by simp, by norm_num [Vec3.squaredNorm, FLT_MAX]⟩
  ⟨h, findClosestLandmarkIndex_nearest [![1, 0, 0], ![-1, 0, 0]] 0 h⟩

/-- C18, where the claim fails: for the shape with the one landmark
`(2^64, 0, 0)` and the query point `0` the squared distance `2^128` is not below
`FLT_MAX`, and the index returned is `−1`, not a landmark. -/
theorem findClosestLandmarkIndex_far :
    ([![2 ^ 64, 0, 0]] : Shape).length = 1
      ∧ findClosestLandmarkIndex [![2 ^ 64, 0, 0]] 0 = -1 := by
  refine ⟨rfl, ?_⟩
  have h : ¬ Vec3.squaredNorm ((![2 ^ 64, 0, 0] : Vec3) - 0) < FLT_MAX := by
    norm_num [Vec3.squaredNorm, FLT_MAX]
  simp only [findClosestLandmarkIndex, findClosestLandmarkLoop]
  rw [if_neg h]

/-- C17: after `normalizeShapes`, `shapeToImage` has one entry per shape; entry
`i` of the shapes is `T_i · homogeneous(original)` and entry `i` of
`shapeToImage` is `T_i⁻¹`, with `T_i` the transform estimated for rectangle `i`;
and when `T_i` is invertible, `shapeToImage[i] · homogeneous(shapes[i])` is the
shape input `i` held before. -/
theorem InputData.normalizeShapes_inverse (ext : Extern) (input : InputData) (i : Nat)
    (hi : i < input.shapes.length)
    (hinv : (InputData.normalizeTransform ext (input.rects.getD i 0)).linear.det ≠ 0) :
    (InputData.normalizeShapes ext input).shapeToImage.length = input.shapes.length
      ∧ (InputData.normalizeShapes ext input).shapes.length = input.shapes.length
      ∧ (InputData.normalizeShapes ext input).shapes[i]?
          = some (ShapeTransform.apply
              (InputData.normalizeTransform ext (input.rects.getD i 0))
              (input.shapes.getD i []))
      ∧ (InputData.normalizeShapes ext input).shapeToImage[i]?
          = some (ShapeTransform.inverse
              (InputData.normalizeTransform ext (input.rects.getD i 0)))
      ∧ ∀ t s, (InputData.normalizeShapes ext input).shapeToImage[i]? = some t →
          (InputData.normalizeShapes ext input).shapes[i]? = some s →
          ShapeTransform.apply t s = input.shapes.getD i [] := by
  obtain ⟨-, h2, h3, h4, h5⟩ := InputData.normalizeLoop_spec ext input.shapes.length 0
    { input with shapeToImage := resizeTransforms input.shapeToImage input.shapes.length }
  have hs : (InputData.normalizeShapes ext input).shapes[i]?
      = some (ShapeTransform.apply
          (InputData.normalizeTransform ext (input.rects.getD i 0))
          (input.shapes.getD i [])) := by
    have := h4 i
    rw [if_pos (by simp; exact hi)] at this
    exact this
  have ht : (InputData.normalizeShapes ext input).shapeToImage[i]?
      = some (ShapeTransform.inverse
          (InputData.normalizeTransform ext (input.rects.getD i 0))) := by
    have := h5 i
    rw [if_pos (by simp [resizeTransforms_length]; exact hi)] at this
    exact this
  refine ⟨?_, h2, hs, ht, ?_⟩
  · show (InputData.normalizeLoop ext _ 0 _).shapeToImage.length = _
    rw [h3]
    exact resizeTransforms_length _ _
  · intro t s h1 h6
    rw [ht] at h1
    rw [hs] at h6
    cases h1
    cases h6
    exact ShapeTransform.inverse_apply _ hinv _

/-- C17, an instance: the sample input container, whose one rectangle has the
corners `(0, 0)` and `(2, 2)`; the transform estimated for it scales by 1/2. -/
theorem InputData.normalizeShapes_inverse_witness :
    (InputData.normalizeTransform Extern.sample (InputData.sample.rects.getD 0 0)).linear.det ≠ 0
      ∧ (InputData.normalizeShapes Extern.sample InputData.sample).shapeToImage.length
          = InputData.sample.shapes.length
      ∧ (InputData.normalizeShapes Extern.sample InputData.sample).shapes.length
          = InputData.sample.shapes.length
      ∧ (InputData.normalizeShapes Extern.sample InputData.sample).shapes[0]?
          = some (ShapeTransform.apply
              (InputData.normalizeTransform Extern.sample (InputData.sample.rects.getD 0 0))
              (InputData.sample.shapes.getD 0 []))
      ∧ (InputData.normalizeShapes Extern.sample InputData.sample).shapeToImage[0]?
          = some (ShapeTransform.inverse
              (InputData.normalizeTransform Extern.sample (InputData.sample.rects.getD 0 0)))
      ∧ ∀ t s, (InputData.normalizeShapes Extern.sample InputData.sample).shapeToImage[0]? = some t →
          (InputData.normalizeShapes Extern.sample InputData.sample).shapes[0]? = some s →
          ShapeTransform.apply t s = InputData.sample.shapes.getD 0 [] :=
  have h : (InputData.normalizeTransform Extern.sample
      (InputData.sample.rects.getD 0 0)).linear.det ≠ 0 := by
    with_unfolding_all decide
  ⟨h, InputData.normalizeShapes_inverse Extern.sample InputData.sample 0 (by decide) h⟩

/-- C11, the code at a failing input: for 100001 samples whose estimate is the
one landmark `(1, 0, 0)` the arithmetic mean of the estimates is `(1, 0, 0)`,
while the mean shape `Tracker::fit` evaluates and records has `x` coordinate
`5000100001 / 5000150001`: the third bucket is divided by `numSamples − 50000`. -/
theorem Tracker.fit_meanShape_100001 :
    (SampleData.copies 100001).samples.length = 100001
      ∧ arithmeticMean ((SampleData.copies 100001).samples.map fun s => s.estimate) 1
          = [![1, 0, 0]]
      ∧ Tracker.fitMeanShape (SampleData.copies 100001).samples 1
          = [![5000100001 / 5000150001, 0, 0]]
      ∧ (∃ tr t1, Tracker.fit Extern.sample default (SampleData.copies 100001)
            = Except.ok (tr, t1)
          ∧ tr.meanShape = [![5000100001 / 5000150001, 0, 0]])
      ∧ (5000100001 / 5000150001 : ℚ) ≠ 1 := by
  refine ⟨List.length_replicate _ _, ?_, Tracker.fitMeanShape_unitX, ?_, by norm_num⟩
  · have hr : List.range 1 = [0] := rfl
    simp only [SampleData.copies, arithmeticMean, List.map_replicate, List.length_replicate,
      List.sum_replicate, Sample.unitX, hr, List.map_cons, List.map_nil]
    congr 1
    funext r
    fin_cases r <;> simp
  · have hs : (SampleData.copies 100001).samples
        = Sample.unitX :: List.replicate 100000 Sample.unitX := by
      simp only [SampleData.copies]
      rw [← List.replicate_succ]
    have hfit : ∃ tr t1, Tracker.fit Extern.sample default (SampleData.copies 100001)
        = Except.ok (tr, t1) :=
      Tracker.fit_no_cascade Extern.sample default _ _ _ hs rfl
    obtain ⟨tr, t1, h⟩ := hfit
    refine ⟨tr, t1, h, ?_⟩
    rw [Tracker.fit_meanShape _ _ _ _ _ h, hs]
    simp only [List.head?_cons, Option.map_some', Option.getD_some]
    rw [← hs]
    exact Tracker.fitMeanShape_unitX

/-- C16, the code at a failing input: on a run where the unassigned coefficients
of a freshly resized matrix hold the value 1, the two shapes `normalizeShapes`
passes to `estimateSimilarityTransform` for the rectangle with corners `(0, 0)`
and `(2, 2)` have the rectangle and the unit rectangle as first two rows, and a
third row of ones, not of zeros. -/
theorem InputData.normalizeTransform_unassigned :
    InputData.normalizeTransform (Extern.withUninitialized 1) (createRectangle ![0, 0] ![2, 2])
        = estimateSimilarityTransform (Extern.withUninitialized 1)
            (liftRect (Extern.withUninitialized 1) (createRectangle ![0, 0] ![2, 2]))
            (liftRect (Extern.withUninitialized 1) unitRectangle)
      ∧ (liftRect (Extern.withUninitialized 1) (createRectangle ![0, 0] ![2, 2])).map
            (fun v => (v 0, v 1)) = [(0, 0), (2, 0), (0, 2), (2, 2)]
      ∧ (liftRect (Extern.withUninitialized 1) unitRectangle).map
            (fun v => (v 0, v 1)) = [(-1 / 2, -1 / 2), (1 / 2, -1 / 2), (-1 / 2, 1 / 2), (1 / 2, 1 / 2)]
      ∧ (liftRect (Extern.withUninitialized 1) (createRectangle ![0, 0] ![2, 2])).map
            (fun v => v 2) = [1, 1, 1, 1]
      ∧ (liftRect (Extern.withUninitialized 1) unitRectangle).map (fun v => v 2)
          = [1, 1, 1, 1] := by
  refine ⟨rfl, ?_, ?_, ?_, ?_⟩
  · with_unfolding_all decide
  · with_unfolding_all decide
  · with_unfolding_all decide
  · with_unfolding_all decide

/-- C14, the code at a failing input: `quarterTurn` is a rotation, and for the
six landmarks of `Shape.octahedron` and their images under it, with each of the
valid SVDs of the covariance with sorted singular values (they differ in the
signs of the singular vectors), the estimated transform does not map the
landmarks onto their images: it leaves the first landmark `(1,0,0)` where it
is, while its image is `(0,1,0)`. -/
theorem estimateSimilarityTransform_quarterTurn :
    quarterTurn.transpose * quarterTurn = 1 ∧ quarterTurn.det = 1
      ∧ Shape.octahedron.head? = some ![1, 0, 0]
      ∧ quarterTurn.mulVec ![1, 0, 0] = ![0, 1, 0]
      ∧ ∀ a b c : Bool,
          SVD.Valid
              (similarityCovariance Shape.octahedron (Shape.mulLeft quarterTurn Shape.octahedron))
              (SVD.octahedron a b c)
            ∧ SVD.Sorted (SVD.octahedron a b c)
            ∧ (estimateSimilarityTransform (Extern.withSvd fun _ => SVD.octahedron a b c)
                    Shape.octahedron (Shape.mulLeft quarterTurn Shape.octahedron)).linear.mulVec
                  ![1, 0, 0]
                + (estimateSimilarityTransform (Extern.withSvd fun _ => SVD.octahedron a b c)
                    Shape.octahedron (Shape.mulLeft quarterTurn Shape.octahedron)).translation
                = ![1, 0, 0]
            ∧ ShapeTransform.apply
                  (estimateSimilarityTransform (Extern.withSvd fun _ => SVD.octahedron a b c)
                    Shape.octahedron (Shape.mulLeft quarterTurn Shape.octahedron))
                  Shape.octahedron
                ≠ Shape.mulLeft quarterTurn Shape.octahedron := by
  refine ⟨by with_unfolding_all decide, by with_unfolding_all decide, rfl,
    by with_unfolding_all decide, ?_⟩
  intro a b c
  rw [octahedron_estimate]
  refine ⟨octahedron_valid a b c, ?_, ?_, octahedron_moved a b c⟩
  · cases a <;> cases b <;> cases c <;> refine ⟨?_, ?_⟩ <;> with_unfolding_all decide
  · cases a <;> cases b <;> cases c <;> with_unfolding_all decide


/-- C21: for a shape `S` with at least one landmark, `shapeBounds(S)` is
`createRectangle(min, max)` of the least and greatest coefficients of the x row
and of the y row (the z row is not used); every landmark's `(x, y)` lies inside
the rectangle, and each of the four sides (`x = min.x`, `x = max.x`,
`y = min.y`, `y = max.y`) passes through a landmark. -/
theorem shapeBounds_spec (s : Shape) (hs : s ≠ []) :
    shapeBounds s
        = createRectangle ![Shape.rowwiseMin s 0, Shape.rowwiseMin s 1]
            ![Shape.rowwiseMax s 0, Shape.rowwiseMax s 1]
      ∧ ((∀ p ∈ s, Shape.rowwiseMin s 0 ≤ p 0) ∧ (∃ p ∈ s, p 0 = Shape.rowwiseMin s 0)
          ∧ (∀ p ∈ s, Shape.rowwiseMin s 1 ≤ p 1) ∧ (∃ p ∈ s, p 1 = Shape.rowwiseMin s 1)
          ∧ (∀ p ∈ s, p 0 ≤ Shape.rowwiseMax s 0) ∧ (∃ p ∈ s, p 0 = Shape.rowwiseMax s 0)
          ∧ (∀ p ∈ s, p 1 ≤ Shape.rowwiseMax s 1) ∧ (∃ p ∈ s, p 1 = Shape.rowwiseMax s 1))
      ∧ ((fun r => shapeBounds s r 0) = ![Shape.rowwiseMin s 0, Shape.rowwiseMin s 1]
          ∧ (fun r => shapeBounds s r 1) = ![Shape.rowwiseMax s 0, Shape.rowwiseMin s 1]
          ∧ (fun r => shapeBounds s r 2) = ![Shape.rowwiseMin s 0, Shape.rowwiseMax s 1]
          ∧ (fun r => shapeBounds s r 3) = ![Shape.rowwiseMax s 0, Shape.rowwiseMax s 1])
      ∧ (∀ p ∈ s, shapeBounds s 0 0 ≤ p 0 ∧ p 0 ≤ shapeBounds s 0 3
          ∧ shapeBounds s 1 0 ≤ p 1 ∧ p 1 ≤ shapeBounds s 1 3)
      ∧ (∃ p ∈ s, p 0 = shapeBounds s 0 0) ∧ (∃ p ∈ s, p 0 = shapeBounds s 0 3)
      ∧ (∃ p ∈ s, p 1 = shapeBounds s 1 0) ∧ (∃ p ∈ s, p 1 = shapeBounds s 1 3) := by
  have hmin0 := Shape.rowwiseMin_spec s hs 0
  have hmin1 := Shape.rowwiseMin_spec s hs 1
  have hmax0 := Shape.rowwiseMax_spec s hs 0
  have hmax1 := Shape.rowwiseMax_spec s hs 1
  have e00 : shapeBounds s 0 0 = Shape.rowwiseMin s 0 := by simp [shapeBounds, createRectangle]
  have e10 : shapeBounds s 1 0 = Shape.rowwiseMin s 1 := by simp [shapeBounds, createRectangle]
  have e03 : shapeBounds s 0 3 = Shape.rowwiseMax s 0 := by simp [shapeBounds, createRectangle]
  have e13 : shapeBounds s 1 3 = Shape.rowwiseMax s 1 := by simp [shapeBounds, createRectangle]
  refine ⟨rfl, ⟨hmin0.1, hmin0.2, hmin1.1, hmin1.2, hmax0.1, hmax0.2, hmax1.1, hmax1.2⟩,
    ⟨?_, ?_, ?_, ?_⟩, ?_, ?_, ?_, ?_, ?_⟩
  · funext r; fin_cases r <;> simp [shapeBounds, createRectangle]
  · funext r; fin_cases r <;> simp [shapeBounds, createRectangle]
  · funext r; fin_cases r <;> simp [shapeBounds, createRectangle]
  · funext r; fin_cases r <;> simp [shapeBounds, createRectangle]
  · intro p hp
    rw [e00, e10, e03, e13]
    exact ⟨hmin0.1 p hp, hmax0.1 p hp, hmin1.1 p hp, hmax1.1 p hp⟩
  · rw [e00]; exact hmin0.2
  · rw [e03]; exact hmax0.2
  · rw [e10]; exact hmin1.2
  · rw [e13]; exact hmax1.2

/-- C21, an instance: the landmarks `(1, 2, 0)` and `(3, 0, 5)`, with the
bounds `(1, 0)` and `(3, 2)`. -/
theorem shapeBounds_spec_witness :
    shapeBounds [![1, 2, 0], ![3, 0, 5]] 0 0 ≤ 1
      ∧ (∃ p ∈ ([![1, 2, 0], ![3, 0, 5]] : Shape), p 1 = shapeBounds [![1, 2, 0], ![3, 0, 5]] 1 3) :=
  have h := shapeBounds_spec [![1, 2, 0], ![3, 0, 5]] (by simp)
  ⟨(h.2.2.2.1 ![1, 2, 0] (by simp)).1, h.2.2.2.2.2.2.2⟩


/-- C22: for an input container with `m ≥ 1` shapes and `N = max(numShapesPerImage, 1)`
(the product `m · N` inside the range of `int`), `createTrainingSamples` has a
result with `m · N` perturbed samples, followed by `m` further samples when
`includeMeanShape` is set and by none otherwise.  Sample `i < m · N` has
`inputIdx = i mod m`, the shape of that input as target and its `shapeToImage`;
every input owns exactly `N` of the perturbed samples; the recorded mean shape
is `computeMeanShape` of the perturbed samples; and the further sample `j` has
`inputIdx = j`, the shape and `shapeToImage` of input `j`, and the mean shape as
estimate. -/
theorem SampleData.createTrainingSamples_count (ext : Extern) (td : SampleData)
    (params : SampleCreationParameters) (hm : td.input.shapes ≠ [])
    (hr : (td.input.shapes.length : Int) * max params.numShapesPerImage 1 < 2 ^ 31) :
    ∃ td1, SampleData.createTrainingSamples ext td params = some td1
      ∧ td1.samples.length
          = td.input.shapes.length * (max params.numShapesPerImage 1).toNat
            + (if params.includeMeanShape then td.input.shapes.length else 0)
      ∧ (∀ i, i < td.input.shapes.length * (max params.numShapesPerImage 1).toNat →
          ∃ s, td1.samples[i]? = some s
            ∧ s.inputIdx = i % td.input.shapes.length
            ∧ s.target = td.input.shapes.getD (i % td.input.shapes.length) []
            ∧ s.shapeToImage = td.input.shapeToImage.getD (i % td.input.shapes.length)
                { linear := 1, translation := 0 })
      ∧ (∀ j, j < td.input.shapes.length →
          (td1.samples.take (td.input.shapes.length * (max params.numShapesPerImage 1).toNat)).countP
              (fun s => s.inputIdx = j)
            = (max params.numShapesPerImage 1).toNat)
      ∧ computeMeanShape { td1 with
            samples := td1.samples.take
              (td.input.shapes.length * (max params.numShapesPerImage 1).toNat) }
          = some td1.meanShape
      ∧ (params.includeMeanShape = true → ∀ j, j < td.input.shapes.length →
          ∃ s, td1.samples[td.input.shapes.length * (max params.numShapesPerImage 1).toNat + j]?
              = some s
            ∧ s.inputIdx = j ∧ s.target = td.input.shapes.getD j []
            ∧ s.shapeToImage = td.input.shapeToImage.getD j { linear := 1, translation := 0 }
            ∧ s.estimate = td1.meanShape) := by
  obtain ⟨rs, rnd, mean, hres, hlen, hrs, hmean⟩ :=
    SampleData.createTrainingSamples_spec ext td params hm hr
  have htake : (rs ++ (if params.includeMeanShape then
      SampleData.meanShapeSamples td.input mean td.input.shapes.length else [])).take
        (td.input.shapes.length * (max params.numShapesPerImage 1).toNat) = rs := by
    rw [← hlen]
    exact List.take_left' rfl
  refine ⟨_, hres, ?_, ?_, ?_, ?_, ?_⟩
  · dsimp only
    rw [List.length_append, hlen]
    cases params.includeMeanShape with
    | true => simp [SampleData.meanShapeSamples]
    | false => simp
  · intro i hi
    obtain ⟨rnd1, h⟩ := hrs i (by rw [hlen]; exact hi)
    refine ⟨(SampleData.perturbedSample ext td.input params.linearWeightRange
      td.input.shapes.length i rnd1).1, ?_, rfl, rfl, rfl⟩
    dsimp only
    rw [List.getElem?_append_left (by rw [hlen]; exact hi)]
    exact h
  · intro j hj
    dsimp only
    rw [htake]
    have hidx := SampleData.perturbedSamples_inputIdx ext td.input params.linearWeightRange
      td.input.shapes.length rs hrs
    have hcount : rs.countP (fun s => decide (s.inputIdx = j))
        = (rs.map fun s => s.inputIdx).countP (fun i => decide (i = j)) := by
      rw [List.countP_map]
      rfl
    rw [hcount, hidx, List.countP_map, hlen]
    exact countP_mod_range _ _ j hj
  · dsimp only
    rw [htake]
    exact hmean
  · intro hinc j hj
    refine ⟨{ inputIdx := j
              target := td.input.shapes.getD j []
              shapeToImage := td.input.shapeToImage.getD j { linear := 1, translation := 0 }
              estimate := mean }, ?_, rfl, rfl, rfl, rfl⟩
    dsimp only
    rw [hinc, if_pos rfl, ← hlen, List.getElem?_append_right (by omega)]
    simp [SampleData.meanShapeSamples, hj]

/-- C22, an instance: the two inputs of `SampleData.two` with two samples per
input and the mean-shape samples. -/
theorem SampleData.createTrainingSamples_count_witness :
    ∃ td1, SampleData.createTrainingSamples Extern.sample SampleData.two
        SampleCreationParameters.sample = some td1
      ∧ td1.samples.length = 6 :=
  have h := SampleData.createTrainingSamples_count Extern.sample SampleData.two
    SampleCreationParameters.sample (by simp [SampleData.two, InputData.two]) (by decide)
  h.imp fun _ h1 => ⟨h1.1, h1.2.1⟩

/-- C23: every perturbed sample `i < m · N` that `createTrainingSamples` creates
(for `m ≥ 1` inputs, `m · N` inside the range of `int`, and a configured weight
range `lo ≤ hi`) has the ground-truth shape of its own input as target, and its
estimate is `w · shapes[a] + (1 − w) · shapes[b]` for input indices `a, b < m`
and a weight `lo ≤ w ≤ hi`. -/
theorem SampleData.createTrainingSamples_blend (ext : Extern) (hInt : UniformIntInRange ext)
    (hReal : UniformRealInRange ext) (td : SampleData) (params : SampleCreationParameters)
    (hm : td.input.shapes ≠ [])
    (hr : (td.input.shapes.length : Int) * max params.numShapesPerImage 1 < 2 ^ 31)
    (hw : params.linearWeightRange.1 ≤ params.linearWeightRange.2) :
    ∃ td1, SampleData.createTrainingSamples ext td params = some td1
      ∧ ∀ i, i < td.input.shapes.length * (max params.numShapesPerImage 1).toNat →
          ∃ s, td1.samples[i]? = some s
            ∧ s.inputIdx < td.input.shapes.length
            ∧ s.target = td.input.shapes.getD s.inputIdx []
            ∧ ∃ (a b : Nat) (w : ℚ), a < td.input.shapes.length ∧ b < td.input.shapes.length
                ∧ params.linearWeightRange.1 ≤ w ∧ w ≤ params.linearWeightRange.2
                ∧ s.estimate = Shape.add (Shape.smul w (td.input.shapes.getD a []))
                    (Shape.smul (1 - w) (td.input.shapes.getD b [])) := by
  obtain ⟨rs, rnd, mean, hres, hlen, hrs, -⟩ :=
    SampleData.createTrainingSamples_spec ext td params hm hr
  have hpos : 0 < td.input.shapes.length := List.length_pos.mpr hm
  have hidx : ∀ rnd1 : Rng,
      (ext.uniformInt 0 ((td.input.shapes.length : Int) - 1) rnd1).1.toNat
        < td.input.shapes.length := by
    intro rnd1
    have := hInt 0 ((td.input.shapes.length : Int) - 1) rnd1 (by omega)
    omega
  refine ⟨_, hres, ?_⟩
  intro i hi
  obtain ⟨rnd1, h⟩ := hrs i (by rw [hlen]; exact hi)
  refine ⟨(SampleData.perturbedSample ext td.input params.linearWeightRange
    td.input.shapes.length i rnd1).1, ?_, Nat.mod_lt _ hpos, rfl, _, _, _, hidx _, hidx _,
    (hReal _ _ rnd1 hw).1, (hReal _ _ rnd1 hw).2, rfl⟩
  dsimp only
  rw [List.getElem?_append_left (by rw [hlen]; exact hi)]
  exact h

/-- C23, an instance: `SampleData.two` with weights from `[1/2, 3/4]`. -/
theorem SampleData.createTrainingSamples_blend_witness :
    ∃ td1, SampleData.createTrainingSamples Extern.sample SampleData.two
        SampleCreationParameters.sample = some td1
      ∧ ∀ i, i < 4 →
          ∃ s, td1.samples[i]? = some s
            ∧ s.inputIdx < 2
            ∧ s.target = SampleData.two.input.shapes.getD s.inputIdx []
            ∧ ∃ (a b : Nat) (w : ℚ), a < 2 ∧ b < 2 ∧ 1 / 2 ≤ w ∧ w ≤ 3 / 4
                ∧ s.estimate = Shape.add (Shape.smul w (SampleData.two.input.shapes.getD a []))
                    (Shape.smul (1 - w) (SampleData.two.input.shapes.getD b [])) :=
  SampleData.createTrainingSamples_blend Extern.sample Extern.sample_uniformInt
    Extern.sample_uniformReal SampleData.two SampleCreationParameters.sample
    (by simp [SampleData.two, InputData.two]) (by decide)
    (by norm_num [SampleCreationParameters.sample])


/-- C24 (as amended): for an input container with `n < 2^24` entries (the four
vectors of length `n`) and `0 ≤ p ≤ 1`, `randomPartition` has a result: with
`ids` the shuffled indices, a permutation of `0, ..., n − 1`, and
`k = numValidate`, the whole part of the product `n · p` rounded to `float` —
a number between `⌊n · p⌋` and `⌈n · p⌉`, and at most `n` —, `validate` holds the
entries of the first `k` indices and `train` those of the remaining `n − k`,
each entry with its own shape, transform, image and rectangle; no index is in
both parts, and the two parts together are a permutation of the original
entries. -/
theorem InputData.randomPartition_spec (shuffle : Shuffle) (hperm : ShufflePermutes shuffle)
    (engine0 : Rng) (train validate : InputData) (p : ℚ)
    (hn : train.shapes.length < 2 ^ 24)
    (h2 : train.shapeToImage.length = train.shapes.length)
    (h3 : train.images.length = train.shapes.length)
    (h4 : train.rects.length = train.shapes.length) (hp0 : 0 ≤ p) (hp1 : p ≤ 1) :
    (InputData.numValidate train.shapes.length p
          = ⌊roundToFloat ((train.shapes.length : ℚ) * p)⌋
        ∧ ⌊(train.shapes.length : ℚ) * p⌋ ≤ InputData.numValidate train.shapes.length p
        ∧ InputData.numValidate train.shapes.length p ≤ ⌈(train.shapes.length : ℚ) * p⌉
        ∧ 0 ≤ InputData.numValidate train.shapes.length p
        ∧ InputData.numValidate train.shapes.length p ≤ (train.shapes.length : Int))
    ∧ ∃ tr va ids, InputData.randomPartition shuffle engine0 train validate p = some (tr, va)
      ∧ List.Perm ids (List.range train.shapes.length)
      ∧ InputData.entries va
          = (ids.take (InputData.numValidate train.shapes.length p).toNat).map
              (InputData.entry train)
      ∧ InputData.entries tr
          = (ids.drop (InputData.numValidate train.shapes.length p).toNat).map
              (InputData.entry train)
      ∧ (va.shapes.length = (InputData.numValidate train.shapes.length p).toNat
          ∧ va.shapeToImage.length = (InputData.numValidate train.shapes.length p).toNat
          ∧ va.images.length = (InputData.numValidate train.shapes.length p).toNat
          ∧ va.rects.length = (InputData.numValidate train.shapes.length p).toNat)
      ∧ (tr.shapes.length
            = train.shapes.length - (InputData.numValidate train.shapes.length p).toNat
          ∧ tr.shapeToImage.length
            = train.shapes.length - (InputData.numValidate train.shapes.length p).toNat
          ∧ tr.images.length
            = train.shapes.length - (InputData.numValidate train.shapes.length p).toNat
          ∧ tr.rects.length
            = train.shapes.length - (InputData.numValidate train.shapes.length p).toNat)
      ∧ List.Disjoint (ids.take (InputData.numValidate train.shapes.length p).toNat)
          (ids.drop (InputData.numValidate train.shapes.length p).toNat)
      ∧ List.Perm (InputData.entries va ++ InputData.entries tr) (InputData.entries train) := by
  have hb := InputData.numValidate_bounds train.shapes.length p hn hp0 hp1
  exact ⟨hb, InputData.randomPartition_entries shuffle hperm engine0 train validate p h2 h3 h4
    hb.2.2.2.1 hb.2.2.2.2⟩

/-- C24, an instance: the two entries of `InputData.two` with `p = 1/2` and the
reversing shuffle: one entry in each part. -/
theorem InputData.randomPartition_spec_witness :
    InputData.numValidate InputData.two.shapes.length (1 / 2)
        = ⌊roundToFloat ((InputData.two.shapes.length : ℚ) * (1 / 2))⌋
    ∧ ∃ tr va ids, InputData.randomPartition Shuffle.reverse 0 InputData.two InputData.sample
          (1 / 2) = some (tr, va)
      ∧ List.Perm ids (List.range InputData.two.shapes.length)
      ∧ InputData.entries va
          = (ids.take (InputData.numValidate InputData.two.shapes.length (1 / 2)).toNat).map
              (InputData.entry InputData.two)
      ∧ List.Perm (InputData.entries va ++ InputData.entries tr)
          (InputData.entries InputData.two) :=
  have h := InputData.randomPartition_spec Shuffle.reverse Shuffle.reverse_permutes 0
    InputData.two InputData.sample (1 / 2) (by decide) rfl rfl rfl (by norm_num) (by norm_num)
  ⟨h.1.1, h.2.imp fun _ h1 => h1.imp fun _ h2 => h2.imp fun _ h3 =>
    ⟨h3.1, h3.2.1, h3.2.2.1, h3.2.2.2.2.2.2.2⟩⟩

/-- C24, counterexample: for ten entries and `validatePercent = 0.7f` (the
`float` nearest to `0.7`, which is below `0.7`) the product `10 · 0.7f` rounds
to the `float` `7`, and `randomPartition` puts 7 entries into `validate` and 3
into `train`, while `⌊10 · 0.7f⌋ = 6`. -/
theorem InputData.randomPartition_rounded :
    roundToFloat (7 / 10) = floatSevenTenths
      ∧ 0 ≤ floatSevenTenths ∧ floatSevenTenths ≤ 1
      ∧ InputData.ten.shapes.length = 10
      ∧ InputData.ten.shapeToImage.length = 10
      ∧ InputData.ten.images.length = 10
      ∧ InputData.ten.rects.length = 10
      ∧ ⌊((10 : Nat) : ℚ) * floatSevenTenths⌋ = 6
      ∧ roundToFloat (((10 : Nat) : ℚ) * floatSevenTenths) = 7
      ∧ ∃ tr va, InputData.randomPartition Shuffle.reverse 0 InputData.ten InputData.sample
            floatSevenTenths = some (tr, va)
          ∧ va.shapes.length = 7 ∧ va.shapeToImage.length = 7 ∧ va.images.length = 7
          ∧ va.rects.length = 7 ∧ tr.shapes.length = 3 := by
  have hlen : InputData.ten.shapes.length = 10 := rfl
  have hk : InputData.numValidate InputData.ten.shapes.length floatSevenTenths = 7 := by
    rw [hlen]
    exact floatSevenTenths_numValidate
  refine ⟨floatSevenTenths_nearest, by norm_num [floatSevenTenths],
    by norm_num [floatSevenTenths], hlen, rfl, rfl, rfl, ?_, ?_, ?_⟩
  · rw [Int.floor_eq_iff]
    norm_num [floatSevenTenths]
  · rw [show ((10 : Nat) : ℚ) = 10 by norm_num]
    exact floatSevenTenths_product
  · obtain ⟨tr, va, ids, h, -, -, -, hv, ht, -, -⟩ :=
      InputData.randomPartition_entries Shuffle.reverse Shuffle.reverse_permutes 0
        InputData.ten InputData.sample floatSevenTenths rfl rfl rfl (by rw [hk]; norm_num)
        (by rw [hk, hlen]; norm_num)
    rw [hk] at hv ht
    rw [hlen] at ht
    exact ⟨tr, va, h, hv.1, hv.2.1, hv.2.2.1, hv.2.2.2, ht.1⟩


set_option maxRecDepth 100000 in
/-- C28, the code at a failing input: on the training set
`TreeTraining.bothAbove` with the library instance `Extern.secondThreshold`
(which meets the contracts of both distributions), `splitNode` at the root (the
non-empty range `[0, 2)`) gets the candidates `(0, 1, 0)` and `(0, 1, 2)`.  Both
samples satisfy the predicate of the first, whose energy is NaN (`numRight = 0`);
the second separates the two samples and has the energy 10.  `std::max_element`
returns index 0 for the energies `[NaN, 10]`: `splitNode` writes the first
candidate into the root and returns `false`, no children being made. -/
theorem Tree.splitNode_nan_first :
    UniformIntInRange Extern.secondThreshold
      ∧ UniformRealInRange Extern.secondThreshold
      ∧ (Tree.fitInit default TreeTraining.bothAbove 3).queue
          = [{ node := 0, depth := 1, range := (0, 2) }]
      ∧ (Tree.sampleSplitPositions Extern.secondThreshold TreeTraining.bothAbove
            (Tree.fitInit default TreeTraining.bothAbove 3).rnd).1
          = [{ idx1 := 0, idx2 := 1, threshold := 0 }, { idx1 := 0, idx2 := 1, threshold := 2 }]
      ∧ Tree.splitEnergy (Tree.fitInit default TreeTraining.bothAbove 3).samples
            TreeTraining.bothAbove.numLandmarks { node := 0, depth := 1, range := (0, 2) }
            (meanResidualOfRange (Tree.fitInit default TreeTraining.bothAbove 3).samples (0, 2)
              TreeTraining.bothAbove.numLandmarks)
            { idx1 := 0, idx2 := 1, threshold := 0 } = none
      ∧ Tree.splitEnergy (Tree.fitInit default TreeTraining.bothAbove 3).samples
            TreeTraining.bothAbove.numLandmarks { node := 0, depth := 1, range := (0, 2) }
            (meanResidualOfRange (Tree.fitInit default TreeTraining.bothAbove 3).samples (0, 2)
              TreeTraining.bothAbove.numLandmarks)
            { idx1 := 0, idx2 := 1, threshold := 2 } = some 10
      ∧ maxElementIndex [none, some 10] = 0
      ∧ ((Tree.splitNode Extern.secondThreshold TreeTraining.bothAbove
            (Tree.fitInit default TreeTraining.bothAbove 3)
            { node := 0, depth := 1, range := (0, 2) }).1.nodes.getD 0 default).split
          = { idx1 := 0, idx2 := 1, threshold := 0 }
      ∧ (Tree.splitNode Extern.secondThreshold TreeTraining.bothAbove
            (Tree.fitInit default TreeTraining.bothAbove 3)
            { node := 0, depth := 1, range := (0, 2) }).2 = none
      ∧ (partitionRange (Tree.fitInit default TreeTraining.bothAbove 3).samples (0, 2)
            (PartitionPredicate { idx1 := 0, idx2 := 1, threshold := 2 })).2 = 1 := by
  refine ⟨Extern.secondThreshold_uniformInt, Extern.secondThreshold_uniformReal, rfl,
    ?_, ?_, ?_, rfl, ?_, ?_, ?_⟩
  · with_unfolding_all rfl
  · with_unfolding_all rfl
  · with_unfolding_all rfl
  · with_unfolding_all rfl
  · with_unfolding_all rfl
  · with_unfolding_all rfl


set_option maxRecDepth 100000 in
/-- C29, the code at a failing input: with the library instance
`Extern.lateDraw` (which meets the contract of the index distribution) and the
two pixel coordinates of the sample training set, the first attempt draws 101
pairs (`iter` ends at 101, the engine has advanced by 3 · 101 draws): the first
100 are `(0, 0)`, and the 101st is `(0, 1)`, two distinct indices, with
`r = 0 < e = 1`, so it is accepted; it is dropped nevertheless, and
`sampleSplitPositions` returns no split for the two attempts configured. -/
theorem Tree.sampleSplitPositions_late_pair :
    UniformIntInRange Extern.lateDraw
      ∧ (TreeTraining.sample 2).training.params.numRandomSplitTestsPerNode = 2
      ∧ Tree.drawSplitPair Extern.lateDraw (TreeTraining.sample 2).pixelCoordinates
          (1 / (TreeTraining.sample 2).training.params.exponentialLambda) 99 0 0
          = (0, 0, 100, 300)
      ∧ Tree.drawSplitPair Extern.lateDraw (TreeTraining.sample 2).pixelCoordinates
          (1 / (TreeTraining.sample 2).training.params.exponentialLambda) maxAttempts.toNat 0 0
          = (0, 1, 101, 303)
      ∧ (Extern.lateDraw.uniformReal 0 1 302).1
          < Extern.lateDraw.exp
              (-(Extern.lateDraw.sqrt (Vec3.squaredNorm
                  (Shape.col (TreeTraining.sample 2).pixelCoordinates 0
                    - Shape.col (TreeTraining.sample 2).pixelCoordinates 1)))
                * (1 / (TreeTraining.sample 2).training.params.exponentialLambda))
      ∧ (Tree.sampleSplitPositions Extern.lateDraw (TreeTraining.sample 2) 0).1.length = 0 := by
  refine ⟨?_, rfl, ?_, ?_, ?_, ?_⟩
  · intro a b rnd hab
    simp only [Extern.lateDraw]
    split <;> omega
  · with_unfolding_all decide
  · with_unfolding_all decide
  · with_unfolding_all decide
  · with_unfolding_all decide


/-- C27: for a node range inside the sample vector, residuals of `L` landmarks
and a candidate split that leaves both sides non-empty, `splitEnergy` (called,
as `splitNode` does, with the mean residual of the range) returns a number, and
it equals `|L| · ‖μ_L‖² + |R| · ‖μ_R‖²` for the arithmetic means `μ_L`, `μ_R` of the
residuals that satisfy and that fail the predicate, and the energy plus the
within-child sum of squares `Σ_{i∈L} ‖r_i − μ_L‖² + Σ_{i∈R} ‖r_i − μ_R‖²` is
`Σ_i ‖r_i‖²` over the range; hence of two such candidates the one with the
larger energy has the smaller within-child sum of squares. -/
theorem Tree.splitEnergy_spec (samples : List TreeSample) (numLandmarks : Int)
    (parent : NodeInfo) (split other : SplitInfo) (L : Nat) (hL : numLandmarks.toNat = L)
    (hlen : ∀ x ∈ samples, x.residual.length = L) (hb : parent.range.2 ≤ samples.length)
    (hleft : 0 < (Tree.leftResiduals samples parent.range split).length)
    (hright : 0 < (Tree.rightResiduals samples parent.range split).length)
    (hleft2 : 0 < (Tree.leftResiduals samples parent.range other).length)
    (hright2 : 0 < (Tree.rightResiduals samples parent.range other).length) :
    ∃ e e2 : ℚ,
      Tree.splitEnergy samples numLandmarks parent
          (meanResidualOfRange samples parent.range numLandmarks) split = some e
      ∧ Tree.splitEnergy samples numLandmarks parent
          (meanResidualOfRange samples parent.range numLandmarks) other = some e2
      ∧ e = ((Tree.leftResiduals samples parent.range split).length : ℚ)
            * Shape.squaredNorm (arithmeticMean (Tree.leftResiduals samples parent.range split) L)
          + ((Tree.rightResiduals samples parent.range split).length : ℚ)
            * Shape.squaredNorm
                (arithmeticMean (Tree.rightResiduals samples parent.range split) L)
      ∧ e + Tree.withinChildSS samples parent.range split L
          = (((rangeSamples samples parent.range).map fun s => s.residual).map
              Shape.squaredNorm).sum
      ∧ (e2 ≤ e ↔ Tree.withinChildSS samples parent.range split L
            ≤ Tree.withinChildSS samples parent.range other L) := by
  obtain ⟨h1, h2⟩ := Tree.splitEnergy_eq samples numLandmarks parent split L hL hlen hb
    hleft hright
  obtain ⟨h3, h4⟩ := Tree.splitEnergy_eq samples numLandmarks parent other L hL hlen hb
    hleft2 hright2
  refine ⟨_, _, h1, h3, rfl, h2, ?_⟩
  constructor
  · intro h
    linarith
  · intro h
    linarith

/-- C27, an instance: the two samples of the sample training set, with the
splits `(1, 0, 0)` and `(0, 1, 0)`; each sends one sample to each side. -/
theorem Tree.splitEnergy_spec_witness :
    ∃ e : ℚ,
      Tree.splitEnergy (TreeTraining.sample 2).samples 1
          { node := 0, depth := 1, range := (0, 2) }
          (meanResidualOfRange (TreeTraining.sample 2).samples (0, 2) 1)
          { idx1 := 1, idx2 := 0, threshold := 0 } = some e
      ∧ e + Tree.withinChildSS (TreeTraining.sample 2).samples (0, 2)
            { idx1 := 1, idx2 := 0, threshold := 0 } 1
        = ((((rangeSamples (TreeTraining.sample 2).samples (0, 2)).map fun s => s.residual).map
            Shape.squaredNorm).sum) :=
  have h := Tree.splitEnergy_spec (TreeTraining.sample 2).samples 1
    { node := 0, depth := 1, range := (0, 2) } { idx1 := 1, idx2 := 0, threshold := 0 }
    { idx1 := 0, idx2 := 1, threshold := 0 } 1 rfl
    (by simp [TreeTraining.sample])
    (by decide) (by with_unfolding_all decide) (by with_unfolding_all decide)
    (by with_unfolding_all decide) (by with_unfolding_all decide)
  h.imp fun _ h1 => h1.elim fun _ h2 => ⟨h2.1, h2.2.2.2.1⟩

/-- C25: when `Tree::fit` has fitted a tree on samples whose residuals have
`L = numLandmarks` columns, the nodes have sample ranges — the whole vector for
the root, the two parts `[first, m)` and `[m, last)` of its range for the
children of an internal node, the samples of the first part satisfying the
node's split predicate and those of the second not — such that every node
written as a leaf is in leaf form and stores the arithmetic mean of the
residuals of the samples of its range, and the zero 3×L matrix when its range
is empty; and every written node of the last level `D` (an index `n` with
`2^(D−1) ≤ n+1`) is written as such a leaf. -/
theorem Tree.fit_leaf_mean (ext : Extern) (hc : UniformIntInRange ext) (self : Tree)
    (t : TreeTraining) (hP : 0 < t.pixelCoordinates.length) (L : Nat)
    (hL : t.numLandmarks.toNat = L) (hlen : ∀ x ∈ t.samples, x.residual.length = L)
    (tree : Tree) (t1 : TreeTraining) (hfit : Tree.fit ext self t = some (tree, t1)) :
    ∃ (s : FitState) (ranges : Nat → SampleRange),
      Tree.fitState ext self t = some s ∧ tree.nodes = s.nodes ∧ t1.samples = s.samples
      ∧ ranges 0 = (0, t1.samples.length)
      ∧ (∀ n, n ∈ s.splitWrites → n ∉ s.leafWrites →
          (ranges (2 * n + 1)).1 = (ranges n).1
            ∧ (ranges (2 * n + 1)).2 = (ranges (2 * n + 2)).1
            ∧ (ranges (2 * n + 2)).2 = (ranges n).2
            ∧ (∀ x ∈ rangeSamples t1.samples (ranges (2 * n + 1)),
                PartitionPredicate (tree.nodes.getD n default).split x = true)
            ∧ (∀ x ∈ rangeSamples t1.samples (ranges (2 * n + 2)),
                PartitionPredicate (tree.nodes.getD n default).split x = false))
      ∧ (∀ n ∈ s.leafWrites,
          TreeNode.IsLeaf (tree.nodes.getD n default)
            ∧ (ranges n).1 ≤ (ranges n).2 ∧ (ranges n).2 ≤ t1.samples.length
            ∧ ((ranges n).1 < (ranges n).2 →
                (tree.nodes.getD n default).mean
                  = arithmeticMean
                      ((rangeSamples t1.samples (ranges n)).map fun x => x.residual) L)
            ∧ ((ranges n).1 = (ranges n).2 →
                (tree.nodes.getD n default).mean = Shape.zero L))
      ∧ ∀ n, s.Written n →
          2 ^ ((max t.training.params.maxTreeDepth 1).toNat - 1) ≤ n + 1 →
            n ∈ s.leafWrites := by
  obtain ⟨s, hs, htree, ht1⟩ := Tree.fit_some ext self t tree t1 hfit
  obtain ⟨hinv, -⟩ := Tree.fitState_inv ext hc self t hP s hs
  obtain ⟨ranges, hr⟩ := Tree.fitState_ranges ext hc self t hP s hs
  subst htree ht1
  have hlenS : ∀ x ∈ s.samples, x.residual.length = L :=
    fun x hx => hlen x (hr.perm.mem_iff.mp hx)
  refine ⟨s, ranges, hs, rfl, rfl, hr.root, hr.children, ?_, ?_⟩
  · intro n hn
    have hb := hr.bounds n (Or.inr (Or.inr hn))
    refine ⟨hr.leaf_form n hn, hb.1, hb.2, ?_, ?_⟩
    · intro hne
      exact (hr.leaf_mean n hn).trans (meanResidualOfRange_eq _ _ _ L hL hlenS hne hb.2)
    · intro he
      rw [← hL]
      exact (hr.leaf_mean n hn).trans (meanResidualOfRange_empty _ _ _ (le_of_eq he.symm))
  · intro n hn hlevel
    rcases (hinv.written n hn).2 with ⟨-, hml⟩ | ⟨-, hlt, -⟩
    · exact hml
    · omega

/-- C25, an instance: the sample training set with depth 2. -/
theorem Tree.fit_leaf_mean_witness :
    ∃ tree t1, Tree.fit Extern.sample default (TreeTraining.sample 2) = some (tree, t1)
      ∧ ∃ (s : FitState) (ranges : Nat → SampleRange),
        Tree.fitState Extern.sample default (TreeTraining.sample 2) = some s
        ∧ tree.nodes = s.nodes ∧ t1.samples = s.samples
        ∧ ranges 0 = (0, t1.samples.length)
        ∧ (∀ n, n ∈ s.splitWrites → n ∉ s.leafWrites →
            (ranges (2 * n + 1)).1 = (ranges n).1
              ∧ (ranges (2 * n + 1)).2 = (ranges (2 * n + 2)).1
              ∧ (ranges (2 * n + 2)).2 = (ranges n).2
              ∧ (∀ x ∈ rangeSamples t1.samples (ranges (2 * n + 1)),
                  PartitionPredicate (tree.nodes.getD n default).split x = true)
              ∧ (∀ x ∈ rangeSamples t1.samples (ranges (2 * n + 2)),
                  PartitionPredicate (tree.nodes.getD n default).split x = false))
        ∧ (∀ n ∈ s.leafWrites,
            TreeNode.IsLeaf (tree.nodes.getD n default)
              ∧ (ranges n).1 ≤ (ranges n).2 ∧ (ranges n).2 ≤ t1.samples.length
              ∧ ((ranges n).1 < (ranges n).2 →
                  (tree.nodes.getD n default).mean
                    = arithmeticMean
                        ((rangeSamples t1.samples (ranges n)).map fun x => x.residual) 1)
              ∧ ((ranges n).1 = (ranges n).2 →
                  (tree.nodes.getD n default).mean = Shape.zero 1))
        ∧ ∀ n, s.Written n →
            2 ^ ((max (TreeTraining.sample 2).training.params.maxTreeDepth 1).toNat - 1)
                ≤ n + 1 →
              n ∈ s.leafWrites := by
  obtain ⟨s, hs⟩ := Tree.fitState_isSome Extern.sample default (TreeTraining.sample 2)
    (by decide)
  have hfit : Tree.fit Extern.sample default (TreeTraining.sample 2)
      = some ({ nodes := s.nodes,
                depth := max (TreeTraining.sample 2).training.params.maxTreeDepth 1 },
              TreeTraining.update (TreeTraining.sample 2) s.samples s.rnd) := by
    simp [Tree.fit, hs]
  have hlen : ∀ x ∈ (TreeTraining.sample 2).samples, x.residual.length = 1 := by
    intro x hx
    simp only [TreeTraining.sample, List.mem_cons, List.mem_singleton, List.not_mem_nil,
      or_false] at hx
    rcases hx with h | h <;> rw [h] <;> rfl
  exact ⟨_, _, hfit, Tree.fit_leaf_mean Extern.sample Extern.sample_uniformInt default
    (TreeTraining.sample 2) (by decide) 1 rfl hlen _ _ hfit⟩


/-- C26: the state `Tree::fit` ends in is the state after `numNodes` passes of
its loop, and in every pass, popping the item `(n, d, [first, last))`: a node
other than the root has a non-empty range, and either the node becomes an
internal node with a valid split and exactly the children
`(2n+1, d+1, [first, m))` and `(2n+2, d+1, [m, last))` are appended to the
queue, with `first < m < last`, the samples of the range having been rearranged
among themselves so that every sample of `[first, m)` satisfies the predicate
of the split and every sample of `[m, last)` does not; or the node is written
as a leaf and nothing is appended to the queue. -/
theorem Tree.fit_children (ext : Extern) (hc : UniformIntInRange ext) (self : Tree)
    (t : TreeTraining) (hP : 0 < t.pixelCoordinates.length) (numNodes : Nat)
    (hn : Tree.numNodes (max t.training.params.maxTreeDepth 1) = some numNodes)
    (k : Nat) (s s1 : FitState)
    (hs : s = Tree.fitPasses ext t (max t.training.params.maxTreeDepth 1) k
      (Tree.fitInit self t numNodes))
    (hs1 : s1 = Tree.fitPasses ext t (max t.training.params.maxTreeDepth 1) (k + 1)
      (Tree.fitInit self t numNodes))
    (nr : NodeInfo) (rest : List NodeInfo) (hq : s.queue = nr :: rest) :
    Tree.fitState ext self t
        = some (Tree.fitPasses ext t (max t.training.params.maxTreeDepth 1) numNodes
            (Tree.fitInit self t numNodes))
      ∧ (nr.node ≠ 0 → nr.range.1 < nr.range.2)
      ∧ ((∃ best m, nr.depth < max t.training.params.maxTreeDepth 1
            ∧ nr.range.1 < m ∧ m < nr.range.2
            ∧ s1.queue = rest ++ [{ node := 2 * nr.node + 1, depth := nr.depth + 1,
                                    range := (nr.range.1, m) },
                                  { node := 2 * nr.node + 2, depth := nr.depth + 1,
                                    range := (m, nr.range.2) }]
            ∧ (s1.nodes.getD nr.node default).split = best
            ∧ SplitInfo.Valid t.pixelCoordinates.length best
            ∧ RearrangedInside nr.range s.samples s1.samples
            ∧ (∀ x ∈ rangeSamples s1.samples (nr.range.1, m), PartitionPredicate best x = true)
            ∧ (∀ x ∈ rangeSamples s1.samples (m, nr.range.2),
                PartitionPredicate best x = false))
        ∨ (s1.queue = rest ∧ TreeNode.IsLeaf (s1.nodes.getD nr.node default)
            ∧ RearrangedInside nr.range s.samples s1.samples)) := by
  have h1 : 1 ≤ max t.training.params.maxTreeDepth 1 := le_max_right _ _
  have hcast : ((max t.training.params.maxTreeDepth 1).toNat : Int)
      = max t.training.params.maxTreeDepth 1 := Int.toNat_of_nonneg (by omega)
  have h30 : t.training.params.maxTreeDepth ≤ 30 :=
    le_trans (le_max_left _ _) (Tree.numNodes_le _ _ hn)
  refine ⟨?_, ?_⟩
  · obtain ⟨s2, hs2⟩ := Tree.fitState_isSome ext self t h30
    obtain ⟨m, hm, hs3⟩ := Tree.fitState_eq_fitPasses ext self t s2 hs2
    rw [hn] at hm
    cases hm
    rw [hs2, hs3]
  · obtain ⟨hfit, ranges, hinv⟩ := Tree.fitPasses_init ext hc self t hP numNodes hn k
    rw [← hs] at hfit hinv
    have hstep : s1 = Tree.fitStep ext t
        (((max t.training.params.maxTreeDepth 1).toNat : Nat) : Int)
        { s with queue := rest } nr := by
      rw [hs1, Tree.fitPasses_succ, ← hs, hcast]
      unfold Tree.fitPass
      rw [hq]
    have h := Tree.fitStep_cases ext hc t hP _ ranges s nr rest hfit hinv hq
    rw [← hstep, hcast] at h
    exact h

/-- C26, an instance: the first pass on the sample training set with depth 2. -/
theorem Tree.fit_children_witness :
    ∃ s s1 : FitState,
      s = Tree.fitPasses Extern.sample (TreeTraining.sample 2)
          (max (TreeTraining.sample 2).training.params.maxTreeDepth 1) 0
          (Tree.fitInit default (TreeTraining.sample 2) 3)
      ∧ s1 = Tree.fitPasses Extern.sample (TreeTraining.sample 2)
          (max (TreeTraining.sample 2).training.params.maxTreeDepth 1) 1
          (Tree.fitInit default (TreeTraining.sample 2) 3)
      ∧ s.queue = [{ node := 0, depth := 1, range := (0, 2) }]
      ∧ Tree.fitState Extern.sample default (TreeTraining.sample 2)
          = some (Tree.fitPasses Extern.sample (TreeTraining.sample 2)
              (max (TreeTraining.sample 2).training.params.maxTreeDepth 1) 3
              (Tree.fitInit default (TreeTraining.sample 2) 3))
      ∧ ((0 : Nat) ≠ 0 → (0 : Nat) < 2)
      ∧ ((∃ best m, (1 : Int) < max (TreeTraining.sample 2).training.params.maxTreeDepth 1
            ∧ 0 < m ∧ m < 2
            ∧ s1.queue = [] ++ [{ node := 2 * 0 + 1, depth := 1 + 1, range := (0, m) },
                                { node := 2 * 0 + 2, depth := 1 + 1, range := (m, 2) }]
            ∧ (s1.nodes.getD 0 default).split = best
            ∧ SplitInfo.Valid (TreeTraining.sample 2).pixelCoordinates.length best
            ∧ RearrangedInside (0, 2) s.samples s1.samples
            ∧ (∀ x ∈ rangeSamples s1.samples (0, m), PartitionPredicate best x = true)
            ∧ (∀ x ∈ rangeSamples s1.samples (m, 2), PartitionPredicate best x = false))
        ∨ (s1.queue = [] ∧ TreeNode.IsLeaf (s1.nodes.getD 0 default)
            ∧ RearrangedInside (0, 2) s.samples s1.samples)) :=
  ⟨_, _, rfl, rfl, rfl,
    Tree.fit_children Extern.sample Extern.sample_uniformInt default (TreeTraining.sample 2)
      (by decide) 3 (by decide) 0 _ _ rfl rfl { node := 0, depth := 1, range := (0, 2) } []
      rfl⟩


/-- C33: in `estimateSimilarityTransform` the correction matrix `s` (the
rotation is `Uᵀ · s · V`, the scale `trace(d · s) / sFrom`) is the identity
unless `det(Σ) < 0` or `det(Σ) = 0` and `det(U) · det(V) < 0`; in that case it
is the diagonal matrix with `−1` at one index `i` and `1` at the other two,
where the singular value at `i` is less than or equal to the other two. -/
theorem estimateSimilarityTransform_correction (ext : Extern) (from_ to_ : Shape) :
    (estimateSimilarityTransform ext from_ to_).linear
        = (if similarityVariance from_ > 0 then
              1 / similarityVariance from_
                * (Matrix.diagonal (ext.jacobiSvd (similarityCovariance from_ to_)).singularValues
                    * similarityCorrection (similarityCovariance from_ to_)
                        (ext.jacobiSvd (similarityCovariance from_ to_))).trace
            else 1)
            • ((ext.jacobiSvd (similarityCovariance from_ to_)).matrixU.transpose
                * similarityCorrection (similarityCovariance from_ to_)
                    (ext.jacobiSvd (similarityCovariance from_ to_))
                * (ext.jacobiSvd (similarityCovariance from_ to_)).matrixV)
      ∧ (¬ ((similarityCovariance from_ to_).det < 0
            ∨ ((similarityCovariance from_ to_).det = 0
                ∧ (ext.jacobiSvd (similarityCovariance from_ to_)).matrixU.det
                    * (ext.jacobiSvd (similarityCovariance from_ to_)).matrixV.det < 0)) →
          similarityCorrection (similarityCovariance from_ to_)
              (ext.jacobiSvd (similarityCovariance from_ to_)) = 1)
      ∧ (((similarityCovariance from_ to_).det < 0
            ∨ ((similarityCovariance from_ to_).det = 0
                ∧ (ext.jacobiSvd (similarityCovariance from_ to_)).matrixU.det
                    * (ext.jacobiSvd (similarityCovariance from_ to_)).matrixV.det < 0)) →
          ∃ i : Fin 3,
            (∀ j, (ext.jacobiSvd (similarityCovariance from_ to_)).singularValues i
                ≤ (ext.jacobiSvd (similarityCovariance from_ to_)).singularValues j)
              ∧ similarityCorrection (similarityCovariance from_ to_)
                    (ext.jacobiSvd (similarityCovariance from_ to_))
                  = Matrix.diagonal fun j => if j = i then -1 else 1) := by
  refine ⟨?_, ?_⟩
  · rw [estimateSimilarityTransform_eq_correction]
  · exact similarityCorrection_cases _ _

/-- C38: whatever the SVD returns, the transform `M` that
`estimateSimilarityTransform(F, T)` returns maps the centroid of `F` to the
centroid of `T`: `linear(M) · μ_F + translation(M) = μ_T`. -/
theorem estimateSimilarityTransform_centroid (ext : Extern) (from_ to_ : Shape) :
    (estimateSimilarityTransform ext from_ to_).linear.mulVec (Shape.rowwiseMean from_)
        + (estimateSimilarityTransform ext from_ to_).translation
      = Shape.rowwiseMean to_ := by
  unfold estimateSimilarityTransform
  dsimp only
  exact add_sub_cancel _ _


/-- C39, the code at a failing input: with the weight range `[2, 3]` configured
(and library distributions that meet their contracts), `createTrainingSamples`
draws the weight of the first sample of `SampleData.two` from `[2, 3]`, not
from the clamped range: the weight is `2`, and the estimate
`2 · (4,0,0) + (1 − 2) · (0,0,0) = (8,0,0)` is not a convex combination of two
of the shapes `(0,0,0)` and `(4,0,0)`. -/
theorem SampleData.createTrainingSamples_unclamped :
    UniformIntInRange Extern.sample ∧ UniformRealInRange Extern.sample
      ∧ (Extern.sample.uniformReal SampleCreationParameters.wide.linearWeightRange.1
          SampleCreationParameters.wide.linearWeightRange.2 SampleData.two.input.rnd).1 = 2
      ∧ ∃ td1 s, SampleData.createTrainingSamples Extern.sample SampleData.two
            SampleCreationParameters.wide = some td1
          ∧ td1.samples[0]? = some s
          ∧ s.estimate = Shape.add (Shape.smul 2 (SampleData.two.input.shapes.getD 1 []))
              (Shape.smul (1 - 2) (SampleData.two.input.shapes.getD 0 []))
          ∧ s.estimate = [![8, 0, 0]]
          ∧ ¬ ∃ (a b : Nat) (w : ℚ), a < 2 ∧ b < 2 ∧ 0 ≤ w ∧ w ≤ 1
              ∧ s.estimate = Shape.add (Shape.smul w (SampleData.two.input.shapes.getD a []))
                  (Shape.smul (1 - w) (SampleData.two.input.shapes.getD b [])) := by
  refine ⟨Extern.sample_uniformInt, Extern.sample_uniformReal, by with_unfolding_all decide, ?_⟩
  have h8 : Shape.add (Shape.smul 2 (SampleData.two.input.shapes.getD 1 []))
      (Shape.smul (1 - 2) (SampleData.two.input.shapes.getD 0 [])) = [![8, 0, 0]] := by
    simp only [SampleData.two, InputData.two, Shape.add, Shape.smul, List.getD_cons_succ,
      List.getD_cons_zero, List.map_cons, List.map_nil, List.zipWith_cons_cons,
      List.zipWith_nil_right]
    congr 1
    funext r
    fin_cases r <;> norm_num
  refine ⟨(SampleData.createTrainingSamples Extern.sample SampleData.two
      SampleCreationParameters.wide).getD SampleData.two,
    (SampleData.perturbedSample Extern.sample InputData.two (2, 3) 2 0 0).1, ?_, ?_, ?_, ?_, ?_⟩
  · with_unfolding_all rfl
  · with_unfolding_all rfl
  · with_unfolding_all rfl
  · rw [← h8]
    with_unfolding_all rfl
  · rintro ⟨a, b, w, ha, hb, hw0, hw1, he⟩
    have he1 : ([![8, 0, 0]] : Shape)
        = Shape.add (Shape.smul w (SampleData.two.input.shapes.getD a []))
            (Shape.smul (1 - w) (SampleData.two.input.shapes.getD b [])) := by
      rw [← he, ← h8]
      with_unfolding_all rfl
    interval_cases a <;> interval_cases b <;>
      simp only [SampleData.two, InputData.two, Shape.add, Shape.smul, List.getD_cons_succ,
        List.getD_cons_zero, List.map_cons, List.map_nil, List.zipWith_cons_cons,
        List.zipWith_nil_right, List.cons.injEq, and_true] at he1 <;>
      have h0 := congrFun he1 0 <;>
      simp at h0 <;>
      linarith

/-- C36, the code at a failing input: on the training set
`TreeTraining.oneSided`, whose two samples both have the intensities `(0, 1)`,
`splitNode` at the root (the non-empty range `[0, 2)`) gets the candidate split
`(1, 0, 0)` from `sampleSplitPositions`; both samples satisfy its predicate
(`1 − 0 > 0`), so `numLeft = numParent = 2` and `splitEnergy` divides the 3×1
matrix `numParent · mean − numLeft · left` by `numRight = 0`; the energy it
returns is NaN. -/
theorem Tree.splitEnergy_zero_divisor :
    UniformIntInRange Extern.sample
      ∧ (Tree.fitInit default TreeTraining.oneSided 3).queue
          = [{ node := 0, depth := 1, range := (0, 2) }]
      ∧ ({ idx1 := 1, idx2 := 0, threshold := 0 } : SplitInfo)
          ∈ (Tree.sampleSplitPositions Extern.sample TreeTraining.oneSided
              (Tree.fitInit default TreeTraining.oneSided 3).rnd).1
      ∧ numElementsInRange ((0, 2) : SampleRange) = 2
      ∧ (meanResidualOfRangeIf (Tree.fitInit default TreeTraining.oneSided 3).samples (0, 2)
            TreeTraining.oneSided.numLandmarks
            (PartitionPredicate { idx1 := 1, idx2 := 0, threshold := 0 })).2 = 2
      ∧ Tree.splitEnergyNumRight (Tree.fitInit default TreeTraining.oneSided 3).samples
            TreeTraining.oneSided.numLandmarks { node := 0, depth := 1, range := (0, 2) }
            { idx1 := 1, idx2 := 0, threshold := 0 } = 0
      ∧ Tree.splitEnergy (Tree.fitInit default TreeTraining.oneSided 3).samples
            TreeTraining.oneSided.numLandmarks { node := 0, depth := 1, range := (0, 2) }
            (meanResidualOfRange (Tree.fitInit default TreeTraining.oneSided 3).samples (0, 2)
              TreeTraining.oneSided.numLandmarks)
            { idx1 := 1, idx2 := 0, threshold := 0 } = none
      ∧ ∀ (samples : List TreeSample) (numLandmarks : Int) (parent : NodeInfo)
          (mean : ShapeResidual) (split : SplitInfo),
          Tree.splitEnergy samples numLandmarks parent mean split
            = (Shape.divFloat
                (Shape.sub (Shape.smul (numElementsInRange parent.range : ℚ) mean)
                  (Shape.smul
                    ((meanResidualOfRangeIf samples parent.range numLandmarks
                      (PartitionPredicate split)).2 : ℚ)
                    (meanResidualOfRangeIf samples parent.range numLandmarks
                      (PartitionPredicate split)).1))
                (Tree.splitEnergyNumRight samples numLandmarks parent split)).map
              fun rRight =>
                ((meanResidualOfRangeIf samples parent.range numLandmarks
                    (PartitionPredicate split)).2 : ℚ)
                  * Shape.squaredNorm (meanResidualOfRangeIf samples parent.range numLandmarks
                      (PartitionPredicate split)).1
                + Tree.splitEnergyNumRight samples numLandmarks parent split
                  * Shape.squaredNorm rRight := by
  refine ⟨Extern.sample_uniformInt, rfl, ?_, rfl, ?_, ?_, ?_, ?_⟩
  · have h : (Tree.sampleSplitPositions Extern.sample TreeTraining.oneSided
        (Tree.fitInit default TreeTraining.oneSided 3).rnd).1
        = [{ idx1 := 1, idx2 := 0, threshold := 0 }, { idx1 := 1, idx2 := 0, threshold := 0 }] := by
      with_unfolding_all rfl
    rw [h]
    exact List.mem_cons_self _ _
  · with_unfolding_all rfl
  · have h : (meanResidualOfRangeIf (Tree.fitInit default TreeTraining.oneSided 3).samples (0, 2)
        TreeTraining.oneSided.numLandmarks
        (PartitionPredicate { idx1 := 1, idx2 := 0, threshold := 0 })).2 = 2 := by
      with_unfolding_all rfl
    unfold Tree.splitEnergyNumRight
    simp only [h, numElementsInRange]
    norm_num
  · with_unfolding_all rfl
  · intro samples numLandmarks parent mean split
    unfold Tree.splitEnergy Tree.splitEnergyNumRight
    dsimp only
    cases Shape.divFloat
      (Shape.sub (Shape.smul (numElementsInRange parent.range : ℚ) mean)
        (Shape.smul
          ((meanResidualOfRangeIf samples parent.range numLandmarks
            (PartitionPredicate split)).2 : ℚ)
          (meanResidualOfRangeIf samples parent.range numLandmarks
            (PartitionPredicate split)).1))
      ((numElementsInRange parent.range : ℚ)
        - ((meanResidualOfRangeIf samples parent.range numLandmarks
            (PartitionPredicate split)).2 : ℚ)) <;> rfl

/-- C40: the rectangle permutation swaps the columns 0↔1 and 2↔3, and it and
the 68-landmark permutation are involutions (each is a permutation of its
index range that, applied twice, is the identity); for a shape of 68 landmarks
`mirrorImageShapeAndRectVertically` with these two permutations has a result
that keeps the image width, and applied to that result it returns the original
image, shape and rectangle; and the mirrored rectangle of corners `minC`,
`maxC` (columns top-left, top-right, bottom-left, bottom-right) is the
rectangle of the corners `(W − 1 − maxC.x, minC.y)` and `(W − 1 − minC.x, maxC.y)`
in that same column order. -/
theorem mirrorImageShapeAndRectVertically_twice (img : Image) (s : Shape) (r : Rect)
    (hs : s.length = 68) :
    createPermutationMatrixForMirroredRectangle = [1, 0, 3, 2]
      ∧ createPermutationMatrixForMirroredRectangle.map
          (fun k => createPermutationMatrixForMirroredRectangle.getD k 0) = List.range 4
      ∧ List.Perm createPermutationMatrixForMirroredIBug (List.range 68)
      ∧ createPermutationMatrixForMirroredIBug.map
          (fun k => createPermutationMatrixForMirroredIBug.getD k 0) = List.range 68
      ∧ (∃ img1 s1 r1,
          mirrorImageShapeAndRectVertically img s r createPermutationMatrixForMirroredIBug
              createPermutationMatrixForMirroredRectangle = some (img1, s1, r1)
            ∧ Image.cols img1 = Image.cols img
            ∧ mirrorImageShapeAndRectVertically img1 s1 r1 createPermutationMatrixForMirroredIBug
                createPermutationMatrixForMirroredRectangle = some (img, s, r))
      ∧ ∀ minC maxC : Fin 2 → ℚ, ∃ img1 s1,
          mirrorImageShapeAndRectVertically img s (createRectangle minC maxC)
              createPermutationMatrixForMirroredIBug createPermutationMatrixForMirroredRectangle
            = some (img1, s1,
                createRectangle ![(((Image.cols img : Int) - 1 : Int) : ℚ) - maxC 0, minC 1]
                  ![(((Image.cols img : Int) - 1 : Int) : ℚ) - minC 0, maxC 1]) := by
  obtain ⟨hlen, hb, hinv⟩ := createPermutationMatrixForMirroredIBug_involution
  have hr4 : createPermutationMatrixForMirroredRectangle.length = 4 := by decide
  have hfirst : ∀ r0 : Rect,
      mirrorImageShapeAndRectVertically img s r0 createPermutationMatrixForMirroredIBug
          createPermutationMatrixForMirroredRectangle
        = some (Image.flipHorizontal img,
            Shape.mulPerm (Shape.mirrorX (Image.cols img) s) createPermutationMatrixForMirroredIBug,
            Rect.mulPerm (Rect.mirrorX (Image.cols img) r0)
              createPermutationMatrixForMirroredRectangle) := by
    intro r0
    unfold mirrorImageShapeAndRectVertically
    dsimp only
    rw [if_neg (by rw [Shape.length_mirrorX, hs, hlen]; simp), if_neg (by rw [hr4]; simp),
      Image.cols_flipHorizontal]
  refine ⟨createPermutationMatrixForMirroredRectangle_eq, by decide, by decide, hinv, ?_, ?_⟩
  · refine ⟨_, _, _, hfirst r, Image.cols_flipHorizontal img, ?_⟩
    unfold mirrorImageShapeAndRectVertically
    dsimp only
    rw [if_neg (by simp [Shape.length_mirrorX, Shape.mulPerm]), if_neg (by rw [hr4]; simp),
      Image.flipHorizontal_twice,
      Shape.mirrorX_mulPerm _ _ _ (by rw [Shape.length_mirrorX, hs]; exact hb),
      Shape.mirrorX_twice,
      Shape.mulPerm_twice s _ (by rw [hlen, hs]) (by rw [hlen]; exact hb) (by rw [hlen]; exact hinv),
      Rect.rect_mirrorX_mulPerm, Rect.rect_mirrorX_twice, Rect.rect_mulPerm_twice]
  · intro minC maxC
    refine ⟨Image.flipHorizontal img,
      Shape.mulPerm (Shape.mirrorX (Image.cols img) s) createPermutationMatrixForMirroredIBug, ?_⟩
    rw [hfirst, Rect.mirror_createRectangle]

/-- C40, an instance: the image with the row `1, 2, 3`, the 68 landmarks
`(i, 0, 0)` and the unit rectangle. -/
theorem mirrorImageShapeAndRectVertically_twice_witness :
    Shape.ramp68.length = 68
      ∧ ∃ img1 s1 r1,
          mirrorImageShapeAndRectVertically [[1, 2, 3]] Shape.ramp68 unitRectangle
              createPermutationMatrixForMirroredIBug createPermutationMatrixForMirroredRectangle
            = some (img1, s1, r1)
          ∧ Image.cols img1 = Image.cols [[1, 2, 3]]
          ∧ mirrorImageShapeAndRectVertically img1 s1 r1 createPermutationMatrixForMirroredIBug
              createPermutationMatrixForMirroredRectangle
            = some ([[1, 2, 3]], Shape.ramp68, unitRectangle) :=
  ⟨by decide,
    (mirrorImageShapeAndRectVertically_twice [[1, 2, 3]] Shape.ramp68 unitRectangle
      (by decide)).2.2.2.2.1⟩

/-- C34: for a stage fitted on the mean shape `S` from the sampled absolute
coordinates `A` (each with a landmark of `S` in reach of the nearest-landmark
search, so that every `k_i` is a column of `S`): `readPixelIntensities` reads
the image at `readPixelCoordinates`; `relative_i + S[:, k_i] = A_i`; for a
general current shape and shape-to-shape transform the `i`-th coordinate is
`shapeToImage` applied to `linear · relative_i + shape[:, k_i]`; and for the
current shape `S` and a transform with the identity as linear part the
coordinates are `shapeToImage · homogeneous(A)`. -/
theorem Regressor.readPixelIntensities_coordinates (ext : Extern) (self : Regressor)
    (t : RegressorTraining) (r : Regressor) (t1 : RegressorTraining)
    (hfit : Regressor.fit ext self t = some (r, t1))
    (hnear : ∀ a ∈ (Regressor.sampleCoordinates ext t).1,
      ∃ l ∈ t.meanShape, Vec3.squaredNorm (l - a) < FLT_MAX)
    (shapeToShape shapeToImage : ShapeTransform) (shape : Shape) (img : Image) :
    r.meanShape = t.meanShape
      ∧ Regressor.readPixelIntensities ext r shapeToShape shapeToImage shape img
          = ext.readImage img (Regressor.readPixelCoordinates r shapeToShape shapeToImage shape)
      ∧ (Regressor.readPixelCoordinates r shapeToShape shapeToImage shape).length
          = (Regressor.sampleCoordinates ext t).1.length
      ∧ (∀ i, i < (Regressor.sampleCoordinates ext t).1.length → ∃ k : Nat,
          r.closestShapeLandmark.getD i 0 = (k : Int) ∧ k < t.meanShape.length
            ∧ r.shapeRelativePixelCoordinates.getD i 0 + Shape.col t.meanShape (k : Int)
                = (Regressor.sampleCoordinates ext t).1.getD i 0
            ∧ (Regressor.readPixelCoordinates r shapeToShape shapeToImage shape).getD i 0
                = shapeToImage.linear.mulVec
                    (shapeToShape.linear.mulVec (r.shapeRelativePixelCoordinates.getD i 0)
                      + Shape.col shape (k : Int))
                  + shapeToImage.translation)
      ∧ (shapeToShape.linear = 1 →
          Regressor.readPixelCoordinates r shapeToShape shapeToImage t.meanShape
            = ShapeTransform.apply shapeToImage (Regressor.sampleCoordinates ext t).1) := by
  obtain ⟨hrel, hclo, -, -⟩ := Regressor.fit_relative ext self t r t1 hfit
  have hcoords := readPixelCoordinates_relative r t.meanShape (Regressor.sampleCoordinates ext t).1
    hrel hclo
  refine ⟨(Regressor.fit_meanShape_eq ext self t r t1 hfit).1, rfl, ?_, ?_, ?_⟩
  · rw [hcoords, List.length_map]
  · intro i hi
    have hmem : (Regressor.sampleCoordinates ext t).1.getD i 0
        ∈ (Regressor.sampleCoordinates ext t).1 := by
      rw [List.getD_eq_getElem _ _ hi]
      exact List.getElem_mem _
    obtain ⟨k, hk, hlt, -⟩ := findClosestLandmarkIndex_spec t.meanShape _ (hnear _ hmem)
    have hclo_i : r.closestShapeLandmark.getD i 0 = (k : Int) := by
      rw [hclo]
      unfold dest.core.shapeRelativePixelCoordinates
      dsimp only
      rw [List.getD_eq_getElem _ _ (by simpa using hi), List.getElem_map, ← hk,
        List.getD_eq_getElem _ _ hi]
    have hrel_i : r.shapeRelativePixelCoordinates.getD i 0
        = (Regressor.sampleCoordinates ext t).1.getD i 0 - Shape.col t.meanShape (k : Int) := by
      rw [hrel]
      unfold dest.core.shapeRelativePixelCoordinates
      dsimp only
      rw [List.getD_eq_getElem _ _ (by simpa using hi), List.getElem_map,
        ← List.getD_eq_getElem _ 0 hi, hk]
    refine ⟨k, hclo_i, hlt, ?_, ?_⟩
    · rw [hrel_i]
      exact sub_add_cancel _ _
    · rw [hrel_i, hcoords, List.getD_eq_getElem _ _ (by simpa using hi), List.getElem_map,
        ← List.getD_eq_getElem _ 0 hi, hk]
  · intro hone
    rw [hcoords, hone]
    unfold ShapeTransform.apply
    apply List.map_congr_left
    intro a _
    rw [Matrix.one_mulVec, sub_add_cancel]

/-- C34, an instance: a stage fitted on `RegressorTraining.pair`, whose mean
shape is the landmark `(1, 0, 0)`. -/
theorem Regressor.readPixelIntensities_coordinates_witness :
    ∃ r t1, Regressor.fit Extern.sample default RegressorTraining.pair = some (r, t1)
      ∧ (∀ a ∈ (Regressor.sampleCoordinates Extern.sample RegressorTraining.pair).1,
          ∃ l ∈ RegressorTraining.pair.meanShape, Vec3.squaredNorm (l - a) < FLT_MAX)
      ∧ Regressor.readPixelCoordinates r { linear := 1, translation := 0 }
            { linear := 1, translation := ![1, 0, 0] } RegressorTraining.pair.meanShape
          = ShapeTransform.apply { linear := 1, translation := ![1, 0, 0] }
              (Regressor.sampleCoordinates Extern.sample RegressorTraining.pair).1 := by
  obtain ⟨r, t1, h⟩ := Regressor.fit_isSome Extern.sample default RegressorTraining.pair
    (by decide) (by decide) (by decide)
  have hnear : ∀ a ∈ (Regressor.sampleCoordinates Extern.sample RegressorTraining.pair).1,
      ∃ l ∈ RegressorTraining.pair.meanShape, Vec3.squaredNorm (l - a) < FLT_MAX := by
    have hA : (Regressor.sampleCoordinates Extern.sample RegressorTraining.pair).1
        = [![1, 0, 0], ![1, 0, 0]] := by
      with_unfolding_all rfl
    intro a ha
    rw [hA] at ha
    refine ⟨![1, 0, 0], by simp [RegressorTraining.pair], ?_⟩
    simp only [List.mem_cons, List.mem_singleton, List.not_mem_nil, or_false, or_self] at ha
    rw [ha]
    norm_num [Vec3.squaredNorm, FLT_MAX]
  exact ⟨r, t1, h, hnear,
    (Regressor.readPixelIntensities_coordinates Extern.sample default RegressorTraining.pair r t1
      h hnear { linear := 1, translation := 0 } { linear := 1, translation := ![1, 0, 0] }
      RegressorTraining.pair.meanShape []).2.2.2.2 rfl⟩

/-- C32: `Tree::fit` leaves the sample vector a permutation of what it was: the
records (residual, intensities) after the fit are those before, each with its
own residual and intensities, in another order; and over the loop of the trees
of a stage (any number of passes, from any tree index) the sample vector is a
permutation of the samples at the start, each carried through a map `g` that
changes no intensity vector, so the intensities are, as a multiset, those
sampled at the start of the stage. -/
theorem Tree.fit_permutes (ext : Extern) (self : Tree) (t : TreeTraining) (tree : Tree)
    (t1 : TreeTraining) (hfit : Tree.fit ext self t = some (tree, t1)) :
    List.Perm t1.samples t.samples
      ∧ t1.samples.length = t.samples.length
      ∧ (∀ x, x ∈ t1.samples ↔ x ∈ t.samples)
      ∧ ∀ (stage : Regressor) (remaining k : Nat) (trees out : List Tree)
          (tt tt1 : TreeTraining),
          Regressor.fitTrees ext stage remaining k trees tt = some (out, tt1) →
            (∃ g : TreeSample → TreeSample, (∀ s, (g s).intensities = s.intensities)
              ∧ List.Perm tt1.samples (tt.samples.map g))
            ∧ List.Perm (tt1.samples.map fun s => s.intensities)
                (tt.samples.map fun s => s.intensities) := by
  have hp := Tree.fit_perm ext self t tree t1 hfit
  refine ⟨hp, hp.length_eq, fun x => hp.mem_iff, ?_⟩
  intro stage remaining k trees out tt tt1 h
  obtain ⟨g, hg, hperm⟩ := Regressor.fitTrees_intensities ext stage remaining k trees tt out tt1 h
  refine ⟨⟨g, hg, hperm⟩, ?_⟩
  have h2 := hperm.map fun s => s.intensities
  rw [List.map_map] at h2
  have h3 : ((fun s : TreeSample => s.intensities) ∘ g) = fun s => s.intensities := by
    funext s
    exact hg s
  rw [h3] at h2
  exact h2

/-- C32, an instance: the sample training set with depth 2. -/
theorem Tree.fit_permutes_witness :
    ∃ tree t1, Tree.fit Extern.sample default (TreeTraining.sample 2) = some (tree, t1)
      ∧ List.Perm t1.samples (TreeTraining.sample 2).samples := by
  obtain ⟨s, hs⟩ := Tree.fitState_isSome Extern.sample default (TreeTraining.sample 2)
    (by decide)
  have hfit : Tree.fit Extern.sample default (TreeTraining.sample 2)
      = some ({ nodes := s.nodes,
                depth := max (TreeTraining.sample 2).training.params.maxTreeDepth 1 },
              TreeTraining.update (TreeTraining.sample 2) s.samples s.rnd) := by
    simp [Tree.fit, hs]
  exact ⟨_, _, hfit, (Tree.fit_permutes Extern.sample default (TreeTraining.sample 2) _ _ hfit).1⟩

/-- C31: in `Regressor::fit`, the samples enter the loop over the trees with
the residuals `target − estimate` and the intensities read for them
(`fitSamples`), and for every tree index `k < numTrees` the tree `k` of the
fitted stage is the result of a tree fit on a sample vector that is a
permutation of those samples, each with the residual
`target − estimate − meanResidual − η · Σ_{j<k} tree_j.predict(intensities)`
for its own intensities (`residualBeforeTree`), whatever order the earlier tree
fits left the vector in. -/
theorem Regressor.fit_tree_residuals (ext : Extern) (self : Regressor) (t : RegressorTraining)
    (r : Regressor) (t1 : RegressorTraining) (hfit : Regressor.fit ext self t = some (r, t1)) :
    ((Regressor.fitSamples ext r t).map fun s => s.residual)
        = (t.training.samples.map fun s => Shape.sub s.target s.estimate)
      ∧ (∀ k s, (Regressor.residualBeforeTree r k s).intensities = s.intensities
          ∧ (Regressor.residualBeforeTree r k s).residual
              = Shape.sub (Shape.sub s.residual r.meanResidual)
                  (Shape.smul r.learningRate
                    (sumTreePredictions (r.trees.take k) s.intensities
                      (Shape.sub s.residual r.meanResidual).length)))
      ∧ ∀ k, k < t.training.params.numTrees.toNat →
          ∃ (prev : Tree) (ttk tt2 : TreeTraining),
            Tree.fit ext prev ttk = some (r.trees.getD k default, tt2)
              ∧ List.Perm ttk.samples
                  ((Regressor.fitSamples ext r t).map (Regressor.residualBeforeTree r k)) := by
  refine ⟨Regressor.fitSamples_residuals ext r t, fun _ _ => ⟨rfl, rfl⟩, ?_⟩
  unfold Regressor.fit at hfit
  dsimp only at hfit
  split at hfit
  · cases hfit
  · split at hfit
    · cases hfit
    · rename_i trees tt1 hft
      injection hfit with hpair
      injection hpair with hr ht1
      intro k hk
      have hsame : Regressor.fitSamples ext r t
          = Regressor.fitSamples ext
              { self with
                learningRate := t.training.params.learningRate
                trees := resizeTrees self.trees t.training.params.numTrees.toNat
                meanShape := t.meanShape
                shapeRelativePixelCoordinates :=
                  (dest.core.shapeRelativePixelCoordinates t.meanShape
                    (Regressor.sampleCoordinates ext t).1).1
                closestShapeLandmark :=
                  (dest.core.shapeRelativePixelCoordinates t.meanShape
                    (Regressor.sampleCoordinates ext t).1).2 } t := by
        rw [← hr]
        rfl
      rw [hsame]
      exact Regressor.fitTrees_residuals ext _ r (by rw [← hr]) (by rw [← hr]) _ _ 0 _ _ trees
        tt1 hft (by rw [← hr]) (by rw [resizeTrees_length]; omega) (Or.inl ⟨rfl, rfl⟩) k
        (Nat.zero_le _) (by omega)

/-- C31, an instance: the stage fitted on `RegressorTraining.pair`, with one
tree. -/
theorem Regressor.fit_tree_residuals_witness :
    ∃ r t1, Regressor.fit Extern.sample default RegressorTraining.pair = some (r, t1)
      ∧ ∃ (prev : Tree) (ttk tt2 : TreeTraining),
          Tree.fit Extern.sample prev ttk = some (r.trees.getD 0 default, tt2)
            ∧ List.Perm ttk.samples
                ((Regressor.fitSamples Extern.sample r RegressorTraining.pair).map
                  (Regressor.residualBeforeTree r 0)) := by
  obtain ⟨r, t1, h⟩ := Regressor.fit_isSome Extern.sample default RegressorTraining.pair
    (by decide) (by decide) (by decide)
  exact ⟨r, t1, h,
    (Regressor.fit_tree_residuals Extern.sample default RegressorTraining.pair r t1 h).2.2 0
      (by decide)⟩

/-- C37: for a tracker that `Tracker::fit` produced and a training sample `i`
whose estimate on entry to `fit` is the recorded mean shape, the sample after
`fit` has the same input index, target and `shapeToImage`, its estimate is the
estimate the loop of `Tracker::predict` ends with for the image of the sample
and its `shapeToImage`, and that estimate mapped by `shapeToImage` is what
`Tracker::predict` returns. -/
theorem Tracker.fit_estimate_eq_predict (ext : Extern) (self tr : Tracker) (t t1 : SampleData)
    (hfit : Tracker.fit ext self t = Except.ok (tr, t1)) (i : Nat) (s : Sample)
    (hs : t.samples[i]? = some s) (hmean : s.estimate = tr.meanShape) :
    t1.samples.length = t.samples.length
      ∧ ∃ s1, t1.samples[i]? = some s1
        ∧ s1.inputIdx = s.inputIdx ∧ s1.target = s.target ∧ s1.shapeToImage = s.shapeToImage
        ∧ s1.estimate
            = (Tracker.predictLoop ext (t.input.images.getD s.inputIdx []) s.shapeToImage
                tr.cascade tr.meanShape none).1
        ∧ ShapeTransform.apply s1.shapeToImage s1.estimate
            = Tracker.predict ext tr (t.input.images.getD s1.inputIdx []) s1.shapeToImage := by
  have hsam := Tracker.fit_samples ext self tr t t1 hfit
  refine ⟨by rw [hsam, List.length_map], ?_⟩
  refine ⟨⟨s.inputIdx, s.target,
      cascadeEstimate ext (t.input.images.getD s.inputIdx []) s.shapeToImage tr.cascade s.estimate,
      s.shapeToImage⟩, by rw [hsam, List.getElem?_map, hs]; rfl, rfl, rfl, rfl, ?_, ?_⟩
  · rw [Tracker.predictLoop_fst, hmean]
  · unfold Tracker.predict Tracker.predictSteps
    dsimp only
    rw [Tracker.predictLoop_fst, hmean]

/-- C37, an instance: the first sample of `SampleData.pair`, whose estimate
`(1, 0, 0)` is the mean shape of the two samples. -/
theorem Tracker.fit_estimate_eq_predict_witness :
    ∃ tr t1 s1, Tracker.fit Extern.sample default SampleData.pair = Except.ok (tr, t1)
      ∧ SampleData.pair.samples[0]? = some Sample.unitX
      ∧ Sample.unitX.estimate = tr.meanShape
      ∧ t1.samples[0]? = some s1
      ∧ ShapeTransform.apply s1.shapeToImage s1.estimate
          = Tracker.predict Extern.sample tr (SampleData.pair.input.images.getD s1.inputIdx [])
              s1.shapeToImage := by
  obtain ⟨tr, t1, h⟩ := Tracker.fit_isOk Extern.sample Extern.sample_uniformInt default
    SampleData.pair 1 (by simp [SampleData.pair])
    (by simp [SampleData.pair, Sample.unitX]) (by decide) (by decide) (by decide) (by decide)
  have hmean : Sample.unitX.estimate = tr.meanShape := by
    rw [Tracker.fit_meanShape Extern.sample default tr SampleData.pair t1 h]
    simp only [SampleData.pair, Sample.unitX, Tracker.fitMeanShape, Tracker.sumEstimates,
      Shape.divScalar, Shape.add, Shape.zero, List.head?_cons, Option.map_some',
      Option.getD_some, List.length_cons, List.length_nil, List.foldl_cons, List.foldl_nil,
      List.replicate_succ, List.replicate_zero, List.zipWith_cons_cons, List.zipWith_nil_right,
      List.map_cons, List.map_nil]
    norm_num
  obtain ⟨-, s1, h1, -, -, -, -, h2⟩ := Tracker.fit_estimate_eq_predict Extern.sample default tr
    SampleData.pair t1 h 0 Sample.unitX rfl hmean
  exact ⟨tr, t1, s1, h, rfl, hmean, h1, h2⟩

/-- C35: when `Tree::fit` has fitted a tree on samples whose residuals have
`L = numLandmarks` columns, then for every training sample `x` the descent of
`Tree::predict` on the intensities of `x` ends at a node `leaf` that `fit`
wrote as a leaf and whose range holds `x`; `predict` returns the mean stored
there; the samples of that range are exactly the training samples whose
descent ends at `leaf`, and the stored mean is the arithmetic mean of the
residuals, as they were when `fit` was called, of those samples; the ranges of
two different leaves do not overlap, and every position of the sample vector
lies in the range of a leaf. -/
theorem Tree.predict_training_sample (ext : Extern) (hc : UniformIntInRange ext) (self : Tree)
    (t : TreeTraining) (hP : 0 < t.pixelCoordinates.length) (L : Nat)
    (hL : t.numLandmarks.toNat = L) (hlen : ∀ x ∈ t.samples, x.residual.length = L)
    (tree : Tree) (t1 : TreeTraining) (hfit : Tree.fit ext self t = some (tree, t1))
    (x : TreeSample) (hx : x ∈ t.samples) :
    ∃ (s : FitState) (ranges : Nat → SampleRange) (leaf : Nat),
      Tree.fitState ext self t = some s ∧ tree.nodes = s.nodes ∧ t1.samples = s.samples
        ∧ leaf ∈ s.leafWrites ∧ TreeNode.IsLeaf (tree.nodes.getD leaf default)
        ∧ x ∈ rangeSamples t1.samples (ranges leaf)
        ∧ Tree.predictLoop tree.nodes x.intensities (tree.depth - 1).toNat 0 = leaf
        ∧ Tree.predict tree x.intensities = (tree.nodes.getD leaf default).mean
        ∧ (t1.samples.filter fun y =>
              decide (Tree.predictLoop tree.nodes y.intensities (tree.depth - 1).toNat 0 = leaf))
            = rangeSamples t1.samples (ranges leaf)
        ∧ (tree.nodes.getD leaf default).mean
            = arithmeticMean
                ((t.samples.filter fun y =>
                    decide (Tree.predictLoop tree.nodes y.intensities (tree.depth - 1).toNat 0
                      = leaf)).map fun y => y.residual) L
        ∧ (∀ a ∈ s.leafWrites, ∀ b ∈ s.leafWrites, a ≠ b →
            RangeDisjoint (ranges a) (ranges b))
        ∧ (∀ a ∈ s.leafWrites, (ranges a).1 ≤ (ranges a).2 ∧ (ranges a).2 ≤ t1.samples.length)
        ∧ ∀ p, p < t1.samples.length →
            ∃ a ∈ s.leafWrites, (ranges a).1 ≤ p ∧ p < (ranges a).2 := by
  obtain ⟨s, hs, htree, ht1⟩ := Tree.fit_some ext self t tree t1 hfit
  obtain ⟨hinv, hq⟩ := Tree.fitState_inv ext hc self t hP s hs
  obtain ⟨ranges, hr⟩ := Tree.fitState_ranges ext hc self t hP s hs
  subst htree ht1
  have h1 : 1 ≤ max t.training.params.maxTreeDepth 1 := le_max_right _ _
  have hroot : s.Written 0 := by
    rcases hinv.root with h | h
    · rw [hq] at h; simp at h
    · exact h
  have hroute : ∀ p y, s.samples[p]? = some y →
      Tree.predictLoop s.nodes y.intensities (max t.training.params.maxTreeDepth 1 - 1).toNat 0
          ∈ s.leafWrites
        ∧ (ranges (Tree.predictLoop s.nodes y.intensities
            (max t.training.params.maxTreeDepth 1 - 1).toNat 0)).1 ≤ p
        ∧ p < (ranges (Tree.predictLoop s.nodes y.intensities
            (max t.training.params.maxTreeDepth 1 - 1).toNat 0)).2 := by
    intro p y hy
    have hp : p < s.samples.length := by
      by_contra hge
      rw [List.getElem?_eq_none (by omega)] at hy
      cases hy
    refine Tree.predictLoop_range _ _ t ranges s hinv hr hq p y hy _ 0 hroot
      (by rw [hr.root]; exact Nat.zero_le _) (by rw [hr.root]; exact hp) ?_
    have : (max t.training.params.maxTreeDepth 1 - 1).toNat
        = (max t.training.params.maxTreeDepth 1).toNat - 1 := by omega
    rw [this]
    simp
  have hlenS : ∀ y ∈ s.samples, y.residual.length = L :=
    fun y hy => hlen y (hr.perm.mem_iff.mp hy)
  obtain ⟨p, hp⟩ := List.mem_iff_getElem?.mp (hr.perm.mem_iff.mpr hx)
  obtain ⟨hleaf, hp1, hp2⟩ := hroute p x hp
  have hb := hr.bounds _ (Or.inr (Or.inr hleaf))
  have hfilter : (s.samples.filter fun y =>
        decide (Tree.predictLoop s.nodes y.intensities
          (max t.training.params.maxTreeDepth 1 - 1).toNat 0
            = Tree.predictLoop s.nodes x.intensities
                (max t.training.params.maxTreeDepth 1 - 1).toNat 0))
      = rangeSamples s.samples (ranges (Tree.predictLoop s.nodes x.intensities
          (max t.training.params.maxTreeDepth 1 - 1).toNat 0)) := by
    apply filter_eq_rangeSamples s.samples _ _
    intro q y hy
    obtain ⟨hl, hq1, hq2⟩ := hroute q y hy
    rw [decide_eq_true_iff]
    constructor
    · intro he
      rw [he] at hq1 hq2
      exact ⟨hq1, hq2⟩
    · intro hin
      by_contra hne
      have hd := hr.leaf_disjoint _ hl _ hleaf hne
      simp only [RangeDisjoint] at hd
      omega
  refine ⟨s, ranges, _, hs, rfl, rfl, hleaf, hr.leaf_form _ hleaf,
    rangeSamples_getElem_mem s.samples _ _ p x hp1 hp2 hp, rfl, rfl, hfilter, ?_, hr.leaf_disjoint,
    fun a ha => hr.bounds a (Or.inr (Or.inr ha)), ?_⟩
  · show (s.nodes.getD _ default).mean = _
    rw [hr.leaf_mean _ hleaf,
      meanResidualOfRange_eq _ _ _ L hL hlenS (lt_of_le_of_lt hp1 hp2) hb.2, ← hfilter]
    exact arithmeticMean_perm _ _ L ((hr.perm.filter _).map _)
  · intro q hq0
    have hq1 : q < s.samples.length := hq0
    obtain ⟨hl, h2, h3⟩ := hroute q _ (List.getElem?_eq_getElem hq1)
    exact ⟨_, hl, h2, h3⟩

/-- C35, an instance: the first sample of the sample training set with depth 2. -/
theorem Tree.predict_training_sample_witness :
    ∃ tree t1 leaf, Tree.fit Extern.sample default (TreeTraining.sample 2) = some (tree, t1)
      ∧ ({ residual := [![1, 0, 0]], intensities := [0, 1] } : TreeSample)
          ∈ (TreeTraining.sample 2).samples
      ∧ TreeNode.IsLeaf (tree.nodes.getD leaf default)
      ∧ Tree.predict tree [0, 1] = (tree.nodes.getD leaf default).mean
      ∧ (tree.nodes.getD leaf default).mean
          = arithmeticMean
              (((TreeTraining.sample 2).samples.filter fun y =>
                  decide (Tree.predictLoop tree.nodes y.intensities (tree.depth - 1).toNat 0
                    = leaf)).map fun y => y.residual) 1 := by
  obtain ⟨s, hs⟩ := Tree.fitState_isSome Extern.sample default (TreeTraining.sample 2)
    (by decide)
  have hfit : Tree.fit Extern.sample default (TreeTraining.sample 2)
      = some ({ nodes := s.nodes,
                depth := max (TreeTraining.sample 2).training.params.maxTreeDepth 1 },
              TreeTraining.update (TreeTraining.sample 2) s.samples s.rnd) := by
    simp [Tree.fit, hs]
  have hlen : ∀ x ∈ (TreeTraining.sample 2).samples, x.residual.length = 1 := by
    intro x hx
    simp only [TreeTraining.sample, List.mem_cons, List.mem_singleton, List.not_mem_nil,
      or_false] at hx
    rcases hx with h | h <;> rw [h] <;> rfl
  have hmem : ({ residual := [![1, 0, 0]], intensities := [0, 1] } : TreeSample)
      ∈ (TreeTraining.sample 2).samples := List.mem_cons_self _ _
  obtain ⟨_, _, leaf, -, -, -, -, h5, -, -, h8, -, h10, -⟩ :=
    Tree.predict_training_sample Extern.sample Extern.sample_uniformInt default
      (TreeTraining.sample 2) (by decide) 1 rfl hlen _ _ hfit _ hmem
  exact ⟨_, _, leaf, hfit, hmem, h5, h8, h10⟩

end core
end dest
